import Mathlib

/-! # Greyhound dataflow graph engine

A shallow embedding of the node/edge model of `greyhound/model/node.h`,
`greyhound/model/node.cpp`, `greyhound/model/graph.h` and `model/graph.cpp`.

* A `Node*` is a natural number (its address); a `std::set<Node*>` is a strictly
  ascending list of addresses, so iterating it visits the nodes in address order.
* The heap of nodes is a function from addresses to node records. For edges,
  validation and firing one `Graph` is modelled together with its heap; every node on
  the heap belongs to it, so `inSameGraph` holds for every pair of nodes and its
  assertions are not repeated. For construction with memoization a `World` holds the
  live `Graph` objects and the static caches.
* Recursive member functions take a `fuel` argument and return `Err.fuel` when it
  is used up; thrown exceptions and failed assertions are the other `Err` values. An
  exception carries the fixed text of its message; the class name that
  `getClassName()` puts in front of the messages of `node.cpp` is left out.
* A `Value` (a `double`) is carried as an integer; nothing here does arithmetic on it.
* `shrinkToZero` of `greyhound/model/trade_signals.cpp` and the sampler `OneInN` of
  `model/data_grab/sampler.h` are embedded on their own: the `double` arguments of
  `shrinkToZero` are rational numbers, the `int` counter of `OneInN` wraps at 32 bits.
* The static table behind `Graph::register_type` and `Graph::find_type` is an argument
  and a result of these functions, a `std::map` being the list of its entries in
  ascending key order.
-/

namespace Greyhound

/-! ## Data model -/

/-- The address of a node. -/
abbrev NodePtr := Nat

/-- The enumeration `Node::StatusCode`. -/
inductive StatusCode
  | OK
  | INIT
  | INVALID
  | ERROR
  | FATAL
  deriving DecidableEq

/-- The dynamic type of a node: every concrete node derives from `ValueNode` or from
`ClockNode`, and `SourceNode` derives from `ClockNode`. -/
inductive NodeKind
  | ValueNode
  | ClockNode
  | SourceNode
  deriving DecidableEq

/-- The ways a call can fail to return: a thrown `std::logic_error`, a thrown
`ConfigError`, a failed `assert` (debug build), or the recursion budget of the model
running out. -/
inductive Err
  | logic_error (what : String)
  | ConfigError (what : String)
  | assertion
  | fuel
  deriving DecidableEq

/-- The data members of `struct Node` (with `ClockNode::nTickedTrue`,
`ValueNode::value_` and `SourceNode::computeOrder_`, `SourceNode::currentNode_`). The
four counters are `int` members that start at 0, are only ever incremented and are read
by the reports alone: the record holds the number of increments, and `counterValue`
gives the value of the 32-bit member. -/
structure Node where
  kind : NodeKind
  status_ : StatusCode
  ticked_ : Bool
  clocks_ : List NodePtr
  callbacks_ : List NodePtr
  parents_ : List NodePtr
  children_ : List NodePtr
  nFired : Nat
  nTicked : Nat
  nComputed : Nat
  nTickedTrue : Nat
  value_ : Int
  computeOrder_ : List NodePtr
  currentNode_ : Option NodePtr

/-- A node as its constructor leaves it: status `INIT`, not ticked, no edges. The initial
`value_` of a `ValueNode`, `std::numeric_limits<Value>::max()`, is carried as 0. -/
def Node.fresh (k : NodeKind) : Node :=
  { kind := k, status_ := StatusCode.INIT, ticked_ := false,
    clocks_ := [], callbacks_ := [], parents_ := [], children_ := [],
    nFired := 0, nTicked := 0, nComputed := 0, nTickedTrue := 0,
    value_ := 0, computeOrder_ := [], currentNode_ := none }

/-- The value of a 32-bit `int` after an arithmetic result `x` (two's complement). -/
def wrapInt32 (x : Int) : Int :=
  (x + 2147483648) % 4294967296 - 2147483648

/-- The value of an `int` counter of `node.h` (`nFired`, `nTicked`, `nComputed`,
`nTickedTrue`) that has been incremented `k` times from 0. -/
def counterValue (k : Nat) : Int :=
  wrapInt32 (k : Int)

/-- The members of `struct Graph` used by the engine, together with the heap of its
nodes. An entry `T` of `cleanup_funs` stands for the function pointer
`&Graph::clear_type_cache<T, Args...>`. `computeCalls` is instrumentation: the trace of `compute()` invocations, which
the tests count with `EXPECT_CALL(..., compute()).Times(n)`. -/
structure Graph where
  cleanup_funs : List Nat
  nodes : List NodePtr
  node : NodePtr → Node
  constructOrder_ : List NodePtr
  currentSource_ : Option NodePtr
  eventId_ : Nat
  computeCalls : List NodePtr

/-- Overwrite the record of node `n` by `f` applied to it. -/
def Graph.modify (g : Graph) (n : NodePtr) (f : Node → Node) : Graph :=
  { g with node := Function.update g.node n (f (g.node n)) }

/-- What a `compute()` body writes: the status, the ticked flag and the value of its
own node. -/
structure Computed where
  status_ : StatusCode
  ticked_ : Bool
  value_ : Int

/-- The parts of the program that are not in the engine itself: the build flavour
(`debug` is true when `NDEBUG` is not defined), `joinClocks` (declared in `clocks.h`,
which is not among the sources: the clock a set of nodes resolves to; edges that it adds
itself are `setClock` calls of their own), and the `compute()` bodies of the node
subclasses, each a function of the current graph that writes the state of its own
node. -/
structure Env where
  debug : Bool
  joinClocks : Graph → List NodePtr → NodePtr
  compute : NodePtr → Graph → Computed

/-! ## `std::set<Node*>` -/

/-- `std::set::insert`: the list stays strictly ascending. -/
def insertSet (x : NodePtr) : List NodePtr → List NodePtr
  | [] => [x]
  | y :: ys =>
    if x < y then x :: y :: ys
    else if x = y then y :: ys
    else y :: insertSet x ys

/-- `s.insert(first, last)`: insert a range into a set. -/
def insertRange (s : List NodePtr) (l : List NodePtr) : List NodePtr :=
  l.foldl (fun acc x => insertSet x acc) s

/-- The range constructor `std::set<Node*>(first, last)`. -/
def toSet (l : List NodePtr) : List NodePtr :=
  insertRange [] l

/-! ## `combineNodes` (`node.h`) -/

/-- An argument of `combineNodes`: a pointer to a node, a `std::set` of such pointers or
a `std::vector` of such pointers. -/
inductive NodesArg
  | node (n : NodePtr)
  | set (s : List NodePtr)
  | vector (v : List NodePtr)

/-- The three overloads of `combineNodesImpl`. -/
def combineNodesImpl : NodesArg → List NodePtr
  | NodesArg.node n => insertSet n []
  | NodesArg.set s => toSet s
  | NodesArg.vector v => toSet v

/-- `combineNodes`: without arguments the empty set, otherwise the set of the first
argument with the result for the other arguments inserted. -/
def combineNodes : List NodesArg → List NodePtr
  | [] => []
  | first :: args => insertRange (combineNodesImpl first) (combineNodes args)

/-! ## Edge queries -/

/-- `Node::hasParent`. -/
def Node.hasParent (g : Graph) (this node : NodePtr) : Bool :=
  decide (node ∈ (g.node this).parents_)

/-- `Node::hasClock`. -/
def Node.hasClock (g : Graph) (this node : NodePtr) : Bool :=
  decide (node ∈ (g.node this).clocks_)

/-- `Node::isType<ClockNode>()`. -/
def Node.isClockNode (g : Graph) (this : NodePtr) : Bool :=
  match (g.node this).kind with
  | NodeKind.ValueNode => false
  | NodeKind.ClockNode => true
  | NodeKind.SourceNode => true

/-- `Node::valid`. -/
def Node.valid (g : Graph) (this : NodePtr) : Bool :=
  decide ((g.node this).status_ = StatusCode.OK)

/-- `Node::parentsValid`. -/
def Node.parentsValid (g : Graph) (this : NodePtr) : Bool :=
  (g.node this).parents_.all (fun parent => Node.valid g parent)

/-- The virtual `getClock`: `ClockNode::getClock` returns the node itself,
`ValueNode::getClock` the only clock and throws when there is none or several. -/
def Node.getClock (g : Graph) (this : NodePtr) : Except Err NodePtr :=
  match (g.node this).kind with
  | NodeKind.ValueNode =>
    match (g.node this).clocks_ with
    | [c] => Except.ok c
    | [] => Except.error (Err.logic_error "::getClock : All ValueNodes have to have a clock; none found.")
    | _ :: _ :: _ => Except.error (Err.logic_error "::getClock : ValueNodes should only have one clock.")
  | _ => Except.ok this

/-- The virtual `getSourceClockSet`: `SourceNode::getSourceClockSet` returns the set of
the node itself, `Node::getSourceClockSet` throws when the node has no clock and
otherwise joins the sets of its clocks. -/
def Node.getSourceClockSet : Nat → Graph → NodePtr → Except Err (List NodePtr)
  | 0, _, _ => Except.error Err.fuel
  | fuel + 1, g, this =>
    match (g.node this).kind with
    | NodeKind.SourceNode => Except.ok (insertSet this [])
    | _ =>
      if (g.node this).clocks_.length = 0 then
        Except.error (Err.logic_error "::getSourceClockSet : no clocks found\n")
      else
        (g.node this).clocks_.foldlM (fun sourceClock clock =>
          match Node.getSourceClockSet fuel g clock with
          | Except.error e => Except.error e
          | Except.ok source => Except.ok (insertRange sourceClock source)) []

/-! ## Depth-first traversal (`graph.h`) -/

/-- The local set `children` of `applyDepthFirstImpl`: the callbacks of the node and,
when `applyToAllChildren` is set, its children too, in address order. -/
def dfsChildren (g : Graph) (applyToAllChildren : Bool) (node : NodePtr) : List NodePtr :=
  let children := toSet (g.node node).callbacks_
  if applyToAllChildren then insertRange children (g.node node).children_ else children

/-- `applyDepthFirstImpl`: the state is the `visited` set and the captured arguments
of `func`. -/
def applyDepthFirstImpl {σ : Type} (g : Graph) (applyToAllChildren : Bool)
    (func : NodePtr → σ → σ) :
    Nat → NodePtr → List NodePtr × σ → Except Err (List NodePtr × σ)
  | 0, _, _ => Except.error Err.fuel
  | fuel + 1, node, (visited, args) =>
    if node ∈ visited then Except.ok (visited, args)
    else
      match (dfsChildren g applyToAllChildren node).foldlM
          (fun st otherNode => applyDepthFirstImpl g applyToAllChildren func fuel otherNode st)
          (insertSet node visited, args) with
      | Except.error e => Except.error e
      | Except.ok (visited1, args1) => Except.ok (visited1, func node args1)

/-- `traverseCallbacks`. -/
def traverseCallbacks {σ : Type} (g : Graph) (fuel : Nat) (root : NodePtr)
    (func : NodePtr → σ → σ) (args : σ) : Except Err σ :=
  match applyDepthFirstImpl g false func fuel root ([], args) with
  | Except.error e => Except.error e
  | Except.ok (_, args1) => Except.ok args1

/-- `traverseChildren`. -/
def traverseChildren {σ : Type} (g : Graph) (fuel : Nat) (root : NodePtr)
    (func : NodePtr → σ → σ) (args : σ) : Except Err σ :=
  match applyDepthFirstImpl g true func fuel root ([], args) with
  | Except.error e => Except.error e
  | Except.ok (_, args1) => Except.ok args1

/-- The lambda `appendNode` of `topological_sort`. -/
def appendNode (onlyInclude : Option (List NodePtr)) (node : NodePtr)
    (order : List NodePtr) : List NodePtr :=
  match onlyInclude with
  | some s => if node ∈ s then order ++ [node] else order
  | none => order ++ [node]

/-- `topological_sort`: the previous content of `order` is cleared, so it is not an
argument. -/
def topological_sort (g : Graph) (fuel : Nat) (root : NodePtr)
    (onlyInclude : Option (List NodePtr)) : Except Err (List NodePtr) :=
  match traverseChildren g fuel root (appendNode onlyInclude) [] with
  | Except.error e => Except.error e
  | Except.ok order => Except.ok order.reverse

/-- `topological_sort` with its reference argument `order` made explicit: the vector is
cleared, filled by the traversal and reversed. -/
def topological_sort_into (g : Graph) (fuel : Nat) (root : NodePtr) (order : List NodePtr)
    (onlyInclude : Option (List NodePtr)) : Except Err (List NodePtr) :=
  match traverseChildren g fuel root (appendNode onlyInclude) (order.take 0) with
  | Except.error e => Except.error e
  | Except.ok order1 => Except.ok order1.reverse

/-- `addAllChildren`. -/
def addAllChildren (g : Graph) (fuel : Nat) (set : List NodePtr) (root : NodePtr) :
    Except Err (List NodePtr) :=
  traverseChildren g fuel root insertSet set

/-- `addAllCallbacks`. -/
def addAllCallbacks (g : Graph) (fuel : Nat) (set : List NodePtr) (root : NodePtr) :
    Except Err (List NodePtr) :=
  traverseCallbacks g fuel root insertSet set

/-! ## Structural updates (`SourceNode::treeUpdated`, `Node::treeUpdated`) -/

/-- The vector `fullSort` of `SourceNode::treeUpdated`. -/
def SourceNode.fullSort (g : Graph) (fuel : Nat) (this : NodePtr) :
    Except Err (List NodePtr) :=
  match addAllCallbacks g fuel [] this with
  | Except.error e => Except.error e
  | Except.ok callbacks => topological_sort g fuel this (some callbacks)

/-- `SourceNode::treeUpdated`: recompute the firing order of the source. -/
def SourceNode.treeUpdated (env : Env) (fuel : Nat) (g : Graph) (this : NodePtr) :
    Except Err Graph :=
  match addAllCallbacks g fuel [] this with
  | Except.error e => Except.error e
  | Except.ok callbacks =>
    match topological_sort g fuel this (some callbacks) with
    | Except.error e => Except.error e
    | Except.ok fullSort =>
      if env.debug && decide (fullSort.head? ≠ some this) then Except.error Err.assertion
      else
        Except.ok (g.modify this (fun x =>
          { x with computeOrder_ := fullSort.filter (fun node => decide (node ≠ this)) }))

/-- The virtual `treeUpdated`: `Node::treeUpdated` forwards the notification to every
clock of the node, `SourceNode::treeUpdated` overrides it. -/
def Node.treeUpdated (env : Env) : Nat → Graph → NodePtr → Except Err Graph
  | 0, _, _ => Except.error Err.fuel
  | fuel + 1, g, this =>
    match (g.node this).kind with
    | NodeKind.SourceNode => SourceNode.treeUpdated env fuel g this
    | _ =>
      (g.node this).clocks_.foldlM (fun g1 clock => Node.treeUpdated env fuel g1 clock) g

/-! ## Edge construction (`Node::setParent`, `setClock`) -/

/-- The two `emplace_back` calls of `Node::setParent`. -/
def linkParent (g : Graph) (this parent : NodePtr) : Graph :=
  (g.modify this (fun x => { x with parents_ := x.parents_ ++ [parent] })).modify parent
    (fun x => { x with children_ := x.children_ ++ [this] })

/-- The two `emplace_back` calls of the `setClockImpl` functions. -/
def linkClock (g : Graph) (this clock : NodePtr) : Graph :=
  (g.modify this (fun x => { x with clocks_ := x.clocks_ ++ [clock] })).modify clock
    (fun x => { x with callbacks_ := x.callbacks_ ++ [this] })

/-- `Node::setParent` (and `addParent`, which forwards to it). -/
def Node.setParent (env : Env) (fuel : Nat) (g : Graph) (this parent : NodePtr) :
    Except Err Graph :=
  if Node.hasParent g this parent = false then
    let g1 := linkParent g this parent
    if env.debug && decide ((g1.node parent).children_.count this ≠ 1) then
      Except.error Err.assertion
    else Node.treeUpdated env fuel g1 this
  else Except.ok g

/-- The block guarded by `hasClock(clock)==false` in both `setClockImpl` functions. -/
def addClockEdge (env : Env) (g : Graph) (this clock : NodePtr) : Except Err Graph :=
  if Node.hasClock g this clock = false then
    let g1 := linkClock g this clock
    if env.debug && decide ((g1.node clock).callbacks_.count this ≠ 1) then
      Except.error Err.assertion
    else Except.ok g1
  else Except.ok g

/-- `ClockNode::setClockImpl`. -/
def ClockNode.setClockImpl (env : Env) (fuel : Nat) (g : Graph) (this : NodePtr)
    (nodes : List NodePtr) : Except Err Graph :=
  match nodes.foldlM (fun g1 node =>
      match Node.getClock g1 node with
      | Except.error e => Except.error e
      | Except.ok clock =>
        match addClockEdge env g1 this clock with
        | Except.error e => Except.error e
        | Except.ok g2 =>
          if Node.isClockNode g2 node = false then Node.setParent env fuel g2 this node
          else Except.ok g2) g with
  | Except.error e => Except.error e
  | Except.ok g3 => Node.treeUpdated env fuel g3 this

/-- `Node::setClockImpl`, which a `ValueNode` inherits. -/
def Node.setClockImpl (env : Env) (fuel : Nat) (g : Graph) (this : NodePtr)
    (nodes : List NodePtr) : Except Err Graph :=
  let clock := env.joinClocks g nodes
  match addClockEdge env g this clock with
  | Except.error e => Except.error e
  | Except.ok g1 =>
    if env.debug && decide ((g1.node this).clocks_.length ≠ 1) then Except.error Err.assertion
    else
      match nodes.foldlM (fun g2 node =>
          if Node.hasClock g2 this node = false then Node.setParent env fuel g2 this node
          else Except.ok g2) g1 with
      | Except.error e => Except.error e
      | Except.ok g3 => Node.treeUpdated env fuel g3 this

/-- `Node::setClock`: the arguments are combined into a `NodeSet` and handed to the
virtual `setClockImpl`. -/
def Node.setClock (env : Env) (fuel : Nat) (g : Graph) (this : NodePtr)
    (nodes : List NodePtr) : Except Err Graph :=
  match (g.node this).kind with
  | NodeKind.ValueNode => Node.setClockImpl env fuel g this (toSet nodes)
  | _ => ClockNode.setClockImpl env fuel g this (toSet nodes)

/-- A call of the construction interface. -/
inductive Op
  | setParent (this parent : NodePtr)
  | setClock (this : NodePtr) (nodes : List NodePtr)

/-- Run one construction call. -/
def Op.run (env : Env) (fuel : Nat) (g : Graph) : Op → Except Err Graph
  | Op.setParent this parent => Node.setParent env fuel g this parent
  | Op.setClock this nodes => Node.setClock env fuel g this nodes

/-- Run a sequence of construction calls, stopping at the first that fails. -/
def runOps (env : Env) (fuel : Nat) (g : Graph) (ops : List Op) : Except Err Graph :=
  ops.foldlM (Op.run env fuel) g

/-- The node `this` of a construction call. -/
def Op.node : Op → NodePtr
  | Op.setParent this _ => this
  | Op.setClock this _ => this

/-- A graph of freshly constructed nodes: no node has an edge or a firing order. -/
def Graph.init (nodes : List NodePtr) (kind : NodePtr → NodeKind) : Graph :=
  { cleanup_funs := [], nodes := toSet nodes, node := fun n => Node.fresh (kind n),
    constructOrder_ := [],
    currentSource_ := none, eventId_ := 0, computeCalls := [] }

/-! ## Validation (`Graph::hasSymmetricEdges`, `isCyclic`, `valid`) -/

/-- `Graph::hasSymmetricEdges`: returns true or throws. -/
def Graph.hasSymmetricEdges (g : Graph) : Except Err Bool :=
  match g.nodes.foldlM (fun (_ : Unit) node =>
      if (g.node node).parents_.any (fun parent =>
          decide ((g.node parent).children_.count node ≠ 1)) then
        Except.error (Err.logic_error "parent/child mismatch")
      else if (g.node node).children_.any (fun child =>
          decide ((g.node child).parents_.count node ≠ 1)) then
        Except.error (Err.logic_error "parent/child mismatch")
      else if (g.node node).clocks_.any (fun clock =>
          decide ((g.node clock).callbacks_.count node ≠ 1)) then
        Except.error (Err.logic_error "clock/callback mismatch")
      else if (g.node node).callbacks_.any (fun callback =>
          decide ((g.node callback).clocks_.count node ≠ 1)) then
        Except.error (Err.logic_error "clock/callback mismatch")
      else Except.ok ()) () with
  | Except.error e => Except.error e
  | Except.ok _ => Except.ok true

/-- `std::unordered_set::erase`. -/
def eraseSet (x : NodePtr) (s : List NodePtr) : List NodePtr :=
  s.filter (fun y => decide (y ≠ x))

/-- The `for` loop over `node->children_` in `Graph::hasCycleUtil`; `recurse` is the
recursive call. The state is `(visited, recursed)`. -/
def hasCycleLoop
    (recurse : NodePtr → List NodePtr × List NodePtr →
      Except Err (Bool × List NodePtr × List NodePtr)) :
    List NodePtr → List NodePtr × List NodePtr →
      Except Err (Bool × List NodePtr × List NodePtr)
  | [], st => Except.ok (false, st)
  | child :: rest, (visited, recursed) =>
    if child ∉ visited then
      match recurse child (visited, recursed) with
      | Except.error e => Except.error e
      | Except.ok (true, st1) => Except.ok (true, st1)
      | Except.ok (false, st1) => hasCycleLoop recurse rest st1
    else if child ∈ recursed then Except.ok (true, (visited, recursed))
    else hasCycleLoop recurse rest (visited, recursed)

/-- `Graph::hasCycleUtil`. -/
def Graph.hasCycleUtil (g : Graph) :
    Nat → NodePtr → List NodePtr × List NodePtr →
      Except Err (Bool × List NodePtr × List NodePtr)
  | 0, _, _ => Except.error Err.fuel
  | fuel + 1, node, (visited, recursed) =>
    if node ∉ visited then
      match hasCycleLoop (Graph.hasCycleUtil g fuel) (g.node node).children_
          (insertSet node visited, insertSet node recursed) with
      | Except.error e => Except.error e
      | Except.ok (true, st1) => Except.ok (true, st1)
      | Except.ok (false, (visited1, recursed1)) =>
        Except.ok (false, (visited1, eraseSet node recursed1))
    else Except.ok (false, (visited, recursed))

/-- The `for` loop of `Graph::isCyclic` over a list of start nodes. -/
def isCyclicLoop (g : Graph) (fuel : Nat) :
    List NodePtr → List NodePtr × List NodePtr → Except Err Bool
  | [], _ => Except.ok false
  | node :: rest, st =>
    match Graph.hasCycleUtil g fuel node st with
    | Except.error e => Except.error e
    | Except.ok (true, _) => Except.ok true
    | Except.ok (false, st1) => isCyclicLoop g fuel rest st1

/-- `Graph::isCyclic`. -/
def Graph.isCyclic (g : Graph) (fuel : Nat) : Except Err Bool :=
  isCyclicLoop g fuel g.nodes ([], [])

/-- `Graph::valid`: `!isCyclic() && hasSymmetricEdges()`. -/
def Graph.valid (g : Graph) (fuel : Nat) : Except Err Bool :=
  match Graph.isCyclic g fuel with
  | Except.error e => Except.error e
  | Except.ok true => Except.ok false
  | Except.ok false => Graph.hasSymmetricEdges g

/-! ## Firing (`ValueNode::fire`, `ClockNode::fire`, `SourceNode::fire`) -/

/-- The virtual `compute`: the body of the subclass writes the state of its own node;
`SourceNode::compute` throws. The call is recorded in `computeCalls`. -/
def Node.compute (env : Env) (g : Graph) (this : NodePtr) : Except Err Graph :=
  match (g.node this).kind with
  | NodeKind.SourceNode => Except.error (Err.logic_error "Unexpected call.")
  | _ =>
    let r := env.compute this g
    Except.ok { g.modify this (fun x =>
        { x with status_ := r.status_, ticked_ := r.ticked_, value_ := r.value_ }) with
      computeCalls := g.computeCalls ++ [this] }

/-- `Node::reset`. -/
def Node.reset (g : Graph) (this : NodePtr) : Graph :=
  g.modify this (fun x => { x with ticked_ := false })

/-- `ValueNode::fire`. -/
def ValueNode.fire (env : Env) (g : Graph) (this : NodePtr) : Except Err Graph :=
  let g1 := g.modify this (fun x => { x with nFired := x.nFired + 1 })
  match Node.getClock g1 this with
  | Except.error e => Except.error e
  | Except.ok clock =>
    if (g1.node clock).ticked_ then
      let g2 := g1.modify this (fun x => { x with ticked_ := true, nTicked := x.nTicked + 1 })
      if Node.parentsValid g2 this then
        Node.compute env (g2.modify this (fun x => { x with nComputed := x.nComputed + 1 })) this
      else if Node.valid g2 this then
        Except.ok (g2.modify this (fun x => { x with status_ := StatusCode.INVALID }))
      else Except.ok g2
    else Except.ok g1

/-- `ClockNode::fire`: the first ticked clock decides, the others are not looked at. -/
def ClockNode.fire (env : Env) (g : Graph) (this : NodePtr) : Except Err Graph :=
  let g1 := g.modify this (fun x => { x with nFired := x.nFired + 1 })
  match (g1.node this).clocks_.find? (fun clock => (g1.node clock).ticked_) with
  | none => Except.ok g1
  | some _ =>
    let g2 := g1.modify this (fun x => { x with nTicked := x.nTicked + 1 })
    if Node.parentsValid g2 this then
      match Node.compute env g2 this with
      | Except.error e => Except.error e
      | Except.ok g3 =>
        Except.ok (g3.modify this (fun x =>
          { x with nComputed := x.nComputed + 1,
                   nTickedTrue := x.nTickedTrue + (if x.ticked_ then 1 else 0) }))
    else if Node.valid g2 this then
      Except.ok (g2.modify this (fun x => { x with status_ := StatusCode.INVALID }))
    else Except.ok g2

/-- `Graph::notifyPreFire`, without its logging and timing. -/
def Graph.notifyPreFire (g : Graph) (source : NodePtr) : Graph :=
  { g with currentSource_ := some source, eventId_ := g.eventId_ + 1 }

/-- `Graph::notifyPostFire`, without its logging and timing. -/
def Graph.notifyPostFire (g : Graph) : Graph :=
  { g with currentSource_ := none }

/-- `SourceNode::fire`; `fireNode` is the virtual call `node->fire()`. The debug build
resets every node of the graph before the round, the release build resets the firing
order and the source after it. -/
def SourceNode.fire (env : Env) (fireNode : Graph → NodePtr → Except Err Graph)
    (g : Graph) (this : NodePtr) : Except Err Graph :=
  let g1 := g.modify this (fun x =>
    { x with nFired := x.nFired + 1, nComputed := x.nComputed + 1,
             nTicked := x.nTicked + 1, nTickedTrue := x.nTickedTrue + 1 })
  let g2 := if env.debug then g1.nodes.foldl Node.reset g1 else g1
  let g3 := g2.modify this (fun x => { x with status_ := StatusCode.OK, ticked_ := true })
  let g4 := Graph.notifyPreFire g3 this
  match (g4.node this).computeOrder_.foldlM (fun g5 node =>
      fireNode (g5.modify this (fun x => { x with currentNode_ := some node })) node) g4 with
  | Except.error e => Except.error e
  | Except.ok g6 =>
    let g7 := g6.modify this (fun x => { x with currentNode_ := none })
    let g8 := Graph.notifyPostFire g7
    if env.debug then Except.ok g8
    else Except.ok (Node.reset ((g8.node this).computeOrder_.foldl Node.reset g8) this)

/-- The virtual `fire`. -/
def Node.fire (env : Env) : Nat → Graph → NodePtr → Except Err Graph
  | 0, _, _ => Except.error Err.fuel
  | fuel + 1, g, this =>
    match (g.node this).kind with
    | NodeKind.ValueNode => ValueNode.fire env g this
    | NodeKind.ClockNode => ClockNode.fire env g this
    | NodeKind.SourceNode => SourceNode.fire env (Node.fire env fuel) g this

/-- `Graph::currentSource`. -/
def Graph.currentSource (g : Graph) : Option NodePtr :=
  g.currentSource_

/-- `Graph::firingNode`. -/
def Graph.firingNode (g : Graph) : Option NodePtr :=
  match g.currentSource_ with
  | some s => (g.node s).currentNode_
  | none => none

/-! ## Value access (`ValueNode::value`, `ValueNode::heldValue`) -/

/-- `ValueNode::heldValue`: the check is compiled in debug builds only. -/
def ValueNode.heldValue (env : Env) (g : Graph) (this : NodePtr) : Except Err Int :=
  if env.debug && !Node.valid g this then
    Except.error (Err.logic_error "::value : Node's value is invalid when calling heldValue. ")
  else Except.ok (g.node this).value_

/-- `ValueNode::value`: the checks are compiled in debug builds only. -/
def ValueNode.value (env : Env) (g : Graph) (this : NodePtr) : Except Err Int :=
  if env.debug && !(g.node this).ticked_ then
    Except.error (Err.logic_error
      "::value : Node's value is not current. If this is expected, use heldValue instead")
  else if env.debug && !Node.valid g this then
    Except.error (Err.logic_error "::value : Node's value is invalid when calling value. ")
  else ValueNode.heldValue env g this

/-! ## Construction with memoization (`Graph::add`, `Graph::~Graph`) -/

/-- The address of a `Graph`. -/
abbrev GraphPtr := Nat

/-- The key of an entry of the memoization cache: the node type `T` (its create
function) and the arguments `(this, args...)` of the call. -/
structure MemoKey where
  type : Nat
  graph : GraphPtr
  args : List Nat
  deriving DecidableEq

/-- The state of the program during construction: the live `Graph` objects, the static
caches of `memoize`, the log of the calls of create functions, and the next address
that `new` hands out. -/
structure World where
  graphs : GraphPtr → Option Graph
  cache : List (MemoKey × NodePtr)
  created : List MemoKey
  next : NodePtr

/-- The state of a program that has constructed nothing yet. -/
def World.empty : World :=
  { graphs := fun _ => none, cache := [], created := [], next := 0 }

/-- The constructor `Graph::Graph`. -/
def Graph.new : Graph :=
  Graph.init [] (fun _ => NodeKind.ValueNode)

/-- `Graph::registerNode`. -/
def Graph.registerNode (g : Graph) (node : NodePtr) : Graph :=
  { g with nodes := insertSet node g.nodes }

/-- `Graph::addToConstructOrder`. -/
def Graph.addToConstructOrder (g : Graph) (n : NodePtr) : Graph :=
  if n ∈ g.constructOrder_ then g
  else { g with constructOrder_ := g.constructOrder_ ++ [n] }

/-- Apply `f` to the live graph at address `this`. -/
def World.modifyGraph (w : World) (this : GraphPtr) (f : Graph → Graph) : World :=
  { w with graphs := Function.update w.graphs this ((w.graphs this).map f) }

/-- A create function `T::create(g, args...)` that returns `new T(g, args...)`: the node
gets an unused address and its constructor registers it with the graph. -/
def World.create (w : World) (key : MemoKey) : World × NodePtr :=
  ({ w.modifyGraph key.graph (fun g => g.registerNode w.next) with
      created := w.created ++ [key], next := w.next + 1 }, w.next)

/-- Modelled from the spec: `memoize` of `lib/memoize.h`, which is not among the sources.
The spec: "looks up a cache keyed by (type, argument tuple); returns the cached instance
if present, otherwise constructs a new node ... and caches it". -/
def memoize (create : World → MemoKey → World × NodePtr) (w : World) (key : MemoKey) :
    World × NodePtr :=
  match w.cache.find? (fun e => decide (e.1 = key)) with
  | some e => (w, e.2)
  | none => ({ (create w key).1 with cache := (key, (create w key).2) :: (create w key).1.cache },
      (create w key).2)

/-- Modelled from the spec: `memoize_clear` of `lib/memoize.h`, which is not among the
sources. The spec: "The cache for a given type ... is cleared when that Graph is
destroyed". -/
def memoize_clear (w : World) (type : Nat) : World :=
  { w with cache := w.cache.filter (fun e => decide (e.1.type ≠ type)) }

/-- `Graph::add<T>(args...)`. -/
def World.add (w : World) (this : GraphPtr) (type : Nat) (args : List Nat) :
    World × NodePtr :=
  ((memoize World.create w ⟨type, this, args⟩).1.modifyGraph this (fun g =>
      { g.addToConstructOrder (memoize World.create w ⟨type, this, args⟩).2 with
        cleanup_funs := insertSet type g.cleanup_funs }),
    (memoize World.create w ⟨type, this, args⟩).2)

/-- The destructor `Graph::~Graph`. -/
def World.destroy (w : World) (this : GraphPtr) : World :=
  match w.graphs this with
  | none => w
  | some g =>
    { g.cleanup_funs.foldl memoize_clear w with graphs := Function.update w.graphs this none }

/-- The construction of a `Graph` at the address `this`. -/
def World.newGraph (w : World) (this : GraphPtr) : World :=
  { w with graphs := Function.update w.graphs this (some Graph.new) }

/-- An event of the construction phase. -/
inductive MemoOp
  | newGraph (this : GraphPtr)
  | add (this : GraphPtr) (type : Nat) (args : List Nat)
  | destroy (this : GraphPtr)

/-- One event; an event that no program can produce (a member call on a `Graph` that is
not alive, a `Graph` constructed at an address in use) has no result. -/
def World.step (w : World) : MemoOp → Option World
  | MemoOp.newGraph this => if (w.graphs this).isSome then none else some (w.newGraph this)
  | MemoOp.add this type args =>
    if (w.graphs this).isSome then some (w.add this type args).1 else none
  | MemoOp.destroy this => if (w.graphs this).isSome then some (w.destroy this) else none

/-- A sequence of events. -/
def World.run (w : World) (ops : List MemoOp) : Option World :=
  ops.foldlM World.step w

/-- The cached instance for a key, if there is one. -/
def World.lookup (w : World) (key : MemoKey) : Option NodePtr :=
  (w.cache.find? (fun e => decide (e.1 = key))).map Prod.snd

/-- What `add` does to the graph it is called on, once the instance `item` is known. -/
def addBookkeeping (type : Nat) (item : NodePtr) (g : Graph) : Graph :=
  { g.addToConstructOrder item with cleanup_funs := insertSet type g.cleanup_funs }

/-! ## The type registry (`Graph::register_type`, `find_type`, `deserialize`) -/

/-- `Graph::Table`, a `std::map<std::string, MakeType>`: its entries in ascending key
order. The type `μ` stands for `MakeType`. -/
abbrev Table (μ : Type) := List (String × μ)

/-- `std::map::find`: the value stored under `key`, if there is one. -/
def Table.find {μ : Type} : Table μ → String → Option μ
  | [], _ => none
  | (k, m) :: rest, key => if k = key then some m else Table.find rest key

/-- `std::map::count`. -/
def Table.count {μ : Type} (tab : Table μ) (key : String) : Nat :=
  match Table.find tab key with
  | some _ => 1
  | none => 0

/-- `tab[key] = make`: `std::map::operator[]` followed by the assignment. -/
def Table.assign {μ : Type} : Table μ → String → μ → Table μ
  | [], key, make => [(key, make)]
  | (k, m) :: rest, key, make =>
    if key < k then (key, make) :: (k, m) :: rest
    else if key = k then (k, make) :: rest
    else (k, m) :: Table.assign rest key make

/-- `Graph::register_type`: the result of the call and the static table after it. -/
def Graph.register_type {μ : Type} (tab : Table μ) (key : String) (make : μ) :
    Except Err Bool × Table μ :=
  if Table.count tab key ≠ 0 then
    (Except.error (Err.ConfigError ("Trying to register duplicate node: " ++ key)), tab)
  else (Except.ok true, Table.assign tab key make)

/-- `Graph::find_type`: the result of the call and the static table after it. The loop
over the table writes the registered names to `oss`. -/
def Graph.find_type {μ : Type} (tab : Table μ) (key : String) : Except Err μ × Table μ :=
  match Table.find tab key with
  | none =>
    let oss := "Cannot find type [" ++ key ++ "] (available: "
    let st := tab.foldl (fun (st : Bool × String) pair =>
      if st.1 then (false, st.2 ++ pair.1) else (false, st.2 ++ ", " ++ pair.1)) (true, oss)
    (Except.error (Err.logic_error (st.2 ++ ")")), tab)
  | some make => (Except.ok make, tab)

/-- A `Parameters` object (a `JSON` document; `lib/JSON.h` is not among the sources):
`type` is the outcome of the expression `p["type"].get<std::string>()`, and `fields` are
the other string entries of the document. -/
structure Parameters where
  type : Except Err String
  fields : List (String × String)

/-- `Graph::MakeType`: a closure that builds an object in the graph from its parameters
and returns its address, or a null pointer. -/
abbrev MakeType := Graph → Parameters → Except Err (Option NodePtr × Graph)

/-- `Graph::deserialize<T>`, without its logging. `isT` is the test
`dynamic_cast<T*>(rawStruct) != nullptr`, `className` is the virtual `getClassName()`,
and `typeName` is the string `typeid(T).name()`. -/
def Graph.deserialize (tab : Table MakeType) (isT : Graph → NodePtr → Bool)
    (className : Graph → NodePtr → String) (typeName : String)
    (this : Graph) (p : Parameters) : Except Err (NodePtr × Graph) :=
  match p.type with
  | Except.error e => Except.error e
  | Except.ok type =>
    match (Graph.find_type tab type).1 with
    | Except.error e => Except.error e
    | Except.ok deserializer =>
      match deserializer this p with
      | Except.error e => Except.error e
      | Except.ok (none, _) =>
        Except.error (Err.logic_error "Graph::deserialize: Node not found.")
      | Except.ok (some rawStruct, g1) =>
        if isT g1 rawStruct then Except.ok (rawStruct, g1)
        else Except.error (Err.logic_error
          ("Graph::deserialize: Wrong node subtype requested.\n" ++
            ("Deserialized node is: " ++ className g1 rawStruct ++ "\n") ++
            ("Requested typeid is: " ++ typeName ++ "\n")))

/-! ## The parts of `SourceNode::fire` -/

/-- The statements of `SourceNode::fire` before its loop. -/
def SourceNode.preFire (env : Env) (g : Graph) (this : NodePtr) : Graph :=
  let g1 := g.modify this (fun x =>
    { x with nFired := x.nFired + 1, nComputed := x.nComputed + 1,
             nTicked := x.nTicked + 1, nTickedTrue := x.nTickedTrue + 1 })
  let g2 := if env.debug then g1.nodes.foldl Node.reset g1 else g1
  let g3 := g2.modify this (fun x => { x with status_ := StatusCode.OK, ticked_ := true })
  Graph.notifyPreFire g3 this

/-- The statements of `SourceNode::fire` after its loop. -/
def SourceNode.postFire (env : Env) (g6 : Graph) (this : NodePtr) : Graph :=
  let g8 := Graph.notifyPostFire (g6.modify this (fun x => { x with currentNode_ := none }))
  if env.debug then g8
  else Node.reset ((g8.node this).computeOrder_.foldl Node.reset g8) this

/-- The loop of `SourceNode::fire`, over the nodes `order`. -/
def SourceNode.fireLoop (fireNode : Graph → NodePtr → Except Err Graph) (this : NodePtr)
    (order : List NodePtr) (g4 : Graph) : Except Err Graph :=
  order.foldlM (fun g5 node =>
    fireNode (g5.modify this (fun x => { x with currentNode_ := some node })) node) g4

/-- A sequence of `fire()` calls on the nodes `sources`, stopping at the first that does
not return. -/
def fireAll (env : Env) (fuel : Nat) (g : Graph) (sources : List NodePtr) :
    Except Err Graph :=
  sources.foldlM (Node.fire env fuel) g

/-! ## `shrinkToZero` (`trade_signals.cpp`) and `OneInN` (`sampler.h`) -/

/-- `shrinkToZero` of `trade_signals.cpp`; a `double` is carried as a rational number
(exact arithmetic, no NaN). -/
def shrinkToZero (a b : ℚ) : ℚ :=
  max (min a b) (min (max a b) 0)

/-- The data members of `data_grab::OneInN` that `compute()` uses, with the ticked flag of
the node. -/
structure OneInN where
  oneInN_ : Int
  n : Int
  ticked_ : Bool

/-- The constructor of `data_grab::OneInN`. -/
def OneInN.new (oneInN : Int) : OneInN :=
  { oneInN_ := oneInN, n := 0, ticked_ := false }

/-- `data_grab::OneInN::compute`; `isTrade` is what `market_data_->isTrade()` returns
for the update. -/
def OneInN.compute (s : OneInN) (isTrade : Bool) : OneInN :=
  { s with n := wrapInt32 (s.n + 1),
           ticked_ := isTrade || decide (Int.tmod (wrapInt32 (s.n + 1)) s.oneInN_ = 0) }

/-- The ticked flags that `compute()` sets on a sequence of updates. -/
def OneInN.ticks (s : OneInN) : List Bool → List Bool
  | [] => []
  | isTrade :: rest => (s.compute isTrade).ticked_ :: OneInN.ticks (s.compute isTrade) rest

/-! ## Specification predicates -/

/-- The graph `g1` has the nodes, the node types and the four edge lists of `g`. -/
def SameEdges (g g1 : Graph) : Prop :=
  g1.nodes = g.nodes ∧
  ∀ m, (g1.node m).kind = (g.node m).kind ∧
    (g1.node m).clocks_ = (g.node m).clocks_ ∧
    (g1.node m).callbacks_ = (g.node m).callbacks_ ∧
    (g1.node m).parents_ = (g.node m).parents_ ∧
    (g1.node m).children_ = (g.node m).children_

/-- No node has a parent, a child, a clock or a callback. -/
def Graph.NoEdges (g : Graph) : Prop :=
  ∀ n, (g.node n).parents_ = [] ∧ (g.node n).children_ = [] ∧
    (g.node n).clocks_ = [] ∧ (g.node n).callbacks_ = []

/-- Invariant I1: the parent and child lists mirror each other, the clock and callback
lists mirror each other, and no list holds an entry twice. -/
def EdgeSymmetry (g : Graph) : Prop :=
  (∀ n p, p ∈ (g.node n).parents_ ↔ n ∈ (g.node p).children_) ∧
  (∀ n c, c ∈ (g.node n).clocks_ ↔ n ∈ (g.node c).callbacks_) ∧
  (∀ n, (g.node n).parents_.Nodup ∧ (g.node n).children_.Nodup ∧
    (g.node n).clocks_.Nodup ∧ (g.node n).callbacks_.Nodup)

/-- A trigger edge (clock to callback) or a dependency edge (parent to child). -/
def Graph.Edge (g : Graph) (u v : NodePtr) : Prop :=
  v ∈ (g.node u).callbacks_ ∨ v ∈ (g.node u).children_

/-- A trigger edge (clock to callback). -/
def Graph.Trigger (g : Graph) (u v : NodePtr) : Prop :=
  v ∈ (g.node u).callbacks_

/-- A dependency edge (parent to child). -/
def Graph.Child (g : Graph) (u v : NodePtr) : Prop :=
  v ∈ (g.node u).children_

instance (g : Graph) (u v : NodePtr) : Decidable (g.Trigger u v) := by
  unfold Graph.Trigger
  infer_instance

instance (g : Graph) (u v : NodePtr) : Decidable (g.Child u v) := by
  unfold Graph.Child
  infer_instance

instance (g : Graph) (u v : NodePtr) : Decidable (g.Edge u v) := by
  unfold Graph.Edge
  infer_instance

/-- Every callback and every child of a registered node is a registered node. -/
def Graph.Closed (g : Graph) : Prop :=
  ∀ n ∈ g.nodes, (∀ c ∈ (g.node n).callbacks_, c ∈ g.nodes) ∧
    (∀ c ∈ (g.node n).children_, c ∈ g.nodes)

instance (g : Graph) : Decidable g.Closed := by
  unfold Graph.Closed
  infer_instance

/-- The edges the traversal follows: from a node to its callbacks and, when
`applyToAllChildren` is set, to its children. -/
def DfsEdge (g : Graph) (all : Bool) (u v : NodePtr) : Prop :=
  v ∈ dfsChildren g all u

/-- What a traversal started at `roots` did between the states `s` and `s1` (a state is
the visited set and the list of nodes emitted so far): it emitted each newly visited
node once, every emitted node is reachable from a root, and every edge out of an
emitted node ends in a visited node. -/
def DfsStep (g : Graph) (all : Bool) (roots : List NodePtr)
    (s s1 : List NodePtr × List NodePtr) : Prop :=
  ∃ new, s1.2 = s.2 ++ new ∧ new.Nodup ∧ (∀ x, x ∈ s1.1 ↔ x ∈ s.1 ∨ x ∈ new) ∧
    (∀ x ∈ new, x ∉ s.1) ∧
    (∀ x ∈ new, ∃ r ∈ roots, Relation.ReflTransGen (DfsEdge g all) r x) ∧
    (∀ x ∈ new, ∀ y, DfsEdge g all x y → y ∈ s1.1)

/-- Every edge that leaves a node of `nodes` ends at a node of `nodes`. -/
def ClosedUnder (g : Graph) (all : Bool) (nodes : List NodePtr) : Prop :=
  ∀ n ∈ nodes, ∀ c ∈ dfsChildren g all n, c ∈ nodes

/-- The number of entries of `nodes` that are not yet visited. -/
def unvisited (nodes visited : List NodePtr) : Nat :=
  nodes.countP (fun x => decide (x ∉ visited))

/-- In the emission list every edge leads to a node emitted earlier. -/
def PostSorted (g : Graph) (all : Bool) (l : List NodePtr) : Prop :=
  ∀ l1 x l2, l = l1 ++ x :: l2 → ∀ y, DfsEdge g all x y → y ∈ l1

/-- The invariant of the traversal on an acyclic graph: emitted nodes are visited, every
visited node that is not yet emitted reaches `node`, and the emission list is sorted. -/
def TopoInv (g : Graph) (all : Bool) (node : NodePtr) (s : List NodePtr × List NodePtr) :
    Prop :=
  (∀ x ∈ s.2, x ∈ s.1) ∧
  (∀ x ∈ s.1, x ∉ s.2 → Relation.ReflTransGen (DfsEdge g all) x node) ∧
  PostSorted g all s.2

/-- The part of a node record that firing never changes: its type, its edges and its
firing order. -/
def Node.shape (x : Node) :
    NodeKind × List NodePtr × List NodePtr × List NodePtr × List NodePtr × List NodePtr :=
  (x.kind, x.clocks_, x.callbacks_, x.parents_, x.children_, x.computeOrder_)

/-- The effect of `fire()` of a node `n` that is not a source: only the record of `n`
changes, its shape stays, `nFired` grows by one and `compute()` is called at most
once. -/
def FiredLeaf (n : NodePtr) (g g1 : Graph) : Prop :=
  g1.nodes = g.nodes ∧ g1.currentSource_ = g.currentSource_ ∧
  (∀ m, m ≠ n → g1.node m = g.node m) ∧
  (g1.node n).shape = (g.node n).shape ∧
  (g1.node n).nFired = (g.node n).nFired + 1 ∧
  (g1.computeCalls = g.computeCalls ∨ g1.computeCalls = g.computeCalls ++ [n])

/-- Between `g` and `g1` the nodes of `d` were fired once per occurrence, `compute()`
was called on the nodes of `sub` in this order, and no shape changed. -/
def Round (d sub : List NodePtr) (g g1 : Graph) : Prop :=
  g1.nodes = g.nodes ∧ (∀ m, (g1.node m).shape = (g.node m).shape) ∧
  (∀ m, (g1.node m).nFired = (g.node m).nFired + d.count m) ∧
  g1.computeCalls = g.computeCalls ++ sub

/-- The invariant of the firing loop in the pruning scenario: source `A`, chain
`n1 :: rest`, independent node `E`, after the nodes of `d` were fired. -/
def PruneInv (g : Graph) (A E n1 : NodePtr) (rest d : List NodePtr) (st : Graph) : Prop :=
  (∀ m, (st.node m).shape = (g.node m).shape) ∧
  (st.node A).ticked_ = true ∧
  (∀ n ∈ n1 :: rest, (st.node n).status_ ≠ StatusCode.OK) ∧
  (∀ n ∈ d, (st.node n).ticked_ = true) ∧
  (∀ x, st.computeCalls.count x =
    g.computeCalls.count x + if x = n1 ∨ x = E then d.count x else 0)

/-- The invariant of the construction phase: every cache entry belongs to a live graph
that has the node registered and the cleanup function of the type recorded; construction
orders have no duplicate; registered nodes have addresses handed out earlier; distinct
graphs share no node. -/
def World.WF (w : World) : Prop :=
  (∀ e ∈ w.cache, ∃ G, w.graphs e.1.graph = some G ∧ e.2 ∈ G.nodes ∧
    e.1.type ∈ G.cleanup_funs) ∧
  (∀ g G, w.graphs g = some G → G.constructOrder_.Nodup ∧ ∀ n ∈ G.nodes, n < w.next) ∧
  (∀ g g1 G G1, g ≠ g1 → w.graphs g = some G → w.graphs g1 = some G1 →
    ∀ n ∈ G.nodes, n ∉ G1.nodes)

/-- The state can be reached from the initial state by a sequence of events. -/
def World.Reachable (w : World) : Prop :=
  ∃ ops, World.run World.empty ops = some w

/-- The cache holds `item` for `key`, the create function ran `c` times for `key`, and
the graph of the key has `item` registered and in its construction order. -/
def Memoized (key : MemoKey) (item : NodePtr) (c : Nat) (w : World) : Prop :=
  w.WF ∧ w.lookup key = some item ∧ w.created.count key = c ∧
  ∃ G, w.graphs key.graph = some G ∧ item ∈ G.nodes ∧ item ∈ G.constructOrder_

/-- The invariant of the cycle search on a state `(visited, recursed)`: the nodes in
progress are visited, and a finished node (visited, not in progress) has only finished
children and lies on no cycle. -/
def CycInv (g : Graph) (st : List NodePtr × List NodePtr) : Prop :=
  (∀ x ∈ st.2, x ∈ st.1) ∧
  ∀ u, u ∈ st.1 → u ∉ st.2 →
    (∀ v, g.Child u v → v ∈ st.1 ∧ v ∉ st.2) ∧ ¬ Relation.TransGen g.Child u u

/-- What a call of the cycle search that returns false leaves behind. -/
def CycPost (g : Graph) (st st1 : List NodePtr × List NodePtr) : Prop :=
  CycInv g st1 ∧ (∀ x ∈ st.1, x ∈ st1.1) ∧ (∀ x, x ∈ st1.2 ↔ x ∈ st.2)

/-- The firing order of the source `S` is current: it has no duplicate and holds the
nodes other than `S` that are reachable from `S` through trigger edges. -/
def FreshOrder (g : Graph) (S : NodePtr) : Prop :=
  (g.node S).computeOrder_.Nodup ∧
  ∀ x, x ∈ (g.node S).computeOrder_ ↔ (Relation.ReflTransGen g.Trigger S x ∧ x ≠ S)

/-- The notification of `Node::treeUpdated` travels from `n` to `S`: a chain of clocks
leads from `n` to `S`, and no node before `S` on it is a source. -/
def Upstream (g : Graph) (n S : NodePtr) : Prop :=
  Relation.ReflTransGen
    (fun m c => (g.node m).kind ≠ NodeKind.SourceNode ∧ c ∈ (g.node m).clocks_) n S

/-- No source has a clock. -/
def Graph.SourcesClockless (g : Graph) : Prop :=
  ∀ S, (g.node S).kind = NodeKind.SourceNode → (g.node S).clocks_ = []

/-- The invariant of the firing orders during construction: if no source has a clock,
the firing order of every source is current, except, while `setClock` runs on a node
`this`, for the sources that reach `this` through trigger edges. -/
def OrderInv (g : Graph) (t : Option NodePtr) : Prop :=
  g.SourcesClockless → ∀ S, (g.node S).kind = NodeKind.SourceNode →
    FreshOrder g S ∨ ∃ this, t = some this ∧ Relation.TransGen g.Trigger S this

/-- The registered names, in the order of the table. -/
def Table.names {μ : Type} (tab : Table μ) : List String :=
  tab.map Prod.fst

/-- The names of a list, separated by ", ". -/
def commaSeparated : List String → String
  | [] => ""
  | [a] => a
  | a :: b :: rest => a ++ ", " ++ commaSeparated (b :: rest)

/-- Every name of a list, preceded by ", ". -/
def commaPrefixed : List String → String
  | [] => ""
  | a :: rest => ", " ++ a ++ commaPrefixed rest

/-- In the list `l` the node `u` occurs before the node `v`. -/
def Before (l : List NodePtr) (u v : NodePtr) : Prop :=
  ∃ l1 l2 l3, l = l1 ++ u :: l2 ++ v :: l3

/-- The firing order of the source `S` respects the edges: a node of the order comes
before its callbacks and its children that are in the order. -/
def RespectsEdges (g : Graph) (S : NodePtr) : Prop :=
  ∀ u v, u ∈ (g.node S).computeOrder_ → v ∈ (g.node S).computeOrder_ → g.Edge u v →
    Before (g.node S).computeOrder_ u v

/-- The firing order of the source `S` is current and respects the edges. -/
def SortedOrder (g : Graph) (S : NodePtr) : Prop :=
  FreshOrder g S ∧ RespectsEdges g S

/-- The trigger and dependency edges together have no cycle. -/
def Graph.Acyclic (g : Graph) : Prop :=
  ∀ x, ¬ Relation.TransGen g.Edge x x

/-- The invariant of the firing orders during construction: if no source has a clock and
the edges have no cycle, the firing order of every source is current and respects the
edges, except, while an edge into a node `this` is being added, for the sources that
reach `this` through trigger edges. -/
def SortInv (g : Graph) (t : Option NodePtr) : Prop :=
  g.SourcesClockless → g.Acyclic → ∀ S, (g.node S).kind = NodeKind.SourceNode →
    SortedOrder g S ∨ ∃ this, t = some this ∧ Relation.TransGen g.Trigger S this

/-- The nodes that occur in an argument. -/
def NodesArg.elems : NodesArg → List NodePtr
  | NodesArg.node n => [n]
  | NodesArg.set s => s
  | NodesArg.vector v => v

/-- The nodes that occur in a list of arguments, with repetitions. -/
def allElems : List NodesArg → List NodePtr
  | [] => []
  | a :: rest => a.elems ++ allElems rest

/-- What `Graph::hasSymmetricEdges` checks: for every registered node, every parent,
child, clock and callback entry has its inverse entry exactly once. -/
def Graph.SymmetricCounts (g : Graph) : Prop :=
  ∀ node ∈ g.nodes,
    (∀ parent ∈ (g.node node).parents_, (g.node parent).children_.count node = 1) ∧
    (∀ child ∈ (g.node node).children_, (g.node child).parents_.count node = 1) ∧
    (∀ clock ∈ (g.node node).clocks_, (g.node clock).callbacks_.count node = 1) ∧
    (∀ callback ∈ (g.node node).callbacks_, (g.node callback).clocks_.count node = 1)

/-- The eager reset policy: the build without `NDEBUG`. -/
def Env.eager (env : Env) : Env :=
  { env with debug := true }

/-- The narrow reset policy: the build with `NDEBUG`. -/
def Env.narrow (env : Env) : Env :=
  { env with debug := false }

/-- The graph with the ticked flag of every node reset. -/
def Graph.clearTicked (g : Graph) : Graph :=
  { g with node := fun m => { g.node m with ticked_ := false } }

/-- The graphs that the eager policy passes through between the rounds on `g`: the
registered nodes and the shapes are those of `g`, and no unregistered node has its flag
set. -/
def BetweenRounds (g gE : Graph) : Prop :=
  gE.nodes = g.nodes ∧ (∀ m, (gE.node m).shape = (g.node m).shape) ∧
  ∀ m, m ∉ g.nodes → (gE.node m).ticked_ = false

/-- The counter invariant of a node record: `nComputed ≤ nTicked ≤ nFired`; for a clock
node `nTickedTrue ≤ nComputed`; for a source the four counters are equal. It is stated
of the numbers of increments; `counterValue` gives the `int` members. -/
def CounterInv (x : Node) : Prop :=
  x.nComputed ≤ x.nTicked ∧ x.nTicked ≤ x.nFired ∧
  (x.kind ≠ NodeKind.ValueNode → x.nTickedTrue ≤ x.nComputed) ∧
  (x.kind = NodeKind.SourceNode →
    x.nTicked = x.nFired ∧ x.nComputed = x.nFired ∧ x.nTickedTrue = x.nFired)

/-- Every value node has at most one clock. -/
def Graph.ValueClocks (g : Graph) : Prop :=
  ∀ n, (g.node n).kind = NodeKind.ValueNode → (g.node n).clocks_.length ≤ 1

/-- The stored firing order of `S` is what `SourceNode::treeUpdated` computes on the
graph. -/
def OrderCurrent (g : Graph) (S : NodePtr) : Prop :=
  ∃ fuel fullSort, SourceNode.fullSort g fuel S = Except.ok fullSort ∧
    (g.node S).computeOrder_ = fullSort.filter (fun node => decide (node ≠ S))

/-- A chain of clocks from `n` ends in a node that is no source and has no clock. -/
def Graph.DeadEnd (g : Graph) (n : NodePtr) : Prop :=
  ∃ x, Upstream g n x ∧ (g.node x).kind ≠ NodeKind.SourceNode ∧ (g.node x).clocks_ = []

/-! ## Sample configurations -/

/-- The clock of the first node of the set (for sets of nodes that share one clock). -/
def joinFirst (g : Graph) (nodes : List NodePtr) : NodePtr :=
  match nodes with
  | [] => 0
  | n :: _ =>
    match Node.getClock g n with
    | Except.ok c => c
    | Except.error _ => 0

/-- A debug build whose compute bodies set the status to `OK`. -/
def envOK : Env :=
  { debug := true, joinClocks := joinFirst,
    compute := fun n g => { status_ := StatusCode.OK, ticked_ := true, value_ := (g.node n).value_ } }

/-- A debug build in which the compute body of node 1 sets the status `INVALID` and
every other body sets `OK`; no body touches the ticked flag. -/
def envPrune : Env :=
  { debug := true, joinClocks := joinFirst,
    compute := fun n g =>
      { status_ := if n = 1 then StatusCode.INVALID else StatusCode.OK,
        ticked_ := (g.node n).ticked_, value_ := (g.node n).value_ } }

/-- Node 0 is a source, the other nodes are value nodes. -/
def kindSrc0 (n : NodePtr) : NodeKind :=
  if n = 0 then NodeKind.SourceNode else NodeKind.ValueNode

/-- Nodes 0 and 1 are sources, the other nodes are value nodes. -/
def kindSrc01 (n : NodePtr) : NodeKind :=
  if n ≤ 1 then NodeKind.SourceNode else NodeKind.ValueNode

/-- Node 0 is a source, the other nodes are clock nodes. -/
def kindClk0 (n : NodePtr) : NodeKind :=
  if n = 0 then NodeKind.SourceNode else NodeKind.ClockNode

/-- Every node is a plain clock node. -/
def kindClk (_ : NodePtr) : NodeKind :=
  NodeKind.ClockNode

/-- The graph of `test_topological_sort`: src0 = 0, src1 = 1, w0 = 2, m0 = 3, m1 = 4,
ct0 = 5, val = 6, linked by `setParent` only. -/
def topoTestGraph : Graph :=
  { cleanup_funs := [], nodes := [0, 1, 2, 3, 4, 5, 6],
    node := fun n =>
      { Node.fresh NodeKind.ValueNode with
        parents_ :=
          match n with
          | 2 => [0]
          | 3 => [0]
          | 4 => [1]
          | 5 => [2, 4]
          | 6 => [3, 5]
          | _ => [],
        children_ :=
          match n with
          | 0 => [2, 3]
          | 1 => [4]
          | 2 => [5]
          | 3 => [6]
          | 4 => [5]
          | 5 => [6]
          | _ => [] },
    constructOrder_ := [], currentSource_ := none, eventId_ := 0, computeCalls := [] }

/-- A source 0 with ticked flag `t`, a value node 1 with status `s1` clocked on it, and a
node 2 of type `k` with status `s2` that is clocked on 0 and has the parent 1. -/
def fireGraph (k : NodeKind) (t : Bool) (s1 s2 : StatusCode) : Graph :=
  { cleanup_funs := [], nodes := [0, 1, 2],
    node := fun n =>
      match n with
      | 0 => { Node.fresh NodeKind.SourceNode with
                status_ := StatusCode.OK, ticked_ := t, callbacks_ := [1, 2],
                computeOrder_ := [1, 2] }
      | 1 => { Node.fresh NodeKind.ValueNode with
                status_ := s1, clocks_ := [0], children_ := [2] }
      | _ => { Node.fresh k with status_ := s2, clocks_ := [0], parents_ := [1] },
    constructOrder_ := [], currentSource_ := none, eventId_ := 0, computeCalls := [] }

/-- A clock node 3 with the two clocks 1 and 2, whose ticked flags are `t1` and `t2`. -/
def orGraph (t1 t2 : Bool) : Graph :=
  { cleanup_funs := [], nodes := [1, 2, 3],
    node := fun n =>
      match n with
      | 1 => { Node.fresh NodeKind.ClockNode with
                status_ := StatusCode.OK, ticked_ := t1, callbacks_ := [3] }
      | 2 => { Node.fresh NodeKind.ClockNode with
                status_ := StatusCode.OK, ticked_ := t2, callbacks_ := [3] }
      | _ => { Node.fresh NodeKind.ClockNode with clocks_ := [1, 2] },
    constructOrder_ := [], currentSource_ := none, eventId_ := 0, computeCalls := [] }

/-- Node 0 is a source, node 1 a value node, the other nodes are clock nodes. -/
def kindSrcValClk (n : NodePtr) : NodeKind :=
  if n = 0 then NodeKind.SourceNode else if n = 1 then NodeKind.ValueNode
  else NodeKind.ClockNode

/-- The construction calls of the test `compute_pruning`: source 0, the chain 1, 2, 3 of
value nodes clocked on the source, and the independent value node 4. -/
def pruningOps : List Op :=
  [Op.setClock 1 [0], Op.setParent 2 1, Op.setClock 2 [0], Op.setParent 3 2,
    Op.setClock 3 [0], Op.setClock 4 [0]]

/-- A closure that registers a new node of type `k` at the address `a`. -/
def makeNode (k : NodeKind) (a : NodePtr) : MakeType :=
  fun g _ => Except.ok (some a,
    { g.registerNode a with node := Function.update g.node a (Node.fresh k) })

/-- A closure that finds nothing and returns a null pointer. -/
def makeNull : MakeType :=
  fun g _ => Except.ok (none, g)

/-- A table with a closure for a value node, one for a clock node and one that returns
a null pointer. -/
def sampleTable : Table MakeType :=
  [("Clock", makeNode NodeKind.ClockNode 8), ("Null", makeNull),
    ("Value", makeNode NodeKind.ValueNode 7)]

/-- A graph with a trigger cycle 0, 1 and a dependency cycle 1, 2. -/
def cyclicGraph : Graph :=
  { cleanup_funs := [], nodes := [0, 1, 2],
    node := fun n =>
      match n with
      | 0 => { Node.fresh NodeKind.ClockNode with clocks_ := [1], callbacks_ := [1] }
      | 1 => { Node.fresh NodeKind.ClockNode with
                clocks_ := [0], callbacks_ := [0], parents_ := [2], children_ := [2] }
      | _ => { Node.fresh NodeKind.ClockNode with parents_ := [1], children_ := [1] },
    constructOrder_ := [], currentSource_ := none, eventId_ := 0, computeCalls := [] }

/-- Two nodes that are each other's child, where node 1 does not list node 0 as parent: a
dependency cycle with a broken mirror. -/
def cyclicAsymGraph : Graph :=
  { cleanup_funs := [], nodes := [0, 1],
    node := fun n =>
      match n with
      | 0 => { Node.fresh NodeKind.ValueNode with parents_ := [1], children_ := [1] }
      | _ => { Node.fresh NodeKind.ValueNode with children_ := [0] },
    constructOrder_ := [], currentSource_ := none, eventId_ := 0, computeCalls := [] }

/-- A node 0 with the child 1, where node 1 does not list node 0 as parent: no cycle and
a broken mirror. -/
def asymGraph : Graph :=
  { cleanup_funs := [], nodes := [0, 1],
    node := fun n =>
      match n with
      | 0 => { Node.fresh NodeKind.ValueNode with children_ := [1] }
      | _ => Node.fresh NodeKind.ValueNode,
    constructOrder_ := [], currentSource_ := none, eventId_ := 0, computeCalls := [] }

/-- Node 0 is a source and the nodes 1, 2 and 3 (and above) have the types `a`, `b` and
`c`: the chain of the test `three_deep__all_combinations`. -/
def kindChain (a b c : NodeKind) (n : NodePtr) : NodeKind :=
  match n with
  | 0 => NodeKind.SourceNode
  | 1 => a
  | 2 => b
  | _ => c

/-- The chain of the test `three_deep__all_combinations`: the child is clocked on the
source, the grandchild on the child, the great-grandchild on the grandchild. -/
def chainOps : List Op :=
  [Op.setClock 1 [0], Op.setClock 2 [1], Op.setClock 3 [2]]

/-- A debug build whose compute bodies store what `Graph::firingNode` returns at the time
of the call: the address plus one, or 0 for a null pointer. -/
def envProbe : Env :=
  { debug := true, joinClocks := joinFirst,
    compute := fun _ g =>
      { status_ := StatusCode.OK, ticked_ := true,
        value_ := match g.firingNode with
          | some m => (m : Int) + 1
          | none => 0 } }

/-- The construction calls of a source 1 clocked on the source 0, a value node 2 clocked
on the source 1 and a value node 3 clocked on the source 0. -/
def nestedSourceOps : List Op :=
  [Op.setClock 1 [0], Op.setClock 2 [1], Op.setClock 3 [0]]

/-- The construction calls of a loop of one trigger edge and one dependency edge: the
clock node 1 is clocked on the source 0, the value node 2 is clocked on node 1, and
node 1 gets node 2 as parent. -/
def mixedLoopOps : List Op :=
  [Op.setClock 1 [0], Op.setClock 2 [1], Op.setParent 1 2]

/-- The construction calls of two value nodes 1 and 2 clocked on the source 0 and a value
node 3 without a clock that becomes a parent of node 2 and then a child of node 1. -/
def bridgeOps : List Op :=
  [Op.setClock 1 [0], Op.setClock 2 [0], Op.setParent 2 3, Op.setParent 3 1]

/-- Node 0 is a source, node 1 a clock node, the other nodes are value nodes. -/
def kindSampler (n : NodePtr) : NodeKind :=
  match n with
  | 0 => NodeKind.SourceNode
  | 1 => NodeKind.ClockNode
  | _ => NodeKind.ValueNode

/-- A debug build whose compute bodies set the status `OK` and the ticked flag false: a
sampler that does not sample. -/
def envSilent : Env :=
  { debug := true, joinClocks := joinFirst,
    compute := fun n g =>
      { status_ := StatusCode.OK, ticked_ := false, value_ := (g.node n).value_ } }

/-- The construction calls of a sampler 1 clocked on the source 0, a value node 2 clocked
on the sampler, and a value node 3 clocked on the source with node 2 as parent. -/
def samplerOps : List Op :=
  [Op.setClock 1 [0], Op.setClock 2 [1], Op.setClock 3 [0], Op.setParent 3 2]

/-- The graph that `samplerOps` builds, after `k` rounds of the source under `envSilent`
with the trace `calls`; `started` is false before the first round. -/
def samplerRounds (k : Nat) (started : Bool) (calls : List NodePtr) : Graph :=
  { cleanup_funs := [], nodes := [0, 1, 2, 3],
    node := fun n =>
      match n with
      | 0 => { Node.fresh NodeKind.SourceNode with
                status_ := if started then StatusCode.OK else StatusCode.INIT,
                ticked_ := started, callbacks_ := [1, 3], computeOrder_ := [1, 2, 3],
                nFired := k, nTicked := k, nComputed := k, nTickedTrue := k }
      | 1 => { Node.fresh NodeKind.ClockNode with
                status_ := if started then StatusCode.OK else StatusCode.INIT,
                clocks_ := [0], callbacks_ := [2], nFired := k, nTicked := k,
                nComputed := k }
      | 2 => { Node.fresh NodeKind.ValueNode with
                clocks_ := [1], children_ := [3], nFired := k }
      | 3 => { Node.fresh NodeKind.ValueNode with
                ticked_ := started, clocks_ := [0], parents_ := [2], nFired := k,
                nTicked := k }
      | _ => Node.fresh NodeKind.ValueNode,
    constructOrder_ := [], currentSource_ := none, eventId_ := k, computeCalls := calls }

/-! # Theorems -/

/-! ## Basic lemmas -/

@[simp] theorem modify_node_same (g : Graph) (n : NodePtr) (f : Node → Node) :
    (g.modify n f).node n = f (g.node n) := by
  simp [Graph.modify]

theorem modify_node_ne (g : Graph) {n m : NodePtr} (f : Node → Node) (h : m ≠ n) :
    (g.modify n f).node m = g.node m := by
  simp [Graph.modify, Function.update_noteq h]

theorem modify_node (g : Graph) (n m : NodePtr) (f : Node → Node) :
    (g.modify n f).node m = if m = n then f (g.node n) else g.node m := by
  by_cases h : m = n
  · subst h; simp
  · simp [h, modify_node_ne g f h]

@[simp] theorem modify_nodes (g : Graph) (n : NodePtr) (f : Node → Node) :
    (g.modify n f).nodes = g.nodes := rfl

@[simp] theorem modify_computeCalls (g : Graph) (n : NodePtr) (f : Node → Node) :
    (g.modify n f).computeCalls = g.computeCalls := rfl

@[simp] theorem modify_currentSource (g : Graph) (n : NodePtr) (f : Node → Node) :
    (g.modify n f).currentSource_ = g.currentSource_ := rfl

/-- An invariant of the loop body is an invariant of a loop that runs to its end. -/
theorem foldlM_ok_inv {α β : Type} (P : β → Prop) (f : β → α → Except Err β) :
    ∀ (l : List α) (b b1 : β),
      (∀ a ∈ l, ∀ s s1, P s → f s a = Except.ok s1 → P s1) →
      P b → l.foldlM f b = Except.ok b1 → P b1 := by
  intro l
  induction l with
  | nil =>
    intro b b1 _ h0 h
    simp only [List.foldlM_nil] at h
    cases h
    exact h0
  | cons a l ih =>
    intro b b1 hstep h0 h
    simp only [List.foldlM_cons] at h
    cases hfa : f b a with
    | error e => rw [hfa] at h; cases h
    | ok s =>
      rw [hfa] at h
      exact ih s b1 (fun a1 ha1 => hstep a1 (List.mem_cons_of_mem _ ha1))
        (hstep a (List.mem_cons_self _ _) b s h0 hfa) h

/-! ## Edge symmetry -/

theorem sameEdges_refl (g : Graph) : SameEdges g g :=
  ⟨rfl, fun _ => ⟨rfl, rfl, rfl, rfl, rfl⟩⟩

theorem sameEdges_trans {g g1 g2 : Graph} (h1 : SameEdges g g1) (h2 : SameEdges g1 g2) :
    SameEdges g g2 := by
  refine ⟨h2.1.trans h1.1, fun m => ?_⟩
  obtain ⟨a1, a2, a3, a4, a5⟩ := h1.2 m
  obtain ⟨b1, b2, b3, b4, b5⟩ := h2.2 m
  exact ⟨b1.trans a1, b2.trans a2, b3.trans a3, b4.trans a4, b5.trans a5⟩

theorem sameEdges_modify_computeOrder (g : Graph) (n : NodePtr) (l : List NodePtr) :
    SameEdges g (g.modify n (fun x => { x with computeOrder_ := l })) := by
  refine ⟨rfl, fun m => ?_⟩
  rw [modify_node]
  split <;> simp_all

theorem sourceTreeUpdated_sameEdges {env : Env} {fuel : Nat} {g g1 : Graph}
    {this : NodePtr} (h : SourceNode.treeUpdated env fuel g this = Except.ok g1) :
    SameEdges g g1 := by
  unfold SourceNode.treeUpdated at h
  split at h
  · cases h
  · split at h
    · cases h
    · split at h
      · cases h
      · cases h
        exact sameEdges_modify_computeOrder _ _ _

theorem nodeTreeUpdated_sameEdges (env : Env) :
    ∀ (fuel : Nat) (g g1 : Graph) (this : NodePtr),
      Node.treeUpdated env fuel g this = Except.ok g1 → SameEdges g g1 := by
  intro fuel
  induction fuel with
  | zero => intro g g1 this h; simp [Node.treeUpdated] at h
  | succ fuel ih =>
    intro g g1 this h
    unfold Node.treeUpdated at h
    split at h
    · exact sourceTreeUpdated_sameEdges h
    · exact foldlM_ok_inv (fun s => SameEdges g s) _ _ g g1
        (fun a _ s s1 hs hf => sameEdges_trans hs (ih s s1 a hf)) (sameEdges_refl g) h

theorem edgeSymmetry_of_sameEdges {g g1 : Graph} (hs : SameEdges g g1) (h : EdgeSymmetry g) :
    EdgeSymmetry g1 := by
  obtain ⟨h1, h2, h3⟩ := h
  refine ⟨fun n p => ?_, fun n c => ?_, fun n => ?_⟩
  · rw [(hs.2 n).2.2.2.1, (hs.2 p).2.2.2.2]; exact h1 n p
  · rw [(hs.2 n).2.1, (hs.2 c).2.2.1]; exact h2 n c
  · rw [(hs.2 n).2.1, (hs.2 n).2.2.1, (hs.2 n).2.2.2.1, (hs.2 n).2.2.2.2]; exact h3 n

theorem linkParent_parents (g : Graph) (this parent m : NodePtr) :
    ((linkParent g this parent).node m).parents_ =
      if m = this then (g.node m).parents_ ++ [parent] else (g.node m).parents_ := by
  unfold linkParent
  by_cases h1 : m = parent <;> by_cases h2 : m = this <;>
    simp [modify_node, h1, h2] <;> simp_all

theorem linkParent_children (g : Graph) (this parent m : NodePtr) :
    ((linkParent g this parent).node m).children_ =
      if m = parent then (g.node m).children_ ++ [this] else (g.node m).children_ := by
  unfold linkParent
  by_cases h1 : m = parent <;> by_cases h2 : m = this <;>
    simp [modify_node, h1, h2] <;> simp_all

theorem linkParent_clocks (g : Graph) (this parent m : NodePtr) :
    ((linkParent g this parent).node m).clocks_ = (g.node m).clocks_ := by
  unfold linkParent
  by_cases h1 : m = parent <;> by_cases h2 : m = this <;>
    simp [modify_node, h1, h2] <;> simp_all

theorem linkParent_callbacks (g : Graph) (this parent m : NodePtr) :
    ((linkParent g this parent).node m).callbacks_ = (g.node m).callbacks_ := by
  unfold linkParent
  by_cases h1 : m = parent <;> by_cases h2 : m = this <;>
    simp [modify_node, h1, h2] <;> simp_all

theorem linkParent_kind (g : Graph) (this parent m : NodePtr) :
    ((linkParent g this parent).node m).kind = (g.node m).kind := by
  unfold linkParent
  by_cases h1 : m = parent <;> by_cases h2 : m = this <;>
    simp [modify_node, h1, h2] <;> simp_all

theorem linkClock_clocks (g : Graph) (this clock m : NodePtr) :
    ((linkClock g this clock).node m).clocks_ =
      if m = this then (g.node m).clocks_ ++ [clock] else (g.node m).clocks_ := by
  unfold linkClock
  by_cases h1 : m = clock <;> by_cases h2 : m = this <;>
    simp [modify_node, h1, h2] <;> simp_all

theorem linkClock_callbacks (g : Graph) (this clock m : NodePtr) :
    ((linkClock g this clock).node m).callbacks_ =
      if m = clock then (g.node m).callbacks_ ++ [this] else (g.node m).callbacks_ := by
  unfold linkClock
  by_cases h1 : m = clock <;> by_cases h2 : m = this <;>
    simp [modify_node, h1, h2] <;> simp_all

theorem linkClock_parents (g : Graph) (this clock m : NodePtr) :
    ((linkClock g this clock).node m).parents_ = (g.node m).parents_ := by
  unfold linkClock
  by_cases h1 : m = clock <;> by_cases h2 : m = this <;>
    simp [modify_node, h1, h2] <;> simp_all

theorem linkClock_children (g : Graph) (this clock m : NodePtr) :
    ((linkClock g this clock).node m).children_ = (g.node m).children_ := by
  unfold linkClock
  by_cases h1 : m = clock <;> by_cases h2 : m = this <;>
    simp [modify_node, h1, h2] <;> simp_all

theorem linkClock_kind (g : Graph) (this clock m : NodePtr) :
    ((linkClock g this clock).node m).kind = (g.node m).kind := by
  unfold linkClock
  by_cases h1 : m = clock <;> by_cases h2 : m = this <;>
    simp [modify_node, h1, h2] <;> simp_all

/-- Mirror lists stay mirrored and duplicate-free when an absent pair is appended to
both. -/
theorem mirror_append {A B : NodePtr → List NodePtr} (t p : NodePtr)
    (hmir : ∀ n q, q ∈ A n ↔ n ∈ B q) (hA : ∀ n, (A n).Nodup) (hB : ∀ n, (B n).Nodup)
    (hnot : p ∉ A t) :
    (∀ n q, q ∈ (if n = t then A n ++ [p] else A n) ↔
        n ∈ (if q = p then B q ++ [t] else B q)) ∧
    (∀ n, (if n = t then A n ++ [p] else A n).Nodup) ∧
    (∀ n, (if n = p then B n ++ [t] else B n).Nodup) := by
  refine ⟨fun n q => ?_, fun n => ?_, fun n => ?_⟩
  · by_cases h1 : n = t <;> by_cases h2 : q = p <;> simp [h1, h2, hmir]
  · by_cases h1 : n = t
    · subst h1
      simp only [if_true]
      exact List.Nodup.append (hA n) (List.nodup_singleton p)
        (by simpa [List.disjoint_singleton] using hnot)
    · simp [h1, hA n]
  · by_cases h1 : n = p
    · subst h1
      simp only [if_true]
      exact List.Nodup.append (hB n) (List.nodup_singleton t)
        (by simpa [List.disjoint_singleton] using fun h => hnot ((hmir t n).2 h))
    · simp [h1, hB n]

theorem edgeSymmetry_linkParent {g : Graph} {this parent : NodePtr} (h : EdgeSymmetry g)
    (hnot : parent ∉ (g.node this).parents_) : EdgeSymmetry (linkParent g this parent) := by
  obtain ⟨h1, h2, h3⟩ := h
  obtain ⟨m1, m2, m3⟩ := mirror_append (A := fun n => (g.node n).parents_)
    (B := fun n => (g.node n).children_) this parent h1 (fun n => (h3 n).1)
    (fun n => (h3 n).2.1) hnot
  refine ⟨fun n p => ?_, fun n c => ?_, fun n => ⟨?_, ?_, ?_, ?_⟩⟩
  · rw [linkParent_parents, linkParent_children]; exact m1 n p
  · rw [linkParent_clocks, linkParent_callbacks]; exact h2 n c
  · rw [linkParent_parents]; exact m2 n
  · rw [linkParent_children]; exact m3 n
  · rw [linkParent_clocks]; exact (h3 n).2.2.1
  · rw [linkParent_callbacks]; exact (h3 n).2.2.2

theorem edgeSymmetry_linkClock {g : Graph} {this clock : NodePtr} (h : EdgeSymmetry g)
    (hnot : clock ∉ (g.node this).clocks_) : EdgeSymmetry (linkClock g this clock) := by
  obtain ⟨h1, h2, h3⟩ := h
  obtain ⟨m1, m2, m3⟩ := mirror_append (A := fun n => (g.node n).clocks_)
    (B := fun n => (g.node n).callbacks_) this clock h2 (fun n => (h3 n).2.2.1)
    (fun n => (h3 n).2.2.2) hnot
  refine ⟨fun n p => ?_, fun n c => ?_, fun n => ⟨?_, ?_, ?_, ?_⟩⟩
  · rw [linkClock_parents, linkClock_children]; exact h1 n p
  · rw [linkClock_clocks, linkClock_callbacks]; exact m1 n c
  · rw [linkClock_parents]; exact (h3 n).1
  · rw [linkClock_children]; exact (h3 n).2.1
  · rw [linkClock_clocks]; exact m2 n
  · rw [linkClock_callbacks]; exact m3 n

theorem setParent_edgeSymmetry {env : Env} {fuel : Nat} {g g1 : Graph}
    {this parent : NodePtr} (hg : EdgeSymmetry g)
    (h : Node.setParent env fuel g this parent = Except.ok g1) : EdgeSymmetry g1 := by
  unfold Node.setParent at h
  split at h
  · rename_i hp
    dsimp only at h
    split at h
    · cases h
    · refine edgeSymmetry_of_sameEdges (nodeTreeUpdated_sameEdges env _ _ _ _ h)
        (edgeSymmetry_linkParent hg ?_)
      simpa [Node.hasParent] using hp
  · cases h; exact hg

theorem addClockEdge_edgeSymmetry {env : Env} {g g1 : Graph} {this clock : NodePtr}
    (hg : EdgeSymmetry g) (h : addClockEdge env g this clock = Except.ok g1) :
    EdgeSymmetry g1 := by
  unfold addClockEdge at h
  split at h
  · rename_i hp
    dsimp only at h
    split at h
    · cases h
    · cases h
      exact edgeSymmetry_linkClock hg (by simpa [Node.hasClock] using hp)
  · cases h; exact hg

theorem clockSetClockImpl_edgeSymmetry {env : Env} {fuel : Nat} {g g1 : Graph}
    {this : NodePtr} {nodes : List NodePtr} (hg : EdgeSymmetry g)
    (h : ClockNode.setClockImpl env fuel g this nodes = Except.ok g1) : EdgeSymmetry g1 := by
  unfold ClockNode.setClockImpl at h
  split at h
  · cases h
  · rename_i g3 hloop
    refine edgeSymmetry_of_sameEdges (nodeTreeUpdated_sameEdges env _ _ _ _ h) ?_
    refine foldlM_ok_inv EdgeSymmetry _ _ g g3 ?_ hg hloop
    intro node _ s s1 hs hf
    split at hf
    · cases hf
    · split at hf
      · cases hf
      · rename_i g2 hadd
        have h2 := addClockEdge_edgeSymmetry hs hadd
        split at hf
        · exact setParent_edgeSymmetry h2 hf
        · cases hf; exact h2

theorem nodeSetClockImpl_edgeSymmetry {env : Env} {fuel : Nat} {g g1 : Graph}
    {this : NodePtr} {nodes : List NodePtr} (hg : EdgeSymmetry g)
    (h : Node.setClockImpl env fuel g this nodes = Except.ok g1) : EdgeSymmetry g1 := by
  unfold Node.setClockImpl at h
  dsimp only at h
  split at h
  · cases h
  · rename_i g2 hadd
    have h2 := addClockEdge_edgeSymmetry hg hadd
    split at h
    · cases h
    · split at h
      · cases h
      · rename_i g3 hloop
        refine edgeSymmetry_of_sameEdges (nodeTreeUpdated_sameEdges env _ _ _ _ h) ?_
        refine foldlM_ok_inv EdgeSymmetry _ _ g2 g3 ?_ h2 hloop
        intro node _ s s1 hs hf
        split at hf
        · exact setParent_edgeSymmetry hs hf
        · cases hf; exact hs

theorem opRun_edgeSymmetry {env : Env} {fuel : Nat} {g g1 : Graph} {op : Op}
    (hg : EdgeSymmetry g) (h : Op.run env fuel g op = Except.ok g1) : EdgeSymmetry g1 := by
  cases op with
  | setParent this parent => exact setParent_edgeSymmetry hg h
  | setClock this nodes =>
    simp only [Op.run, Node.setClock] at h
    split at h
    · exact nodeSetClockImpl_edgeSymmetry hg h
    · exact clockSetClockImpl_edgeSymmetry hg h

theorem runOps_edgeSymmetry {env : Env} {fuel : Nat} {g g1 : Graph} {ops : List Op}
    (hg : EdgeSymmetry g) (h : runOps env fuel g ops = Except.ok g1) : EdgeSymmetry g1 :=
  foldlM_ok_inv EdgeSymmetry _ ops g g1 (fun _ _ _ _ hs hf => opRun_edgeSymmetry hs hf) hg h

theorem edgeSymmetry_of_noEdges {g : Graph} (h : g.NoEdges) : EdgeSymmetry g := by
  refine ⟨fun n p => ?_, fun n c => ?_, fun n => ?_⟩
  · simp [(h n).1, (h p).2.1]
  · simp [(h n).2.2.1, (h c).2.2.2]
  · simp [(h n).1, (h n).2.1, (h n).2.2.1, (h n).2.2.2]

theorem foldlM_unit_ok {α : Type} (f : Unit → α → Except Err Unit) (l : List α)
    (h : ∀ a ∈ l, f () a = Except.ok ()) : l.foldlM f () = Except.ok () := by
  induction l with
  | nil => rfl
  | cons a l ih =>
    simp only [List.foldlM_cons, h a (List.mem_cons_self _ _)]
    exact ih (fun a1 ha1 => h a1 (List.mem_cons_of_mem _ ha1))

theorem edgeSymmetry_hasSymmetricEdges {g : Graph} (h : EdgeSymmetry g) :
    g.hasSymmetricEdges = Except.ok true := by
  obtain ⟨h1, h2, h3⟩ := h
  unfold Graph.hasSymmetricEdges
  rw [foldlM_unit_ok]
  intro node _
  have e1 : ((g.node node).parents_.any (fun parent =>
      decide ((g.node parent).children_.count node ≠ 1))) = false := by
    rw [List.any_eq_false]
    intro p hp
    simp [List.count_eq_one_of_mem (h3 p).2.1 ((h1 node p).1 hp)]
  have e2 : ((g.node node).children_.any (fun child =>
      decide ((g.node child).parents_.count node ≠ 1))) = false := by
    rw [List.any_eq_false]
    intro p hp
    simp [List.count_eq_one_of_mem (h3 p).1 ((h1 p node).2 hp)]
  have e3 : ((g.node node).clocks_.any (fun clock =>
      decide ((g.node clock).callbacks_.count node ≠ 1))) = false := by
    rw [List.any_eq_false]
    intro p hp
    simp [List.count_eq_one_of_mem (h3 p).2.2.2 ((h2 node p).1 hp)]
  have e4 : ((g.node node).callbacks_.any (fun callback =>
      decide ((g.node callback).clocks_.count node ≠ 1))) = false := by
    rw [List.any_eq_false]
    intro p hp
    simp [List.count_eq_one_of_mem (h3 p).2.2.1 ((h2 p node).2 hp)]
  simp only [e1, e2, e3, e4, Bool.false_eq_true, if_false]

theorem count_eq_one_iff_mem {l : List NodePtr} (hl : l.Nodup) (x : NodePtr) :
    l.count x = 1 ↔ x ∈ l := by
  constructor
  · intro h
    exact List.count_pos_iff.1 (by omega)
  · exact List.count_eq_one_of_mem hl

/-- C1: starting from nodes without edges, after every sequence of `setParent` and
`setClock` calls that returns, a node is in another's parent list exactly once iff the
other has it in its child list exactly once, likewise for clocks and callbacks, no list
holds a duplicate, and `Graph::hasSymmetricEdges` returns true without throwing. -/
theorem edge_symmetry_invariant (env : Env) (fuel : Nat) (g0 g : Graph) (ops : List Op)
    (hfresh : g0.NoEdges) (hrun : runOps env fuel g0 ops = Except.ok g) :
    (∀ n p, (g.node n).parents_.count p = 1 ↔ (g.node p).children_.count n = 1) ∧
    (∀ n c, (g.node n).clocks_.count c = 1 ↔ (g.node c).callbacks_.count n = 1) ∧
    (∀ n p, p ∈ (g.node n).parents_ ↔ n ∈ (g.node p).children_) ∧
    (∀ n c, c ∈ (g.node n).clocks_ ↔ n ∈ (g.node c).callbacks_) ∧
    (∀ n, (g.node n).parents_.Nodup ∧ (g.node n).children_.Nodup ∧
      (g.node n).clocks_.Nodup ∧ (g.node n).callbacks_.Nodup) ∧
    g.hasSymmetricEdges = Except.ok true := by
  have hs := runOps_edgeSymmetry (edgeSymmetry_of_noEdges hfresh) hrun
  obtain ⟨h1, h2, h3⟩ := hs
  refine ⟨fun n p => ?_, fun n c => ?_, h1, h2, h3, edgeSymmetry_hasSymmetricEdges ⟨h1, h2, h3⟩⟩
  · rw [count_eq_one_iff_mem (h3 n).1, count_eq_one_iff_mem (h3 p).2.1]; exact h1 n p
  · rw [count_eq_one_iff_mem (h3 n).2.2.1, count_eq_one_iff_mem (h3 c).2.2.2]; exact h2 n c

/-- The hypotheses of `edge_symmetry_invariant` hold for a source with three value nodes
linked by `setClock` and `setParent`. -/
theorem edge_symmetry_invariant_witness :
    (Graph.init [0, 1, 2, 3] kindSrc0).NoEdges ∧
    ∃ g, runOps envOK 10 (Graph.init [0, 1, 2, 3] kindSrc0)
        [Op.setClock 1 [0], Op.setParent 2 1, Op.setClock 2 [0], Op.setClock 3 [1, 2]] =
          Except.ok g ∧
      g.hasSymmetricEdges = Except.ok true :=
  ⟨fun _ => ⟨rfl, rfl, rfl, rfl⟩, _, rfl,
    (edge_symmetry_invariant envOK 10 (Graph.init [0, 1, 2, 3] kindSrc0) _
      [Op.setClock 1 [0], Op.setParent 2 1, Op.setClock 2 [0], Op.setClock 3 [1, 2]]
      (fun _ => ⟨rfl, rfl, rfl, rfl⟩) rfl).2.2.2.2.2⟩

/-! ## Sets -/

@[simp] theorem mem_insertSet (x a : NodePtr) (s : List NodePtr) :
    x ∈ insertSet a s ↔ x = a ∨ x ∈ s := by
  induction s with
  | nil => simp [insertSet]
  | cons y ys ih =>
    unfold insertSet
    split
    · simp
    · split
      · rename_i h; subst h; simp
      · simp only [List.mem_cons, ih]; tauto

@[simp] theorem mem_insertRange (x : NodePtr) (l s : List NodePtr) :
    x ∈ insertRange s l ↔ x ∈ s ∨ x ∈ l := by
  unfold insertRange
  induction l generalizing s with
  | nil => simp
  | cons a l ih => simp only [List.foldl_cons, ih, mem_insertSet, List.mem_cons]; tauto

@[simp] theorem mem_toSet (x : NodePtr) (l : List NodePtr) : x ∈ toSet l ↔ x ∈ l := by
  simp [toSet]

@[simp] theorem mem_eraseSet (x a : NodePtr) (s : List NodePtr) :
    x ∈ eraseSet a s ↔ x ∈ s ∧ x ≠ a := by
  simp [eraseSet]

theorem mem_dfsChildren (g : Graph) (all : Bool) (u v : NodePtr) :
    v ∈ dfsChildren g all u ↔
      v ∈ (g.node u).callbacks_ ∨ (all = true ∧ v ∈ (g.node u).children_) := by
  unfold dfsChildren
  cases all <;> simp

/-! ## Depth-first traversal -/

theorem applyDepthFirstImpl_succ {σ : Type} (g : Graph) (all : Bool) (func : NodePtr → σ → σ)
    (fuel : Nat) (node : NodePtr) (visited : List NodePtr) (args : σ) :
    applyDepthFirstImpl g all func (fuel + 1) node (visited, args) =
      if node ∈ visited then Except.ok (visited, args)
      else
        match (dfsChildren g all node).foldlM
            (fun st otherNode => applyDepthFirstImpl g all func fuel otherNode st)
            (insertSet node visited, args) with
        | Except.error e => Except.error e
        | Except.ok (visited1, args1) => Except.ok (visited1, func node args1) := by
  rfl

/-- A loop that runs to its end establishes a property of the processed prefix. -/
theorem foldlM_ok_prefix {α β : Type} (P : List α → β → Prop) (f : β → α → Except Err β) :
    ∀ (l done : List α) (b b1 : β),
      (∀ a ∈ l, ∀ d s s1, P d s → f s a = Except.ok s1 → P (d ++ [a]) s1) →
      P done b → l.foldlM f b = Except.ok b1 → P (done ++ l) b1 := by
  intro l
  induction l with
  | nil =>
    intro done b b1 _ h0 h
    simp only [List.foldlM_nil] at h
    cases h
    simpa using h0
  | cons a l ih =>
    intro done b b1 hstep h0 h
    simp only [List.foldlM_cons] at h
    cases hfa : f b a with
    | error e => rw [hfa] at h; cases h
    | ok s =>
      rw [hfa] at h
      have := ih (done ++ [a]) s b1 (fun a1 ha1 => hstep a1 (List.mem_cons_of_mem _ ha1))
        (hstep a (List.mem_cons_self _ _) done b s h0 hfa) h
      simpa using this

theorem dfsStep_refl (g : Graph) (all : Bool) (roots : List NodePtr)
    (s : List NodePtr × List NodePtr) : DfsStep g all roots s s :=
  ⟨[], by simp, List.nodup_nil, by simp, by simp, by simp, by simp⟩

theorem dfsStep_mono {g : Graph} {all : Bool} {roots : List NodePtr}
    {s s1 : List NodePtr × List NodePtr} (h : DfsStep g all roots s s1) {x : NodePtr}
    (hx : x ∈ s.1) : x ∈ s1.1 := by
  obtain ⟨new, _, _, hmem, _⟩ := h
  exact (hmem x).2 (Or.inl hx)

theorem dfsStep_trans {g : Graph} {all : Bool} {r1 r2 : List NodePtr}
    {s s1 s2 : List NodePtr × List NodePtr} (h1 : DfsStep g all r1 s s1)
    (h2 : DfsStep g all r2 s1 s2) : DfsStep g all (r1 ++ r2) s s2 := by
  obtain ⟨n1, e1, nd1, m1, f1, re1, c1⟩ := h1
  obtain ⟨n2, e2, nd2, m2, f2, re2, c2⟩ := h2
  refine ⟨n1 ++ n2, ?_, ?_, ?_, ?_, ?_, ?_⟩
  · rw [e2, e1, List.append_assoc]
  · refine List.Nodup.append nd1 nd2 ?_
    intro x hx1 hx2
    exact f2 x hx2 ((m1 x).2 (Or.inr hx1))
  · intro x
    rw [m2, m1, List.mem_append]
    tauto
  · intro x hx
    rcases List.mem_append.1 hx with hx | hx
    · exact f1 x hx
    · exact fun h => f2 x hx ((m1 x).2 (Or.inl h))
  · intro x hx
    rcases List.mem_append.1 hx with hx | hx
    · obtain ⟨r, hr, hreach⟩ := re1 x hx
      exact ⟨r, List.mem_append_left _ hr, hreach⟩
    · obtain ⟨r, hr, hreach⟩ := re2 x hx
      exact ⟨r, List.mem_append_right _ hr, hreach⟩
  · intro x hx y hxy
    rcases List.mem_append.1 hx with hx | hx
    · exact (m2 y).2 (Or.inl (c1 x hx y hxy))
    · exact c2 x hx y hxy

/-- The traversal of the successors of `node`, followed by the emission of `node`. -/
theorem dfsStep_close {g : Graph} {all : Bool} {node : NodePtr} {visited l : List NodePtr}
    {s1 : List NodePtr × List NodePtr} (hnot : node ∉ visited)
    (h : DfsStep g all (dfsChildren g all node) (insertSet node visited, l) s1)
    (hcs : ∀ c ∈ dfsChildren g all node, c ∈ s1.1) :
    DfsStep g all [node] (visited, l) (s1.1, appendNode none node s1.2) ∧ node ∈ s1.1 := by
  obtain ⟨n1, e1, nd1, m1, f1, re1, c1⟩ := h
  have hnode : node ∈ s1.1 := (m1 node).2 (Or.inl (by simp))
  refine ⟨⟨n1 ++ [node], ?_, ?_, ?_, ?_, ?_, ?_⟩, hnode⟩
  · simp only [appendNode, e1, List.append_assoc]
  · refine List.Nodup.append nd1 (List.nodup_singleton _) ?_
    intro x hx1 hx2
    rw [List.mem_singleton] at hx2
    subst hx2
    exact f1 x hx1 (by simp)
  · intro x
    simp only [m1, mem_insertSet, List.mem_append, List.mem_singleton]
    tauto
  · intro x hx
    rcases List.mem_append.1 hx with hx | hx
    · exact fun hv => f1 x hx (by simp [hv])
    · rw [List.mem_singleton] at hx; subst hx; exact hnot
  · intro x hx
    refine ⟨node, List.mem_singleton_self _, ?_⟩
    rcases List.mem_append.1 hx with hx | hx
    · obtain ⟨r, hr, hreach⟩ := re1 x hx
      exact Relation.ReflTransGen.head hr hreach
    · rw [List.mem_singleton] at hx; subst hx; exact Relation.ReflTransGen.refl
  · intro x hx y hxy
    rcases List.mem_append.1 hx with hx | hx
    · exact c1 x hx y hxy
    · rw [List.mem_singleton] at hx; subst hx; exact hcs y hxy

/-- Partial correctness of `applyDepthFirstImpl` with the emitting visitor. -/
theorem applyDepthFirstImpl_step (g : Graph) (all : Bool) :
    ∀ (fuel : Nat) (node : NodePtr) (s s1 : List NodePtr × List NodePtr),
      applyDepthFirstImpl g all (appendNode none) fuel node s = Except.ok s1 →
      DfsStep g all [node] s s1 ∧ node ∈ s1.1 := by
  intro fuel
  induction fuel with
  | zero => intro node s s1 h; simp [applyDepthFirstImpl] at h
  | succ fuel ih =>
    intro node s s1 h
    obtain ⟨visited, l⟩ := s
    rw [applyDepthFirstImpl_succ] at h
    split at h
    · rename_i hin
      cases h
      exact ⟨dfsStep_refl _ _ _ _, hin⟩
    · rename_i hnot
      split at h
      · cases h
      · rename_i visited1 args1 hloop
        cases h
        have hP := foldlM_ok_prefix
          (fun d st => DfsStep g all d (insertSet node visited, l) st ∧ ∀ c ∈ d, c ∈ st.1)
          _ (dfsChildren g all node) [] (insertSet node visited, l) (visited1, args1)
          (by
            intro a _ d st st1 hd hf
            obtain ⟨hstep, ha⟩ := ih a st st1 hf
            refine ⟨dfsStep_trans hd.1 hstep, ?_⟩
            intro c hc
            rcases List.mem_append.1 hc with hc | hc
            · exact dfsStep_mono hstep (hd.2 c hc)
            · rw [List.mem_singleton] at hc; subst hc; exact ha)
          ⟨dfsStep_refl _ _ _ _, by simp⟩ hloop
        simp only [List.nil_append] at hP
        exact dfsStep_close hnot hP.1 hP.2

/-- The visitor is applied to the nodes in the order in which the emitting visitor
lists them. -/
theorem applyDepthFirstImpl_func {σ : Type} (g : Graph) (all : Bool) (func : NodePtr → σ → σ)
    (args0 : σ) :
    ∀ (fuel : Nat) (node : NodePtr) (visited l : List NodePtr),
      applyDepthFirstImpl g all func fuel node
          (visited, l.foldl (fun a n => func n a) args0) =
        Except.map (fun p => (p.1, p.2.foldl (fun a n => func n a) args0))
          (applyDepthFirstImpl g all (appendNode none) fuel node (visited, l)) := by
  intro fuel
  induction fuel with
  | zero => intro node visited l; rfl
  | succ fuel ih =>
    intro node visited l
    have hloop : ∀ (cs : List NodePtr) (v l1 : List NodePtr),
        cs.foldlM (fun st c => applyDepthFirstImpl g all func fuel c st)
            (v, l1.foldl (fun a n => func n a) args0) =
          Except.map (fun p => (p.1, p.2.foldl (fun a n => func n a) args0))
            (cs.foldlM (fun st c => applyDepthFirstImpl g all (appendNode none) fuel c st)
              (v, l1)) := by
      intro cs
      induction cs with
      | nil => intro v l1; rfl
      | cons c cs ihc =>
        intro v l1
        simp only [List.foldlM_cons]
        rw [ih c v l1]
        cases applyDepthFirstImpl g all (appendNode none) fuel c (v, l1) with
        | error e => rfl
        | ok st =>
          obtain ⟨v2, l2⟩ := st
          exact ihc v2 l2
    rw [applyDepthFirstImpl_succ, applyDepthFirstImpl_succ]
    by_cases hin : node ∈ visited
    · simp only [hin, if_true]; rfl
    · simp only [hin, if_false]
      rw [hloop]
      cases (dfsChildren g all node).foldlM
          (fun st c => applyDepthFirstImpl g all (appendNode none) fuel c st)
          (insertSet node visited, l) with
      | error e => rfl
      | ok st =>
        obtain ⟨v2, l2⟩ := st
        simp [Except.map, appendNode, List.foldl_append]

theorem countP_lt_of_imp {p q : NodePtr → Bool} {l : List NodePtr} {a : NodePtr}
    (h : ∀ x, p x = true → q x = true) (ha : a ∈ l) (hp : p a = false) (hq : q a = true) :
    l.countP p < l.countP q := by
  induction l with
  | nil => simp at ha
  | cons b l ih =>
    rw [List.countP_cons, List.countP_cons]
    by_cases hb : b = a
    · subst hb
      have hle : l.countP p ≤ l.countP q := List.countP_mono_left (fun x _ => h x)
      rw [hp, hq]
      simp only [Bool.false_eq_true, if_false, if_true]
      omega
    · have hal : a ∈ l := by
        rcases List.mem_cons.1 ha with h1 | h1
        · exact absurd h1.symm hb
        · exact h1
      have hlt := ih hal
      by_cases hpb : p b = true
      · rw [hpb, h b hpb]; simp only [if_true]; omega
      · have hpb1 : p b = false := by simpa using hpb
        rw [hpb1]
        simp only [Bool.false_eq_true, if_false]
        split <;> omega

theorem unvisited_mono (nodes : List NodePtr) {v v1 : List NodePtr} (h : ∀ x ∈ v, x ∈ v1) :
    unvisited nodes v1 ≤ unvisited nodes v := by
  unfold unvisited
  refine List.countP_mono_left (fun x _ hx => ?_)
  simp only [decide_eq_true_eq] at hx ⊢
  exact fun hv => hx (h x hv)

theorem unvisited_insert {nodes v : List NodePtr} {a : NodePtr} (ha : a ∈ nodes)
    (hv : a ∉ v) : unvisited nodes (insertSet a v) < unvisited nodes v := by
  unfold unvisited
  refine countP_lt_of_imp (fun x hx => ?_) ha ?_ ?_
  · simp only [decide_eq_true_eq, mem_insertSet] at hx ⊢
    exact fun hxv => hx (Or.inr hxv)
  · simp
  · simpa using hv

/-- Termination of `applyDepthFirstImpl` on a finite graph: a budget larger than the
number of unvisited nodes is never used up. -/
theorem applyDepthFirstImpl_total (g : Graph) (all : Bool) (nodes : List NodePtr)
    (hclosed : ClosedUnder g all nodes) :
    ∀ (fuel : Nat) (node : NodePtr) (s : List NodePtr × List NodePtr),
      node ∈ nodes → unvisited nodes s.1 < fuel →
      ∃ s1, applyDepthFirstImpl g all (appendNode none) fuel node s = Except.ok s1 := by
  intro fuel
  induction fuel with
  | zero => intro node s _ h; omega
  | succ fuel ih =>
    intro node s hnode hlt
    obtain ⟨visited, l⟩ := s
    rw [applyDepthFirstImpl_succ]
    by_cases hin : node ∈ visited
    · simp [hin]
    · simp only [hin, if_false]
      have hloop : ∀ (cs : List NodePtr) (st : List NodePtr × List NodePtr),
          (∀ c ∈ cs, c ∈ nodes) → unvisited nodes st.1 < fuel →
          ∃ st1, cs.foldlM
            (fun st c => applyDepthFirstImpl g all (appendNode none) fuel c st) st =
              Except.ok st1 := by
        intro cs
        induction cs with
        | nil => intro st _ _; exact ⟨st, rfl⟩
        | cons c cs ihc =>
          intro st hcs hst
          obtain ⟨st2, h2⟩ := ih c st (hcs c (List.mem_cons_self _ _)) hst
          have hmono := (applyDepthFirstImpl_step g all fuel c st st2 h2).1
          have hle := unvisited_mono nodes (fun x hx => dfsStep_mono hmono hx)
          obtain ⟨st3, h3⟩ := ihc st2 (fun c1 hc1 => hcs c1 (List.mem_cons_of_mem _ hc1))
            (by omega)
          exact ⟨st3, by simp only [List.foldlM_cons, h2]; exact h3⟩
      have hins := unvisited_insert hnode hin
      simp only at hlt
      obtain ⟨st1, h1⟩ := hloop (dfsChildren g all node) (insertSet node visited, l)
        (fun c hc => hclosed node hnode c hc) (by simp only; omega)
      rw [h1]
      exact ⟨_, rfl⟩

/-! ## Topological order -/

theorem postSorted_snoc {g : Graph} {all : Bool} {l : List NodePtr} {node : NodePtr}
    (h : PostSorted g all l) (hnode : ∀ y, DfsEdge g all node y → y ∈ l) :
    PostSorted g all (l ++ [node]) := by
  intro l1 x l2 heq y hxy
  rcases List.eq_nil_or_concat l2 with h2 | ⟨l3, z, h2⟩
  · subst h2
    have := List.append_inj' heq (by simp)
    obtain ⟨e1, e2⟩ := this
    cases e2
    subst e1
    exact hnode y hxy
  · subst h2
    have heq2 : l ++ [node] = (l1 ++ x :: l3) ++ [z] := by simpa using heq
    have := List.append_inj' heq2 (by simp)
    exact h l1 x l3 this.1 y hxy

/-- On an acyclic graph the traversal keeps the emission list sorted. -/
theorem applyDepthFirstImpl_topo (g : Graph) (all : Bool)
    (hacyc : ∀ x, ¬ Relation.TransGen (DfsEdge g all) x x) :
    ∀ (fuel : Nat) (node : NodePtr) (s s1 : List NodePtr × List NodePtr),
      applyDepthFirstImpl g all (appendNode none) fuel node s = Except.ok s1 →
      TopoInv g all node s → ∀ parent, TopoInv g all parent s → TopoInv g all parent s1 := by
  intro fuel
  induction fuel with
  | zero => intro node s s1 h; simp [applyDepthFirstImpl] at h
  | succ fuel ih =>
    intro node s s1 h hinv parent hpar
    have hstep := (applyDepthFirstImpl_step g all (fuel + 1) node s s1 h).1
    obtain ⟨visited, l⟩ := s
    rw [applyDepthFirstImpl_succ] at h
    split at h
    · cases h; exact hpar
    · rename_i hnot
      split at h
      · cases h
      · rename_i visited1 l1 hloop
        cases h
        -- the loop over the successors keeps the invariant relative to `node`
        have h0 : TopoInv g all node (insertSet node visited, l) := by
          refine ⟨fun x hx => by simp [hinv.1 x hx], fun x hx hxl => ?_, hinv.2.2⟩
          rcases (mem_insertSet x node visited).1 hx with hx | hx
          · subst hx; exact Relation.ReflTransGen.refl
          · exact hinv.2.1 x hx hxl
        have hP := foldlM_ok_prefix
          (fun d st => TopoInv g all node st ∧ DfsStep g all d (insertSet node visited, l) st)
          _ (dfsChildren g all node) [] (insertSet node visited, l) (visited1, l1)
          (by
            intro c hc d st st1 hd hf
            have hc1 : TopoInv g all c st :=
              ⟨hd.1.1, fun x hx hxl => (hd.1.2.1 x hx hxl).tail hc, hd.1.2.2⟩
            exact ⟨ih c st st1 hf hc1 node hd.1,
              dfsStep_trans hd.2 (applyDepthFirstImpl_step g all fuel c st st1 hf).1⟩)
          ⟨h0, dfsStep_refl _ _ _ _⟩ hloop
        obtain ⟨⟨hI1, hI2, hI3⟩, hS⟩ := hP
        obtain ⟨new, e1, nd1, m1, f1, re1, c1⟩ := hstep
        obtain ⟨new2, e2, nd2, m2, f2, re2, c2⟩ := hS
        simp only at e1 m1 f1 c1 e2 m2 f2 hI1 hI2 hI3
        have hnodeNew : node ∈ new := by
          have : node ∈ l ++ new := by rw [← e1]; simp [appendNode]
          rcases List.mem_append.1 this with h1 | h1
          · exact absurd (hinv.1 node h1) hnot
          · exact h1
        have hsucc : ∀ y, DfsEdge g all node y → y ∈ l1 := by
          intro y hy
          have hyv : y ∈ visited1 := c1 node hnodeNew y hy
          by_contra hyl
          have hreach := hI2 y hyv hyl
          exact hacyc node (Relation.TransGen.head' hy hreach)
        refine ⟨?_, ?_, ?_⟩
        · intro x hx
          simp only [appendNode, List.mem_append, List.mem_singleton] at hx
          rcases hx with hx | hx
          · exact hI1 x hx
          · subst hx; exact (m1 x).2 (Or.inr hnodeNew)
        · intro x hx hxl
          simp only [appendNode, List.mem_append, List.mem_singleton, not_or] at hxl
          -- `x` was visited and not emitted before the call
          have hxv : x ∈ visited := by
            rcases (m1 x).1 hx with h1 | h1
            · exact h1
            · exfalso
              have : x ∈ l ++ new := List.mem_append_right _ h1
              rw [← e1] at this
              simp only [appendNode, List.mem_append, List.mem_singleton] at this
              tauto
          have hxl0 : x ∉ l := by
            intro h1
            have : x ∈ l ++ new2 := List.mem_append_left _ h1
            rw [← e2] at this
            exact hxl.1 this
          exact hpar.2.1 x hxv hxl0
        · exact postSorted_snoc hI3 hsucc

theorem dfsEdge_true (g : Graph) : DfsEdge g true = g.Edge := by
  funext u v
  simp [DfsEdge, Graph.Edge, mem_dfsChildren]

theorem dfsEdge_false (g : Graph) : DfsEdge g false = g.Trigger := by
  funext u v
  simp [DfsEdge, Graph.Trigger, mem_dfsChildren]

theorem closedUnder_of_closed {g : Graph} (h : g.Closed) (all : Bool) :
    ClosedUnder g all g.nodes := by
  intro n hn c hc
  rcases (mem_dfsChildren g all n c).1 hc with h1 | h1
  · exact (h n hn).1 c h1
  · exact (h n hn).2 c h1.2

theorem unvisited_le_length (nodes visited : List NodePtr) :
    unvisited nodes visited ≤ nodes.length :=
  List.countP_le_length _

/-- The emission list of a complete traversal from `root`: it exists when the budget
exceeds the number of nodes, has no duplicate and holds the nodes reachable from
`root`. -/
theorem traversal_from_root (g : Graph) (all : Bool) (fuel : Nat) (root : NodePtr)
    (hroot : root ∈ g.nodes) (hclosed : g.Closed) (hfuel : g.nodes.length < fuel) :
    ∃ v po, applyDepthFirstImpl g all (appendNode none) fuel root ([], []) =
        Except.ok (v, po) ∧ po.Nodup ∧
      ∀ x, x ∈ po ↔ Relation.ReflTransGen (DfsEdge g all) root x := by
  obtain ⟨⟨v, po⟩, h⟩ := applyDepthFirstImpl_total g all g.nodes
    (closedUnder_of_closed hclosed all) fuel root ([], []) hroot
    (lt_of_le_of_lt (unvisited_le_length _ _) hfuel)
  obtain ⟨⟨new, e1, nd1, m1, f1, re1, c1⟩, hr⟩ := applyDepthFirstImpl_step g all fuel root _ _ h
  simp only [List.nil_append, List.not_mem_nil, false_or] at e1 m1
  subst e1
  refine ⟨v, po, h, nd1, fun x => ⟨fun hx => ?_, fun hx => ?_⟩⟩
  · obtain ⟨r, hr1, hreach⟩ := re1 x hx
    rw [List.mem_singleton] at hr1
    subst hr1
    exact hreach
  · induction hx with
    | refl => exact (m1 root).1 hr
    | tail _ hyz ih => exact (m1 _).1 (c1 _ ih _ hyz)

theorem topological_sort_none (g : Graph) (fuel : Nat) (root : NodePtr) :
    topological_sort g fuel root none =
      Except.map (fun p => p.2.reverse)
        (applyDepthFirstImpl g true (appendNode none) fuel root ([], [])) := by
  unfold topological_sort traverseChildren
  cases applyDepthFirstImpl g true (appendNode none) fuel root ([], []) with
  | error e => rfl
  | ok p => rfl

theorem acyclic_of_rank {E : NodePtr → NodePtr → Prop} (rank : NodePtr → Nat)
    (h : ∀ u v, E u v → rank u < rank v) : ∀ x, ¬ Relation.TransGen E x x := by
  have hlt : ∀ x y, Relation.TransGen E x y → rank x < rank y := by
    intro x y hxy
    induction hxy with
    | single hxy => exact h _ _ hxy
    | tail _ hyz ih => exact lt_trans ih (h _ _ hyz)
  intro x hx
  exact lt_irrefl _ (hlt x x hx)

theorem topoTestGraph_edge_lt (u v : Nat) (h : topoTestGraph.Edge u v) : u < v := by
  unfold Graph.Edge topoTestGraph Node.fresh at h
  rcases u with _ | _ | _ | _ | _ | _ | _ | u <;> simp at h
  · rcases h with h | h <;> subst h <;> decide
  all_goals (subst h; decide)

/-- C2: on a finite graph whose trigger and dependency edges together are acyclic,
`topological_sort` from any root returns an order that places `u` strictly before `v`
whenever both are in it and `v` is a callback or a child of `u`. -/
theorem topological_sort_valid (g : Graph) (fuel : Nat) (root : NodePtr)
    (hroot : root ∈ g.nodes) (hclosed : g.Closed) (hfuel : g.nodes.length < fuel)
    (hacyc : ∀ x, ¬ Relation.TransGen g.Edge x x) :
    ∃ order, topological_sort g fuel root none = Except.ok order ∧
      ∀ u v, u ∈ order → v ∈ order →
        (v ∈ (g.node u).callbacks_ ∨ v ∈ (g.node u).children_) →
        ∃ l1 l2 l3, order = l1 ++ u :: l2 ++ v :: l3 := by
  obtain ⟨v, po, h, _, _⟩ := traversal_from_root g true fuel root hroot hclosed hfuel
  have hsorted : PostSorted g true po :=
    (applyDepthFirstImpl_topo g true (by rw [dfsEdge_true]; exact hacyc) fuel root _ _ h
      ⟨by simp, by simp, fun l1 x l2 he => by simp at he⟩ root
      ⟨by simp, by simp, fun l1 x l2 he => by simp at he⟩).2.2
  refine ⟨po.reverse, by rw [topological_sort_none, h]; rfl, ?_⟩
  intro a b ha _ hab
  obtain ⟨l1, l2, e1⟩ := List.append_of_mem (List.mem_reverse.1 ha)
  have hb : b ∈ l1 := hsorted l1 a l2 e1 b (by rw [dfsEdge_true]; exact hab)
  obtain ⟨l3, l4, e2⟩ := List.append_of_mem hb
  refine ⟨l2.reverse, l4.reverse, l3.reverse, ?_⟩
  rw [e1, e2]
  simp

/-- The graph of `test_topological_sort`, sorted from src0: five nodes. -/
theorem topological_sort_valid_witness :
    0 ∈ topoTestGraph.nodes ∧ topoTestGraph.Closed ∧ topoTestGraph.nodes.length < 8 ∧
    topological_sort topoTestGraph 8 0 none = Except.ok [0, 3, 2, 5, 6] ∧
    ∃ order, topological_sort topoTestGraph 8 0 none = Except.ok order ∧
      ∀ u v, u ∈ order → v ∈ order →
        (v ∈ (topoTestGraph.node u).callbacks_ ∨ v ∈ (topoTestGraph.node u).children_) →
        ∃ l1 l2 l3, order = l1 ++ u :: l2 ++ v :: l3 :=
  ⟨by decide, by decide, by decide, rfl,
    topological_sort_valid topoTestGraph 8 0 (by decide) (by decide) (by decide)
      (acyclic_of_rank id topoTestGraph_edge_lt)⟩

/-- C3: on a finite graph, cyclic or not, `topological_sort` without a filter returns a
vector without duplicates whose members are exactly the root and the nodes reachable
from it through callback or child edges. -/
theorem topological_sort_membership (g : Graph) (fuel : Nat) (root : NodePtr)
    (hroot : root ∈ g.nodes) (hclosed : g.Closed) (hfuel : g.nodes.length < fuel) :
    ∃ order, topological_sort g fuel root none = Except.ok order ∧ order.Nodup ∧
      root ∈ order ∧ (∀ x, order.count x ≤ 1) ∧
      ∀ x, x ∈ order ↔ Relation.ReflTransGen g.Edge root x := by
  obtain ⟨v, po, h, hnd, hmem⟩ := traversal_from_root g true fuel root hroot hclosed hfuel
  rw [dfsEdge_true] at hmem
  refine ⟨po.reverse, by rw [topological_sort_none, h]; rfl, List.nodup_reverse.2 hnd, ?_, ?_, ?_⟩
  · exact List.mem_reverse.2 ((hmem root).2 Relation.ReflTransGen.refl)
  · exact fun x => List.nodup_iff_count_le_one.1 (List.nodup_reverse.2 hnd) x
  · exact fun x => by rw [List.mem_reverse]; exact hmem x

/-- The graph of `test_topological_sort`, sorted from src1 (four nodes) and from src0
(five nodes, without src1 and m1). -/
theorem topological_sort_membership_witness :
    1 ∈ topoTestGraph.nodes ∧ topoTestGraph.Closed ∧ topoTestGraph.nodes.length < 8 ∧
    topological_sort topoTestGraph 8 1 none = Except.ok [1, 4, 5, 6] ∧
    topological_sort topoTestGraph 8 0 none = Except.ok [0, 3, 2, 5, 6] ∧
    ∃ order, topological_sort topoTestGraph 8 1 none = Except.ok order ∧ order.Nodup ∧
      1 ∈ order ∧ (∀ x, order.count x ≤ 1) ∧
      ∀ x, x ∈ order ↔ Relation.ReflTransGen topoTestGraph.Edge 1 x :=
  ⟨by decide, by decide, by decide, rfl, rfl,
    topological_sort_membership topoTestGraph 8 1 (by decide) (by decide) (by decide)⟩

/-! ## Firing -/

theorem parentsValid_congr {g g1 : Graph} {n : NodePtr}
    (hp : (g1.node n).parents_ = (g.node n).parents_)
    (hs : ∀ m, (g1.node m).status_ = (g.node m).status_) :
    Node.parentsValid g1 n = Node.parentsValid g n := by
  unfold Node.parentsValid Node.valid
  rw [hp]
  simp only [hs]

theorem compute_leaf {env : Env} {g g1 : Graph} {n : NodePtr}
    (h : Node.compute env g n = Except.ok g1) :
    g1.nodes = g.nodes ∧ g1.currentSource_ = g.currentSource_ ∧
    (∀ m, m ≠ n → g1.node m = g.node m) ∧
    (g1.node n).shape = (g.node n).shape ∧
    (g1.node n).nFired = (g.node n).nFired ∧
    g1.computeCalls = g.computeCalls ++ [n] ∧
    (g1.node n).status_ = (env.compute n g).status_ ∧
    (g1.node n).ticked_ = (env.compute n g).ticked_ := by
  unfold Node.compute at h
  split at h
  · cases h
  · cases h
    refine ⟨rfl, rfl, fun m hm => ?_, ?_, ?_, rfl, ?_, ?_⟩
    · simp [Graph.modify, Function.update_noteq hm]
    · simp [Node.shape, Graph.modify]
    · simp [Graph.modify]
    · simp [Graph.modify]
    · simp [Graph.modify]

theorem valueFire_leaf {env : Env} {g g1 : Graph} {n : NodePtr}
    (h : ValueNode.fire env g n = Except.ok g1) : FiredLeaf n g g1 := by
  unfold ValueNode.fire at h
  simp only at h
  split at h
  · cases h
  · split at h
    · split at h
      · obtain ⟨c1, c2, c3, c4, c5, c6, _, _⟩ := compute_leaf h
        refine ⟨c1, c2, fun m hm => ?_, ?_, ?_, Or.inr c6⟩
        · rw [c3 m hm]; simp [modify_node_ne _ _ hm]
        · rw [c4]; simp [Node.shape]
        · rw [c5]; simp
      · split at h
        · cases h
          refine ⟨rfl, rfl, fun m hm => ?_, ?_, ?_, Or.inl rfl⟩
          · simp [modify_node_ne _ _ hm]
          · simp [Node.shape]
          · simp
        · cases h
          refine ⟨rfl, rfl, fun m hm => ?_, ?_, ?_, Or.inl rfl⟩
          · simp [modify_node_ne _ _ hm]
          · simp [Node.shape]
          · simp
    · cases h
      refine ⟨rfl, rfl, fun m hm => ?_, ?_, ?_, Or.inl rfl⟩
      · simp [modify_node_ne _ _ hm]
      · simp [Node.shape]
      · simp

theorem clockFire_leaf {env : Env} {g g1 : Graph} {n : NodePtr}
    (h : ClockNode.fire env g n = Except.ok g1) : FiredLeaf n g g1 := by
  unfold ClockNode.fire at h
  simp only at h
  split at h
  · cases h
    refine ⟨rfl, rfl, fun m hm => ?_, ?_, ?_, Or.inl rfl⟩
    · simp [modify_node_ne _ _ hm]
    · simp [Node.shape]
    · simp
  · split at h
    · split at h
      · cases h
      · rename_i g3 hc
        cases h
        obtain ⟨c1, c2, c3, c4, c5, c6, _, _⟩ := compute_leaf hc
        refine ⟨c1, c2, fun m hm => ?_, ?_, ?_, Or.inr c6⟩
        · rw [modify_node_ne _ _ hm, c3 m hm]; simp [modify_node_ne _ _ hm]
        · simp only [modify_node_same]
          have := c4
          simp only [Node.shape, modify_node_same] at this ⊢
          exact this
        · simp only [modify_node_same]
          rw [c5]; simp
    · split at h
      · cases h
        refine ⟨rfl, rfl, fun m hm => ?_, ?_, ?_, Or.inl rfl⟩
        · simp [modify_node_ne _ _ hm]
        · simp [Node.shape]
        · simp
      · cases h
        refine ⟨rfl, rfl, fun m hm => ?_, ?_, ?_, Or.inl rfl⟩
        · simp [modify_node_ne _ _ hm]
        · simp [Node.shape]
        · simp

theorem shape_kind {x y : Node} (h : x.shape = y.shape) : x.kind = y.kind :=
  congrArg Prod.fst h

theorem shape_clocks {x y : Node} (h : x.shape = y.shape) : x.clocks_ = y.clocks_ :=
  congrArg (fun p => p.2.1) h

theorem shape_parents {x y : Node} (h : x.shape = y.shape) : x.parents_ = y.parents_ :=
  congrArg (fun p => p.2.2.2.1) h

theorem shape_computeOrder {x y : Node} (h : x.shape = y.shape) :
    x.computeOrder_ = y.computeOrder_ :=
  congrArg (fun p => p.2.2.2.2.2) h

theorem round_refl (g : Graph) : Round [] [] g g :=
  ⟨rfl, fun _ => rfl, fun _ => by simp, by simp⟩

theorem round_trans {d1 d2 sub1 sub2 : List NodePtr} {g g1 g2 : Graph}
    (h1 : Round d1 sub1 g g1) (h2 : Round d2 sub2 g1 g2) :
    Round (d1 ++ d2) (sub1 ++ sub2) g g2 := by
  obtain ⟨a1, a2, a3, a4⟩ := h1
  obtain ⟨b1, b2, b3, b4⟩ := h2
  refine ⟨b1.trans a1, fun m => (b2 m).trans (a2 m), fun m => ?_, ?_⟩
  · rw [b3, a3, List.count_append]; omega
  · rw [b4, a4, List.append_assoc]

/-- A write to one record that keeps its shape and its `nFired` counter. -/
theorem round_modify (g : Graph) (n : NodePtr) (f : Node → Node)
    (hshape : ∀ x, (f x).shape = x.shape) (hfired : ∀ x, (f x).nFired = x.nFired) :
    Round [] [] g (g.modify n f) := by
  refine ⟨rfl, fun m => ?_, fun m => ?_, by simp⟩
  · rw [modify_node]; split
    · rename_i h; subst h; exact hshape _
    · rfl
  · rw [modify_node]; split
    · rename_i h; subst h; simp [hfired]
    · simp

theorem round_reset (g : Graph) (n : NodePtr) : Round [] [] g (Node.reset g n) :=
  round_modify g n _ (fun _ => rfl) (fun _ => rfl)

theorem round_foldl_reset (l : List NodePtr) (g : Graph) :
    Round [] [] g (l.foldl Node.reset g) := by
  induction l generalizing g with
  | nil => exact round_refl g
  | cons a l ih =>
    have := round_trans (round_reset g a) (ih (Node.reset g a))
    simpa using this

theorem round_of_firedLeaf {n : NodePtr} {g g1 : Graph} (h : FiredLeaf n g g1) :
    ∃ sub, sub.Sublist [n] ∧ Round [n] sub g g1 := by
  obtain ⟨h1, _, h3, h4, h5, h6⟩ := h
  have hshape : ∀ m, (g1.node m).shape = (g.node m).shape := by
    intro m
    by_cases hm : m = n
    · subst hm; exact h4
    · rw [h3 m hm]
  have hfired : ∀ m, (g1.node m).nFired = (g.node m).nFired + [n].count m := by
    intro m
    by_cases hm : m = n
    · subst hm; simp [h5]
    · rw [h3 m hm]
      simp [List.count_cons, Ne.symm hm]
  rcases h6 with h6 | h6
  · exact ⟨[], List.nil_sublist _, h1, hshape, hfired, by simp [h6]⟩
  · exact ⟨[n], List.Sublist.refl _, h1, hshape, hfired, h6⟩

theorem nodeFire_leaf {env : Env} {fuel : Nat} {g g1 : Graph} {n : NodePtr}
    (hk : (g.node n).kind ≠ NodeKind.SourceNode)
    (h : Node.fire env (fuel + 1) g n = Except.ok g1) : FiredLeaf n g g1 := by
  unfold Node.fire at h
  split at h
  · exact valueFire_leaf h
  · exact clockFire_leaf h
  · rename_i hs; exact absurd hs hk

theorem compute_total (env : Env) (g : Graph) (n : NodePtr)
    (hk : (g.node n).kind ≠ NodeKind.SourceNode) :
    ∃ g1, Node.compute env g n = Except.ok g1 := by
  unfold Node.compute
  split
  · rename_i hs; exact absurd hs hk
  · exact ⟨_, rfl⟩

/-- `fire()` of a node that is not a source returns, unless it is a value node without
exactly one clock. -/
theorem nodeFire_leaf_total (env : Env) (fuel : Nat) (g : Graph) (n : NodePtr)
    (hk : (g.node n).kind ≠ NodeKind.SourceNode)
    (hc : (g.node n).kind = NodeKind.ValueNode → ∃ c, (g.node n).clocks_ = [c]) :
    ∃ g1, Node.fire env (fuel + 1) g n = Except.ok g1 := by
  unfold Node.fire
  split
  · rename_i hv
    obtain ⟨c, hcl⟩ := hc hv
    unfold ValueNode.fire
    have hget : Node.getClock (g.modify n (fun x => { x with nFired := x.nFired + 1 })) n =
        Except.ok c := by
      simp [Node.getClock, hv, hcl]
    simp only [hget]
    split
    · split
      · exact compute_total env _ n (by simp [hv])
      · split <;> exact ⟨_, rfl⟩
    · exact ⟨_, rfl⟩
  · rename_i hv
    unfold ClockNode.fire
    simp only
    split
    · exact ⟨_, rfl⟩
    · split
      · obtain ⟨g3, h3⟩ := compute_total env
          ((g.modify n (fun x => { x with nFired := x.nFired + 1 })).modify n
            (fun x => { x with nTicked := x.nTicked + 1 })) n (by simp [hv])
        rw [h3]
        exact ⟨_, rfl⟩
      · split <;> exact ⟨_, rfl⟩
  · rename_i hs; exact absurd hs hk

/-- The loop of `SourceNode::fire` over a firing order without sources. -/
theorem sourceFire_loop (env : Env) (fuel : Nat) (g : Graph) (this : NodePtr) :
    ∀ (l : List NodePtr) (st : Graph),
      (∀ n ∈ l, (g.node n).kind ≠ NodeKind.SourceNode) →
      (∀ n ∈ l, (g.node n).kind = NodeKind.ValueNode → ∃ c, (g.node n).clocks_ = [c]) →
      (∀ m, (st.node m).shape = (g.node m).shape) →
      ∃ st1 sub, l.foldlM (fun g5 node =>
          Node.fire env (fuel + 1)
            (g5.modify this (fun x => { x with currentNode_ := some node })) node) st =
            Except.ok st1 ∧
        sub.Sublist l ∧ Round l sub st st1 := by
  intro l
  induction l with
  | nil => intro st _ _ _; exact ⟨st, [], rfl, List.Sublist.refl _, round_refl st⟩
  | cons n l ih =>
    intro st hk hc hshape
    have hr0 := round_modify st this (fun x => { x with currentNode_ := some n })
      (fun _ => rfl) (fun _ => rfl)
    have hshape0 : ∀ m, ((st.modify this
        (fun x => { x with currentNode_ := some n })).node m).shape = (g.node m).shape :=
      fun m => (hr0.2.1 m).trans (hshape m)
    have hk0 : ((st.modify this (fun x => { x with currentNode_ := some n })).node n).kind ≠
        NodeKind.SourceNode := by
      rw [shape_kind (hshape0 n)]; exact hk n (List.mem_cons_self _ _)
    obtain ⟨st2, h2⟩ := nodeFire_leaf_total env fuel _ n hk0 (by
      rw [shape_kind (hshape0 n), shape_clocks (hshape0 n)]
      exact hc n (List.mem_cons_self _ _))
    obtain ⟨sub1, hsub1, hr1⟩ := round_of_firedLeaf (nodeFire_leaf hk0 h2)
    obtain ⟨st1, sub2, h3, hsub2, hr2⟩ := ih st2
      (fun m hm => hk m (List.mem_cons_of_mem _ hm))
      (fun m hm => hc m (List.mem_cons_of_mem _ hm))
      (fun m => (hr1.2.1 m).trans (hshape0 m))
    refine ⟨st1, sub1 ++ sub2, ?_, ?_, ?_⟩
    · simp only [List.foldlM_cons, h2]; exact h3
    · exact List.Sublist.append hsub1 hsub2
    · have := round_trans (round_trans hr0 hr1) hr2
      simpa using this

theorem round_modify_fired (g : Graph) (n : NodePtr) (f : Node → Node)
    (hshape : ∀ x, (f x).shape = x.shape) (hfired : ∀ x, (f x).nFired = x.nFired + 1) :
    Round [n] [] g (g.modify n f) := by
  refine ⟨rfl, fun m => ?_, fun m => ?_, by simp⟩
  · rw [modify_node]; split
    · rename_i h; subst h; exact hshape _
    · rfl
  · rw [modify_node]; split
    · rename_i h; subst h; simp [hfired]
    · rename_i h; simp [List.count_cons, Ne.symm h]

theorem round_notifyPreFire (g : Graph) (source : NodePtr) :
    Round [] [] g (Graph.notifyPreFire g source) :=
  ⟨rfl, fun _ => rfl, fun _ => by simp [Graph.notifyPreFire], by simp [Graph.notifyPreFire]⟩

theorem round_notifyPostFire (g : Graph) : Round [] [] g (Graph.notifyPostFire g) :=
  ⟨rfl, fun _ => rfl, fun _ => by simp [Graph.notifyPostFire], by simp [Graph.notifyPostFire]⟩

/-- One call of `SourceNode::fire` on a source whose firing order holds no source. -/
theorem sourceFire_round (env : Env) (g : Graph) (this : NodePtr) (fuel : Nat)
    (hS : (g.node this).kind = NodeKind.SourceNode)
    (hnosrc : ∀ n ∈ (g.node this).computeOrder_, (g.node n).kind ≠ NodeKind.SourceNode)
    (hclk : ∀ n ∈ (g.node this).computeOrder_, (g.node n).kind = NodeKind.ValueNode →
      ∃ c, (g.node n).clocks_ = [c]) :
    ∃ g1 sub, Node.fire env (fuel + 2) g this = Except.ok g1 ∧
      sub.Sublist (g.node this).computeOrder_ ∧
      Round (this :: (g.node this).computeOrder_) sub g g1 := by
  have e1 : Node.fire env (fuel + 2) g this =
      SourceNode.fire env (Node.fire env (fuel + 1)) g this := by
    rw [Node.fire]; simp only [hS]
  rw [e1]
  unfold SourceNode.fire
  simp only
  -- the state before the loop
  have r1 := round_modify_fired g this (fun x =>
    { x with nFired := x.nFired + 1, nComputed := x.nComputed + 1,
             nTicked := x.nTicked + 1, nTickedTrue := x.nTickedTrue + 1 })
    (fun _ => rfl) (fun _ => rfl)
  generalize g.modify this (fun x =>
    { x with nFired := x.nFired + 1, nComputed := x.nComputed + 1,
             nTicked := x.nTicked + 1, nTickedTrue := x.nTickedTrue + 1 }) = g1 at r1 ⊢
  have r2 : Round [] [] g1 (if env.debug = true then g1.nodes.foldl Node.reset g1 else g1) := by
    split
    · exact round_foldl_reset _ _
    · exact round_refl _
  generalize (if env.debug = true then g1.nodes.foldl Node.reset g1 else g1) = g2 at r2 ⊢
  have r3 := round_modify g2 this (fun x => { x with status_ := StatusCode.OK, ticked_ := true })
    (fun _ => rfl) (fun _ => rfl)
  generalize g2.modify this (fun x => { x with status_ := StatusCode.OK, ticked_ := true }) = g3
    at r3 ⊢
  have r4 := round_notifyPreFire g3 this
  generalize Graph.notifyPreFire g3 this = g4 at r4 ⊢
  have r04 : Round [this] [] g g4 := by
    have := round_trans (round_trans (round_trans r1 r2) r3) r4
    simpa using this
  have horder : (g4.node this).computeOrder_ = (g.node this).computeOrder_ :=
    shape_computeOrder (r04.2.1 this)
  rw [horder]
  obtain ⟨st1, sub, hloop, hsub, hr⟩ := sourceFire_loop env fuel g this
    (g.node this).computeOrder_ g4 hnosrc hclk r04.2.1
  rw [hloop]
  simp only
  have r5 := round_modify st1 this (fun x => { x with currentNode_ := none })
    (fun _ => rfl) (fun _ => rfl)
  generalize st1.modify this (fun x => { x with currentNode_ := none }) = g7 at r5 ⊢
  have r6 := round_notifyPostFire g7
  generalize Graph.notifyPostFire g7 = g8 at r6 ⊢
  have r08 : Round (this :: (g.node this).computeOrder_) sub g g8 := by
    have := round_trans (round_trans (round_trans r04 hr) r5) r6
    simpa using this
  split
  · exact ⟨g8, sub, rfl, hsub, r08⟩
  · refine ⟨_, sub, rfl, hsub, ?_⟩
    have := round_trans (round_trans r08 (round_foldl_reset (g8.node this).computeOrder_ g8))
      (round_reset _ this)
    simpa using this

/-- The diamond with clock nodes: S1 = 1 and S2 = 2 are clocked on the source 0, and
V = 3 has the two clocks S1 and S2, which both tick; V computes once. -/
theorem diamond_clock_nodes :
    ∃ g, runOps envOK 10 (Graph.init [0, 1, 2, 3] kindClk0)
        [Op.setClock 1 [0], Op.setClock 2 [0], Op.setClock 3 [1, 2]] = Except.ok g ∧
      (g.node 3).clocks_ = [1, 2] ∧
      ∃ g1, Node.fire envOK 2 g 0 = Except.ok g1 ∧ g1.computeCalls = [2, 1, 3] ∧
        (g1.node 1).ticked_ = true ∧ (g1.node 2).ticked_ = true ∧
        (g1.node 3).ticked_ = true :=
  ⟨_, rfl, rfl, _, rfl, rfl, rfl, rfl, rfl⟩

theorem modify_status (g : Graph) (n m : NodePtr) (f : Node → Node)
    (hf : ∀ x, (f x).status_ = x.status_) :
    ((g.modify n f).node m).status_ = (g.node m).status_ := by
  rw [modify_node]; split
  · rename_i h; subst h; exact hf _
  · rfl

theorem modify_ticked (g : Graph) (n m : NodePtr) (f : Node → Node)
    (hf : ∀ x, (f x).ticked_ = x.ticked_) :
    ((g.modify n f).node m).ticked_ = (g.node m).ticked_ := by
  rw [modify_node]; split
  · rename_i h; subst h; exact hf _
  · rfl

theorem valid_congr {g g1 : Graph} {n : NodePtr}
    (hs : (g1.node n).status_ = (g.node n).status_) : Node.valid g1 n = Node.valid g n := by
  unfold Node.valid
  rw [hs]

/-- `ValueNode::fire` when the clock ticked and the parents are valid: `compute()` runs,
with the ticked flag of the node already set. -/
theorem valueFire_compute {env : Env} {g : Graph} {n c : NodePtr}
    (hk : (g.node n).kind = NodeKind.ValueNode) (hc : (g.node n).clocks_ = [c])
    (ht : (g.node c).ticked_ = true) (hp : Node.parentsValid g n = true) :
    ∃ gX g1, ValueNode.fire env g n = Except.ok g1 ∧ FiredLeaf n g g1 ∧
      g1.computeCalls = g.computeCalls ++ [n] ∧ (gX.node n).ticked_ = true ∧
      (g1.node n).status_ = (env.compute n gX).status_ ∧
      (g1.node n).ticked_ = (env.compute n gX).ticked_ := by
  have hget : Node.getClock (g.modify n (fun x => { x with nFired := x.nFired + 1 })) n =
      Except.ok c := by
    simp [Node.getClock, hk, hc]
  have htick : ((g.modify n (fun x => { x with nFired := x.nFired + 1 })).node c).ticked_ =
      true := by
    refine (modify_ticked g n c _ ?_).trans ht
    intro x; rfl
  have hpv : Node.parentsValid ((g.modify n (fun x => { x with nFired := x.nFired + 1 })).modify n
      (fun x => { x with ticked_ := true, nTicked := x.nTicked + 1 })) n = true := by
    refine Eq.trans (parentsValid_congr (by simp) (fun m => ?_)) hp
    refine (modify_status _ n m _ ?_).trans (modify_status g n m _ ?_) <;> intro x <;> rfl
  have hkX : ((((g.modify n (fun x => { x with nFired := x.nFired + 1 })).modify n
      (fun x => { x with ticked_ := true, nTicked := x.nTicked + 1 })).modify n
      (fun x => { x with nComputed := x.nComputed + 1 })).node n).kind ≠
        NodeKind.SourceNode := by
    simp [hk]
  obtain ⟨g1, hg1⟩ := compute_total env _ n hkX
  have hfire : ValueNode.fire env g n = Except.ok g1 := by
    unfold ValueNode.fire
    simp only [hget, htick, hpv, if_true]
    exact hg1
  obtain ⟨_, _, _, _, _, c6, c7, c8⟩ := compute_leaf hg1
  refine ⟨_, g1, hfire, valueFire_leaf hfire, ?_, ?_, c7, c8⟩
  · rw [c6]; rfl
  · simp

/-- `ValueNode::fire` when the clock ticked and a parent is not valid: `compute()` does
not run, the node is ticked, and an `OK` status becomes `INVALID`. -/
theorem valueFire_gated {env : Env} {g : Graph} {n c : NodePtr}
    (hk : (g.node n).kind = NodeKind.ValueNode) (hc : (g.node n).clocks_ = [c])
    (ht : (g.node c).ticked_ = true) (hp : Node.parentsValid g n = false) :
    ∃ g1, ValueNode.fire env g n = Except.ok g1 ∧ FiredLeaf n g g1 ∧
      g1.computeCalls = g.computeCalls ∧ (g1.node n).ticked_ = true ∧
      (g1.node n).status_ =
        if (g.node n).status_ = StatusCode.OK then StatusCode.INVALID
        else (g.node n).status_ := by
  have hget : Node.getClock (g.modify n (fun x => { x with nFired := x.nFired + 1 })) n =
      Except.ok c := by
    simp [Node.getClock, hk, hc]
  have htick : ((g.modify n (fun x => { x with nFired := x.nFired + 1 })).node c).ticked_ =
      true := by
    refine (modify_ticked g n c _ ?_).trans ht
    intro x; rfl
  have hpv : Node.parentsValid ((g.modify n (fun x => { x with nFired := x.nFired + 1 })).modify n
      (fun x => { x with ticked_ := true, nTicked := x.nTicked + 1 })) n = false := by
    refine Eq.trans (parentsValid_congr (by simp) (fun m => ?_)) hp
    refine (modify_status _ n m _ ?_).trans (modify_status g n m _ ?_) <;> intro x <;> rfl
  have hval : Node.valid ((g.modify n (fun x => { x with nFired := x.nFired + 1 })).modify n
      (fun x => { x with ticked_ := true, nTicked := x.nTicked + 1 })) n = Node.valid g n :=
    valid_congr (by simp)
  by_cases hv : (g.node n).status_ = StatusCode.OK
  · have hv1 : Node.valid g n = true := by simp [Node.valid, hv]
    have hfire : ValueNode.fire env g n = Except.ok
        (((g.modify n (fun x => { x with nFired := x.nFired + 1 })).modify n
          (fun x => { x with ticked_ := true, nTicked := x.nTicked + 1 })).modify n
          (fun x => { x with status_ := StatusCode.INVALID })) := by
      unfold ValueNode.fire
      simp only [hget, htick, hpv, if_true, hval, hv1]
      rfl
    refine ⟨_, hfire, valueFire_leaf hfire, rfl, by simp, by simp [hv]⟩
  · have hv1 : Node.valid g n = false := by simp [Node.valid, hv]
    have hfire : ValueNode.fire env g n = Except.ok
        ((g.modify n (fun x => { x with nFired := x.nFired + 1 })).modify n
          (fun x => { x with ticked_ := true, nTicked := x.nTicked + 1 })) := by
      unfold ValueNode.fire
      simp only [hget, htick, hpv, if_true, hval, hv1]
      rfl
    refine ⟨_, hfire, valueFire_leaf hfire, rfl, by simp, by simp [hv]⟩

theorem sourceFire_eq (env : Env) (fireNode : Graph → NodePtr → Except Err Graph)
    (g : Graph) (this : NodePtr) :
    SourceNode.fire env fireNode g this =
      match ((SourceNode.preFire env g this).node this).computeOrder_.foldlM (fun g5 node =>
          fireNode (g5.modify this (fun x => { x with currentNode_ := some node })) node)
          (SourceNode.preFire env g this) with
      | Except.error e => Except.error e
      | Except.ok g6 => Except.ok (SourceNode.postFire env g6 this) := by
  unfold SourceNode.fire SourceNode.preFire SourceNode.postFire
  simp only
  split <;> rename_i h <;> (try simp only [h])
  cases env.debug <;> rfl

theorem foldl_reset_status (l : List NodePtr) (g : Graph) (m : NodePtr) :
    ((l.foldl Node.reset g).node m).status_ = (g.node m).status_ := by
  induction l generalizing g with
  | nil => rfl
  | cons a l ih =>
    rw [List.foldl_cons, ih]
    unfold Node.reset
    refine modify_status g a m _ ?_
    intro x; rfl

theorem preFire_round (env : Env) (g : Graph) (this : NodePtr) :
    Round [this] [] g (SourceNode.preFire env g this) := by
  unfold SourceNode.preFire
  simp only
  have r1 := round_modify_fired g this (fun x =>
    { x with nFired := x.nFired + 1, nComputed := x.nComputed + 1,
             nTicked := x.nTicked + 1, nTickedTrue := x.nTickedTrue + 1 })
    (fun _ => rfl) (fun _ => rfl)
  generalize g.modify this (fun x =>
    { x with nFired := x.nFired + 1, nComputed := x.nComputed + 1,
             nTicked := x.nTicked + 1, nTickedTrue := x.nTickedTrue + 1 }) = g1 at r1 ⊢
  have r2 : Round [] [] g1 (if env.debug = true then g1.nodes.foldl Node.reset g1 else g1) := by
    split
    · exact round_foldl_reset _ _
    · exact round_refl _
  generalize (if env.debug = true then g1.nodes.foldl Node.reset g1 else g1) = g2 at r2 ⊢
  have r3 := round_modify g2 this (fun x => { x with status_ := StatusCode.OK, ticked_ := true })
    (fun _ => rfl) (fun _ => rfl)
  have := round_trans (round_trans (round_trans r1 r2) r3) (round_notifyPreFire _ this)
  simpa using this

theorem preFire_ticked (env : Env) (g : Graph) (this : NodePtr) :
    ((SourceNode.preFire env g this).node this).ticked_ = true := by
  simp [SourceNode.preFire, Graph.notifyPreFire]

theorem preFire_status (env : Env) (g : Graph) (this m : NodePtr) (hm : m ≠ this) :
    ((SourceNode.preFire env g this).node m).status_ = (g.node m).status_ := by
  unfold SourceNode.preFire
  simp only [Graph.notifyPreFire]
  rw [modify_node_ne _ _ hm]
  split
  · rw [foldl_reset_status, modify_node_ne _ _ hm]
  · rw [modify_node_ne _ _ hm]

theorem postFire_debug (env : Env) (g6 : Graph) (this : NodePtr) (hd : env.debug = true) :
    (SourceNode.postFire env g6 this).computeCalls = g6.computeCalls ∧
    ∀ m, ((SourceNode.postFire env g6 this).node m).status_ = (g6.node m).status_ ∧
      ((SourceNode.postFire env g6 this).node m).ticked_ = (g6.node m).ticked_ ∧
      ((SourceNode.postFire env g6 this).node m).parents_ = (g6.node m).parents_ := by
  unfold SourceNode.postFire
  simp only [hd, if_true, Graph.notifyPostFire]
  refine ⟨rfl, fun m => ?_⟩
  rw [modify_node]
  split
  · rename_i h; subst h; exact ⟨rfl, rfl, rfl⟩
  · exact ⟨rfl, rfl, rfl⟩

theorem chain_parent {R : NodePtr → NodePtr → Prop} :
    ∀ (l : List NodePtr) (a : NodePtr), List.Chain R a l → ∀ x ∈ l, ∃ p ∈ a :: l, R p x := by
  intro l
  induction l with
  | nil => intro a _ x hx; simp at hx
  | cons b l ih =>
    intro a h x hx
    rw [List.chain_cons] at h
    rcases List.mem_cons.1 hx with hx | hx
    · subst hx
      exact ⟨a, List.mem_cons_self _ _, h.1⟩
    · obtain ⟨p, hp, hr⟩ := ih b h.2 x hx
      exact ⟨p, List.mem_cons_of_mem _ hp, hr⟩

theorem count_snoc (l : List NodePtr) (x y : NodePtr) :
    (l ++ [x]).count y = l.count y + if y = x then 1 else 0 := by
  rw [List.count_append, List.count_singleton']
  by_cases h : y = x
  · subst h; simp
  · simp [h, Ne.symm h]

theorem pruneInv_step (env : Env) (g : Graph) (A E n1 : NodePtr) (rest : List NodePtr)
    (fuel : Nat)
    (hdistinct : (A :: E :: n1 :: rest).Nodup)
    (hkind : ∀ n ∈ E :: n1 :: rest, (g.node n).kind = NodeKind.ValueNode)
    (hclock : ∀ n ∈ E :: n1 :: rest, (g.node n).clocks_ = [A])
    (hparE : (g.node E).parents_ = []) (hpar1 : (g.node n1).parents_ = [])
    (hchain : List.Chain (fun a b => (g.node b).parents_ = [a]) n1 rest)
    (hcomp1 : ∀ g1, (env.compute n1 g1).status_ = StatusCode.INVALID ∧
      ((g1.node n1).ticked_ = true → (env.compute n1 g1).ticked_ = true))
    (hcompE : ∀ g1, (g1.node E).ticked_ = true → (env.compute E g1).ticked_ = true)
    (d : List NodePtr) (x : NodePtr) (st st2 : Graph) (hx : x ∈ E :: n1 :: rest)
    (hP : PruneInv g A E n1 rest d st)
    (hfire : Node.fire env (fuel + 1)
      (st.modify A (fun y => { y with currentNode_ := some x })) x = Except.ok st2) :
    PruneInv g A E n1 rest (d ++ [x]) st2 := by
  obtain ⟨p1, p2, p3, p4, p5⟩ := hP
  have hnd := List.nodup_cons.1 hdistinct
  have hnd2 := List.nodup_cons.1 hnd.2
  have hnd3 := List.nodup_cons.1 hnd2.2
  have hxA : x ≠ A := fun h => hnd.1 (h ▸ hx)
  have hEchain : E ∉ n1 :: rest := hnd2.1
  have hn1rest : n1 ∉ rest := hnd3.1
  -- the state handed to `fire`
  have hr0 := round_modify st A (fun y => { y with currentNode_ := some x })
    (fun _ => rfl) (fun _ => rfl)
  have hst0 : ∀ m, ((st.modify A (fun y => { y with currentNode_ := some x })).node m).status_ =
      (st.node m).status_ := fun m => by
    refine modify_status st A m _ ?_
    intro y; rfl
  have htk0 : ∀ m, ((st.modify A (fun y => { y with currentNode_ := some x })).node m).ticked_ =
      (st.node m).ticked_ := fun m => by
    refine modify_ticked st A m _ ?_
    intro y; rfl
  generalize st.modify A (fun y => { y with currentNode_ := some x }) = st0 at hr0 hst0 htk0 hfire
  have hsh0 : ∀ m, (st0.node m).shape = (g.node m).shape := fun m => (hr0.2.1 m).trans (p1 m)
  have hcalls0 : st0.computeCalls = st.computeCalls := by simpa using hr0.2.2.2
  have hkx : (st0.node x).kind = NodeKind.ValueNode := by
    rw [shape_kind (hsh0 x)]; exact hkind x hx
  have hcx : (st0.node x).clocks_ = [A] := by
    rw [shape_clocks (hsh0 x)]; exact hclock x hx
  have htA : (st0.node A).ticked_ = true := by rw [htk0]; exact p2
  have hfire2 : ValueNode.fire env st0 x = Except.ok st2 := by
    rw [Node.fire] at hfire
    simpa only [hkx] using hfire
  have hleaf := valueFire_leaf hfire2
  obtain ⟨_, _, l3, l4, _, _⟩ := hleaf
  have hsh2 : ∀ m, (st2.node m).shape = (g.node m).shape := by
    intro m
    by_cases hm : m = x
    · subst hm; exact l4.trans (hsh0 _)
    · rw [l3 m hm]; exact hsh0 m
  have htA2 : (st2.node A).ticked_ = true := by
    rw [l3 A (Ne.symm hxA)]; exact htA
  by_cases hcase : x = n1 ∨ x = E
  · -- the node has no parent and computes
    have hpx : (g.node x).parents_ = [] := by
      rcases hcase with h | h
      · subst h; exact hpar1
      · subst h; exact hparE
    have hpv : Node.parentsValid st0 x = true := by
      simp [Node.parentsValid, shape_parents (hsh0 x), hpx]
    obtain ⟨gX, g1, hf, _, hc, htX, hsX, htkX⟩ := valueFire_compute hkx hcx htA hpv
    rw [hfire2] at hf
    cases hf
    refine ⟨hsh2, htA2, ?_, ?_, ?_⟩
    · intro n hn
      by_cases hm : n = x
      · subst hm
        have hn1 : n = n1 := by
          rcases hcase with h | h
          · exact h
          · exact absurd (h ▸ hn) hEchain
        subst hn1
        rw [hsX, (hcomp1 gX).1]
        decide
      · rw [l3 n hm, hst0]; exact p3 n hn
    · intro n hn
      by_cases hm : n = x
      · subst hm
        rw [htkX]
        rcases hcase with h | h
        · subst h; exact (hcomp1 gX).2 htX
        · subst h; exact hcompE gX htX
      · rcases List.mem_append.1 hn with hn | hn
        · rw [l3 n hm, htk0]; exact p4 n hn
        · exact absurd (List.mem_singleton.1 hn) hm
    · intro y
      rw [hc, hcalls0, count_snoc, count_snoc, p5 y]
      by_cases hy : y = n1 ∨ y = E
      · simp only [hy, if_true]; omega
      · have hyx : y ≠ x := by
          intro h
          subst h
          exact hy hcase
        simp [hy, hyx]
  · -- the node is in the tail of the chain and its parent is not valid
    have hxrest : x ∈ rest := by
      simp only [List.mem_cons] at hx
      tauto
    obtain ⟨p, hp, hpar⟩ := chain_parent rest n1 hchain x hxrest
    have hpv : Node.parentsValid st0 x = false := by
      have : (st0.node p).status_ ≠ StatusCode.OK := by rw [hst0]; exact p3 p hp
      simp [Node.parentsValid, shape_parents (hsh0 x), hpar, Node.valid, this]
    obtain ⟨g1, hf, _, hc, htkX, hsX⟩ := @valueFire_gated env _ _ _ hkx hcx htA hpv
    rw [hfire2] at hf
    cases hf
    have hxst : (st0.node x).status_ ≠ StatusCode.OK := by
      rw [hst0]; exact p3 x (List.mem_cons_of_mem _ hxrest)
    refine ⟨hsh2, htA2, ?_, ?_, ?_⟩
    · intro n hn
      by_cases hm : n = x
      · subst hm
        rw [hsX, if_neg hxst]; exact hxst
      · rw [l3 n hm, hst0]; exact p3 n hn
    · intro n hn
      by_cases hm : n = x
      · subst hm; exact htkX
      · rcases List.mem_append.1 hn with hn | hn
        · rw [l3 n hm, htk0]; exact p4 n hn
        · exact absurd (List.mem_singleton.1 hn) hm
    · intro y
      rw [hc, hcalls0, count_snoc, p5 y]
      by_cases hy : y = n1 ∨ y = E
      · have hyx : y ≠ x := by
          intro h
          subst h
          exact hcase hy
        simp [hy, hyx]
      · simp [hy]

/-- C5: a source `A`, a chain `n1 :: rest` of value nodes clocked on `A` in which every
node has its predecessor as only parent, all in status `INIT`, and an independent value
node `E` clocked on `A`. If the compute body of `n1` sets `INVALID`, one `A.fire()` of a
debug build calls `compute()` once on `n1`, never on the rest of the chain and once on
`E`; afterwards no node of the chain is valid, the nodes of `rest` have invalid parents,
`E` has valid parents, and all of them are ticked. -/
theorem compute_pruning (env : Env) (g : Graph) (A E n1 : NodePtr) (rest : List NodePtr)
    (fuel : Nat) (hdebug : env.debug = true)
    (hA : (g.node A).kind = NodeKind.SourceNode)
    (hdistinct : (A :: E :: n1 :: rest).Nodup)
    (hkind : ∀ n ∈ E :: n1 :: rest, (g.node n).kind = NodeKind.ValueNode)
    (hclock : ∀ n ∈ E :: n1 :: rest, (g.node n).clocks_ = [A])
    (hparE : (g.node E).parents_ = []) (hpar1 : (g.node n1).parents_ = [])
    (hchain : List.Chain (fun a b => (g.node b).parents_ = [a]) n1 rest)
    (hinit : ∀ n ∈ E :: n1 :: rest, (g.node n).status_ = StatusCode.INIT)
    (horder : (g.node A).computeOrder_.Perm (E :: n1 :: rest))
    (hcomp1 : ∀ g1, (env.compute n1 g1).status_ = StatusCode.INVALID ∧
      ((g1.node n1).ticked_ = true → (env.compute n1 g1).ticked_ = true))
    (hcompE : ∀ g1, (g1.node E).ticked_ = true → (env.compute E g1).ticked_ = true) :
    ∃ g1, Node.fire env (fuel + 2) g A = Except.ok g1 ∧
      g1.computeCalls.count n1 = g.computeCalls.count n1 + 1 ∧
      (∀ n ∈ rest, g1.computeCalls.count n = g.computeCalls.count n) ∧
      g1.computeCalls.count E = g.computeCalls.count E + 1 ∧
      (∀ n ∈ n1 :: rest, Node.valid g1 n = false) ∧
      (∀ n ∈ rest, Node.parentsValid g1 n = false) ∧
      Node.parentsValid g1 E = true ∧
      (∀ n ∈ E :: n1 :: rest, (g1.node n).ticked_ = true) := by
  have hnd := List.nodup_cons.1 hdistinct
  have hnd2 := List.nodup_cons.1 hnd.2
  have hnd3 := List.nodup_cons.1 hnd2.2
  have hmem : ∀ n, n ∈ (g.node A).computeOrder_ ↔ n ∈ E :: n1 :: rest := fun n => horder.mem_iff
  have e1 : Node.fire env (fuel + 2) g A =
      SourceNode.fire env (Node.fire env (fuel + 1)) g A := by
    rw [Node.fire]; simp only [hA]
  rw [e1, sourceFire_eq]
  have r4 := preFire_round env g A
  have htA := preFire_ticked env g A
  have hst4 := preFire_status env g A
  generalize SourceNode.preFire env g A = g4 at r4 htA hst4 ⊢
  rw [shape_computeOrder (r4.2.1 A)]
  obtain ⟨st1, sub, hloop, _, _⟩ := sourceFire_loop env fuel g A (g.node A).computeOrder_ g4
    (fun n hn => by rw [hkind n ((hmem n).1 hn)]; decide)
    (fun n hn _ => ⟨A, hclock n ((hmem n).1 hn)⟩) r4.2.1
  have hP0 : PruneInv g A E n1 rest [] g4 := by
    refine ⟨r4.2.1, htA, fun n hn => ?_, by simp, fun x => ?_⟩
    · have hnA : n ≠ A := fun h => hnd.1 (h ▸ List.mem_cons_of_mem _ hn)
      rw [hst4 n hnA, hinit n (List.mem_cons_of_mem _ hn)]
      decide
    · rw [r4.2.2.2]; simp
  have hP := foldlM_ok_prefix (PruneInv g A E n1 rest) _ (g.node A).computeOrder_ [] g4 st1
    (fun x hx d st st2 hd hf =>
      pruneInv_step env g A E n1 rest fuel hdistinct hkind hclock hparE hpar1 hchain hcomp1
        hcompE d x st st2 ((hmem x).1 hx) hd hf)
    hP0 hloop
  rw [List.nil_append] at hP
  obtain ⟨p1, _, p3, p4, p5⟩ := hP
  obtain ⟨q1, q2⟩ := postFire_debug env st1 A hdebug
  rw [hloop]
  refine ⟨_, rfl, ?_, ?_, ?_, ?_, ?_, ?_, ?_⟩
  · rw [q1, p5, if_pos (Or.inl rfl), horder.count_eq,
      List.count_eq_one_of_mem hnd.2 (List.mem_cons_of_mem _ (List.mem_cons_self _ _))]
  · intro n hn
    have h1 : n ≠ n1 := fun h => hnd3.1 (h ▸ hn)
    have h2 : n ≠ E := fun h => hnd2.1 (h ▸ List.mem_cons_of_mem _ hn)
    rw [q1, p5]
    simp [h1, h2]
  · rw [q1, p5, if_pos (Or.inr rfl), horder.count_eq,
      List.count_eq_one_of_mem hnd.2 (List.mem_cons_self _ _)]
  · intro n hn
    simp [Node.valid, (q2 n).1, p3 n hn]
  · intro n hn
    obtain ⟨p, hp, hpar⟩ := chain_parent rest n1 hchain n hn
    simp [Node.parentsValid, (q2 n).2.2, shape_parents (p1 n), hpar, Node.valid, (q2 p).1,
      p3 p hp]
  · simp [Node.parentsValid, (q2 E).2.2, shape_parents (p1 E), hparE]
  · intro n hn
    rw [(q2 n).2.1]
    exact p4 n ((hmem n).2 hn)

/-- The graph of the test `compute_pruning`: chain 1, 2, 3 and independent node 4. -/
theorem compute_pruning_witness :
    ∃ g, runOps envPrune 10 (Graph.init [0, 1, 2, 3, 4] kindSrc0)
        [Op.setClock 1 [0], Op.setParent 2 1, Op.setClock 2 [0], Op.setParent 3 2,
          Op.setClock 3 [0], Op.setClock 4 [0]] = Except.ok g ∧
      (g.node 0).computeOrder_ = [4, 1, 2, 3] ∧
      (∃ g1, Node.fire envPrune 2 g 0 = Except.ok g1 ∧ g1.computeCalls = [4, 1]) ∧
      ∃ g1, Node.fire envPrune 2 g 0 = Except.ok g1 ∧
        g1.computeCalls.count 1 = g.computeCalls.count 1 + 1 ∧
        (∀ n ∈ [2, 3], g1.computeCalls.count n = g.computeCalls.count n) ∧
        g1.computeCalls.count 4 = g.computeCalls.count 4 + 1 ∧
        (∀ n ∈ [1, 2, 3], Node.valid g1 n = false) ∧
        (∀ n ∈ [2, 3], Node.parentsValid g1 n = false) ∧
        Node.parentsValid g1 4 = true ∧
        (∀ n ∈ [4, 1, 2, 3], (g1.node n).ticked_ = true) :=
  ⟨_, rfl, rfl, ⟨_, rfl, rfl⟩,
    compute_pruning envPrune _ 0 4 1 [2, 3] 0 rfl (by decide) (by decide) (by decide)
      (by decide) rfl rfl (List.Chain.cons rfl (List.Chain.cons rfl List.Chain.nil))
      (by decide) (List.Perm.refl _)
      (fun _ => ⟨rfl, fun h => h⟩) (fun _ h => h)⟩

/-! ## Memoized construction -/

theorem add_cached (w : World) (this : GraphPtr) (type : Nat) (args : List Nat)
    (item : NodePtr) (h : w.lookup ⟨type, this, args⟩ = some item) :
    w.add this type args = (w.modifyGraph this (addBookkeeping type item), item) := by
  unfold World.lookup at h
  cases hf : w.cache.find? (fun e => decide (e.1 = ⟨type, this, args⟩)) with
  | none => rw [hf] at h; cases h
  | some e =>
    rw [hf] at h
    simp only [Option.map_some', Option.some.injEq] at h
    subst h
    simp only [World.add, memoize, hf]
    rfl

theorem add_fresh (w : World) (this : GraphPtr) (type : Nat) (args : List Nat)
    (h : w.lookup ⟨type, this, args⟩ = none) :
    w.add this type args =
      ({ graphs := Function.update w.graphs this
            ((w.graphs this).map (fun g => addBookkeeping type w.next (g.registerNode w.next))),
         cache := (⟨type, this, args⟩, w.next) :: w.cache,
         created := w.created ++ [⟨type, this, args⟩],
         next := w.next + 1 }, w.next) := by
  unfold World.lookup at h
  have hf : w.cache.find? (fun e => decide (e.1 = ⟨type, this, args⟩)) = none := by
    cases hf : w.cache.find? (fun e => decide (e.1 = ⟨type, this, args⟩)) with
    | none => rfl
    | some e => rw [hf] at h; cases h
  simp only [World.add, memoize, hf, World.create, World.modifyGraph, Function.update_same,
    Function.update_idem, Option.map_map]
  rfl

theorem lookup_cons (w : World) (key key1 : MemoKey) (n : NodePtr) (c : List (MemoKey × NodePtr))
    (hc : w.cache = (key1, n) :: c) :
    w.lookup key = if key1 = key then some n
      else (c.find? (fun e => decide (e.1 = key))).map Prod.snd := by
  unfold World.lookup
  rw [hc, List.find?_cons]
  by_cases h : key1 = key
  · simp [h]
  · simp [h]

theorem lookup_mem {w : World} {key : MemoKey} {n : NodePtr} (h : w.lookup key = some n) :
    (key, n) ∈ w.cache := by
  unfold World.lookup at h
  cases hf : w.cache.find? (fun e => decide (e.1 = key)) with
  | none => rw [hf] at h; cases h
  | some e =>
    rw [hf] at h
    simp only [Option.map_some', Option.some.injEq] at h
    have h1 := List.find?_some hf
    have h2 := List.mem_of_find?_eq_some hf
    simp only [decide_eq_true_eq] at h1
    obtain ⟨k, m⟩ := e
    simp only at h1 h
    subst h1; subst h
    exact h2

theorem lookup_none {w : World} {key : MemoKey} (h : w.lookup key = none) :
    ∀ e ∈ w.cache, e.1 ≠ key := by
  unfold World.lookup at h
  intro e he
  cases hf : w.cache.find? (fun e => decide (e.1 = key)) with
  | none =>
    have := List.find?_eq_none.1 hf e he
    simpa using this
  | some e1 => rw [hf] at h; cases h

/-- A call of `add` returns the instance that the cache holds for the key afterwards, and
keeps every instance that was cached before. -/
theorem add_lookup (w : World) (this : GraphPtr) (type : Nat) (args : List Nat) :
    (w.add this type args).1.lookup ⟨type, this, args⟩ = some (w.add this type args).2 ∧
    ∀ key n, w.lookup key = some n → (w.add this type args).1.lookup key = some n := by
  cases h : w.lookup ⟨type, this, args⟩ with
  | some item =>
    rw [add_cached w this type args item h]
    exact ⟨h, fun key n hk => hk⟩
  | none =>
    rw [add_fresh w this type args h]
    refine ⟨?_, fun key n hk => ?_⟩
    · simp [World.lookup]
    · have hne : (⟨type, this, args⟩ : MemoKey) ≠ key := by
        intro he
        rw [he] at h
        rw [h] at hk
        cases hk
      rw [lookup_cons _ key ⟨type, this, args⟩ w.next w.cache rfl, if_neg hne]
      exact hk

/-- A call of `add` invokes the create function only when the cache has no instance for
the key. -/
theorem add_created (w : World) (this : GraphPtr) (type : Nat) (args : List Nat) :
    (w.add this type args).1.created =
      if (w.lookup ⟨type, this, args⟩).isSome then w.created
      else w.created ++ [⟨type, this, args⟩] := by
  cases h : w.lookup ⟨type, this, args⟩ with
  | some item => rw [add_cached w this type args item h]; rfl
  | none => rw [add_fresh w this type args h]; rfl

theorem addBookkeeping_nodes (type : Nat) (item : NodePtr) (g : Graph) :
    (addBookkeeping type item g).nodes = g.nodes := by
  unfold addBookkeeping Graph.addToConstructOrder
  split <;> rfl

theorem addBookkeeping_cleanup (type : Nat) (item : NodePtr) (g : Graph) (t : Nat) :
    t ∈ (addBookkeeping type item g).cleanup_funs ↔ t = type ∨ t ∈ g.cleanup_funs := by
  unfold addBookkeeping
  simp

theorem addBookkeeping_order (type : Nat) (item : NodePtr) (g : Graph) :
    (addBookkeeping type item g).constructOrder_ =
      if item ∈ g.constructOrder_ then g.constructOrder_ else g.constructOrder_ ++ [item] := by
  unfold addBookkeeping Graph.addToConstructOrder
  split <;> rfl

theorem addBookkeeping_nodup (type : Nat) (item : NodePtr) (g : Graph)
    (h : g.constructOrder_.Nodup) : (addBookkeeping type item g).constructOrder_.Nodup := by
  rw [addBookkeeping_order]
  split
  · exact h
  · rename_i hn
    exact List.Nodup.append h (List.nodup_singleton _) (by simpa using hn)

theorem addBookkeeping_mem (type : Nat) (item : NodePtr) (g : Graph) (n : NodePtr) :
    n ∈ (addBookkeeping type item g).constructOrder_ ↔ n = item ∨ n ∈ g.constructOrder_ := by
  rw [addBookkeeping_order]
  split
  · rename_i h
    constructor
    · exact Or.inr
    · rintro (h1 | h1)
      · subst h1; exact h
      · exact h1
  · simp only [List.mem_append, List.mem_singleton]; tauto

theorem registerNode_nodes (g : Graph) (item n : NodePtr) :
    n ∈ (g.registerNode item).nodes ↔ n = item ∨ n ∈ g.nodes := by
  simp [Graph.registerNode]

/-- The graphs after a call of `add` on a live graph: only the graph of the call changes;
it gains the returned instance as a registered node (if it was created by the call) and
as an entry of the construction order, and the cleanup function of the type. -/
theorem add_graphs (w : World) (this : GraphPtr) (type : Nat) (args : List Nat) (G : Graph)
    (hG : w.graphs this = some G) :
    (∀ g, g ≠ this → (w.add this type args).1.graphs g = w.graphs g) ∧
    ∃ G1, (w.add this type args).1.graphs this = some G1 ∧
      (∀ n, n ∈ G1.nodes ↔ n ∈ G.nodes ∨
        (n = (w.add this type args).2 ∧ w.lookup ⟨type, this, args⟩ = none)) ∧
      (∀ n, n ∈ G1.constructOrder_ ↔ n = (w.add this type args).2 ∨ n ∈ G.constructOrder_) ∧
      (G.constructOrder_.Nodup → G1.constructOrder_.Nodup) ∧
      (∀ t, t ∈ G1.cleanup_funs ↔ t = type ∨ t ∈ G.cleanup_funs) := by
  cases h : w.lookup ⟨type, this, args⟩ with
  | some item =>
    rw [add_cached w this type args item h]
    refine ⟨fun g hg => ?_, addBookkeeping type item G, ?_, ?_, ?_, ?_, ?_⟩
    · simp [World.modifyGraph, Function.update_noteq hg]
    · simp [World.modifyGraph, hG]
    · intro n; rw [addBookkeeping_nodes]; simp
    · exact addBookkeeping_mem type item G
    · exact addBookkeeping_nodup type item G
    · exact addBookkeeping_cleanup type item G
  | none =>
    rw [add_fresh w this type args h]
    refine ⟨fun g hg => ?_, addBookkeeping type w.next (G.registerNode w.next), ?_, ?_, ?_, ?_,
      ?_⟩
    · simp [Function.update_noteq hg]
    · simp [hG]
    · intro n; rw [addBookkeeping_nodes, registerNode_nodes]; simp; tauto
    · exact addBookkeeping_mem type w.next (G.registerNode w.next)
    · exact addBookkeeping_nodup type w.next (G.registerNode w.next)
    · exact addBookkeeping_cleanup type w.next (G.registerNode w.next)

theorem add_cache (w : World) (this : GraphPtr) (type : Nat) (args : List Nat) :
    (∀ e, e ∈ (w.add this type args).1.cache ↔
      e ∈ w.cache ∨ (e = (⟨type, this, args⟩, (w.add this type args).2) ∧
        w.lookup ⟨type, this, args⟩ = none)) ∧
    (w.lookup ⟨type, this, args⟩ = none → (w.add this type args).2 = w.next) ∧
    w.next ≤ (w.add this type args).1.next ∧
    (w.lookup ⟨type, this, args⟩ = none → (w.add this type args).1.next = w.next + 1) := by
  cases h : w.lookup ⟨type, this, args⟩ with
  | some item =>
    rw [add_cached w this type args item h]
    exact ⟨fun e => (by simp [World.modifyGraph]), fun h1 => (by cases h1), le_refl _,
      fun h1 => (by cases h1)⟩
  | none =>
    rw [add_fresh w this type args h]
    exact ⟨fun e => (by simp; tauto), fun _ => rfl, Nat.le_succ _, fun _ => rfl⟩

theorem wf_add (w : World) (this : GraphPtr) (type : Nat) (args : List Nat) (hw : w.WF)
    (hlive : (w.graphs this).isSome = true) : (w.add this type args).1.WF := by
  obtain ⟨G, hG⟩ := Option.isSome_iff_exists.1 hlive
  obtain ⟨w1, w2, w3⟩ := hw
  obtain ⟨hother, G1, hG1, hnodes, horder, hnodup, hclean⟩ := add_graphs w this type args G hG
  obtain ⟨hcache, hitem, hnext, hnext1⟩ := add_cache w this type args
  refine ⟨?_, ?_, ?_⟩
  · intro e he
    rcases (hcache e).1 he with he | ⟨he, hnone⟩
    · obtain ⟨G0, hG0, hn, ht⟩ := w1 e he
      by_cases hg : e.1.graph = this
      · rw [hg] at hG0 ⊢
        rw [hG] at hG0
        cases hG0
        exact ⟨G1, hG1, (hnodes _).2 (Or.inl hn), (hclean _).2 (Or.inr ht)⟩
      · exact ⟨G0, by rw [hother _ hg]; exact hG0, hn, ht⟩
    · subst he
      exact ⟨G1, hG1, (hnodes _).2 (Or.inr ⟨rfl, hnone⟩), (hclean _).2 (Or.inl rfl)⟩
  · intro g G0 hG0
    by_cases hg : g = this
    · subst hg
      rw [hG1] at hG0
      cases hG0
      refine ⟨hnodup (w2 g G hG).1, fun n hn => ?_⟩
      rcases (hnodes n).1 hn with hn | ⟨hn, hnone⟩
      · exact lt_of_lt_of_le ((w2 g G hG).2 n hn) hnext
      · rw [hn, hitem hnone, hnext1 hnone]; exact Nat.lt_succ_self _
    · rw [hother g hg] at hG0
      exact ⟨(w2 g G0 hG0).1, fun n hn => lt_of_lt_of_le ((w2 g G0 hG0).2 n hn) hnext⟩
  · intro g g1 Ga Gb hne hGa hGb n hn
    by_cases hg : g = this
    · subst hg
      rw [hG1] at hGa
      cases hGa
      rw [hother g1 (Ne.symm hne)] at hGb
      rcases (hnodes n).1 hn with hn | ⟨hn, hnone⟩
      · exact w3 g g1 G Gb hne hG hGb n hn
      · intro hcontra
        have := (w2 g1 Gb hGb).2 n hcontra
        rw [hn, hitem hnone] at this
        exact lt_irrefl _ this
    · rw [hother g hg] at hGa
      by_cases hg1 : g1 = this
      · subst hg1
        rw [hG1] at hGb
        cases hGb
        intro hcontra
        rcases (hnodes n).1 hcontra with h1 | ⟨h1, hnone⟩
        · exact w3 g g1 Ga G hne hGa hG n hn h1
        · have := (w2 g Ga hGa).2 n hn
          rw [h1, hitem hnone] at this
          exact lt_irrefl _ this
      · rw [hother g1 hg1] at hGb
        exact w3 g g1 Ga Gb hne hGa hGb n hn

theorem wf_newGraph (w : World) (this : GraphPtr) (hw : w.WF)
    (hfree : w.graphs this = none) : (w.newGraph this).WF := by
  obtain ⟨w1, w2, w3⟩ := hw
  have hnew : ∀ g G, (w.newGraph this).graphs g = some G →
      (g = this ∧ G = Graph.new) ∨ (g ≠ this ∧ w.graphs g = some G) := by
    intro g G hG
    by_cases hg : g = this
    · subst hg
      simp [World.newGraph] at hG
      exact Or.inl ⟨rfl, hG.symm⟩
    · simp [World.newGraph, Function.update_noteq hg] at hG
      exact Or.inr ⟨hg, hG⟩
  refine ⟨?_, ?_, ?_⟩
  · intro e he
    obtain ⟨G0, hG0, hn, ht⟩ := w1 e he
    have hg : e.1.graph ≠ this := by
      intro h
      rw [h, hfree] at hG0
      cases hG0
    exact ⟨G0, by simp [World.newGraph, Function.update_noteq hg, hG0], hn, ht⟩
  · intro g G hG
    rcases hnew g G hG with ⟨_, h⟩ | ⟨_, h⟩
    · subst h
      exact ⟨List.nodup_nil, fun n hn => by simp [Graph.new, Graph.init, toSet, insertRange] at hn⟩
    · exact w2 g G h
  · intro g g1 Ga Gb hne hGa hGb n hn
    rcases hnew g Ga hGa with ⟨_, h⟩ | ⟨_, h⟩
    · subst h
      simp [Graph.new, Graph.init, toSet, insertRange] at hn
    · rcases hnew g1 Gb hGb with ⟨_, h1⟩ | ⟨_, h1⟩
      · subst h1
        simp [Graph.new, Graph.init, toSet, insertRange]
      · exact w3 g g1 Ga Gb hne h h1 n hn

theorem foldl_memoize_clear (l : List Nat) (w : World) :
    (l.foldl memoize_clear w).graphs = w.graphs ∧
    (l.foldl memoize_clear w).next = w.next ∧
    (l.foldl memoize_clear w).created = w.created ∧
    ∀ e, e ∈ (l.foldl memoize_clear w).cache ↔ e ∈ w.cache ∧ e.1.type ∉ l := by
  induction l generalizing w with
  | nil => simp
  | cons t l ih =>
    obtain ⟨h1, h2, h3, h4⟩ := ih (memoize_clear w t)
    refine ⟨h1, h2, h3, fun e => ?_⟩
    rw [List.foldl_cons, h4]
    simp [memoize_clear]
    tauto

theorem destroy_spec (w : World) (this : GraphPtr) (G : Graph) (hG : w.graphs this = some G) :
    (w.destroy this).graphs = Function.update w.graphs this none ∧
    (w.destroy this).next = w.next ∧ (w.destroy this).created = w.created ∧
    ∀ e, e ∈ (w.destroy this).cache ↔ e ∈ w.cache ∧ e.1.type ∉ G.cleanup_funs := by
  obtain ⟨_, h2, h3, h4⟩ := foldl_memoize_clear G.cleanup_funs w
  unfold World.destroy
  rw [hG]
  exact ⟨rfl, h2, h3, h4⟩

theorem wf_destroy (w : World) (this : GraphPtr) (hw : w.WF)
    (hlive : (w.graphs this).isSome = true) : (w.destroy this).WF := by
  obtain ⟨G, hG⟩ := Option.isSome_iff_exists.1 hlive
  obtain ⟨w1, w2, w3⟩ := hw
  obtain ⟨d1, d2, _, d4⟩ := destroy_spec w this G hG
  have hsub : ∀ g G0, (w.destroy this).graphs g = some G0 → g ≠ this ∧ w.graphs g = some G0 := by
    intro g G0 h
    rw [d1] at h
    by_cases hg : g = this
    · subst hg; simp at h
    · rw [Function.update_noteq hg] at h; exact ⟨hg, h⟩
  refine ⟨?_, ?_, ?_⟩
  · intro e he
    obtain ⟨hec, het⟩ := (d4 e).1 he
    obtain ⟨G0, hG0, hn, ht⟩ := w1 e hec
    have hg : e.1.graph ≠ this := by
      intro h
      rw [h, hG] at hG0
      cases hG0
      exact het ht
    exact ⟨G0, by rw [d1, Function.update_noteq hg]; exact hG0, hn, ht⟩
  · intro g G0 h
    rw [d2]
    exact w2 g G0 (hsub g G0 h).2
  · intro g g1 Ga Gb hne hGa hGb
    exact w3 g g1 Ga Gb hne (hsub g Ga hGa).2 (hsub g1 Gb hGb).2

theorem wf_step (w w1 : World) (op : MemoOp) (hw : w.WF) (h : w.step op = some w1) :
    w1.WF := by
  cases op with
  | newGraph this =>
    simp only [World.step] at h
    split at h
    · cases h
    · rename_i hfree
      cases h
      exact wf_newGraph w this hw (by simpa using hfree)
  | add this type args =>
    simp only [World.step] at h
    split at h
    · rename_i hlive
      cases h
      exact wf_add w this type args hw hlive
    · cases h
  | destroy this =>
    simp only [World.step] at h
    split at h
    · rename_i hlive
      cases h
      exact wf_destroy w this hw hlive
    · cases h

/-- An invariant of the events is an invariant of a sequence of events. -/
theorem run_inv (P : World → Prop) :
    ∀ (ops : List MemoOp) (w w1 : World),
      (∀ op ∈ ops, ∀ s s1, P s → s.step op = some s1 → P s1) →
      P w → w.run ops = some w1 → P w1 := by
  intro ops
  induction ops with
  | nil =>
    intro w w1 _ h0 h
    simp only [World.run, List.foldlM_nil] at h
    cases h
    exact h0
  | cons op ops ih =>
    intro w w1 hstep h0 h
    simp only [World.run, List.foldlM_cons] at h
    cases hs : w.step op with
    | none => rw [hs] at h; cases h
    | some s =>
      rw [hs] at h
      exact ih s w1 (fun o ho => hstep o (List.mem_cons_of_mem _ ho))
        (hstep op (List.mem_cons_self _ _) w s h0 hs) h

theorem wf_empty : World.empty.WF :=
  ⟨fun e he => by simp [World.empty] at he, fun g G h => by simp [World.empty] at h,
    fun g g1 G G1 _ h => by simp [World.empty] at h⟩

theorem wf_of_reachable {w : World} (h : w.Reachable) : w.WF := by
  obtain ⟨ops, hops⟩ := h
  exact run_inv World.WF ops World.empty w (fun op _ s s1 hs hst => wf_step s s1 op hs hst)
    wf_empty hops

theorem memoized_first (w : World) (this : GraphPtr) (type : Nat) (args : List Nat)
    (hw : w.WF) (hlive : (w.graphs this).isSome = true) :
    Memoized ⟨type, this, args⟩ (w.add this type args).2
      ((w.add this type args).1.created.count ⟨type, this, args⟩) (w.add this type args).1 := by
  obtain ⟨G, hG⟩ := Option.isSome_iff_exists.1 hlive
  obtain ⟨_, G1, hG1, hnodes, horder, _, _⟩ := add_graphs w this type args G hG
  refine ⟨wf_add w this type args hw hlive, (add_lookup w this type args).1, rfl, G1, hG1, ?_,
    (horder _).2 (Or.inl rfl)⟩
  cases h : w.lookup ⟨type, this, args⟩ with
  | some item =>
    obtain ⟨G0, hG0, hn, _⟩ := hw.1 _ (lookup_mem h)
    simp only at hG0 hn
    rw [hG] at hG0
    cases hG0
    rw [add_cached w this type args item h]
    rw [add_cached w this type args item h] at hnodes
    exact (hnodes _).2 (Or.inl hn)
  | none => exact (hnodes _).2 (Or.inr ⟨rfl, h⟩)

theorem lookup_eq_none {w : World} {key : MemoKey} (h : ∀ e ∈ w.cache, e.1 ≠ key) :
    w.lookup key = none := by
  unfold World.lookup
  rw [Option.map_eq_none', List.find?_eq_none]
  intro e he
  simpa using h e he

/-- C7: a call `add<T>(x)` on a graph `g2` never returns a node of another live graph
`g1`: the instance is registered in `g2`, and the instances that two live graphs return
for the same type and arguments differ. After the destruction of `g1`, a graph
constructed at any free address (the address of `g1` included) gets from `add<T>(x)` a
newly constructed node: the create function runs once more and the node is no node of
any graph that existed before. -/
theorem no_cross_graph_sharing (w : World) (g1 g2 : GraphPtr) (type : Nat) (args : List Nat)
    (hreach : w.Reachable) (hlive1 : (w.graphs g1).isSome = true) :
    ((w.graphs g2).isSome = true → g1 ≠ g2 →
      (∀ G1, (w.add g2 type args).1.graphs g1 = some G1 →
        (w.add g2 type args).2 ∉ G1.nodes) ∧
      (∃ G2, (w.add g2 type args).1.graphs g2 = some G2 ∧
        (w.add g2 type args).2 ∈ G2.nodes) ∧
      ((w.add g1 type args).1.add g2 type args).2 ≠ (w.add g1 type args).2) ∧
    ((w.destroy g1).graphs g2 = none →
      (((w.destroy g1).newGraph g2).add g2 type args).2 = w.next ∧
      (∀ g G, w.graphs g = some G →
        (((w.destroy g1).newGraph g2).add g2 type args).2 ∉ G.nodes) ∧
      (((w.destroy g1).newGraph g2).add g2 type args).1.created.count ⟨type, g2, args⟩ =
        w.created.count ⟨type, g2, args⟩ + 1) := by
  have hw := wf_of_reachable hreach
  constructor
  · intro hlive2 hne
    have hm := memoized_first w g2 type args hw hlive2
    obtain ⟨hw2, _, _, G2, hG2, hn2, _⟩ := hm
    simp only at hG2
    refine ⟨fun G1 hG1 hcontra => ?_, ⟨G2, hG2, hn2⟩, ?_⟩
    · exact hw2.2.2 g2 g1 G2 G1 (Ne.symm hne) hG2 hG1 _ hn2 hcontra
    · -- the two instances are registered in different graphs
      have hmA := memoized_first w g1 type args hw hlive1
      obtain ⟨hwA, _, _, GA, hGA, hnA, _⟩ := hmA
      simp only at hGA
      have hlive2A : ((w.add g1 type args).1.graphs g2).isSome = true := by
        obtain ⟨G0, hG0⟩ := Option.isSome_iff_exists.1 hlive1
        rw [(add_graphs w g1 type args G0 hG0).1 g2 (Ne.symm hne)]
        exact hlive2
      have hmB := memoized_first (w.add g1 type args).1 g2 type args hwA hlive2A
      obtain ⟨hwB, _, _, GB, hGB, hnB, _⟩ := hmB
      simp only at hGB
      obtain ⟨G0, hG0⟩ := Option.isSome_iff_exists.1 hlive2A
      have hGA2 : ((w.add g1 type args).1.add g2 type args).1.graphs g1 = some GA := by
        rw [(add_graphs (w.add g1 type args).1 g2 type args G0 hG0).1 g1 hne]
        exact hGA
      intro heq
      rw [heq] at hnB
      exact hwB.2.2 g1 g2 GA GB hne hGA2 hGB _ hnA hnB
  · intro hfree
    have hw1 := wf_destroy w g1 hw hlive1
    obtain ⟨G, hG⟩ := Option.isSome_iff_exists.1 hlive1
    obtain ⟨_, d2, d3, _⟩ := destroy_spec w g1 G hG
    have hnone : ((w.destroy g1).newGraph g2).lookup ⟨type, g2, args⟩ = none := by
      refine lookup_eq_none (fun e he hek => ?_)
      obtain ⟨G0, hG0, _⟩ := hw1.1 e he
      rw [hek] at hG0
      simp only at hG0
      rw [hfree] at hG0
      cases hG0
    rw [add_fresh _ g2 type args hnone]
    refine ⟨d2, fun g G0 hG0 hcontra => ?_, ?_⟩
    · have := (hw.2.1 g G0 hG0).2 _ hcontra
      simp only [World.newGraph] at this
      rw [d2] at this
      exact lt_irrefl _ this
    · simp only [World.newGraph]
      rw [d3, List.count_append, List.count_singleton']
      simp

/-- The scenario of `test_clear_cache` (a second graph at the address of the destroyed
one) and the scenario of the test `multiple_graphs` (two live graphs). -/
theorem no_cross_graph_sharing_witness :
    ((World.empty.newGraph 7).add 7 5 []).1.Reachable ∧
    (((World.empty.newGraph 7).add 7 5 []).1.newGraph 8).Reachable ∧
    -- the second graph is constructed at the address of the destroyed one
    (((((World.empty.newGraph 7).add 7 5 []).1.destroy 7).newGraph 7).add 7 5 []).2 = 1 ∧
    (((((World.empty.newGraph 7).add 7 5 []).1.destroy 7).newGraph 7).add 7 5 []).1.created.count
      ⟨5, 7, []⟩ = 2 ∧
    -- two graphs alive at the same time
    (((((World.empty.newGraph 7).add 7 5 []).1.newGraph 8).add 7 5 []).1.add 8 5 []).2 ≠
      ((((World.empty.newGraph 7).add 7 5 []).1.newGraph 8).add 7 5 []).2 :=
  ⟨⟨[MemoOp.newGraph 7, MemoOp.add 7 5 []], rfl⟩,
    ⟨[MemoOp.newGraph 7, MemoOp.add 7 5 [], MemoOp.newGraph 8], rfl⟩,
    ((no_cross_graph_sharing ((World.empty.newGraph 7).add 7 5 []).1 7 7 5 []
      ⟨[MemoOp.newGraph 7, MemoOp.add 7 5 []], rfl⟩ rfl).2 rfl).1,
    by decide,
    ((no_cross_graph_sharing (((World.empty.newGraph 7).add 7 5 []).1.newGraph 8) 7 8 5 []
      ⟨[MemoOp.newGraph 7, MemoOp.add 7 5 [], MemoOp.newGraph 8], rfl⟩ rfl).1 rfl
        (by decide)).2.2⟩

/-! ## Cycle search and validation -/

theorem hasCycleUtil_succ (g : Graph) (fuel : Nat) (node : NodePtr)
    (visited recursed : List NodePtr) :
    Graph.hasCycleUtil g (fuel + 1) node (visited, recursed) =
      if node ∉ visited then
        match hasCycleLoop (Graph.hasCycleUtil g fuel) (g.node node).children_
            (insertSet node visited, insertSet node recursed) with
        | Except.error e => Except.error e
        | Except.ok (true, st1) => Except.ok (true, st1)
        | Except.ok (false, (visited1, recursed1)) =>
          Except.ok (false, (visited1, eraseSet node recursed1))
      else Except.ok (false, (visited, recursed)) := by
  rfl

theorem hasCycleLoop_cons
    (recurse : NodePtr → List NodePtr × List NodePtr →
      Except Err (Bool × List NodePtr × List NodePtr))
    (child : NodePtr) (rest visited recursed : List NodePtr) :
    hasCycleLoop recurse (child :: rest) (visited, recursed) =
      if child ∉ visited then
        match recurse child (visited, recursed) with
        | Except.error e => Except.error e
        | Except.ok (true, st1) => Except.ok (true, st1)
        | Except.ok (false, st1) => hasCycleLoop recurse rest st1
      else if child ∈ recursed then Except.ok (true, (visited, recursed))
      else hasCycleLoop recurse rest (visited, recursed) := by
  rfl

/-- From a finished node only finished nodes are reachable. -/
theorem cycInv_reach {g : Graph} {st : List NodePtr × List NodePtr} (h : CycInv g st)
    {u v : NodePtr} (hu : u ∈ st.1 ∧ u ∉ st.2) (huv : Relation.ReflTransGen g.Child u v) :
    v ∈ st.1 ∧ v ∉ st.2 := by
  induction huv with
  | refl => exact hu
  | tail _ hyz ih => exact (h.2 _ ih.1 ih.2).1 _ hyz

/-- The loop of `hasCycleUtil` over the children of a node in progress, given the
behaviour of the recursive calls. -/
theorem hasCycleLoop_spec (g : Graph) (nodes : List NodePtr) (fuel : Nat) (node : NodePtr)
    (ih : ∀ (c : NodePtr) (st : List NodePtr × List NodePtr),
      c ∈ nodes → unvisited nodes st.1 < fuel → CycInv g st →
      (∀ x ∈ st.2, Relation.ReflTransGen g.Child x c) →
      ∃ b st1, Graph.hasCycleUtil g fuel c st = Except.ok (b, st1) ∧
        (b = true → ∃ n ∈ nodes, Relation.TransGen g.Child n n) ∧
        (b = false → CycPost g st st1 ∧ c ∈ st1.1)) :
    ∀ (cs : List NodePtr) (st : List NodePtr × List NodePtr),
      (∀ c ∈ cs, c ∈ nodes ∧ g.Child node c) → unvisited nodes st.1 < fuel → CycInv g st →
      (∀ x ∈ st.2, Relation.ReflTransGen g.Child x node) →
      ∃ b st1, hasCycleLoop (Graph.hasCycleUtil g fuel) cs st = Except.ok (b, st1) ∧
        (b = true → ∃ n ∈ nodes, Relation.TransGen g.Child n n) ∧
        (b = false → CycPost g st st1 ∧ ∀ c ∈ cs, c ∈ st1.1 ∧ c ∉ st1.2) := by
  intro cs
  induction cs with
  | nil =>
    intro st _ _ hinv _
    exact ⟨false, st, rfl, fun h => (by cases h),
      fun _ => ⟨⟨hinv, fun _ hx => hx, fun _ => Iff.rfl⟩, fun c hc => (by simp at hc)⟩⟩
  | cons c cs ihc =>
    intro st hcs hfuel hinv hgray
    obtain ⟨visited, recursed⟩ := st
    have hc := hcs c (List.mem_cons_self _ _)
    have hcs1 : ∀ c1 ∈ cs, c1 ∈ nodes ∧ g.Child node c1 :=
      fun c1 h1 => hcs c1 (List.mem_cons_of_mem _ h1)
    rw [hasCycleLoop_cons]
    by_cases hv : c ∈ visited
    · simp only [hv, not_true_eq_false, if_false]
      by_cases hr : c ∈ recursed
      · simp only [hr, if_true]
        refine ⟨true, (visited, recursed), rfl, fun _ => ⟨c, hc.1, ?_⟩, fun h => (by cases h)⟩
        exact Relation.TransGen.tail' (hgray c hr) hc.2
      · simp only [hr, if_false]
        obtain ⟨b, st1, h1, ht, hf⟩ := ihc (visited, recursed) hcs1 hfuel hinv hgray
        refine ⟨b, st1, h1, ht, fun hb => ?_⟩
        obtain ⟨hpost, hall⟩ := hf hb
        refine ⟨hpost, fun c1 hc1 => ?_⟩
        rcases List.mem_cons.1 hc1 with h | h
        · subst h
          exact ⟨hpost.2.1 _ hv, fun h2 => hr ((hpost.2.2 _).1 h2)⟩
        · exact hall c1 h
    · simp only [hv, not_false_eq_true, if_true]
      obtain ⟨b, st1, h1, ht, hf⟩ := ih c (visited, recursed) hc.1 hfuel hinv
        (fun x hx => (hgray x hx).tail hc.2)
      rw [h1]
      cases b with
      | true => exact ⟨true, st1, rfl, fun _ => ht rfl, fun h => (by cases h)⟩
      | false =>
        obtain ⟨hpost1, hc1⟩ := hf rfl
        simp only
        have hfuel1 : unvisited nodes st1.1 < fuel :=
          lt_of_le_of_lt (unvisited_mono nodes hpost1.2.1) hfuel
        obtain ⟨b2, st2, h2, ht2, hf2⟩ := ihc st1 hcs1 hfuel1 hpost1.1
          (fun x hx => hgray x ((hpost1.2.2 x).1 hx))
        refine ⟨b2, st2, h2, ht2, fun hb => ?_⟩
        obtain ⟨hpost2, hall⟩ := hf2 hb
        refine ⟨⟨hpost2.1, fun x hx => hpost2.2.1 x (hpost1.2.1 x hx),
          fun x => (hpost2.2.2 x).trans (hpost1.2.2 x)⟩, fun c1 hc2 => ?_⟩
        rcases List.mem_cons.1 hc2 with h | h
        · subst h
          refine ⟨hpost2.2.1 _ hc1, fun h3 => ?_⟩
          have := (hpost1.2.2 _).1 ((hpost2.2.2 _).1 h3)
          exact hv (hinv.1 _ this)
        · exact hall c1 h

/-- `Graph::hasCycleUtil` on a finite graph: it returns, a result `true` comes with a
cycle, and a result `false` leaves the invariant in place with the node visited and the
set of nodes in progress as before. -/
theorem hasCycleUtil_spec (g : Graph) (nodes : List NodePtr)
    (hclosed : ∀ n ∈ nodes, ∀ c, g.Child n c → c ∈ nodes) :
    ∀ (fuel : Nat) (node : NodePtr) (st : List NodePtr × List NodePtr),
      node ∈ nodes → unvisited nodes st.1 < fuel → CycInv g st →
      (∀ x ∈ st.2, Relation.ReflTransGen g.Child x node) →
      ∃ b st1, Graph.hasCycleUtil g fuel node st = Except.ok (b, st1) ∧
        (b = true → ∃ n ∈ nodes, Relation.TransGen g.Child n n) ∧
        (b = false → CycPost g st st1 ∧ node ∈ st1.1) := by
  intro fuel
  induction fuel with
  | zero => intro node st _ h; omega
  | succ fuel ih =>
    intro node st hnode hfuel hinv hgray
    obtain ⟨visited, recursed⟩ := st
    rw [hasCycleUtil_succ]
    by_cases hv : node ∈ visited
    · simp only [hv, not_true_eq_false, if_false]
      exact ⟨false, (visited, recursed), rfl, fun h => (by cases h),
        fun _ => ⟨⟨hinv, fun _ hx => hx, fun _ => Iff.rfl⟩, hv⟩⟩
    · simp only [hv, not_false_eq_true, if_true]
      have hnr : node ∉ recursed := fun h => hv (hinv.1 _ h)
      have hinv0 : CycInv g (insertSet node visited, insertSet node recursed) := by
        refine ⟨fun x hx => ?_, fun u hu hur => ?_⟩
        · simp only [mem_insertSet] at hx ⊢
          rcases hx with h | h
          · exact Or.inl h
          · exact Or.inr (hinv.1 _ h)
        · simp only [mem_insertSet, not_or] at hu hur
          have huv : u ∈ visited := by tauto
          obtain ⟨hch, hcyc⟩ := hinv.2 u huv hur.2
          refine ⟨fun v hv1 => ?_, hcyc⟩
          obtain ⟨h1, h2⟩ := hch v hv1
          simp only [mem_insertSet, not_or]
          exact ⟨Or.inr h1, fun h => hv (h ▸ h1), h2⟩
      have hfuel0 : unvisited nodes (insertSet node visited) < fuel := by
        have := unvisited_insert hnode hv
        simp only at hfuel
        omega
      have hgray0 : ∀ x ∈ insertSet node recursed, Relation.ReflTransGen g.Child x node := by
        intro x hx
        rcases (mem_insertSet x node recursed).1 hx with h | h
        · subst h; exact Relation.ReflTransGen.refl
        · exact hgray x h
      obtain ⟨b, st1, h1, ht, hf⟩ := hasCycleLoop_spec g nodes fuel node ih
        (g.node node).children_ (insertSet node visited, insertSet node recursed)
        (fun c hc => ⟨hclosed node hnode c hc, hc⟩) hfuel0 hinv0 hgray0
      rw [h1]
      cases b with
      | true => exact ⟨true, st1, rfl, fun _ => ht rfl, fun h => (by cases h)⟩
      | false =>
        obtain ⟨visited1, recursed1⟩ := st1
        obtain ⟨⟨hinv1, hmono, hrec⟩, hall⟩ := hf rfl
        simp only at hmono hrec hall
        refine ⟨false, (visited1, eraseSet node recursed1), rfl, fun h => (by cases h),
          fun _ => ⟨⟨⟨fun x hx => ?_, fun u hu hur => ?_⟩, fun x hx => ?_, fun x => ?_⟩, ?_⟩⟩
        · exact hinv1.1 x ((mem_eraseSet x node recursed1).1 hx).1
        · simp only [mem_eraseSet, not_and, not_not] at hur
          simp only at hu
          by_cases hun : u = node
          · -- the node that has just been finished
            subst hun
            have hblack : ∀ v, g.Child u v → v ∈ visited1 ∧ v ∉ recursed1 :=
              fun v hv1 => hall v hv1
            refine ⟨fun v hv1 => ⟨(hblack v hv1).1, fun h => (hblack v hv1).2
              ((mem_eraseSet v u recursed1).1 h).1⟩, fun hcyc => ?_⟩
            obtain ⟨c, hc, hreach⟩ := Relation.TransGen.head'_iff.1 hcyc
            have := cycInv_reach hinv1 (hblack c hc) hreach
            exact this.2 ((hrec u).2 (by simp))
          · have hur1 : u ∉ recursed1 := fun h => hun (hur h)
            obtain ⟨hch, hcyc⟩ := hinv1.2 u hu hur1
            exact ⟨fun v hv1 => ⟨(hch v hv1).1, fun h => (hch v hv1).2
              ((mem_eraseSet v node recursed1).1 h).1⟩, hcyc⟩
        · exact hmono x (by simp [hx])
        · simp only [mem_eraseSet, hrec, mem_insertSet]
          constructor
          · rintro ⟨h | h, hne⟩
            · exact absurd h hne
            · exact h
          · intro h
            exact ⟨Or.inr h, fun hx => hnr (hx ▸ h)⟩
        · exact hmono node (by simp)

/-- The loop of `Graph::isCyclic` over start nodes, on a state without nodes in
progress. -/
theorem isCyclicLoop_spec (g : Graph) (nodes : List NodePtr) (fuel : Nat)
    (hclosed : ∀ n ∈ nodes, ∀ c, g.Child n c → c ∈ nodes) (hfuel : nodes.length < fuel) :
    ∀ (roots : List NodePtr) (st : List NodePtr × List NodePtr),
      (∀ r ∈ roots, r ∈ nodes) → CycInv g st → (∀ x, x ∉ st.2) →
      ∃ b, isCyclicLoop g fuel roots st = Except.ok b ∧
        (b = true → ∃ n ∈ nodes, Relation.TransGen g.Child n n) ∧
        (b = false → ∀ r ∈ roots, ¬ Relation.TransGen g.Child r r) := by
  intro roots
  induction roots with
  | nil =>
    intro st _ _ _
    exact ⟨false, rfl, fun h => (by cases h), fun _ r hr => (by simp at hr)⟩
  | cons r roots ih =>
    intro st hroots hinv hempty
    obtain ⟨b, st1, h1, ht, hf⟩ := hasCycleUtil_spec g nodes hclosed fuel r st
      (hroots r (List.mem_cons_self _ _))
      (lt_of_le_of_lt (unvisited_le_length _ _) hfuel) hinv
      (fun x hx => absurd hx (hempty x))
    unfold isCyclicLoop
    rw [h1]
    cases b with
    | true => exact ⟨true, rfl, fun _ => ht rfl, fun h => (by cases h)⟩
    | false =>
      obtain ⟨⟨hinv1, _, hrec⟩, hr1⟩ := hf rfl
      have hempty1 : ∀ x, x ∉ st1.2 := fun x hx => hempty x ((hrec x).1 hx)
      obtain ⟨b2, h2, ht2, hf2⟩ := ih st1
        (fun r1 h => hroots r1 (List.mem_cons_of_mem _ h)) hinv1 hempty1
      refine ⟨b2, h2, ht2, fun hb r1 hr2 => ?_⟩
      rcases List.mem_cons.1 hr2 with h | h
      · subst h
        exact (hinv1.2 r1 hr1 (hempty1 r1)).2
      · exact hf2 hb r1 h

/-- The loop of `Graph::isCyclic`, started on any list that holds the registered
nodes, returns true if and only if a registered node lies on a dependency cycle. -/
theorem isCyclicLoop_decides (g : Graph) (fuel : Nat)
    (hclosed : ∀ n ∈ g.nodes, ∀ c ∈ (g.node n).children_, c ∈ g.nodes)
    (hfuel : g.nodes.length < fuel) (rs : List NodePtr) (hrs : ∀ x, x ∈ rs ↔ x ∈ g.nodes) :
    ∃ b, isCyclicLoop g fuel rs ([], []) = Except.ok b ∧
      (b = true ↔ ∃ n ∈ g.nodes, Relation.TransGen g.Child n n) := by
  have hinv0 : CycInv g ([], []) :=
    ⟨fun x hx => (by simp at hx), fun u hu => (by simp at hu)⟩
  obtain ⟨b, h1, ht, hf⟩ := isCyclicLoop_spec g g.nodes fuel hclosed hfuel rs ([], [])
    (fun r hr => (hrs r).1 hr) hinv0 (fun x hx => (by simp at hx))
  refine ⟨b, h1, ht, fun ⟨n, hn, hcyc⟩ => ?_⟩
  cases b with
  | true => rfl
  | false => exact absurd hcyc (hf rfl n ((hrs n).2 hn))

/-- C9: on a finite graph `Graph::isCyclic` returns, and it returns true if and only if
some registered node lies on a cycle of dependency (parent to child) edges, a self-loop
included; the same holds for every order in which the loop visits the nodes. -/
theorem isCyclic_iff (g : Graph) (fuel : Nat) (roots : List NodePtr)
    (hclosed : ∀ n ∈ g.nodes, ∀ c ∈ (g.node n).children_, c ∈ g.nodes)
    (hfuel : g.nodes.length < fuel) (hroots : ∀ x, x ∈ roots ↔ x ∈ g.nodes) :
    (∃ b, g.isCyclic fuel = Except.ok b ∧
      (b = true ↔ ∃ n ∈ g.nodes, Relation.TransGen g.Child n n)) ∧
    ∃ b, isCyclicLoop g fuel roots ([], []) = Except.ok b ∧
      (b = true ↔ ∃ n ∈ g.nodes, Relation.TransGen g.Child n n) :=
  ⟨isCyclicLoop_decides g fuel hclosed hfuel g.nodes (fun _ => Iff.rfl),
    isCyclicLoop_decides g fuel hclosed hfuel roots hroots⟩

/-- The acyclic graph of `test_topological_sort`, visited in two orders, and a node that
is its own parent. -/
theorem isCyclic_iff_witness :
    (∀ n ∈ topoTestGraph.nodes, ∀ c ∈ (topoTestGraph.node n).children_,
      c ∈ topoTestGraph.nodes) ∧
    topoTestGraph.isCyclic 8 = Except.ok false ∧
    isCyclicLoop topoTestGraph 8 [6, 5, 4, 3, 2, 1, 0] ([], []) = Except.ok false ∧
    (∃ g, runOps envOK 3 (Graph.init [0, 1] kindSrc0) [Op.setParent 1 1] = Except.ok g ∧
      g.isCyclic 3 = Except.ok true) ∧
    (∃ b, topoTestGraph.isCyclic 8 = Except.ok b ∧
      (b = true ↔ ∃ n ∈ topoTestGraph.nodes, Relation.TransGen topoTestGraph.Child n n)) ∧
    ∃ b, isCyclicLoop topoTestGraph 8 [6, 5, 4, 3, 2, 1, 0] ([], []) = Except.ok b ∧
      (b = true ↔ ∃ n ∈ topoTestGraph.nodes, Relation.TransGen topoTestGraph.Child n n) :=
  ⟨by decide, rfl, rfl, ⟨_, rfl, rfl⟩,
    isCyclic_iff topoTestGraph 8 [6, 5, 4, 3, 2, 1, 0] (by decide) (by decide)
      (fun x => by simp [topoTestGraph]; tauto)⟩

/-- The outcome of `Graph::valid` on a graph with mirrored edges. -/
theorem valid_of_symmetric (g : Graph) (fuel : Nat)
    (hclosed : ∀ n ∈ g.nodes, ∀ c ∈ (g.node n).children_, c ∈ g.nodes)
    (hfuel : g.nodes.length < fuel) (hsym : EdgeSymmetry g) :
    (g.valid fuel = Except.ok false ↔ ∃ n ∈ g.nodes, Relation.TransGen g.Child n n) ∧
    (g.valid fuel = Except.ok true ↔ ¬ ∃ n ∈ g.nodes, Relation.TransGen g.Child n n) := by
  obtain ⟨b, hb, hiff⟩ : ∃ b, g.isCyclic fuel = Except.ok b ∧
      (b = true ↔ ∃ n ∈ g.nodes, Relation.TransGen g.Child n n) :=
    isCyclicLoop_decides g fuel hclosed hfuel g.nodes (fun _ => Iff.rfl)
  have hs := edgeSymmetry_hasSymmetricEdges hsym
  unfold Graph.valid
  rw [hb]
  cases b with
  | true =>
    have hc := hiff.1 rfl
    show ((Except.ok false : Except Err Bool) = Except.ok false ↔ _) ∧
      ((Except.ok false : Except Err Bool) = Except.ok true ↔ _)
    exact ⟨⟨fun _ => hc, fun _ => rfl⟩, ⟨fun h => (by cases h), fun h => absurd hc h⟩⟩
  | false =>
    have hc : ¬ ∃ n ∈ g.nodes, Relation.TransGen g.Child n n := fun h => by
      have := hiff.2 h
      cases this
    show (g.hasSymmetricEdges = Except.ok false ↔ _) ∧ (g.hasSymmetricEdges = Except.ok true ↔ _)
    rw [hs]
    exact ⟨⟨fun h => (by cases h), fun h => absurd h hc⟩, ⟨fun _ => hc, fun _ => rfl⟩⟩

/-- C8 (amended): on a configuration built by `setParent` and `setClock` in which a node
is reachable from itself through trigger edges, `Graph::valid` terminates and looks at
dependency edges only: it returns false exactly when the dependency edges contain a
cycle, and true when they contain none. -/
theorem valid_checks_dependency_edges_only (env : Env) (fuel0 fuel : Nat) (g0 g : Graph)
    (ops : List Op) (hfresh : g0.NoEdges) (hrun : runOps env fuel0 g0 ops = Except.ok g)
    (hclosed : ∀ n ∈ g.nodes, ∀ c ∈ (g.node n).children_, c ∈ g.nodes)
    (hfuel : g.nodes.length < fuel) (_htrig : ∃ n, Relation.TransGen g.Trigger n n) :
    (g.valid fuel = Except.ok false ↔ ∃ n ∈ g.nodes, Relation.TransGen g.Child n n) ∧
    (g.valid fuel = Except.ok true ↔ ¬ ∃ n ∈ g.nodes, Relation.TransGen g.Child n n) :=
  valid_of_symmetric g fuel hclosed hfuel
    (runOps_edgeSymmetry (edgeSymmetry_of_noEdges hfresh) hrun)

/-- A source and a clock node that are each other's clock: a trigger cycle without any
dependency edge. -/
theorem valid_checks_dependency_edges_only_witness :
    (Graph.init [0, 1] kindClk0).NoEdges ∧
    ∃ g, runOps envOK 10 (Graph.init [0, 1] kindClk0)
        [Op.setClock 1 [0], Op.setClock 0 [1]] = Except.ok g ∧
      (∃ n, Relation.TransGen g.Trigger n n) ∧
      ((g.valid 3 = Except.ok false ↔ ∃ n ∈ g.nodes, Relation.TransGen g.Child n n) ∧
        (g.valid 3 = Except.ok true ↔ ¬ ∃ n ∈ g.nodes, Relation.TransGen g.Child n n)) :=
  ⟨fun _ => ⟨rfl, rfl, rfl, rfl⟩, _, rfl,
    ⟨0, Relation.TransGen.head (b := 1) (by decide) (Relation.TransGen.single (by decide))⟩,
    valid_checks_dependency_edges_only envOK 10 3 (Graph.init [0, 1] kindClk0) _
      [Op.setClock 1 [0], Op.setClock 0 [1]] (fun _ => ⟨rfl, rfl, rfl, rfl⟩) rfl (by decide)
      (by decide)
      ⟨0, Relation.TransGen.head (b := 1) (by decide) (Relation.TransGen.single (by decide))⟩⟩

/-- A source 0 and a clock node 1 that are each other's clock: construction terminates,
node 0 is reachable from itself through trigger edges, and `Graph::valid` returns
true. -/
theorem cycle_rejection_counterexample :
    ∃ g, runOps envOK 10 (Graph.init [0, 1] kindClk0)
        [Op.setClock 1 [0], Op.setClock 0 [1]] = Except.ok g ∧
      (g.node 0).callbacks_ = [1] ∧ (g.node 1).callbacks_ = [0] ∧
      g.valid 3 = Except.ok true :=
  ⟨_, rfl, rfl, rfl, rfl⟩

/-- The notification of `Node::treeUpdated` never returns on two nodes that are each
other's only clock and are no sources. -/
theorem treeUpdated_clock_cycle (env : Env) (g : Graph) (a b : NodePtr)
    (ha : (g.node a).kind ≠ NodeKind.SourceNode) (hb : (g.node b).kind ≠ NodeKind.SourceNode)
    (hca : (g.node a).clocks_ = [b]) (hcb : (g.node b).clocks_ = [a]) :
    ∀ fuel, Node.treeUpdated env fuel g a = Except.error Err.fuel ∧
      Node.treeUpdated env fuel g b = Except.error Err.fuel := by
  intro fuel
  induction fuel with
  | zero => exact ⟨rfl, rfl⟩
  | succ fuel ih =>
    constructor
    · rw [Node.treeUpdated]
      split
      · rename_i h; exact absurd h ha
      · rw [hca, List.foldlM_cons, ih.2]; rfl
    · rw [Node.treeUpdated]
      split
      · rename_i h; exact absurd h hb
      · rw [hcb, List.foldlM_cons, ih.1]; rfl

/-- The example of the claim, two clock nodes 0 and 1 with `setClock` on each other: the
second call does not return, whatever the recursion budget. -/
theorem clock_cycle_never_returns (fuel : Nat) :
    runOps envOK fuel (Graph.init [0, 1] kindClk) [Op.setClock 0 [1], Op.setClock 1 [0]] =
      Except.error Err.fuel := by
  rcases fuel with _ | _ | f
  · rfl
  · rfl
  · have h1 : Op.run envOK (f + 2) (Graph.init [0, 1] kindClk) (Op.setClock 0 [1]) =
        Except.ok (linkClock (Graph.init [0, 1] kindClk) 0 1) := rfl
    have h2 : Op.run envOK (f + 2) (linkClock (Graph.init [0, 1] kindClk) 0 1)
        (Op.setClock 1 [0]) =
        Node.treeUpdated envOK (f + 2)
          (linkClock (linkClock (Graph.init [0, 1] kindClk) 0 1) 1 0) 1 := rfl
    have h3 := (treeUpdated_clock_cycle envOK
      (linkClock (linkClock (Graph.init [0, 1] kindClk) 0 1) 1 0) 0 1
      (by decide) (by decide) rfl rfl (f + 2)).2
    simp only [runOps, List.foldlM_cons, h1]
    show (Op.run envOK (f + 2) (linkClock (Graph.init [0, 1] kindClk) 0 1)
      (Op.setClock 1 [0]) >>= fun g => List.foldlM (Op.run envOK (f + 2)) g []) =
        Except.error Err.fuel
    rw [h2, h3]
    rfl

/-! ## Content of the firing order -/

/-- A complete traversal that returns lists each reachable node once. -/
theorem traversal_ok {g : Graph} {all : Bool} {fuel : Nat} {root : NodePtr}
    {v po : List NodePtr}
    (h : applyDepthFirstImpl g all (appendNode none) fuel root ([], []) = Except.ok (v, po)) :
    po.Nodup ∧ ∀ x, x ∈ po ↔ Relation.ReflTransGen (DfsEdge g all) root x := by
  obtain ⟨⟨new, e1, nd1, m1, f1, re1, c1⟩, hr⟩ := applyDepthFirstImpl_step g all fuel root _ _ h
  simp only [List.nil_append, List.not_mem_nil, false_or] at e1 m1
  subst e1
  refine ⟨nd1, fun x => ⟨fun hx => ?_, fun hx => ?_⟩⟩
  · obtain ⟨r, hr1, hreach⟩ := re1 x hx
    rw [List.mem_singleton] at hr1
    subst hr1
    exact hreach
  · induction hx with
    | refl => exact (m1 root).1 hr
    | tail _ hyz ih => exact (m1 _).1 (c1 _ ih _ hyz)

/-- A traversal with any visitor that returns: its result is the fold of the visitor
over the emission list. -/
theorem traversal_func {σ : Type} (g : Graph) (all : Bool) (func : NodePtr → σ → σ)
    (args0 : σ) (fuel : Nat) (root : NodePtr) (v : List NodePtr) (a : σ)
    (h : applyDepthFirstImpl g all func fuel root ([], args0) = Except.ok (v, a)) :
    ∃ po, applyDepthFirstImpl g all (appendNode none) fuel root ([], []) = Except.ok (v, po) ∧
      a = po.foldl (fun a n => func n a) args0 := by
  have := applyDepthFirstImpl_func g all func args0 fuel root [] []
  simp only [List.foldl_nil] at this
  rw [this] at h
  cases hh : applyDepthFirstImpl g all (appendNode none) fuel root ([], []) with
  | error e => rw [hh] at h; cases h
  | ok p =>
    rw [hh] at h
    obtain ⟨v1, po⟩ := p
    simp only [Except.map] at h
    cases h
    exact ⟨po, rfl, rfl⟩

theorem foldl_insertSet_mem (l s : List NodePtr) (x : NodePtr) :
    x ∈ l.foldl (fun a n => insertSet n a) s ↔ x ∈ s ∨ x ∈ l :=
  mem_insertRange x l s

theorem foldl_appendNode (s : List NodePtr) (l acc : List NodePtr) :
    l.foldl (fun a n => appendNode (some s) n a) acc =
      acc ++ l.filter (fun n => decide (n ∈ s)) := by
  induction l generalizing acc with
  | nil => simp
  | cons b l ih =>
    rw [List.foldl_cons, ih, List.filter_cons]
    unfold appendNode
    by_cases hb : b ∈ s
    · simp [hb]
    · simp [hb]

theorem trigger_le_edge {g : Graph} {a b : NodePtr}
    (h : Relation.ReflTransGen g.Trigger a b) : Relation.ReflTransGen g.Edge a b :=
  Relation.ReflTransGen.mono (fun _ _ h1 => Or.inl h1) h

/-- `SourceNode::treeUpdated`, when it returns, stores a current firing order and changes
nothing else. -/
theorem sourceTreeUpdated_fresh {env : Env} {fuel : Nat} {g g1 : Graph} {this : NodePtr}
    (h : SourceNode.treeUpdated env fuel g this = Except.ok g1) :
    ∃ l, g1 = g.modify this (fun x => { x with computeOrder_ := l }) ∧ l.Nodup ∧
      ∀ x, x ∈ l ↔ (Relation.ReflTransGen g.Trigger this x ∧ x ≠ this) := by
  unfold SourceNode.treeUpdated at h
  split at h
  · cases h
  · rename_i callbacks hcb
    split at h
    · cases h
    · rename_i fullSort hsort
      split at h
      · cases h
      · cases h
        -- the set of the nodes reachable through callbacks
        unfold addAllCallbacks traverseCallbacks at hcb
        split at hcb
        · cases hcb
        · rename_i v1 a1 hdfs1
          cases hcb
          obtain ⟨po1, hpo1, ha1⟩ := traversal_func g false insertSet [] fuel this v1 _ hdfs1
          obtain ⟨_, hmem1⟩ := traversal_ok hpo1
          rw [dfsEdge_false] at hmem1
          -- the filtered topological order
          unfold topological_sort traverseChildren at hsort
          split at hsort
          · cases hsort
          · rename_i order hord
            cases hsort
            split at hord
            · cases hord
            · rename_i v2 a2 hdfs2
              cases hord
              obtain ⟨po2, hpo2, ha2⟩ := traversal_func g true (appendNode (some callbacks)) []
                fuel this v2 _ hdfs2
              obtain ⟨hnd2, hmem2⟩ := traversal_ok hpo2
              rw [dfsEdge_true] at hmem2
              rw [foldl_appendNode, List.nil_append] at ha2
              refine ⟨_, rfl, ?_, fun x => ?_⟩
              · rw [ha2]
                exact (List.nodup_reverse.2 (hnd2.filter _)).filter _
              · rw [ha2]
                simp only [List.mem_filter, List.mem_reverse, decide_eq_true_eq, hmem2, ha1,
                  foldl_insertSet_mem, List.not_mem_nil, false_or, hmem1]
                constructor
                · rintro ⟨⟨_, h2⟩, h3⟩
                  exact ⟨h2, h3⟩
                · rintro ⟨h2, h3⟩
                  exact ⟨⟨trigger_le_edge h2, h2⟩, h3⟩

theorem trigger_of_sameEdges {g g1 : Graph} (h : SameEdges g g1) : g1.Trigger = g.Trigger := by
  funext u v
  simp only [Graph.Trigger, (h.2 u).2.2.1]

theorem freshOrder_of_sameEdges {g g1 : Graph} {S : NodePtr} (h : SameEdges g g1)
    (ho : (g1.node S).computeOrder_ = (g.node S).computeOrder_) (hf : FreshOrder g S) :
    FreshOrder g1 S := by
  unfold FreshOrder
  rw [ho, trigger_of_sameEdges h]
  exact hf

theorem upstream_of_sameEdges {g g1 : Graph} {n S : NodePtr} (h : SameEdges g g1)
    (hu : Upstream g n S) : Upstream g1 n S := by
  unfold Upstream at hu ⊢
  refine Relation.ReflTransGen.mono (fun m c hmc => ?_) hu
  rw [(h.2 m).1, (h.2 m).2.1]
  exact hmc

/-- The notification of `Node::treeUpdated`, when it returns, leaves every firing order
current or untouched, and makes current the order of every source it travels to. -/
theorem treeUpdated_refresh (env : Env) :
    ∀ (fuel : Nat) (g g1 : Graph) (n : NodePtr),
      Node.treeUpdated env fuel g n = Except.ok g1 →
      (∀ S, FreshOrder g1 S ∨ (g1.node S).computeOrder_ = (g.node S).computeOrder_) ∧
      (∀ S, (g.node S).kind = NodeKind.SourceNode → Upstream g n S → FreshOrder g1 S) := by
  intro fuel
  induction fuel with
  | zero => intro g g1 n h; simp [Node.treeUpdated] at h
  | succ fuel ih =>
    intro g g1 n h
    have hsame := nodeTreeUpdated_sameEdges env _ _ _ _ h
    rw [Node.treeUpdated] at h
    split at h
    · rename_i hk
      obtain ⟨l, hg1, hnd, hmem⟩ := sourceTreeUpdated_fresh h
      have hfn : FreshOrder g1 n := by
        unfold FreshOrder
        rw [trigger_of_sameEdges hsame, hg1]
        simp only [modify_node_same]
        exact ⟨hnd, hmem⟩
      refine ⟨fun S => ?_, fun S _ hup => ?_⟩
      · by_cases hS : S = n
        · subst hS; exact Or.inl hfn
        · right; rw [hg1, modify_node_ne _ _ hS]
      · rcases Relation.ReflTransGen.cases_head hup with h1 | ⟨c, hc, _⟩
        · subst h1; exact hfn
        · exact absurd hk hc.1
    · rename_i hk
      have hP := foldlM_ok_prefix
        (fun d st => SameEdges g st ∧
          (∀ S, FreshOrder st S ∨ (st.node S).computeOrder_ = (g.node S).computeOrder_) ∧
          (∀ c ∈ d, ∀ S, (g.node S).kind = NodeKind.SourceNode → Upstream g c S →
            FreshOrder st S))
        _ (g.node n).clocks_ [] g g1
        (by
          intro c _ d st st1 hd hf
          obtain ⟨hs, hall, hup⟩ := hd
          have hs1 := nodeTreeUpdated_sameEdges env _ _ _ _ hf
          obtain ⟨i1, i2⟩ := ih st st1 c hf
          refine ⟨sameEdges_trans hs hs1, fun S => ?_, fun c1 hc1 S hS hu => ?_⟩
          · rcases i1 S with h1 | h1
            · exact Or.inl h1
            · rcases hall S with h2 | h2
              · exact Or.inl (freshOrder_of_sameEdges hs1 h1 h2)
              · exact Or.inr (h1.trans h2)
          · rcases List.mem_append.1 hc1 with hc1 | hc1
            · rcases i1 S with h1 | h1
              · exact h1
              · exact freshOrder_of_sameEdges hs1 h1 (hup c1 hc1 S hS hu)
            · rw [List.mem_singleton] at hc1
              subst hc1
              exact i2 S (by rw [(hs.2 S).1]; exact hS) (upstream_of_sameEdges hs hu))
        ⟨sameEdges_refl g, fun S => Or.inr rfl, fun c hc => (by simp at hc)⟩ h
      rw [List.nil_append] at hP
      obtain ⟨_, hall, hup⟩ := hP
      refine ⟨hall, fun S hS hu => ?_⟩
      rcases Relation.ReflTransGen.cases_head hu with h1 | ⟨c, hc, hrest⟩
      · exact absurd (by rw [h1]; exact hS) hk
      · exact hup c hc.2 S hS hrest

theorem linkParent_computeOrder (g : Graph) (this parent m : NodePtr) :
    ((linkParent g this parent).node m).computeOrder_ = (g.node m).computeOrder_ := by
  unfold linkParent
  by_cases h1 : m = parent <;> by_cases h2 : m = this <;>
    simp [modify_node, h1, h2] <;> simp_all

theorem linkClock_computeOrder (g : Graph) (this clock m : NodePtr) :
    ((linkClock g this clock).node m).computeOrder_ = (g.node m).computeOrder_ := by
  unfold linkClock
  by_cases h1 : m = clock <;> by_cases h2 : m = this <;>
    simp [modify_node, h1, h2] <;> simp_all

theorem orderInv_weaken {g : Graph} (t : Option NodePtr) (h : OrderInv g none) :
    OrderInv g t := by
  intro hc S hS
  rcases h hc S hS with h1 | ⟨this, h1, _⟩
  · exact Or.inl h1
  · cases h1

/-- The invariant only depends on the node types, the trigger edges and the firing
orders. -/
theorem orderInv_congr {g g1 : Graph} {t : Option NodePtr}
    (hk : ∀ m, (g1.node m).kind = (g.node m).kind)
    (hc : ∀ m, (g1.node m).clocks_ = (g.node m).clocks_)
    (hcb : ∀ m, (g1.node m).callbacks_ = (g.node m).callbacks_)
    (ho : ∀ m, (g1.node m).computeOrder_ = (g.node m).computeOrder_)
    (h : OrderInv g t) : OrderInv g1 t := by
  have htr : g1.Trigger = g.Trigger := by
    funext u v
    simp only [Graph.Trigger, hcb u]
  intro hcl S hS
  have hcl0 : g.SourcesClockless := fun S0 hS0 => by
    rw [← hc S0]; exact hcl S0 (by rw [hk S0]; exact hS0)
  rcases h hcl0 S (by rw [← hk S]; exact hS) with h1 | ⟨this, h1, h2⟩
  · left
    unfold FreshOrder at h1 ⊢
    rw [ho S, htr]
    exact h1
  · right
    exact ⟨this, h1, by rw [htr]; exact h2⟩

theorem orderInv_linkParent {g : Graph} {t : Option NodePtr} (this parent : NodePtr)
    (h : OrderInv g t) : OrderInv (linkParent g this parent) t :=
  orderInv_congr (linkParent_kind g this parent) (linkParent_clocks g this parent)
    (linkParent_callbacks g this parent) (linkParent_computeOrder g this parent) h

theorem orderInv_treeUpdated {env : Env} {fuel : Nat} {g g1 : Graph} {n : NodePtr}
    {t : Option NodePtr} (hu : Node.treeUpdated env fuel g n = Except.ok g1)
    (h : OrderInv g t) : OrderInv g1 t := by
  have hs := nodeTreeUpdated_sameEdges env _ _ _ _ hu
  obtain ⟨r1, _⟩ := treeUpdated_refresh env fuel g g1 n hu
  intro hcl S hS
  have hcl0 : g.SourcesClockless := fun S0 hS0 => by
    rw [← (hs.2 S0).2.1]; exact hcl S0 (by rw [(hs.2 S0).1]; exact hS0)
  rcases h hcl0 S (by rw [← (hs.2 S).1]; exact hS) with h1 | ⟨this, h1, h2⟩
  · left
    rcases r1 S with h3 | h3
    · exact h3
    · exact freshOrder_of_sameEdges hs h3 h1
  · right
    exact ⟨this, h1, by rw [trigger_of_sameEdges hs]; exact h2⟩

/-- With mirrored edges and sources without clocks, the notification sent from a node
travels to every source that reaches the node through trigger edges. -/
theorem upstream_of_transGen {g : Graph} (hsym : EdgeSymmetry g) (hcl : g.SourcesClockless)
    {S n : NodePtr} (h : Relation.TransGen g.Trigger S n) : Upstream g n S := by
  have hstep : ∀ a b, g.Trigger a b →
      (g.node b).kind ≠ NodeKind.SourceNode ∧ a ∈ (g.node b).clocks_ := by
    intro a b hab
    have hm : a ∈ (g.node b).clocks_ := (hsym.2.1 b a).2 hab
    refine ⟨fun hk => ?_, hm⟩
    rw [hcl b hk] at hm
    simp at hm
  induction h with
  | single hab => exact Relation.ReflTransGen.single (hstep _ _ hab)
  | tail _ hyz ih => exact Relation.ReflTransGen.head (hstep _ _ hyz) ih

theorem orderInv_treeUpdated_this {env : Env} {fuel : Nat} {g g1 : Graph} {this : NodePtr}
    (hsym : EdgeSymmetry g) (hu : Node.treeUpdated env fuel g this = Except.ok g1)
    (h : OrderInv g (some this)) : OrderInv g1 none := by
  have hs := nodeTreeUpdated_sameEdges env _ _ _ _ hu
  obtain ⟨r1, r2⟩ := treeUpdated_refresh env fuel g g1 this hu
  intro hcl S hS
  have hcl0 : g.SourcesClockless := fun S0 hS0 => by
    rw [← (hs.2 S0).2.1]; exact hcl S0 (by rw [(hs.2 S0).1]; exact hS0)
  have hS0 : (g.node S).kind = NodeKind.SourceNode := by rw [← (hs.2 S).1]; exact hS
  left
  rcases h hcl0 S hS0 with h1 | ⟨t, h1, h2⟩
  · rcases r1 S with h3 | h3
    · exact h3
    · exact freshOrder_of_sameEdges hs h3 h1
  · cases h1
    exact r2 S hS0 (upstream_of_transGen hsym hcl0 h2)

theorem orderInv_linkClock {g : Graph} (this clock : NodePtr) (h : OrderInv g (some this)) :
    OrderInv (linkClock g this clock) (some this) := by
  have hmono : ∀ a b, g.Trigger a b → (linkClock g this clock).Trigger a b := by
    intro a b hab
    unfold Graph.Trigger at hab ⊢
    rw [linkClock_callbacks]
    split
    · exact List.mem_append_left _ hab
    · exact hab
  have hnew : (linkClock g this clock).Trigger clock this := by
    unfold Graph.Trigger
    rw [linkClock_callbacks]
    simp
  intro hcl S hS
  have hcl0 : g.SourcesClockless := fun S0 hS0 => by
    have := hcl S0 (by rw [linkClock_kind]; exact hS0)
    rw [linkClock_clocks] at this
    split at this
    · simp at this
    · exact this
  rw [linkClock_kind] at hS
  rcases h hcl0 S hS with h1 | ⟨t, h1, h2⟩
  · by_cases hr : Relation.ReflTransGen g.Trigger S clock
    · right
      exact ⟨this, rfl, Relation.TransGen.tail'
        (Relation.ReflTransGen.mono hmono hr) hnew⟩
    · left
      have hreach : ∀ x, Relation.ReflTransGen (linkClock g this clock).Trigger S x ↔
          Relation.ReflTransGen g.Trigger S x := by
        intro x
        constructor
        · intro hx
          induction hx with
          | refl => exact Relation.ReflTransGen.refl
          | tail _ hyz ih =>
            rename_i y z
            unfold Graph.Trigger at hyz
            rw [linkClock_callbacks] at hyz
            split at hyz
            · rename_i hy
              rw [hy] at ih
              exact absurd ih hr
            · exact Relation.ReflTransGen.tail ih hyz
        · exact Relation.ReflTransGen.mono hmono
      unfold FreshOrder at h1 ⊢
      rw [linkClock_computeOrder]
      exact ⟨h1.1, fun x => by rw [hreach]; exact h1.2 x⟩
  · right
    cases h1
    exact ⟨this, rfl, Relation.TransGen.mono hmono h2⟩

theorem orderInv_setParent {env : Env} {fuel : Nat} {g g1 : Graph} {this parent : NodePtr}
    {t : Option NodePtr} (h : OrderInv g t)
    (hr : Node.setParent env fuel g this parent = Except.ok g1) : OrderInv g1 t := by
  unfold Node.setParent at hr
  split at hr
  · dsimp only at hr
    split at hr
    · cases hr
    · exact orderInv_treeUpdated hr (orderInv_linkParent this parent h)
  · cases hr; exact h

theorem orderInv_addClockEdge {env : Env} {g g1 : Graph} {this clock : NodePtr}
    (h : OrderInv g (some this)) (hr : addClockEdge env g this clock = Except.ok g1) :
    OrderInv g1 (some this) := by
  unfold addClockEdge at hr
  split at hr
  · dsimp only at hr
    split at hr
    · cases hr
    · cases hr
      exact orderInv_linkClock this clock h
  · cases hr; exact h

theorem orderInv_clockSetClockImpl {env : Env} {fuel : Nat} {g g1 : Graph} {this : NodePtr}
    {nodes : List NodePtr} (hsym : EdgeSymmetry g) (h : OrderInv g none)
    (hr : ClockNode.setClockImpl env fuel g this nodes = Except.ok g1) : OrderInv g1 none := by
  unfold ClockNode.setClockImpl at hr
  split at hr
  · cases hr
  · rename_i g3 hloop
    have hP := foldlM_ok_inv (fun st => EdgeSymmetry st ∧ OrderInv st (some this)) _ _ g g3
      (by
        intro node _ st st1 hs hf
        split at hf
        · cases hf
        · split at hf
          · cases hf
          · rename_i g2 hadd
            have h2 := addClockEdge_edgeSymmetry hs.1 hadd
            have h3 := orderInv_addClockEdge hs.2 hadd
            split at hf
            · exact ⟨setParent_edgeSymmetry h2 hf, orderInv_setParent h3 hf⟩
            · cases hf; exact ⟨h2, h3⟩)
      ⟨hsym, orderInv_weaken _ h⟩ hloop
    exact orderInv_treeUpdated_this hP.1 hr hP.2

theorem orderInv_nodeSetClockImpl {env : Env} {fuel : Nat} {g g1 : Graph} {this : NodePtr}
    {nodes : List NodePtr} (hsym : EdgeSymmetry g) (h : OrderInv g none)
    (hr : Node.setClockImpl env fuel g this nodes = Except.ok g1) : OrderInv g1 none := by
  unfold Node.setClockImpl at hr
  dsimp only at hr
  split at hr
  · cases hr
  · rename_i g2 hadd
    have h2 := addClockEdge_edgeSymmetry hsym hadd
    have h3 := orderInv_addClockEdge (orderInv_weaken _ h) hadd
    split at hr
    · cases hr
    · split at hr
      · cases hr
      · rename_i g3 hloop
        have hP := foldlM_ok_inv (fun st => EdgeSymmetry st ∧ OrderInv st (some this)) _ _ g2 g3
          (by
            intro node _ st st1 hs hf
            split at hf
            · exact ⟨setParent_edgeSymmetry hs.1 hf, orderInv_setParent hs.2 hf⟩
            · cases hf; exact hs)
          ⟨h2, h3⟩ hloop
        exact orderInv_treeUpdated_this hP.1 hr hP.2

theorem orderInv_opRun {env : Env} {fuel : Nat} {g g1 : Graph} {op : Op}
    (hsym : EdgeSymmetry g) (h : OrderInv g none) (hr : Op.run env fuel g op = Except.ok g1) :
    OrderInv g1 none := by
  cases op with
  | setParent this parent => exact orderInv_setParent h hr
  | setClock this nodes =>
    simp only [Op.run, Node.setClock] at hr
    split at hr
    · exact orderInv_nodeSetClockImpl hsym h hr
    · exact orderInv_clockSetClockImpl hsym h hr

theorem orderInv_runOps {env : Env} {fuel : Nat} {g g1 : Graph} {ops : List Op}
    (hsym : EdgeSymmetry g) (h : OrderInv g none) (hr : runOps env fuel g ops = Except.ok g1) :
    EdgeSymmetry g1 ∧ OrderInv g1 none :=
  foldlM_ok_inv (fun st => EdgeSymmetry st ∧ OrderInv st none) _ ops g g1
    (fun _ _ _ _ hs hf => ⟨opRun_edgeSymmetry hs.1 hf, orderInv_opRun hs.1 hs.2 hf⟩)
    ⟨hsym, h⟩ hr

theorem setParent_kind {env : Env} {fuel : Nat} {g g1 : Graph} {this parent : NodePtr}
    (hr : Node.setParent env fuel g this parent = Except.ok g1) (m : NodePtr) :
    (g1.node m).kind = (g.node m).kind := by
  unfold Node.setParent at hr
  split at hr
  · dsimp only at hr
    split at hr
    · cases hr
    · rw [((nodeTreeUpdated_sameEdges env _ _ _ _ hr).2 m).1, linkParent_kind]
  · cases hr; rfl

theorem addClockEdge_kind {env : Env} {g g1 : Graph} {this clock : NodePtr}
    (hr : addClockEdge env g this clock = Except.ok g1) (m : NodePtr) :
    (g1.node m).kind = (g.node m).kind := by
  unfold addClockEdge at hr
  split at hr
  · dsimp only at hr
    split at hr
    · cases hr
    · cases hr; exact linkClock_kind g this clock m
  · cases hr; rfl

/-- Construction calls do not change the type of a node. -/
theorem opRun_kind {env : Env} {fuel : Nat} {g g1 : Graph} {op : Op}
    (hr : Op.run env fuel g op = Except.ok g1) (m : NodePtr) :
    (g1.node m).kind = (g.node m).kind := by
  cases op with
  | setParent this parent => exact setParent_kind hr m
  | setClock this nodes =>
    simp only [Op.run, Node.setClock] at hr
    split at hr
    · unfold Node.setClockImpl at hr
      dsimp only at hr
      split at hr
      · cases hr
      · rename_i g2 hadd
        split at hr
        · cases hr
        · split at hr
          · cases hr
          · rename_i g3 hloop
            have hP := foldlM_ok_inv (fun st => (st.node m).kind = (g.node m).kind) _ _ g2 g3
              (by
                intro node _ st st1 hs hf
                split at hf
                · rw [setParent_kind hf m]; exact hs
                · cases hf; exact hs)
              (addClockEdge_kind hadd m) hloop
            rw [((nodeTreeUpdated_sameEdges env _ _ _ _ hr).2 m).1]
            exact hP
    · unfold ClockNode.setClockImpl at hr
      split at hr
      · cases hr
      · rename_i g3 hloop
        have hP := foldlM_ok_inv (fun st => (st.node m).kind = (g.node m).kind) _ _ g g3
          (by
            intro node _ st st1 hs hf
            split at hf
            · cases hf
            · split at hf
              · cases hf
              · rename_i g2 hadd
                split at hf
                · rw [setParent_kind hf m, addClockEdge_kind hadd m]; exact hs
                · cases hf; rw [addClockEdge_kind hadd m]; exact hs)
          rfl hloop
        rw [((nodeTreeUpdated_sameEdges env _ _ _ _ hr).2 m).1]
        exact hP

theorem runOps_kind {env : Env} {fuel : Nat} {g g1 : Graph} {ops : List Op}
    (hr : runOps env fuel g ops = Except.ok g1) (m : NodePtr) :
    (g1.node m).kind = (g.node m).kind :=
  foldlM_ok_inv (fun st => (st.node m).kind = (g.node m).kind) _ ops g g1
    (fun _ _ _ _ hs hf => (opRun_kind hf m).trans hs) rfl hr

theorem orderInv_of_noEdges {g : Graph} (h : g.NoEdges)
    (ho : ∀ n, (g.node n).computeOrder_ = []) : OrderInv g none := by
  intro _ S _
  left
  have hreach : ∀ x, Relation.ReflTransGen g.Trigger S x → x = S := by
    intro x hx
    induction hx with
    | refl => rfl
    | @tail y z _ hyz _ =>
      unfold Graph.Trigger at hyz
      rw [(h y).2.2.2] at hyz
      simp at hyz
  unfold FreshOrder
  rw [ho S]
  exact ⟨List.nodup_nil, fun x => ⟨fun hx => (by simp at hx), fun hx => absurd (hreach x hx.1) hx.2⟩⟩

/-- C10 (amended): starting from nodes without edges and with empty firing orders,
after every sequence of `setParent` and `setClock` calls that returns and leaves no
source with a clock, the firing order of every source holds exactly the nodes reachable
from it through one or more trigger edges, each once, and not the source itself. -/
theorem computeOrder_content (env : Env) (fuel : Nat) (g0 g : Graph) (ops : List Op)
    (hfresh : g0.NoEdges) (hinit : ∀ n, (g0.node n).computeOrder_ = [])
    (hrun : runOps env fuel g0 ops = Except.ok g)
    (hclockless : ∀ S, (g.node S).kind = NodeKind.SourceNode → (g.node S).clocks_ = []) :
    ∀ S, (g.node S).kind = NodeKind.SourceNode →
      (g.node S).computeOrder_.Nodup ∧
      (∀ x, x ∈ (g.node S).computeOrder_ ↔ Relation.TransGen g.Trigger S x) ∧
      S ∉ (g.node S).computeOrder_ := by
  obtain ⟨hsym, hinv⟩ := orderInv_runOps (edgeSymmetry_of_noEdges hfresh)
    (orderInv_of_noEdges hfresh hinit) hrun
  intro S hS
  rcases hinv hclockless S hS with h1 | ⟨t, h1, _⟩
  · obtain ⟨hnd, hmem⟩ := h1
    refine ⟨hnd, fun x => ?_, fun hx => ((hmem S).1 hx).2 rfl⟩
    rw [hmem]
    constructor
    · rintro ⟨hr, hne⟩
      rcases Relation.reflTransGen_iff_eq_or_transGen.1 hr with h2 | h2
      · exact absurd h2 hne
      · exact h2
    · intro ht
      refine ⟨ht.to_reflTransGen, fun hx => ?_⟩
      obtain ⟨y, _, hyx⟩ := Relation.TransGen.tail'_iff.1 ht
      have hm : y ∈ (g.node x).clocks_ := (hsym.2.1 x y).2 hyx
      rw [hx, hclockless S hS] at hm
      simp at hm
  · cases h1

/-- The steps of the test `tree_updated`: the firing order of the source has 1, 2 and 3
entries. -/
theorem computeOrder_content_witness :
    (Graph.init [0, 1, 2, 3] kindSrc0).NoEdges ∧
    (∃ g, runOps envOK 10 (Graph.init [0, 1, 2, 3] kindSrc0) [Op.setClock 1 [0]] =
      Except.ok g ∧ (g.node 0).computeOrder_ = [1]) ∧
    (∃ g, runOps envOK 10 (Graph.init [0, 1, 2, 3] kindSrc0)
      [Op.setClock 1 [0], Op.setClock 2 [1]] = Except.ok g ∧
        (g.node 0).computeOrder_ = [1, 2]) ∧
    ∃ g, runOps envOK 10 (Graph.init [0, 1, 2, 3] kindSrc0)
        [Op.setClock 1 [0], Op.setClock 2 [1], Op.setClock 3 [1]] = Except.ok g ∧
      (g.node 0).computeOrder_ = [1, 3, 2] ∧
      ∀ S, (g.node S).kind = NodeKind.SourceNode →
        (g.node S).computeOrder_.Nodup ∧
        (∀ x, x ∈ (g.node S).computeOrder_ ↔ Relation.TransGen g.Trigger S x) ∧
        S ∉ (g.node S).computeOrder_ :=
  ⟨fun _ => ⟨rfl, rfl, rfl, rfl⟩, ⟨_, rfl, rfl⟩, ⟨_, rfl, rfl⟩, _, rfl, rfl,
    computeOrder_content envOK 10 (Graph.init [0, 1, 2, 3] kindSrc0) _
      [Op.setClock 1 [0], Op.setClock 2 [1], Op.setClock 3 [1]]
      (fun _ => ⟨rfl, rfl, rfl, rfl⟩) (fun _ => rfl) rfl
      (fun S hS => by
        rw [@runOps_kind envOK 10 (Graph.init [0, 1, 2, 3] kindSrc0) _
          [Op.setClock 1 [0], Op.setClock 2 [1], Op.setClock 3 [1]] rfl S] at hS
        have h0 : S = 0 := by
          by_contra hne
          simp [Graph.init, Node.fresh, kindSrc0, hne] at hS
        subst h0
        rfl)⟩

/-- A source 1 that is clocked on the source 0: the notification sent by `setClock`
stops at the source 1, and the firing order of the source 0, which has no clock, stays
empty although node 1 is its callback. -/
theorem computeOrder_content_counterexample :
    ∃ g, runOps envOK 10 (Graph.init [0, 1] kindSrc01) [Op.setClock 1 [0]] = Except.ok g ∧
      (g.node 0).kind = NodeKind.SourceNode ∧ (g.node 0).clocks_ = [] ∧
      (g.node 0).callbacks_ = [1] ∧ (g.node 0).computeOrder_ = [] :=
  ⟨_, rfl, rfl, rfl, rfl, rfl⟩

/-! ## Gating of `fire()` -/

theorem computeCalls_snoc_ne (l : List NodePtr) (n : NodePtr) : l ++ [n] ≠ l := by
  intro h
  have := congrArg List.length h
  simp at this

theorem parentsValid_iff (g : Graph) (n : NodePtr) :
    Node.parentsValid g n = true ↔ ∀ p ∈ (g.node n).parents_, (g.node p).status_ = StatusCode.OK := by
  simp [Node.parentsValid, Node.valid]

/-- `ValueNode::fire` when the clock did not tick: only `nFired` grows. -/
theorem valueFire_noTick {env : Env} {g : Graph} {n c : NodePtr}
    (hk : (g.node n).kind = NodeKind.ValueNode) (hc : (g.node n).clocks_ = [c])
    (ht : (g.node c).ticked_ = false) :
    ValueNode.fire env g n =
      Except.ok (g.modify n (fun x => { x with nFired := x.nFired + 1 })) := by
  have hget : Node.getClock (g.modify n (fun x => { x with nFired := x.nFired + 1 })) n =
      Except.ok c := by
    simp [Node.getClock, hk, hc]
  have htick : ((g.modify n (fun x => { x with nFired := x.nFired + 1 })).node c).ticked_ =
      false := by
    refine (modify_ticked g n c _ ?_).trans ht
    intro x; rfl
  unfold ValueNode.fire
  simp only [hget, htick]
  rfl

theorem clockFire_find (g : Graph) (n : NodePtr) :
    ((g.modify n (fun x => { x with nFired := x.nFired + 1 })).node n).clocks_.find?
      (fun clock => ((g.modify n (fun x => { x with nFired := x.nFired + 1 })).node clock).ticked_) =
    (g.node n).clocks_.find? (fun clock => (g.node clock).ticked_) := by
  have h1 : ((g.modify n (fun x => { x with nFired := x.nFired + 1 })).node n).clocks_ =
      (g.node n).clocks_ := by simp
  have h2 : (fun clock => ((g.modify n (fun x => { x with nFired := x.nFired + 1 })).node clock).ticked_) =
      (fun clock => (g.node clock).ticked_) := by
    funext clock
    refine modify_ticked g n clock _ ?_
    intro x; rfl
  rw [h1, h2]

/-- `ClockNode::fire` when no clock ticked: only `nFired` grows. -/
theorem clockFire_noTick {env : Env} {g : Graph} {n : NodePtr}
    (ht : ∀ c ∈ (g.node n).clocks_, (g.node c).ticked_ = false) :
    ClockNode.fire env g n =
      Except.ok (g.modify n (fun x => { x with nFired := x.nFired + 1 })) := by
  have hfind : (g.node n).clocks_.find? (fun clock => (g.node clock).ticked_) = none := by
    rw [List.find?_eq_none]
    intro c hc
    simp [ht c hc]
  unfold ClockNode.fire
  simp only [clockFire_find, hfind]

/-- `ClockNode::fire` when a clock ticked and a parent is not valid: `compute()` does not
run, and an `OK` status becomes `INVALID`. -/
theorem clockFire_gated {env : Env} {g : Graph} {n : NodePtr}
    (ht : ∃ c ∈ (g.node n).clocks_, (g.node c).ticked_ = true)
    (hp : Node.parentsValid g n = false) :
    ∃ g1, ClockNode.fire env g n = Except.ok g1 ∧ FiredLeaf n g g1 ∧
      g1.computeCalls = g.computeCalls ∧ (g1.node n).ticked_ = (g.node n).ticked_ ∧
      (g1.node n).status_ =
        if (g.node n).status_ = StatusCode.OK then StatusCode.INVALID
        else (g.node n).status_ := by
  obtain ⟨c0, hfind⟩ : ∃ c0, (g.node n).clocks_.find? (fun clock => (g.node clock).ticked_) =
      some c0 := by
    obtain ⟨c, hc, hct⟩ := ht
    have : ((g.node n).clocks_.find? (fun clock => (g.node clock).ticked_)).isSome = true := by
      rw [List.find?_isSome]
      exact ⟨c, hc, hct⟩
    exact Option.isSome_iff_exists.1 this
  have hpv : Node.parentsValid ((g.modify n (fun x => { x with nFired := x.nFired + 1 })).modify n
      (fun x => { x with nTicked := x.nTicked + 1 })) n = false := by
    refine Eq.trans (parentsValid_congr (by simp) (fun m => ?_)) hp
    refine (modify_status _ n m _ ?_).trans (modify_status g n m _ ?_) <;> intro x <;> rfl
  have hval : Node.valid ((g.modify n (fun x => { x with nFired := x.nFired + 1 })).modify n
      (fun x => { x with nTicked := x.nTicked + 1 })) n = Node.valid g n :=
    valid_congr (by simp)
  by_cases hv : (g.node n).status_ = StatusCode.OK
  · have hv1 : Node.valid g n = true := by simp [Node.valid, hv]
    have hfire : ClockNode.fire env g n = Except.ok
        (((g.modify n (fun x => { x with nFired := x.nFired + 1 })).modify n
          (fun x => { x with nTicked := x.nTicked + 1 })).modify n
          (fun x => { x with status_ := StatusCode.INVALID })) := by
      unfold ClockNode.fire
      simp only [clockFire_find, hfind, hpv, hval, hv1]
      rfl
    refine ⟨_, hfire, clockFire_leaf hfire, rfl, by simp, by simp [hv]⟩
  · have hv1 : Node.valid g n = false := by simp [Node.valid, hv]
    have hfire : ClockNode.fire env g n = Except.ok
        ((g.modify n (fun x => { x with nFired := x.nFired + 1 })).modify n
          (fun x => { x with nTicked := x.nTicked + 1 })) := by
      unfold ClockNode.fire
      simp only [clockFire_find, hfind, hpv, hval, hv1]
      rfl
    refine ⟨_, hfire, clockFire_leaf hfire, rfl, by simp, by simp [hv]⟩

/-- `ClockNode::fire` when a clock ticked and the parents are valid: `compute()` runs
once, and the status and the ticked flag are the ones it wrote. -/
theorem clockFire_compute {env : Env} {g : Graph} {n : NodePtr}
    (hk : (g.node n).kind ≠ NodeKind.SourceNode)
    (ht : ∃ c ∈ (g.node n).clocks_, (g.node c).ticked_ = true)
    (hp : Node.parentsValid g n = true) :
    ∃ gX g1, ClockNode.fire env g n = Except.ok g1 ∧ FiredLeaf n g g1 ∧
      g1.computeCalls = g.computeCalls ++ [n] ∧
      (gX.node n).ticked_ = (g.node n).ticked_ ∧
      (g1.node n).status_ = (env.compute n gX).status_ ∧
      (g1.node n).ticked_ = (env.compute n gX).ticked_ := by
  obtain ⟨c0, hfind⟩ : ∃ c0, (g.node n).clocks_.find? (fun clock => (g.node clock).ticked_) =
      some c0 := by
    obtain ⟨c, hc, hct⟩ := ht
    have : ((g.node n).clocks_.find? (fun clock => (g.node clock).ticked_)).isSome = true := by
      rw [List.find?_isSome]
      exact ⟨c, hc, hct⟩
    exact Option.isSome_iff_exists.1 this
  have hpv : Node.parentsValid ((g.modify n (fun x => { x with nFired := x.nFired + 1 })).modify n
      (fun x => { x with nTicked := x.nTicked + 1 })) n = true := by
    refine Eq.trans (parentsValid_congr (by simp) (fun m => ?_)) hp
    refine (modify_status _ n m _ ?_).trans (modify_status g n m _ ?_) <;> intro x <;> rfl
  have hkX : ((((g.modify n (fun x => { x with nFired := x.nFired + 1 })).modify n
      (fun x => { x with nTicked := x.nTicked + 1 }))).node n).kind ≠ NodeKind.SourceNode := by
    simpa using hk
  obtain ⟨g3, hg3⟩ := compute_total env _ n hkX
  have hfire : ClockNode.fire env g n = Except.ok (g3.modify n (fun x =>
      { x with nComputed := x.nComputed + 1,
               nTickedTrue := x.nTickedTrue + (if x.ticked_ then 1 else 0) })) := by
    unfold ClockNode.fire
    simp only [clockFire_find, hfind, hpv, if_true, hg3]
  obtain ⟨_, _, _, _, _, c6, c7, c8⟩ := compute_leaf hg3
  refine ⟨(g.modify n (fun x => { x with nFired := x.nFired + 1 })).modify n
      (fun x => { x with nTicked := x.nTicked + 1 }), _, hfire, clockFire_leaf hfire, ?_, ?_, ?_, ?_⟩
  · show g3.computeCalls = _
    rw [c6]; rfl
  · simp
  · simp only [modify_node_same]; exact c7
  · simp only [modify_node_same]; exact c8

/-- C12: when `fire()` of a value node or of a clock node runs with a ticked clock and
`parentsValid()` false, it returns without a call of `compute()`, a status `OK` becomes
`INVALID`, and every other status is left as it is, so the status changes exactly when
it was `OK`. -/
theorem gated_status_transition (env : Env) (fuel : Nat) (g : Graph) (n : NodePtr)
    (hk : (g.node n).kind ≠ NodeKind.SourceNode)
    (hv : (g.node n).kind = NodeKind.ValueNode → (g.node n).clocks_.length = 1)
    (ht : ∃ c ∈ (g.node n).clocks_, (g.node c).ticked_ = true)
    (hp : Node.parentsValid g n = false) :
    ∃ g1, Node.fire env (fuel + 1) g n = Except.ok g1 ∧
      g1.computeCalls = g.computeCalls ∧
      ((g.node n).status_ = StatusCode.OK → (g1.node n).status_ = StatusCode.INVALID) ∧
      ((g.node n).status_ ≠ StatusCode.OK → (g1.node n).status_ = (g.node n).status_) ∧
      ((g1.node n).status_ ≠ (g.node n).status_ ↔ (g.node n).status_ = StatusCode.OK) := by
  have key : ∀ g1 : Graph, (g1.node n).status_ =
        (if (g.node n).status_ = StatusCode.OK then StatusCode.INVALID else (g.node n).status_) →
      ((g.node n).status_ = StatusCode.OK → (g1.node n).status_ = StatusCode.INVALID) ∧
      ((g.node n).status_ ≠ StatusCode.OK → (g1.node n).status_ = (g.node n).status_) ∧
      ((g1.node n).status_ ≠ (g.node n).status_ ↔ (g.node n).status_ = StatusCode.OK) := by
    intro g1 h
    by_cases hs : (g.node n).status_ = StatusCode.OK
    · rw [if_pos hs] at h
      refine ⟨fun _ => h, fun h1 => absurd hs h1, fun _ => hs, fun _ => ?_⟩
      rw [h, hs]
      decide
    · rw [if_neg hs] at h
      exact ⟨fun h1 => absurd h1 hs, fun _ => h, fun h1 => absurd h h1, fun h1 => absurd h1 hs⟩
  cases hkind : (g.node n).kind with
  | SourceNode => exact absurd hkind hk
  | ValueNode =>
    obtain ⟨c, hc⟩ := List.length_eq_one.1 (hv hkind)
    obtain ⟨c1, hc1, hct⟩ := ht
    rw [hc, List.mem_singleton] at hc1
    subst hc1
    obtain ⟨g1, hfire, _, hcalls, _, hst⟩ := @valueFire_gated env g n _ hkind hc hct hp
    refine ⟨g1, ?_, hcalls, key g1 hst⟩
    rw [Node.fire, hkind]
    exact hfire
  | ClockNode =>
    obtain ⟨g1, hfire, _, hcalls, _, hst⟩ := @clockFire_gated env g n ht hp
    refine ⟨g1, ?_, hcalls, key g1 hst⟩
    rw [Node.fire, hkind]
    exact hfire

/-- A value node and a clock node with status `OK`, a ticked clock and a parent in
`INIT`. -/
theorem gated_status_transition_witness :
    (∃ g1, Node.fire envOK 1 (fireGraph NodeKind.ValueNode true StatusCode.INIT StatusCode.OK) 2 =
        Except.ok g1 ∧ (g1.node 2).status_ = StatusCode.INVALID ∧ g1.computeCalls = []) ∧
    (∃ g1, Node.fire envOK 1 (fireGraph NodeKind.ClockNode true StatusCode.INIT StatusCode.INIT) 2 =
        Except.ok g1 ∧ (g1.node 2).status_ = StatusCode.INIT ∧ g1.computeCalls = []) ∧
    ∃ g1, Node.fire envOK 1 (fireGraph NodeKind.ClockNode true StatusCode.INIT StatusCode.OK) 2 =
        Except.ok g1 ∧
      g1.computeCalls = (fireGraph NodeKind.ClockNode true StatusCode.INIT StatusCode.OK).computeCalls ∧
      (((fireGraph NodeKind.ClockNode true StatusCode.INIT StatusCode.OK).node 2).status_ =
        StatusCode.OK → (g1.node 2).status_ = StatusCode.INVALID) ∧
      (((fireGraph NodeKind.ClockNode true StatusCode.INIT StatusCode.OK).node 2).status_ ≠
        StatusCode.OK → (g1.node 2).status_ =
          ((fireGraph NodeKind.ClockNode true StatusCode.INIT StatusCode.OK).node 2).status_) ∧
      ((g1.node 2).status_ ≠
          ((fireGraph NodeKind.ClockNode true StatusCode.INIT StatusCode.OK).node 2).status_ ↔
        ((fireGraph NodeKind.ClockNode true StatusCode.INIT StatusCode.OK).node 2).status_ =
          StatusCode.OK) :=
  ⟨⟨_, rfl, rfl, rfl⟩, ⟨_, rfl, rfl, rfl⟩,
    gated_status_transition envOK 0 (fireGraph NodeKind.ClockNode true StatusCode.INIT StatusCode.OK)
      2 (by decide) (by decide) ⟨0, by decide, by decide⟩ (by decide)⟩

/-- C13: `ValueNode::fire` of a node with the single clock `c` returns, and it invokes
`compute()` (once) if and only if `c` is ticked and every parent has the status `OK`;
the status of the node itself plays no part, and a node without parents computes
whenever its clock is ticked. -/
theorem valueFire_gating (env : Env) (g : Graph) (n c : NodePtr)
    (hk : (g.node n).kind = NodeKind.ValueNode) (hc : (g.node n).clocks_ = [c]) :
    ∃ g1, ValueNode.fire env g n = Except.ok g1 ∧
      (g1.computeCalls = g.computeCalls ∨ g1.computeCalls = g.computeCalls ++ [n]) ∧
      (g1.computeCalls = g.computeCalls ++ [n] ↔
        ((g.node c).ticked_ = true ∧
          ∀ p ∈ (g.node n).parents_, (g.node p).status_ = StatusCode.OK)) ∧
      ((g.node n).parents_ = [] →
        (g1.computeCalls = g.computeCalls ++ [n] ↔ (g.node c).ticked_ = true)) := by
  have main : ∃ g1, ValueNode.fire env g n = Except.ok g1 ∧
      (g1.computeCalls = g.computeCalls ∨ g1.computeCalls = g.computeCalls ++ [n]) ∧
      (g1.computeCalls = g.computeCalls ++ [n] ↔
        ((g.node c).ticked_ = true ∧
          ∀ p ∈ (g.node n).parents_, (g.node p).status_ = StatusCode.OK)) := by
    cases ht : (g.node c).ticked_ with
    | false =>
      refine ⟨_, valueFire_noTick hk hc ht, Or.inl rfl, fun h => ?_, fun h => ?_⟩
      · exact absurd h.symm (computeCalls_snoc_ne _ _)
      · exact absurd h.1 (by simp)
    | true =>
      cases hp : Node.parentsValid g n with
      | false =>
        obtain ⟨g1, hfire, _, hcalls, _⟩ := @valueFire_gated env g n c hk hc ht hp
        refine ⟨g1, hfire, Or.inl hcalls, fun h => ?_, fun h => ?_⟩
        · rw [hcalls] at h
          exact absurd h.symm (computeCalls_snoc_ne _ _)
        · have := (parentsValid_iff g n).2 h.2
          rw [hp] at this
          cases this
      | true =>
        obtain ⟨_, g1, hfire, _, hcalls, _⟩ := @valueFire_compute env g n c hk hc ht hp
        exact ⟨g1, hfire, Or.inr hcalls, fun _ => ⟨rfl, (parentsValid_iff g n).1 hp⟩,
          fun _ => hcalls⟩
  obtain ⟨g1, hfire, hor, hiff⟩ := main
  refine ⟨g1, hfire, hor, hiff, fun hpar => ?_⟩
  rw [hiff, hpar]
  simp

/-- A value node left `INVALID`, `ERROR` or `FATAL` computes when its clock ticked and its
parent is `OK`; a parent in `INIT` blocks it. -/
theorem valueFire_gating_witness :
    (∃ g1, ValueNode.fire envOK (fireGraph NodeKind.ValueNode true StatusCode.OK StatusCode.ERROR) 2 =
      Except.ok g1 ∧ g1.computeCalls = [2] ∧ (g1.node 2).status_ = StatusCode.OK) ∧
    (∃ g1, ValueNode.fire envOK (fireGraph NodeKind.ValueNode true StatusCode.OK StatusCode.FATAL) 2 =
      Except.ok g1 ∧ g1.computeCalls = [2]) ∧
    (∃ g1, ValueNode.fire envOK (fireGraph NodeKind.ValueNode true StatusCode.INIT StatusCode.OK) 2 =
      Except.ok g1 ∧ g1.computeCalls = []) ∧
    ∃ g1, ValueNode.fire envOK
        (fireGraph NodeKind.ValueNode true StatusCode.OK StatusCode.INVALID) 2 = Except.ok g1 ∧
      (g1.computeCalls =
          (fireGraph NodeKind.ValueNode true StatusCode.OK StatusCode.INVALID).computeCalls ∨
        g1.computeCalls =
          (fireGraph NodeKind.ValueNode true StatusCode.OK StatusCode.INVALID).computeCalls ++ [2]) ∧
      (g1.computeCalls =
          (fireGraph NodeKind.ValueNode true StatusCode.OK StatusCode.INVALID).computeCalls ++ [2] ↔
        (((fireGraph NodeKind.ValueNode true StatusCode.OK StatusCode.INVALID).node 0).ticked_ = true ∧
          ∀ p ∈ ((fireGraph NodeKind.ValueNode true StatusCode.OK StatusCode.INVALID).node 2).parents_,
            ((fireGraph NodeKind.ValueNode true StatusCode.OK StatusCode.INVALID).node p).status_ =
              StatusCode.OK)) ∧
      (((fireGraph NodeKind.ValueNode true StatusCode.OK StatusCode.INVALID).node 2).parents_ = [] →
        (g1.computeCalls =
            (fireGraph NodeKind.ValueNode true StatusCode.OK StatusCode.INVALID).computeCalls ++ [2] ↔
          ((fireGraph NodeKind.ValueNode true StatusCode.OK StatusCode.INVALID).node 0).ticked_ =
            true)) :=
  ⟨⟨_, rfl, rfl, rfl⟩, ⟨_, rfl, rfl⟩, ⟨_, rfl, rfl⟩,
    valueFire_gating envOK (fireGraph NodeKind.ValueNode true StatusCode.OK StatusCode.INVALID)
      2 0 rfl rfl⟩

/-- C14: one call of `ClockNode::fire` returns and invokes `compute()` at most once; it
invokes it exactly when at least one clock of `clocks_` is ticked and `parentsValid()`
holds; when no clock is ticked it changes nothing but `nFired`. -/
theorem clockFire_or (env : Env) (g : Graph) (n : NodePtr)
    (hk : (g.node n).kind = NodeKind.ClockNode) :
    ∃ g1, ClockNode.fire env g n = Except.ok g1 ∧
      (g1.computeCalls = g.computeCalls ∨ g1.computeCalls = g.computeCalls ++ [n]) ∧
      (g1.computeCalls = g.computeCalls ++ [n] ↔
        ((∃ c ∈ (g.node n).clocks_, (g.node c).ticked_ = true) ∧
          Node.parentsValid g n = true)) ∧
      ((∀ c ∈ (g.node n).clocks_, (g.node c).ticked_ = false) →
        g1 = g.modify n (fun x => { x with nFired := x.nFired + 1 }) ∧
        (g1.node n).status_ = (g.node n).status_ ∧ (g1.node n).ticked_ = (g.node n).ticked_ ∧
        (g1.node n).nFired = (g.node n).nFired + 1) := by
  by_cases ht : ∃ c ∈ (g.node n).clocks_, (g.node c).ticked_ = true
  · have hno : ¬ ∀ c ∈ (g.node n).clocks_, (g.node c).ticked_ = false := by
      obtain ⟨c, hc, hct⟩ := ht
      intro h
      rw [h c hc] at hct
      cases hct
    cases hp : Node.parentsValid g n with
    | false =>
      obtain ⟨g1, hfire, _, hcalls, _⟩ := @clockFire_gated env g n ht hp
      refine ⟨g1, hfire, Or.inl hcalls, ⟨fun h => ?_, fun h => ?_⟩, fun h => absurd h hno⟩
      · rw [hcalls] at h
        exact absurd h.symm (computeCalls_snoc_ne _ _)
      · cases h.2
    | true =>
      have hk1 : (g.node n).kind ≠ NodeKind.SourceNode := by
        rw [hk]
        decide
      obtain ⟨_, g1, hfire, _, hcalls, _⟩ := @clockFire_compute env g n hk1 ht hp
      exact ⟨g1, hfire, Or.inr hcalls, ⟨fun _ => ⟨ht, rfl⟩, fun _ => hcalls⟩,
        fun h => absurd h hno⟩
  · have hall : ∀ c ∈ (g.node n).clocks_, (g.node c).ticked_ = false := by
      intro c hc
      cases hct : (g.node c).ticked_ with
      | false => rfl
      | true => exact absurd ⟨c, hc, hct⟩ ht
    refine ⟨_, clockFire_noTick hall, Or.inl rfl, ⟨fun h => ?_, fun h => absurd h.1 ht⟩,
      fun _ => ⟨rfl, by simp, by simp, by simp⟩⟩
    exact absurd h.symm (computeCalls_snoc_ne _ _)

/-- A clock node with two clocks: it computes once when both ticked, once when only the
second ticked, and not at all when none ticked. -/
theorem clockFire_or_witness :
    (∃ g1, ClockNode.fire envOK (orGraph true true) 3 = Except.ok g1 ∧ g1.computeCalls = [3]) ∧
    (∃ g1, ClockNode.fire envOK (orGraph false true) 3 = Except.ok g1 ∧ g1.computeCalls = [3]) ∧
    (∃ g1, ClockNode.fire envOK (orGraph false false) 3 = Except.ok g1 ∧ g1.computeCalls = [] ∧
      (g1.node 3).nFired = 1 ∧ (g1.node 3).status_ = StatusCode.INIT ∧
      (g1.node 3).ticked_ = false) ∧
    ∃ g1, ClockNode.fire envOK (orGraph true true) 3 = Except.ok g1 ∧
      (g1.computeCalls = (orGraph true true).computeCalls ∨
        g1.computeCalls = (orGraph true true).computeCalls ++ [3]) ∧
      (g1.computeCalls = (orGraph true true).computeCalls ++ [3] ↔
        ((∃ c ∈ ((orGraph true true).node 3).clocks_, ((orGraph true true).node c).ticked_ = true) ∧
          Node.parentsValid (orGraph true true) 3 = true)) ∧
      ((∀ c ∈ ((orGraph true true).node 3).clocks_, ((orGraph true true).node c).ticked_ = false) →
        g1 = (orGraph true true).modify 3 (fun x => { x with nFired := x.nFired + 1 }) ∧
        (g1.node 3).status_ = ((orGraph true true).node 3).status_ ∧
        (g1.node 3).ticked_ = ((orGraph true true).node 3).ticked_ ∧
        (g1.node 3).nFired = ((orGraph true true).node 3).nFired + 1) :=
  ⟨⟨_, rfl, rfl⟩, ⟨_, rfl, rfl⟩, ⟨_, rfl, rfl, rfl, rfl, rfl⟩, clockFire_or envOK (orGraph true true) 3 rfl⟩

/-! ## Value access and clock access -/

/-- C16: in a debug build `value()` fails exactly when the node is not ticked or its status
is not `OK`, `heldValue()` fails exactly when the status is not `OK`, a successful
`value()` returns what `heldValue()` returns, namely `value_`, and right after a
`compute()` this is the value that `compute()` stored. -/
theorem value_access (env : Env) (g : Graph) (this : NodePtr) (hd : env.debug = true) :
    ((∃ e, ValueNode.value env g this = Except.error e) ↔
      ((g.node this).ticked_ = false ∨ (g.node this).status_ ≠ StatusCode.OK)) ∧
    ((∃ e, ValueNode.heldValue env g this = Except.error e) ↔
      (g.node this).status_ ≠ StatusCode.OK) ∧
    (∀ v, ValueNode.value env g this = Except.ok v →
      ValueNode.heldValue env g this = Except.ok v ∧ v = (g.node this).value_) ∧
    (∀ g0, Node.compute env g0 this = Except.ok g →
      (g.node this).value_ = (env.compute this g0).value_) := by
  refine ⟨?_, ?_, ?_, ?_⟩
  · unfold ValueNode.value ValueNode.heldValue Node.valid
    cases ht : (g.node this).ticked_ <;>
      by_cases hs : (g.node this).status_ = StatusCode.OK <;> simp [hd, hs]
  · unfold ValueNode.heldValue Node.valid
    by_cases hs : (g.node this).status_ = StatusCode.OK <;> simp [hd, hs]
  · intro v
    unfold ValueNode.value ValueNode.heldValue Node.valid
    cases ht : (g.node this).ticked_ <;>
      by_cases hs : (g.node this).status_ = StatusCode.OK <;> simp [hd, hs]
    intro h
    exact ⟨h, h.symm⟩
  · intro g0 h
    unfold Node.compute at h
    split at h
    · cases h
    · cases h
      simp [Graph.modify]

/-- A value node with status `OK` that is not ticked: `value()` fails and `heldValue()`
returns the stored value; once ticked, both return it. -/
theorem value_access_witness :
    ValueNode.heldValue envOK (fireGraph NodeKind.ValueNode true StatusCode.OK StatusCode.OK) 2 =
      Except.ok 0 ∧
    ValueNode.value envOK (fireGraph NodeKind.ValueNode true StatusCode.OK StatusCode.OK) 2 =
      Except.error (Err.logic_error
        "::value : Node's value is not current. If this is expected, use heldValue instead") ∧
    (∃ g1, ValueNode.fire envOK
        (fireGraph NodeKind.ValueNode true StatusCode.OK StatusCode.INIT) 2 = Except.ok g1 ∧
      ValueNode.value envOK g1 2 = Except.ok 0) ∧
    (((∃ e, ValueNode.value envOK
          (fireGraph NodeKind.ValueNode true StatusCode.OK StatusCode.OK) 2 = Except.error e) ↔
      (((fireGraph NodeKind.ValueNode true StatusCode.OK StatusCode.OK).node 2).ticked_ = false ∨
        ((fireGraph NodeKind.ValueNode true StatusCode.OK StatusCode.OK).node 2).status_ ≠
          StatusCode.OK)) ∧
    ((∃ e, ValueNode.heldValue envOK
          (fireGraph NodeKind.ValueNode true StatusCode.OK StatusCode.OK) 2 = Except.error e) ↔
      ((fireGraph NodeKind.ValueNode true StatusCode.OK StatusCode.OK).node 2).status_ ≠
        StatusCode.OK) ∧
    (∀ v, ValueNode.value envOK
        (fireGraph NodeKind.ValueNode true StatusCode.OK StatusCode.OK) 2 = Except.ok v →
      ValueNode.heldValue envOK
          (fireGraph NodeKind.ValueNode true StatusCode.OK StatusCode.OK) 2 = Except.ok v ∧
        v = ((fireGraph NodeKind.ValueNode true StatusCode.OK StatusCode.OK).node 2).value_) ∧
    (∀ g0, Node.compute envOK g0 2 =
        Except.ok (fireGraph NodeKind.ValueNode true StatusCode.OK StatusCode.OK) →
      ((fireGraph NodeKind.ValueNode true StatusCode.OK StatusCode.OK).node 2).value_ =
        (envOK.compute 2 g0).value_)) :=
  ⟨rfl, rfl, ⟨_, rfl, rfl⟩,
    value_access envOK (fireGraph NodeKind.ValueNode true StatusCode.OK StatusCode.OK) 2 rfl⟩

/-- C17: `ValueNode::getClock` returns the only element of `clocks_` when there is exactly
one and throws a `std::logic_error` when there is none or more than one;
`ClockNode::getClock` returns the node itself. -/
theorem getClock_checked (g : Graph) (this : NodePtr) :
    ((g.node this).kind = NodeKind.ValueNode →
      (∀ c, (g.node this).clocks_ = [c] → Node.getClock g this = Except.ok c) ∧
      ((g.node this).clocks_.length ≠ 1 →
        ∃ what, Node.getClock g this = Except.error (Err.logic_error what)) ∧
      ((g.node this).clocks_.length = 1 → ∃ c, Node.getClock g this = Except.ok c ∧
        (g.node this).clocks_ = [c])) ∧
    ((g.node this).kind = NodeKind.ClockNode ∨ (g.node this).kind = NodeKind.SourceNode →
      Node.getClock g this = Except.ok this) := by
  constructor
  · intro hk
    refine ⟨fun c hc => ?_, fun hl => ?_, fun hl => ?_⟩
    · simp [Node.getClock, hk, hc]
    · unfold Node.getClock
      rw [hk]
      match hcl : (g.node this).clocks_ with
      | [] => exact ⟨_, rfl⟩
      | [c] => rw [hcl] at hl; simp at hl
      | _ :: _ :: _ => exact ⟨_, rfl⟩
    · obtain ⟨c, hc⟩ := List.length_eq_one.1 hl
      exact ⟨c, by simp [Node.getClock, hk, hc], hc⟩
  · rintro (hk | hk) <;> simp [Node.getClock, hk]

/-- Value nodes with one clock, without a clock and with two clocks, and a clock node. -/
theorem getClock_checked_witness :
    Node.getClock (fireGraph NodeKind.ValueNode true StatusCode.OK StatusCode.OK) 2 =
      Except.ok 0 ∧
    Node.getClock (Graph.init [0, 1] kindSrc0) 1 =
      Except.error (Err.logic_error "::getClock : All ValueNodes have to have a clock; none found.") ∧
    Node.getClock ((orGraph true true).modify 3
        (fun x => { x with kind := NodeKind.ValueNode })) 3 =
      Except.error (Err.logic_error "::getClock : ValueNodes should only have one clock.") ∧
    Node.getClock (orGraph true true) 3 = Except.ok 3 ∧
    Node.getClock (orGraph true true) 1 = Except.ok 1 :=
  ⟨rfl, rfl, rfl, rfl,
    (getClock_checked (orGraph true true) 1).2 (Or.inl rfl)⟩

/-! ## Registry of node types -/

theorem find_assign {μ : Type} (tab : Table μ) (key : String) (make : μ) (k : String) :
    Table.find (Table.assign tab key make) k =
      if k = key then some make else Table.find tab k := by
  induction tab with
  | nil =>
    by_cases h : k = key
    · simp [Table.assign, Table.find, h]
    · have h1 : ¬ key = k := fun e => h e.symm
      simp [Table.assign, Table.find, h, h1]
  | cons e rest ih =>
    obtain ⟨k0, m0⟩ := e
    unfold Table.assign
    by_cases h1 : key < k0
    · rw [if_pos h1]
      by_cases h : k = key
      · simp [Table.find, h]
      · have h2 : ¬ key = k := fun e => h e.symm
        simp [Table.find, h, h2]
    · rw [if_neg h1]
      by_cases h2 : key = k0
      · rw [if_pos h2]
        subst h2
        by_cases h : k = key
        · simp [Table.find, h]
        · have h3 : ¬ key = k := fun e => h e.symm
          simp [Table.find, h, h3]
      · rw [if_neg h2]
        by_cases h : k = key
        · have h3 : ¬ k0 = k := fun e => h2 (h.symm.trans e.symm)
          simp only [Table.find, if_neg h3, ih, if_pos h]
        · by_cases h3 : k0 = k
          · simp [Table.find, h3, h]
          · simp only [Table.find, if_neg h3, ih, if_neg h]

theorem find_type_loop {μ : Type} (tab : Table μ) (oss : String) :
    (tab.foldl (fun (st : Bool × String) pair =>
      if st.1 then (false, st.2 ++ pair.1) else (false, st.2 ++ ", " ++ pair.1))
        (false, oss)).2 = oss ++ commaPrefixed (Table.names tab) := by
  induction tab generalizing oss with
  | nil => simp [Table.names, commaPrefixed]
  | cons e rest ih =>
    rw [List.foldl_cons]
    simp only [Bool.false_eq_true, if_false]
    rw [ih]
    simp [Table.names, commaPrefixed, String.append_assoc]

theorem commaSeparated_cons (a : String) (rest : List String) :
    commaSeparated (a :: rest) = a ++ commaPrefixed rest := by
  induction rest generalizing a with
  | nil => simp [commaSeparated, commaPrefixed]
  | cons b rest ih =>
    rw [commaSeparated, ih]
    simp [commaPrefixed, String.append_assoc]

theorem find_type_message {μ : Type} (tab : Table μ) (oss : String) :
    (tab.foldl (fun (st : Bool × String) pair =>
      if st.1 then (false, st.2 ++ pair.1) else (false, st.2 ++ ", " ++ pair.1))
        (true, oss)).2 = oss ++ commaSeparated (Table.names tab) := by
  cases tab with
  | nil => simp [Table.names, commaSeparated]
  | cons e rest =>
    rw [List.foldl_cons]
    simp only [if_true]
    rw [find_type_loop]
    show _ = oss ++ commaSeparated (e.1 :: Table.names rest)
    rw [commaSeparated_cons, String.append_assoc]

theorem find_type_none {μ : Type} (tab : Table μ) (key : String)
    (h : Table.find tab key = none) :
    (Graph.find_type tab key).1 = Except.error (Err.logic_error
      ("Cannot find type [" ++ key ++ "] (available: " ++ commaSeparated (Table.names tab)
        ++ ")")) := by
  unfold Graph.find_type
  rw [h]
  simp only
  rw [find_type_message]

theorem find_type_some {μ : Type} (tab : Table μ) (key : String) (make : μ)
    (h : Table.find tab key = some make) :
    (Graph.find_type tab key).1 = Except.ok make := by
  unfold Graph.find_type
  rw [h]

/-- C18: `Graph::register_type(key, make)` fails exactly when `key` is already registered;
it fails with a `ConfigError` and leaves the table as it was. Otherwise it returns true,
`find_type(key)` then returns `make`, and the entry of every other key is as before. -/
theorem register_type_write_once {μ : Type} (tab : Table μ) (key : String) (make : μ) :
    ((∃ e, (Graph.register_type tab key make).1 = Except.error e) ↔
      (Table.find tab key).isSome = true) ∧
    ((Table.find tab key).isSome = true →
      (Graph.register_type tab key make).1 =
        Except.error (Err.ConfigError ("Trying to register duplicate node: " ++ key)) ∧
      (Graph.register_type tab key make).2 = tab) ∧
    (Table.find tab key = none →
      (Graph.register_type tab key make).1 = Except.ok true ∧
      (Graph.find_type (Graph.register_type tab key make).2 key).1 = Except.ok make ∧
      ∀ k, k ≠ key → Table.find (Graph.register_type tab key make).2 k = Table.find tab k) := by
  cases h : Table.find tab key with
  | none =>
    have h1 : Graph.register_type tab key make = (Except.ok true, Table.assign tab key make) := by
      simp [Graph.register_type, Table.count, h]
    rw [h1]
    refine ⟨⟨fun ⟨e, he⟩ => (by cases he), fun he => (by cases he)⟩,
      fun he => (by cases he), fun _ => ⟨rfl, ?_, fun k hk => ?_⟩⟩
    · apply find_type_some
      rw [find_assign, if_pos rfl]
    · show Table.find (Table.assign tab key make) k = Table.find tab k
      rw [find_assign, if_neg hk]
  | some m =>
    have h1 : Graph.register_type tab key make =
        (Except.error (Err.ConfigError ("Trying to register duplicate node: " ++ key)), tab) := by
      simp [Graph.register_type, Table.count, h]
    rw [h1]
    exact ⟨⟨fun _ => rfl, fun _ => ⟨_, rfl⟩⟩, fun _ => ⟨rfl, rfl⟩, fun he => (by cases he)⟩

/-- Registering "Midpt" twice: the second call throws and changes nothing. -/
theorem register_type_write_once_witness :
    (Graph.register_type ([] : Table Nat) "Midpt" 2).2 = [("Midpt", 2)] ∧
    Graph.register_type [("Midpt", 2)] "Midpt" 5 =
      (Except.error (Err.ConfigError "Trying to register duplicate node: Midpt"),
        [("Midpt", 2)]) ∧
    Graph.register_type [("Midpt", 2)] "EMA" 4 = (Except.ok true, [("EMA", 4), ("Midpt", 2)]) ∧
    (Table.find ([("Midpt", 2)] : Table Nat) "EMA" = none →
      (Graph.register_type [("Midpt", 2)] "EMA" 4).1 = Except.ok true ∧
      (Graph.find_type (Graph.register_type [("Midpt", 2)] "EMA" 4).2 "EMA").1 = Except.ok 4 ∧
      ∀ k, k ≠ "EMA" →
        Table.find (Graph.register_type [("Midpt", 2)] "EMA" 4).2 k =
          Table.find [("Midpt", 2)] k) :=
  ⟨rfl, rfl, by simp +decide [Graph.register_type, Table.count, Table.find, Table.assign],
    (register_type_write_once [("Midpt", 2)] "EMA" 4).2.2⟩

/-- C20: `Graph::deserialize<T>(p)` returns a node exactly when `p["type"]` names a
registered type, the registered closure returns a non-null object, and the object passes
the cast to `T`; it then returns that object. It throws the error of `find_type` for a
name that is not registered, "Node not found" when the closure returns a null pointer,
and "Wrong node subtype requested" when the cast fails. -/
theorem deserialize_cases (tab : Table MakeType) (isT : Graph → NodePtr → Bool)
    (className : Graph → NodePtr → String) (typeName : String)
    (this : Graph) (p : Parameters) (type : String) (hp : p.type = Except.ok type) :
    (∀ n g1, Graph.deserialize tab isT className typeName this p = Except.ok (n, g1) ↔
      ∃ make, (Graph.find_type tab type).1 = Except.ok make ∧
        make this p = Except.ok (some n, g1) ∧ isT g1 n = true) ∧
    (Table.find tab type = none →
      Graph.deserialize tab isT className typeName this p = Except.error (Err.logic_error
        ("Cannot find type [" ++ type ++ "] (available: " ++
          commaSeparated (Table.names tab) ++ ")"))) ∧
    (∀ make g1, Table.find tab type = some make → make this p = Except.ok (none, g1) →
      Graph.deserialize tab isT className typeName this p =
        Except.error (Err.logic_error "Graph::deserialize: Node not found.")) ∧
    (∀ make n g1, Table.find tab type = some make → make this p = Except.ok (some n, g1) →
      isT g1 n = false →
      Graph.deserialize tab isT className typeName this p = Except.error (Err.logic_error
        ("Graph::deserialize: Wrong node subtype requested.\n" ++
          ("Deserialized node is: " ++ className g1 n ++ "\n") ++
          ("Requested typeid is: " ++ typeName ++ "\n")))) := by
  refine ⟨fun n g1 => ?_, fun h => ?_, fun make g1 h hm => ?_, fun make n g1 h hm ht => ?_⟩
  · unfold Graph.deserialize
    rw [hp]
    simp only
    cases hf : (Graph.find_type tab type).1 with
    | error e => simp
    | ok make =>
      simp only
      cases hm : make this p with
      | error e => simp [hm]
      | ok r =>
        obtain ⟨o, g2⟩ := r
        cases o with
        | none => simp [hm]
        | some raw =>
          simp only
          cases ht : isT g2 raw with
          | false =>
            simp only [Bool.false_eq_true, if_false]
            constructor
            · intro h; cases h
            · rintro ⟨make1, h1, h2, h3⟩
              cases h1
              rw [hm] at h2
              cases h2
              rw [ht] at h3
              cases h3
          | true =>
            simp only [if_true]
            constructor
            · intro h
              cases h
              exact ⟨make, rfl, hm, ht⟩
            · rintro ⟨make1, h1, h2, h3⟩
              cases h1
              rw [hm] at h2
              cases h2
              rfl
  · unfold Graph.deserialize
    rw [hp]
    simp only [find_type_none tab type h]
  · unfold Graph.deserialize
    rw [hp]
    simp only [find_type_some tab type make h, hm]
  · unfold Graph.deserialize
    rw [hp]
    simp only [find_type_some tab type make h, hm, ht, Bool.false_eq_true, if_false]

/-- Deserializing a clock node as a `ClockNode`, a value node as a `ClockNode`, the
closure that returns a null pointer, and a type that is not registered. -/
theorem deserialize_cases_witness :
    (∃ g1, Graph.deserialize sampleTable Node.isClockNode (fun _ _ => "Mock") "ClockNode"
        Graph.new ⟨Except.ok "Clock", []⟩ = Except.ok (8, g1) ∧ g1.nodes = [8]) ∧
    Graph.deserialize sampleTable Node.isClockNode (fun _ _ => "Mock") "ClockNode"
        Graph.new ⟨Except.ok "Value", []⟩ = Except.error (Err.logic_error
      "Graph::deserialize: Wrong node subtype requested.\nDeserialized node is: Mock\nRequested typeid is: ClockNode\n") ∧
    Graph.deserialize sampleTable Node.isClockNode (fun _ _ => "Mock") "ClockNode"
        Graph.new ⟨Except.ok "Null", []⟩ =
      Except.error (Err.logic_error "Graph::deserialize: Node not found.") ∧
    Graph.deserialize sampleTable Node.isClockNode (fun _ _ => "Mock") "ClockNode"
        Graph.new ⟨Except.ok "Theo", []⟩ = Except.error (Err.logic_error
      "Cannot find type [Theo] (available: Clock, Null, Value)") ∧
    (∀ n g1, Graph.deserialize sampleTable Node.isClockNode (fun _ _ => "Mock") "ClockNode"
        Graph.new ⟨Except.ok "Clock", []⟩ = Except.ok (n, g1) ↔
      ∃ make, (Graph.find_type sampleTable "Clock").1 = Except.ok make ∧
        make Graph.new ⟨Except.ok "Clock", []⟩ = Except.ok (some n, g1) ∧
        Node.isClockNode g1 n = true) :=
  ⟨⟨_, rfl, rfl⟩, rfl, rfl, rfl,
    (deserialize_cases sampleTable Node.isClockNode (fun _ _ => "Mock") "ClockNode"
      Graph.new ⟨Except.ok "Clock", []⟩ "Clock" rfl).1⟩

/-! ## The ticked flag -/

/-- C15 (amended): let `fire()` run on a node whose ticked flag is reset. For a value node
whose `compute()` leaves the flag alone, the flag is afterwards true exactly when the
clock of the node was ticked, whatever the parents and the status are. `ClockNode::fire`
never sets the flag itself: afterwards it is true only if a clock was ticked, the
parents were valid and `compute()` ran, and it is unchanged when `compute()` did not
run. -/
theorem ticked_flag_meaning (env : Env) (fuel : Nat) (g : Graph) (n : NodePtr)
    (hreset : (g.node n).ticked_ = false) :
    ((g.node n).kind = NodeKind.ValueNode → ∀ c, (g.node n).clocks_ = [c] →
      (∀ g0, (env.compute n g0).ticked_ = (g0.node n).ticked_) →
      ∃ g1, Node.fire env (fuel + 1) g n = Except.ok g1 ∧
        ((g1.node n).ticked_ = true ↔ (g.node c).ticked_ = true)) ∧
    ((g.node n).kind = NodeKind.ClockNode →
      ∃ g1, Node.fire env (fuel + 1) g n = Except.ok g1 ∧
        ((g1.node n).ticked_ = true →
          (∃ c ∈ (g.node n).clocks_, (g.node c).ticked_ = true) ∧
          Node.parentsValid g n = true ∧ g1.computeCalls = g.computeCalls ++ [n]) ∧
        (g1.computeCalls = g.computeCalls → (g1.node n).ticked_ = (g.node n).ticked_)) := by
  constructor
  · intro hk c hc hcomp
    have hfire : Node.fire env (fuel + 1) g n = ValueNode.fire env g n := by
      rw [Node.fire, hk]
    rw [hfire]
    cases ht : (g.node c).ticked_ with
    | false =>
      refine ⟨_, valueFire_noTick hk hc ht, ?_⟩
      simp [hreset]
    | true =>
      cases hp : Node.parentsValid g n with
      | false =>
        obtain ⟨g1, hf, _, _, htick, _⟩ := @valueFire_gated env g n c hk hc ht hp
        exact ⟨g1, hf, by simp [htick]⟩
      | true =>
        obtain ⟨gX, g1, hf, _, _, hX, _, htick⟩ := @valueFire_compute env g n c hk hc ht hp
        refine ⟨g1, hf, ?_⟩
        rw [htick, hcomp gX, hX]
  · intro hk
    have hfire : Node.fire env (fuel + 1) g n = ClockNode.fire env g n := by
      rw [Node.fire, hk]
    rw [hfire]
    by_cases ht : ∃ c ∈ (g.node n).clocks_, (g.node c).ticked_ = true
    · cases hp : Node.parentsValid g n with
      | false =>
        obtain ⟨g1, hf, _, _, htick, _⟩ := @clockFire_gated env g n ht hp
        refine ⟨g1, hf, fun h => ?_, fun _ => htick⟩
        rw [htick, hreset] at h
        cases h
      | true =>
        have hk1 : (g.node n).kind ≠ NodeKind.SourceNode := by
          rw [hk]
          decide
        obtain ⟨_, g1, hf, _, hcalls, _⟩ := @clockFire_compute env g n hk1 ht hp
        refine ⟨g1, hf, fun _ => ⟨ht, rfl, hcalls⟩, fun h => ?_⟩
        rw [hcalls] at h
        exact absurd h (computeCalls_snoc_ne _ _)
    · have hall : ∀ c ∈ (g.node n).clocks_, (g.node c).ticked_ = false := by
        intro c hc
        cases hct : (g.node c).ticked_ with
        | false => rfl
        | true => exact absurd ⟨c, hc, hct⟩ ht
      refine ⟨_, clockFire_noTick hall, fun h => ?_, fun _ => by simp⟩
      simp [hreset] at h

/-- The round of the test `compute_pruning`: the nodes 2 and 3 do not compute and are
ticked; and a value node with a ticked clock and a parent in `INIT`. -/
theorem ticked_flag_meaning_witness :
    (∃ g g1, runOps envPrune 10 (Graph.init [0, 1, 2, 3, 4] kindSrc0)
        [Op.setClock 1 [0], Op.setParent 2 1, Op.setClock 2 [0], Op.setParent 3 2,
          Op.setClock 3 [0], Op.setClock 4 [0]] = Except.ok g ∧
      Node.fire envPrune 2 g 0 = Except.ok g1 ∧
      (g1.node 0).ticked_ = true ∧ (g1.node 1).ticked_ = true ∧ (g1.node 2).ticked_ = true ∧
      (g1.node 3).ticked_ = true ∧ (g1.node 4).ticked_ = true) ∧
    ((fireGraph NodeKind.ValueNode true StatusCode.INIT StatusCode.OK).node 2).ticked_ = false ∧
    ∃ g1, Node.fire envPrune 1 (fireGraph NodeKind.ValueNode true StatusCode.INIT StatusCode.OK) 2 =
        Except.ok g1 ∧
      ((g1.node 2).ticked_ = true ↔
        ((fireGraph NodeKind.ValueNode true StatusCode.INIT StatusCode.OK).node 0).ticked_ = true) :=
  ⟨⟨_, _, rfl, rfl, rfl, rfl, rfl, rfl, rfl⟩, rfl,
    (ticked_flag_meaning envPrune 0
      (fireGraph NodeKind.ValueNode true StatusCode.INIT StatusCode.OK) 2 rfl).1 rfl 0 rfl
      (fun _ => rfl)⟩

/-- A clock node 2 that is clocked on the source 0 and has the value node 1 as parent;
the `compute()` of node 1 sets `INVALID`. In the round of the source the clock of node 2
is ticked and node 2 is fired, but its ticked flag stays false. -/
theorem ticked_flag_counterexample :
    ∃ g g1, runOps envPrune 10 (Graph.init [0, 1, 2] kindSrcValClk)
        [Op.setClock 1 [0], Op.setClock 2 [0], Op.setParent 2 1] = Except.ok g ∧
      (g.node 0).computeOrder_ = [1, 2] ∧ (g.node 2).clocks_ = [0] ∧
      (g.node 2).kind = NodeKind.ClockNode ∧
      Node.fire envPrune 2 g 0 = Except.ok g1 ∧
      (g1.node 0).ticked_ = true ∧ (g1.node 2).nFired = 1 ∧ (g1.node 2).ticked_ = false :=
  ⟨_, _, rfl, rfl, rfl, rfl, rfl, rfl, rfl, rfl⟩

/-! ## Order of the firing order -/

theorem before_reverse {l : List NodePtr} {u v : NodePtr} (h : Before l u v) :
    Before l.reverse v u := by
  obtain ⟨l1, l2, l3, e⟩ := h
  refine ⟨l3.reverse, l2.reverse, l1.reverse, ?_⟩
  rw [e]
  simp

theorem before_filter {l : List NodePtr} {u v : NodePtr} (p : NodePtr → Bool)
    (h : Before l u v) (hu : p u = true) (hv : p v = true) : Before (l.filter p) u v := by
  obtain ⟨l1, l2, l3, e⟩ := h
  refine ⟨l1.filter p, l2.filter p, l3.filter p, ?_⟩
  rw [e]
  simp [List.filter_append, List.filter_cons, hu, hv]

theorem before_of_postSorted {g : Graph} {all : Bool} {po : List NodePtr}
    (h : PostSorted g all po) {u v : NodePtr} (hu : u ∈ po) (huv : DfsEdge g all u v) :
    Before po v u := by
  obtain ⟨l1, l2, e1⟩ := List.append_of_mem hu
  have hv : v ∈ l1 := h l1 u l2 e1 v huv
  obtain ⟨l3, l4, e2⟩ := List.append_of_mem hv
  refine ⟨l3, l4, l2, ?_⟩
  rw [e1, e2]

theorem edge_of_sameEdges {g g1 : Graph} (h : SameEdges g g1) : g1.Edge = g.Edge := by
  funext u v
  simp only [Graph.Edge, (h.2 u).2.2.1, (h.2 u).2.2.2.2]

/-- `SourceNode::treeUpdated` on an acyclic graph, when it returns, stores a firing order
that is current and respects the edges. -/
theorem sourceTreeUpdated_sorted {env : Env} {fuel : Nat} {g g1 : Graph} {this : NodePtr}
    (h : SourceNode.treeUpdated env fuel g this = Except.ok g1) (hacyc : g.Acyclic) :
    SortedOrder g1 this := by
  have hsame := sourceTreeUpdated_sameEdges h
  obtain ⟨l0, hg0, hnd0, hmem0⟩ := sourceTreeUpdated_fresh h
  have hfresh : FreshOrder g1 this := by
    unfold FreshOrder
    rw [trigger_of_sameEdges hsame, hg0]
    simp only [modify_node_same]
    exact ⟨hnd0, hmem0⟩
  refine ⟨hfresh, ?_⟩
  unfold RespectsEdges
  rw [edge_of_sameEdges hsame]
  unfold SourceNode.treeUpdated at h
  split at h
  · cases h
  · rename_i callbacks hcb
    split at h
    · cases h
    · rename_i fullSort hsort
      split at h
      · cases h
      · cases h
        unfold topological_sort traverseChildren at hsort
        split at hsort
        · cases hsort
        · rename_i order hord
          cases hsort
          split at hord
          · cases hord
          · rename_i v2 a2 hdfs2
            cases hord
            obtain ⟨po2, hpo2, ha2⟩ := traversal_func g true (appendNode (some callbacks)) []
              fuel this v2 _ hdfs2
            have hsorted : PostSorted g true po2 :=
              (applyDepthFirstImpl_topo g true (by rw [dfsEdge_true]; exact hacyc) fuel this _ _
                hpo2 ⟨by simp, by simp, fun l1 x l2 he => by simp at he⟩ this
                ⟨by simp, by simp, fun l1 x l2 he => by simp at he⟩).2.2
            rw [foldl_appendNode, List.nil_append] at ha2
            simp only [modify_node_same]
            intro u v hu hv huv
            rw [ha2] at hu hv ⊢
            simp only [List.mem_filter, List.mem_reverse, decide_eq_true_eq] at hu hv
            have hb : Before po2 v u :=
              before_of_postSorted hsorted hu.1.1 (by rw [dfsEdge_true]; exact huv)
            refine before_filter _ (before_reverse (before_filter _ hb ?_ ?_)) ?_ ?_
            · simpa using hv.1.2
            · simpa using hu.1.2
            · simpa using hu.2
            · simpa using hv.2

theorem sortedOrder_of_sameEdges {g g1 : Graph} {S : NodePtr} (h : SameEdges g g1)
    (ho : (g1.node S).computeOrder_ = (g.node S).computeOrder_) (hf : SortedOrder g S) :
    SortedOrder g1 S := by
  refine ⟨freshOrder_of_sameEdges h ho hf.1, ?_⟩
  unfold RespectsEdges
  rw [ho, edge_of_sameEdges h]
  exact hf.2

theorem acyclic_of_sameEdges {g g1 : Graph} (h : SameEdges g g1) : g1.Acyclic ↔ g.Acyclic := by
  unfold Graph.Acyclic
  rw [edge_of_sameEdges h]

theorem clockless_of_sameEdges {g g1 : Graph} (h : SameEdges g g1)
    (hcl : g1.SourcesClockless) : g.SourcesClockless := fun S0 hS0 => by
  rw [← (h.2 S0).2.1]
  exact hcl S0 (by rw [(h.2 S0).1]; exact hS0)

theorem acyclic_mono {g g1 : Graph} (h : ∀ a b, g.Edge a b → g1.Edge a b)
    (ha : g1.Acyclic) : g.Acyclic :=
  fun x hx => ha x (Relation.TransGen.mono h hx)

/-- The notification of `Node::treeUpdated` on an acyclic graph, when it returns, leaves
every firing order sorted or untouched, and sorts the order of every source it travels
to. -/
theorem treeUpdated_resort (env : Env) :
    ∀ (fuel : Nat) (g g1 : Graph) (n : NodePtr),
      Node.treeUpdated env fuel g n = Except.ok g1 → g.Acyclic →
      (∀ S, SortedOrder g1 S ∨ (g1.node S).computeOrder_ = (g.node S).computeOrder_) ∧
      (∀ S, (g.node S).kind = NodeKind.SourceNode → Upstream g n S → SortedOrder g1 S) := by
  intro fuel
  induction fuel with
  | zero => intro g g1 n h; simp [Node.treeUpdated] at h
  | succ fuel ih =>
    intro g g1 n h hac
    have hsame := nodeTreeUpdated_sameEdges env _ _ _ _ h
    rw [Node.treeUpdated] at h
    split at h
    · rename_i hk
      have hfn : SortedOrder g1 n := sourceTreeUpdated_sorted h hac
      obtain ⟨l, hg1, _, _⟩ := sourceTreeUpdated_fresh h
      refine ⟨fun S => ?_, fun S _ hup => ?_⟩
      · by_cases hS : S = n
        · subst hS; exact Or.inl hfn
        · right; rw [hg1, modify_node_ne _ _ hS]
      · rcases Relation.ReflTransGen.cases_head hup with h1 | ⟨c, hc, _⟩
        · subst h1; exact hfn
        · exact absurd hk hc.1
    · rename_i hk
      have hP := foldlM_ok_prefix
        (fun d st => SameEdges g st ∧
          (∀ S, SortedOrder st S ∨ (st.node S).computeOrder_ = (g.node S).computeOrder_) ∧
          (∀ c ∈ d, ∀ S, (g.node S).kind = NodeKind.SourceNode → Upstream g c S →
            SortedOrder st S))
        _ (g.node n).clocks_ [] g g1
        (by
          intro c _ d st st1 hd hf
          obtain ⟨hs, hall, hup⟩ := hd
          have hs1 := nodeTreeUpdated_sameEdges env _ _ _ _ hf
          obtain ⟨i1, i2⟩ := ih st st1 c hf ((acyclic_of_sameEdges hs).2 hac)
          refine ⟨sameEdges_trans hs hs1, fun S => ?_, fun c1 hc1 S hS hu => ?_⟩
          · rcases i1 S with h1 | h1
            · exact Or.inl h1
            · rcases hall S with h2 | h2
              · exact Or.inl (sortedOrder_of_sameEdges hs1 h1 h2)
              · exact Or.inr (h1.trans h2)
          · rcases List.mem_append.1 hc1 with hc1 | hc1
            · rcases i1 S with h1 | h1
              · exact h1
              · exact sortedOrder_of_sameEdges hs1 h1 (hup c1 hc1 S hS hu)
            · rw [List.mem_singleton] at hc1
              subst hc1
              exact i2 S (by rw [(hs.2 S).1]; exact hS) (upstream_of_sameEdges hs hu))
        ⟨sameEdges_refl g, fun S => Or.inr rfl, fun c hc => (by simp at hc)⟩ h
      rw [List.nil_append] at hP
      obtain ⟨_, hall, hup⟩ := hP
      refine ⟨hall, fun S hS hu => ?_⟩
      rcases Relation.ReflTransGen.cases_head hu with h1 | ⟨c, hc, hrest⟩
      · exact absurd (by rw [h1]; exact hS) hk
      · exact hup c hc.2 S hS hrest

theorem sortInv_weaken {g : Graph} (t : Option NodePtr) (h : SortInv g none) :
    SortInv g t := by
  intro hc ha S hS
  rcases h hc ha S hS with h1 | ⟨this, h1, _⟩
  · exact Or.inl h1
  · cases h1

theorem sortInv_treeUpdated {env : Env} {fuel : Nat} {g g1 : Graph} {n : NodePtr}
    {t : Option NodePtr} (hu : Node.treeUpdated env fuel g n = Except.ok g1)
    (h : SortInv g t) : SortInv g1 t := by
  have hs := nodeTreeUpdated_sameEdges env _ _ _ _ hu
  intro hcl hac S hS
  have hac0 := (acyclic_of_sameEdges hs).1 hac
  obtain ⟨r1, _⟩ := treeUpdated_resort env fuel g g1 n hu hac0
  rcases h (clockless_of_sameEdges hs hcl) hac0 S (by rw [← (hs.2 S).1]; exact hS) with
    h1 | ⟨this, h1, h2⟩
  · left
    rcases r1 S with h3 | h3
    · exact h3
    · exact sortedOrder_of_sameEdges hs h3 h1
  · right
    exact ⟨this, h1, by rw [trigger_of_sameEdges hs]; exact h2⟩

theorem sortInv_treeUpdated_this {env : Env} {fuel : Nat} {g g1 : Graph} {this : NodePtr}
    (hsym : EdgeSymmetry g) (hu : Node.treeUpdated env fuel g this = Except.ok g1)
    (h : SortInv g (some this)) : SortInv g1 none := by
  have hs := nodeTreeUpdated_sameEdges env _ _ _ _ hu
  intro hcl hac S hS
  have hac0 := (acyclic_of_sameEdges hs).1 hac
  have hcl0 := clockless_of_sameEdges hs hcl
  obtain ⟨r1, r2⟩ := treeUpdated_resort env fuel g g1 this hu hac0
  have hS0 : (g.node S).kind = NodeKind.SourceNode := by rw [← (hs.2 S).1]; exact hS
  left
  rcases h hcl0 hac0 S hS0 with h1 | ⟨t, h1, h2⟩
  · rcases r1 S with h3 | h3
    · exact h3
    · exact sortedOrder_of_sameEdges hs h3 h1
  · cases h1
    exact r2 S hS0 (upstream_of_transGen hsym hcl0 h2)

theorem transGen_of_mem_fresh {g : Graph} {S x : NodePtr} (hf : FreshOrder g S)
    (hx : x ∈ (g.node S).computeOrder_) : Relation.TransGen g.Trigger S x := by
  obtain ⟨hr, hne⟩ := (hf.2 x).1 hx
  rcases Relation.reflTransGen_iff_eq_or_transGen.1 hr with h2 | h2
  · exact absurd h2 hne
  · exact h2

theorem sortInv_linkParent {g : Graph} {t : Option NodePtr} (this parent : NodePtr)
    (ht : t = none ∨ t = some this) (h : SortInv g t) :
    SortInv (linkParent g this parent) (some this) := by
  have htr : (linkParent g this parent).Trigger = g.Trigger := by
    funext u v
    simp only [Graph.Trigger, linkParent_callbacks]
  have hmono : ∀ a b, g.Edge a b → (linkParent g this parent).Edge a b := by
    intro a b hab
    unfold Graph.Edge at hab ⊢
    rw [linkParent_callbacks, linkParent_children]
    rcases hab with hab | hab
    · exact Or.inl hab
    · right
      split
      · exact List.mem_append_left _ hab
      · exact hab
  intro hcl hac S hS
  have hcl0 : g.SourcesClockless := fun S0 hS0 => by
    rw [← linkParent_clocks g this parent S0]
    exact hcl S0 (by rw [linkParent_kind]; exact hS0)
  rw [linkParent_kind] at hS
  rcases h hcl0 (acyclic_mono hmono hac) S hS with h1 | ⟨t1, h1, h2⟩
  · by_cases hmem : this ∈ (g.node S).computeOrder_
    · right
      exact ⟨this, rfl, by rw [htr]; exact transGen_of_mem_fresh h1.1 hmem⟩
    · left
      constructor
      · unfold FreshOrder
        rw [linkParent_computeOrder, htr]
        exact h1.1
      · unfold RespectsEdges
        rw [linkParent_computeOrder]
        intro u v hu hv huv
        refine h1.2 u v hu hv ?_
        unfold Graph.Edge at huv ⊢
        rw [linkParent_callbacks, linkParent_children] at huv
        rcases huv with huv | huv
        · exact Or.inl huv
        · right
          split at huv
          · rcases List.mem_append.1 huv with h3 | h3
            · exact h3
            · rw [List.mem_singleton] at h3
              rw [h3] at hv
              exact absurd hv hmem
          · exact huv
  · right
    rcases ht with ht | ht
    · rw [ht] at h1; cases h1
    · rw [ht] at h1
      cases h1
      exact ⟨this, rfl, by rw [htr]; exact h2⟩

theorem sortInv_linkClock {g : Graph} (this clock : NodePtr) (h : SortInv g (some this)) :
    SortInv (linkClock g this clock) (some this) := by
  have hmonoT : ∀ a b, g.Trigger a b → (linkClock g this clock).Trigger a b := by
    intro a b hab
    unfold Graph.Trigger at hab ⊢
    rw [linkClock_callbacks]
    split
    · exact List.mem_append_left _ hab
    · exact hab
  have hmono : ∀ a b, g.Edge a b → (linkClock g this clock).Edge a b := by
    intro a b hab
    rcases hab with hab | hab
    · exact Or.inl (hmonoT a b hab)
    · right
      rw [linkClock_children]
      exact hab
  have hnew : (linkClock g this clock).Trigger clock this := by
    unfold Graph.Trigger
    rw [linkClock_callbacks]
    simp
  intro hcl hac S hS
  have hcl0 : g.SourcesClockless := fun S0 hS0 => by
    have := hcl S0 (by rw [linkClock_kind]; exact hS0)
    rw [linkClock_clocks] at this
    split at this
    · simp at this
    · exact this
  rw [linkClock_kind] at hS
  rcases h hcl0 (acyclic_mono hmono hac) S hS with h1 | ⟨t, h1, h2⟩
  · by_cases hr : Relation.ReflTransGen g.Trigger S clock
    · right
      exact ⟨this, rfl, Relation.TransGen.tail'
        (Relation.ReflTransGen.mono hmonoT hr) hnew⟩
    · left
      have hreach : ∀ x, Relation.ReflTransGen (linkClock g this clock).Trigger S x ↔
          Relation.ReflTransGen g.Trigger S x := by
        intro x
        constructor
        · intro hx
          induction hx with
          | refl => exact Relation.ReflTransGen.refl
          | @tail y z _ hyz ih =>
            unfold Graph.Trigger at hyz
            rw [linkClock_callbacks] at hyz
            split at hyz
            · rename_i hy
              rw [hy] at ih
              exact absurd ih hr
            · exact Relation.ReflTransGen.tail ih hyz
        · exact Relation.ReflTransGen.mono hmonoT
      constructor
      · unfold FreshOrder
        rw [linkClock_computeOrder]
        exact ⟨h1.1.1, fun x => by rw [hreach]; exact h1.1.2 x⟩
      · unfold RespectsEdges
        rw [linkClock_computeOrder]
        intro u v hu hv huv
        refine h1.2 u v hu hv ?_
        unfold Graph.Edge at huv ⊢
        rw [linkClock_callbacks, linkClock_children] at huv
        rcases huv with huv | huv
        · left
          split at huv
          · rename_i hu1
            rw [hu1] at hu
            exact absurd ((h1.1.2 clock).1 hu).1 hr
          · exact huv
        · exact Or.inr huv
  · right
    cases h1
    exact ⟨this, rfl, Relation.TransGen.mono hmonoT h2⟩

theorem sortInv_setParent {env : Env} {fuel : Nat} {g g1 : Graph} {this parent : NodePtr}
    {t : Option NodePtr} (ht : t = none ∨ t = some this) (hsym : EdgeSymmetry g)
    (h : SortInv g t) (hr : Node.setParent env fuel g this parent = Except.ok g1) :
    SortInv g1 t := by
  unfold Node.setParent at hr
  split at hr
  · rename_i hp
    dsimp only at hr
    split at hr
    · cases hr
    · have hnot : parent ∉ (g.node this).parents_ := by
        simpa [Node.hasParent] using hp
      exact sortInv_weaken t (sortInv_treeUpdated_this (edgeSymmetry_linkParent hsym hnot) hr
        (sortInv_linkParent this parent ht h))
  · cases hr; exact h

theorem sortInv_addClockEdge {env : Env} {g g1 : Graph} {this clock : NodePtr}
    (h : SortInv g (some this)) (hr : addClockEdge env g this clock = Except.ok g1) :
    SortInv g1 (some this) := by
  unfold addClockEdge at hr
  split at hr
  · dsimp only at hr
    split at hr
    · cases hr
    · cases hr
      exact sortInv_linkClock this clock h
  · cases hr; exact h

theorem sortInv_clockSetClockImpl {env : Env} {fuel : Nat} {g g1 : Graph} {this : NodePtr}
    {nodes : List NodePtr} (hsym : EdgeSymmetry g) (h : SortInv g none)
    (hr : ClockNode.setClockImpl env fuel g this nodes = Except.ok g1) : SortInv g1 none := by
  unfold ClockNode.setClockImpl at hr
  split at hr
  · cases hr
  · rename_i g3 hloop
    have hP := foldlM_ok_inv (fun st => EdgeSymmetry st ∧ SortInv st (some this)) _ _ g g3
      (by
        intro node _ st st1 hs hf
        split at hf
        · cases hf
        · split at hf
          · cases hf
          · rename_i g2 hadd
            have h2 := addClockEdge_edgeSymmetry hs.1 hadd
            have h3 := sortInv_addClockEdge hs.2 hadd
            split at hf
            · exact ⟨setParent_edgeSymmetry h2 hf, sortInv_setParent (Or.inr rfl) h2 h3 hf⟩
            · cases hf; exact ⟨h2, h3⟩)
      ⟨hsym, sortInv_weaken _ h⟩ hloop
    exact sortInv_treeUpdated_this hP.1 hr hP.2

theorem sortInv_nodeSetClockImpl {env : Env} {fuel : Nat} {g g1 : Graph} {this : NodePtr}
    {nodes : List NodePtr} (hsym : EdgeSymmetry g) (h : SortInv g none)
    (hr : Node.setClockImpl env fuel g this nodes = Except.ok g1) : SortInv g1 none := by
  unfold Node.setClockImpl at hr
  dsimp only at hr
  split at hr
  · cases hr
  · rename_i g2 hadd
    have h2 := addClockEdge_edgeSymmetry hsym hadd
    have h3 := sortInv_addClockEdge (sortInv_weaken _ h) hadd
    split at hr
    · cases hr
    · split at hr
      · cases hr
      · rename_i g3 hloop
        have hP := foldlM_ok_inv (fun st => EdgeSymmetry st ∧ SortInv st (some this)) _ _ g2 g3
          (by
            intro node _ st st1 hs hf
            split at hf
            · exact ⟨setParent_edgeSymmetry hs.1 hf,
                sortInv_setParent (Or.inr rfl) hs.1 hs.2 hf⟩
            · cases hf; exact hs)
          ⟨h2, h3⟩ hloop
        exact sortInv_treeUpdated_this hP.1 hr hP.2

theorem sortInv_opRun {env : Env} {fuel : Nat} {g g1 : Graph} {op : Op}
    (hsym : EdgeSymmetry g) (h : SortInv g none) (hr : Op.run env fuel g op = Except.ok g1) :
    SortInv g1 none := by
  cases op with
  | setParent this parent => exact sortInv_setParent (Or.inl rfl) hsym h hr
  | setClock this nodes =>
    simp only [Op.run, Node.setClock] at hr
    split at hr
    · exact sortInv_nodeSetClockImpl hsym h hr
    · exact sortInv_clockSetClockImpl hsym h hr

theorem sortInv_runOps {env : Env} {fuel : Nat} {g g1 : Graph} {ops : List Op}
    (hsym : EdgeSymmetry g) (h : SortInv g none) (hr : runOps env fuel g ops = Except.ok g1) :
    EdgeSymmetry g1 ∧ SortInv g1 none :=
  foldlM_ok_inv (fun st => EdgeSymmetry st ∧ SortInv st none) _ ops g g1
    (fun _ _ _ _ hs hf => ⟨opRun_edgeSymmetry hs.1 hf, sortInv_opRun hs.1 hs.2 hf⟩)
    ⟨hsym, h⟩ hr

theorem sortInv_of_noEdges {g : Graph} (h : g.NoEdges)
    (ho : ∀ n, (g.node n).computeOrder_ = []) : SortInv g none := by
  intro hcl _ S hS
  left
  have hfresh := orderInv_of_noEdges h ho hcl S hS
  rcases hfresh with hf | ⟨t, ht, _⟩
  · refine ⟨hf, ?_⟩
    intro u v hu
    rw [ho S] at hu
    simp at hu
  · cases ht

/-- C11: starting from nodes without edges and with empty firing orders, after every
sequence of `setParent` and `setClock` calls that returns and leaves the trigger and
dependency edges together acyclic and no source with a clock, every two nodes `u`, `v`
of the firing order of a source such that `u` is a parent or a clock of `v` occur in
the order with `u` before `v`. -/
theorem computeOrder_respects_edges (env : Env) (fuel : Nat) (g0 g : Graph) (ops : List Op)
    (hfresh : g0.NoEdges) (hinit : ∀ n, (g0.node n).computeOrder_ = [])
    (hrun : runOps env fuel g0 ops = Except.ok g)
    (hacyc : ∀ x, ¬ Relation.TransGen g.Edge x x)
    (hclockless : ∀ S, (g.node S).kind = NodeKind.SourceNode → (g.node S).clocks_ = []) :
    ∀ S, (g.node S).kind = NodeKind.SourceNode →
      ∀ u v, u ∈ (g.node S).computeOrder_ → v ∈ (g.node S).computeOrder_ →
        (u ∈ (g.node v).parents_ ∨ u ∈ (g.node v).clocks_) →
        ∃ l1 l2 l3, (g.node S).computeOrder_ = l1 ++ u :: l2 ++ v :: l3 := by
  obtain ⟨hsym, hinv⟩ := sortInv_runOps (edgeSymmetry_of_noEdges hfresh)
    (sortInv_of_noEdges hfresh hinit) hrun
  intro S hS u v hu hv huv
  rcases hinv hclockless hacyc S hS with h1 | ⟨t, h1, _⟩
  · refine h1.2 u v hu hv ?_
    rcases huv with huv | huv
    · exact Or.inr ((hsym.1 v u).1 huv)
    · exact Or.inl ((hsym.2.1 v u).1 huv)
  · cases h1

/-- In the graph of the test `compute_pruning` every edge leads to a node with a higher
address. -/
theorem pruningGraph_edge_lt (g : Graph)
    (hg : runOps envOK 10 (Graph.init [0, 1, 2, 3, 4] kindSrc0) pruningOps = Except.ok g)
    (u v : Nat) (h : g.Edge u v) : u < v := by
  change Except.ok _ = Except.ok g at hg
  cases hg
  rcases u with _ | _ | _ | _ | _ | u
  · change v ∈ [1, 2, 3, 4] ∨ v ∈ ([] : List NodePtr) at h
    simp at h
    rcases h with h | h | h | h <;> subst h <;> decide
  · change v ∈ ([] : List NodePtr) ∨ v ∈ [2] at h
    simp at h
    subst h
    decide
  · change v ∈ ([] : List NodePtr) ∨ v ∈ [3] at h
    simp at h
    subst h
    decide
  · change v ∈ ([] : List NodePtr) ∨ v ∈ ([] : List NodePtr) at h
    simp at h
  · change v ∈ ([] : List NodePtr) ∨ v ∈ ([] : List NodePtr) at h
    simp at h
  · change v ∈ ([] : List NodePtr) ∨ v ∈ ([] : List NodePtr) at h
    simp at h

theorem kindSrc0_source (S : NodePtr) (h : kindSrc0 S = NodeKind.SourceNode) : S = 0 := by
  by_contra hne
  simp [kindSrc0, hne] at h

/-- The graph of the test `compute_pruning`: the firing order of the source puts node 1
before its child 2 and node 2 before its child 3. -/
theorem computeOrder_respects_edges_witness :
    (Graph.init [0, 1, 2, 3, 4] kindSrc0).NoEdges ∧
    ∃ g, runOps envOK 10 (Graph.init [0, 1, 2, 3, 4] kindSrc0) pruningOps = Except.ok g ∧
      (g.node 0).computeOrder_ = [4, 1, 2, 3] ∧ (g.node 2).parents_ = [1] ∧
      (g.node 2).clocks_ = [0] ∧ (g.node 3).parents_ = [2] ∧
      ∀ S, (g.node S).kind = NodeKind.SourceNode →
        ∀ u v, u ∈ (g.node S).computeOrder_ → v ∈ (g.node S).computeOrder_ →
          (u ∈ (g.node v).parents_ ∨ u ∈ (g.node v).clocks_) →
          ∃ l1 l2 l3, (g.node S).computeOrder_ = l1 ++ u :: l2 ++ v :: l3 :=
  ⟨fun _ => ⟨rfl, rfl, rfl, rfl⟩, _, rfl, rfl, rfl, rfl, rfl,
    computeOrder_respects_edges envOK 10 (Graph.init [0, 1, 2, 3, 4] kindSrc0) _ pruningOps
      (fun _ => ⟨rfl, rfl, rfl, rfl⟩) (fun _ => rfl) rfl
      (acyclic_of_rank id (pruningGraph_edge_lt _ rfl))
      (fun S hS => by
        rw [@runOps_kind envOK 10 (Graph.init [0, 1, 2, 3, 4] kindSrc0) _ pruningOps rfl S] at hS
        rw [kindSrc0_source S hS]
        rfl)⟩

/-! ## Cycle safety of the traversal and the inclusion filter -/

theorem traversal_visitor {σ : Type} (g : Graph) (all : Bool) (func : NodePtr → σ → σ)
    (fuel : Nat) (node : NodePtr) (visited : List NodePtr) (args : σ) :
    applyDepthFirstImpl g all func fuel node (visited, args) =
      Except.map (fun p => (p.1, p.2.foldl (fun a n => func n a) args))
        (applyDepthFirstImpl g all (appendNode none) fuel node (visited, [])) := by
  have := applyDepthFirstImpl_func g all func args fuel node visited []
  simpa using this

/-- A call of the traversal that passes the guard of the visited set and returns leaves
fewer registered nodes unvisited. -/
theorem traversal_measure {σ : Type} (g : Graph) (all : Bool) (func : NodePtr → σ → σ)
    (fuel : Nat) (node : NodePtr) (visited : List NodePtr) (args : σ)
    (s1 : List NodePtr × σ) (hnode : node ∈ g.nodes) (hnot : node ∉ visited)
    (h : applyDepthFirstImpl g all func fuel node (visited, args) = Except.ok s1) :
    unvisited g.nodes s1.1 < unvisited g.nodes visited := by
  rw [traversal_visitor] at h
  cases hh : applyDepthFirstImpl g all (appendNode none) fuel node (visited, []) with
  | error e => rw [hh] at h; cases h
  | ok p =>
    rw [hh] at h
    simp only [Except.map] at h
    cases h
    obtain ⟨hstep, hin⟩ := applyDepthFirstImpl_step g all fuel node _ _ hh
    have hsub : ∀ x ∈ insertSet node visited, x ∈ p.1 := by
      intro x hx
      rcases (mem_insertSet x node visited).1 hx with hx | hx
      · rw [hx]; exact hin
      · exact dfsStep_mono hstep hx
    exact lt_of_le_of_lt (unvisited_mono g.nodes hsub) (unvisited_insert hnode hnot)

theorem topological_sort_filter (g : Graph) (fuel : Nat) (root : NodePtr) (F : List NodePtr) :
    topological_sort g fuel root (some F) =
      Except.map (fun l => l.filter (fun n => decide (n ∈ F)))
        (topological_sort g fuel root none) := by
  unfold topological_sort traverseChildren
  rw [traversal_visitor g true (appendNode (some F)), traversal_visitor g true (appendNode none)]
  cases applyDepthFirstImpl g true (appendNode none) fuel root ([], []) with
  | error e => rfl
  | ok p =>
    simp only [Except.map]
    rw [foldl_appendNode]
    have h2 : p.2.foldl (fun a n => appendNode none n a) [] = p.2 := by
      have : ∀ (l acc : List NodePtr), l.foldl (fun a n => appendNode none n a) acc = acc ++ l := by
        intro l
        induction l with
        | nil => intro acc; simp
        | cons b l ih => intro acc; rw [List.foldl_cons, ih]; simp [appendNode]
      rw [this]; simp
    rw [h2]
    simp [List.filter_reverse]

/-- C27: on a finite graph, with or without cycles, a traversal from a registered root
with any visitor returns once the budget exceeds the number of nodes; the visitor is
applied to each node reachable from the root exactly once, in the order of the emission
list `po`; the visited set holds the same nodes; `traverseCallbacks`, `traverseChildren`
and `topological_sort` return as well; and every call that passes the guard of the
visited set leaves fewer nodes unvisited. -/
theorem traversal_cycle_safe {σ : Type} (g : Graph) (all : Bool) (func : NodePtr → σ → σ)
    (args0 : σ) (fuel : Nat) (root : NodePtr)
    (hroot : root ∈ g.nodes) (hclosed : g.Closed) (hfuel : g.nodes.length < fuel) :
    (∃ (v po : List NodePtr), applyDepthFirstImpl g all func fuel root ([], args0) =
        Except.ok (v, po.foldl (fun a n => func n a) args0) ∧
      po.Nodup ∧ (∀ x, x ∈ po ↔ Relation.ReflTransGen (DfsEdge g all) root x) ∧
      (∀ x, x ∈ v ↔ x ∈ po) ∧
      (all = false → traverseCallbacks g fuel root func args0 =
        Except.ok (po.foldl (fun a n => func n a) args0)) ∧
      (all = true → traverseChildren g fuel root func args0 =
        Except.ok (po.foldl (fun a n => func n a) args0))) ∧
    (∀ F, ∃ order, topological_sort g fuel root F = Except.ok order) ∧
    (∀ (fuel1 : Nat) (node : NodePtr) (visited : List NodePtr) (args : σ) (s1 : List NodePtr × σ),
      node ∈ g.nodes → node ∉ visited →
      applyDepthFirstImpl g all func fuel1 node (visited, args) = Except.ok s1 →
      unvisited g.nodes s1.1 < unvisited g.nodes visited) := by
  refine ⟨?_, fun F => ?_, fun fuel1 node visited args s1 hn hv h =>
    traversal_measure g all func fuel1 node visited args s1 hn hv h⟩
  · obtain ⟨v, po, h, hnd, hmem⟩ := traversal_from_root g all fuel root hroot hclosed hfuel
    have hcall : applyDepthFirstImpl g all func fuel root ([], args0) =
        Except.ok (v, po.foldl (fun a n => func n a) args0) := by
      rw [traversal_visitor, h]
      rfl
    obtain ⟨⟨new, e1, _, m1, _, _, _⟩, _⟩ := applyDepthFirstImpl_step g all fuel root _ _ h
    simp only [List.nil_append, List.not_mem_nil, false_or] at e1 m1
    subst e1
    refine ⟨v, po, hcall, hnd, hmem, m1, fun ha => ?_, fun ha => ?_⟩
    · subst ha
      unfold traverseCallbacks
      rw [hcall]
    · subst ha
      unfold traverseChildren
      rw [hcall]
  · obtain ⟨v, po, h, _, _⟩ := traversal_from_root g true fuel root hroot hclosed hfuel
    cases F with
    | none => exact ⟨po.reverse, by rw [topological_sort_none, h]; rfl⟩
    | some F =>
      refine ⟨po.reverse.filter (fun n => decide (n ∈ F)), ?_⟩
      rw [topological_sort_filter, topological_sort_none, h]
      rfl

/-- A graph with a trigger cycle and a dependency cycle: the traversals return and visit
each node once. -/
theorem traversal_cycle_safe_witness :
    0 ∈ cyclicGraph.nodes ∧ cyclicGraph.Closed ∧
    Relation.TransGen cyclicGraph.Trigger 0 0 ∧ Relation.TransGen cyclicGraph.Child 1 1 ∧
    applyDepthFirstImpl cyclicGraph true (appendNode none) 4 0 ([], []) =
      Except.ok ([0, 1, 2], [2, 1, 0]) ∧
    applyDepthFirstImpl cyclicGraph false (appendNode none) 4 0 ([], []) =
      Except.ok ([0, 1], [1, 0]) ∧
    topological_sort cyclicGraph 4 0 none = Except.ok [0, 1, 2] ∧
    ∃ (v po : List NodePtr), applyDepthFirstImpl cyclicGraph true insertSet 4 0 ([], []) =
        Except.ok (v, po.foldl (fun a n => insertSet n a) []) ∧
      po.Nodup ∧ (∀ x, x ∈ po ↔ Relation.ReflTransGen (DfsEdge cyclicGraph true) 0 x) ∧
      (∀ x, x ∈ v ↔ x ∈ po) ∧
      (true = false → traverseCallbacks cyclicGraph 4 0 insertSet [] =
        Except.ok (po.foldl (fun a n => insertSet n a) [])) ∧
      (true = true → traverseChildren cyclicGraph 4 0 insertSet [] =
        Except.ok (po.foldl (fun a n => insertSet n a) [])) :=
  ⟨by decide, by decide,
    Relation.TransGen.head (b := 1) (by decide) (Relation.TransGen.single (by decide)),
    Relation.TransGen.head (b := 2) (by decide) (Relation.TransGen.single (by decide)),
    rfl, rfl, rfl,
    (traversal_cycle_safe cyclicGraph true insertSet [] 4 0 (by decide) (by decide)
      (by decide)).1⟩

/-- C28: `topological_sort` with the inclusion filter `F` returns what it returns without
a filter, with the nodes outside `F` deleted and the others in their order (and it fails
when the sort without a filter fails); when `F` holds every node reachable from the
root, the two results are equal; and the previous content of `order` plays no part. -/
theorem topological_sort_filter_only_removes (g : Graph) (fuel : Nat) (root : NodePtr)
    (F : List NodePtr) :
    topological_sort g fuel root (some F) =
      Except.map (fun l => l.filter (fun n => decide (n ∈ F)))
        (topological_sort g fuel root none) ∧
    ((∀ x, Relation.ReflTransGen g.Edge root x → x ∈ F) →
      topological_sort g fuel root (some F) = topological_sort g fuel root none) ∧
    (∀ order0 onlyInclude, topological_sort_into g fuel root order0 onlyInclude =
      topological_sort g fuel root onlyInclude) := by
  refine ⟨topological_sort_filter g fuel root F, fun hF => ?_, fun order0 oi => rfl⟩
  rw [topological_sort_filter, topological_sort_none]
  cases h : applyDepthFirstImpl g true (appendNode none) fuel root ([], []) with
  | error e => rfl
  | ok p =>
    obtain ⟨v, po⟩ := p
    obtain ⟨_, hmem⟩ := traversal_ok h
    rw [dfsEdge_true] at hmem
    simp only [Except.map]
    congr 1
    rw [List.filter_eq_self]
    intro x hx
    simp only [decide_eq_true_eq]
    exact hF x ((hmem x).1 (List.mem_reverse.1 hx))

/-- The graph of `test_topological_sort`, sorted from src0 with a filter: the filtered
nodes keep their order; the stale content of `order` is discarded. -/
theorem topological_sort_filter_only_removes_witness :
    topological_sort topoTestGraph 8 0 none = Except.ok [0, 3, 2, 5, 6] ∧
    topological_sort topoTestGraph 8 0 (some [0, 1, 5, 6]) = Except.ok [0, 5, 6] ∧
    topological_sort topoTestGraph 8 0 (some [0, 2, 3, 5, 6]) = Except.ok [0, 3, 2, 5, 6] ∧
    topological_sort_into topoTestGraph 8 0 [4, 4, 1] (some [0, 1, 5, 6]) = Except.ok [0, 5, 6] ∧
    topological_sort topoTestGraph 8 0 (some [0, 1, 5, 6]) =
      Except.map (fun l => l.filter (fun n => decide (n ∈ [0, 1, 5, 6])))
        (topological_sort topoTestGraph 8 0 none) :=
  ⟨rfl, rfl, rfl, rfl, (topological_sort_filter_only_removes topoTestGraph 8 0 [0, 1, 5, 6]).1⟩

/-! ## `combineNodes` -/

theorem sorted_insertSet (x : Nat) (s : List Nat) (h : s.Sorted (fun a b => a < b)) :
    (insertSet x s).Sorted (fun a b => a < b) := by
  induction s with
  | nil => simp [insertSet]
  | cons y ys ih =>
    have h0 := List.sorted_cons.1 h
    unfold insertSet
    split
    · rename_i hxy
      refine List.sorted_cons.2 ⟨fun b hb => ?_, h⟩
      rcases List.mem_cons.1 hb with hb | hb
      · rw [hb]; exact hxy
      · exact lt_trans hxy (h0.1 b hb)
    · split
      · exact h
      · rename_i h1 h2
        refine List.sorted_cons.2 ⟨fun b hb => ?_, ih h0.2⟩
        rcases (mem_insertSet b x ys).1 hb with hb | hb
        · rw [hb]
          have h3 : y ≤ x := Nat.le_of_not_lt h1
          exact lt_of_le_of_ne h3 (fun e => h2 e.symm)
        · exact h0.1 b hb

theorem sorted_insertRange (l : List Nat) :
    ∀ s : List Nat, s.Sorted (fun a b => a < b) →
      (insertRange s l).Sorted (fun a b => a < b) := by
  unfold insertRange
  induction l with
  | nil => intro s h; exact h
  | cons a l ih => intro s h; exact ih _ (sorted_insertSet a s h)

theorem sorted_combineNodes (args : List NodesArg) :
    (combineNodes args).Sorted (fun a b => a < b) := by
  cases args with
  | nil => exact List.sorted_nil
  | cons first rest =>
    refine sorted_insertRange _ _ ?_
    cases first with
    | node n => exact sorted_insertSet n [] List.sorted_nil
    | set s => exact sorted_insertRange s [] List.sorted_nil
    | vector v => exact sorted_insertRange v [] List.sorted_nil

theorem mem_combineNodesImpl (a : NodesArg) (x : NodePtr) :
    x ∈ combineNodesImpl a ↔ x ∈ a.elems := by
  cases a <;> simp [combineNodesImpl, NodesArg.elems]

theorem mem_allElems (args : List NodesArg) (x : NodePtr) :
    x ∈ allElems args ↔ ∃ a ∈ args, x ∈ a.elems := by
  induction args with
  | nil => simp [allElems]
  | cons a rest ih => simp [allElems, ih]

theorem mem_combineNodes (args : List NodesArg) (x : NodePtr) :
    x ∈ combineNodes args ↔ x ∈ allElems args := by
  induction args with
  | nil => simp [combineNodes, allElems]
  | cons a rest ih =>
    simp only [combineNodes, allElems, mem_insertRange, mem_combineNodesImpl, ih,
      List.mem_append]

theorem eq_of_sorted_of_mem {l1 l2 : List Nat} (h1 : l1.Sorted (fun a b => a < b))
    (h2 : l2.Sorted (fun a b => a < b)) (h : ∀ x, x ∈ l1 ↔ x ∈ l2) : l1 = l2 := by
  have hp : l1.Perm l2 := (List.perm_ext_iff_of_nodup h1.nodup h2.nodup).2 h
  exact List.eq_of_perm_of_sorted hp h1.le_of_lt h2.le_of_lt

/-- C23: `combineNodes` returns the union of its arguments as a set: it holds exactly the
nodes that occur in at least one argument, in strictly ascending order and so each once,
its size is the number of distinct nodes, two calls whose arguments hold the same nodes
(such as the same arguments in another order) return the same set, and the call without
arguments returns the empty set. -/
theorem combineNodes_union (args : List NodesArg) :
    (∀ x, x ∈ combineNodes args ↔ ∃ a ∈ args, x ∈ a.elems) ∧
    (combineNodes args).Sorted (fun a b => a < b) ∧ (combineNodes args).Nodup ∧
    (combineNodes args).length = (allElems args).dedup.length ∧
    (∀ args1, (∀ x, x ∈ allElems args1 ↔ x ∈ allElems args) →
      combineNodes args1 = combineNodes args) ∧
    (∀ args1, args1.Perm args → combineNodes args1 = combineNodes args) ∧
    combineNodes [] = [] := by
  have hsame : ∀ args1, (∀ x, x ∈ allElems args1 ↔ x ∈ allElems args) →
      combineNodes args1 = combineNodes args := by
    intro args1 h
    refine eq_of_sorted_of_mem (sorted_combineNodes args1) (sorted_combineNodes args) ?_
    intro x
    rw [mem_combineNodes, mem_combineNodes]
    exact h x
  refine ⟨fun x => ?_, sorted_combineNodes args, (sorted_combineNodes args).nodup, ?_, hsame,
    fun args1 hp => hsame args1 (fun x => ?_), rfl⟩
  · rw [mem_combineNodes, mem_allElems]
  · refine List.Perm.length_eq ?_
    refine (List.perm_ext_iff_of_nodup (sorted_combineNodes args).nodup
      (List.nodup_dedup _)).2 (fun x => ?_)
    rw [mem_combineNodes, List.mem_dedup]
  · rw [mem_allElems, mem_allElems]
    constructor
    · rintro ⟨a, ha, hx⟩
      exact ⟨a, hp.mem_iff.1 ha, hx⟩
    · rintro ⟨a, ha, hx⟩
      exact ⟨a, hp.mem_iff.2 ha, hx⟩

/-- The calls of `test_combineNodes`, with sig1 = 1, sig2 = 2, sig3 = 3 and val = 4. -/
theorem combineNodes_union_witness :
    combineNodes [NodesArg.node 1] = [1] ∧
    combineNodes [NodesArg.node 1, NodesArg.node 2] = [1, 2] ∧
    combineNodes [NodesArg.vector [1, 2]] = [1, 2] ∧
    combineNodes [NodesArg.node 4, NodesArg.vector [1, 2]] = [1, 2, 4] ∧
    combineNodes [NodesArg.set [2, 3], NodesArg.vector [1, 2]] = [1, 2, 3] ∧
    combineNodes [NodesArg.vector [1, 2], NodesArg.set [2, 3]] = [1, 2, 3] ∧
    combineNodes [NodesArg.set [2, 3], NodesArg.node 4] = [2, 3, 4] ∧
    (combineNodes [NodesArg.set [2, 3], NodesArg.vector [1, 2]]).length =
      (allElems [NodesArg.set [2, 3], NodesArg.vector [1, 2]]).dedup.length :=
  ⟨rfl, rfl, rfl, rfl, rfl, rfl, rfl,
    (combineNodes_union [NodesArg.set [2, 3], NodesArg.vector [1, 2]]).2.2.2.1⟩

/-! ## The validity gate -/

theorem foldlM_unit_result {α : Type} (f : Unit → α → Except Err Unit) (l : List α) :
    (l.foldlM f () = Except.ok () ∧ ∀ a ∈ l, f () a = Except.ok ()) ∨
    ∃ a ∈ l, ∃ e, f () a = Except.error e ∧ l.foldlM f () = Except.error e := by
  induction l with
  | nil => exact Or.inl ⟨rfl, fun a ha => (by simp at ha)⟩
  | cons a l ih =>
    cases hfa : f () a with
    | error e =>
      right
      refine ⟨a, List.mem_cons_self _ _, e, hfa, ?_⟩
      simp only [List.foldlM_cons, hfa]
      rfl
    | ok u =>
      rcases ih with ⟨h1, h2⟩ | ⟨b, hb, e, h1, h2⟩
      · left
        refine ⟨?_, fun x hx => ?_⟩
        · simp only [List.foldlM_cons, hfa]
          exact h1
        · rcases List.mem_cons.1 hx with hx | hx
          · rw [hx]; exact hfa
          · exact h2 x hx
      · right
        refine ⟨b, List.mem_cons_of_mem _ hb, e, h1, ?_⟩
        simp only [List.foldlM_cons, hfa]
        exact h2

/-- `Graph::hasSymmetricEdges` returns true when the counts are right, throws one of its
two errors when they are not, and never returns false. -/
theorem hasSymmetricEdges_result (g : Graph) :
    (g.SymmetricCounts → g.hasSymmetricEdges = Except.ok true) ∧
    (¬ g.SymmetricCounts →
      g.hasSymmetricEdges = Except.error (Err.logic_error "parent/child mismatch") ∨
      g.hasSymmetricEdges = Except.error (Err.logic_error "clock/callback mismatch")) ∧
    (∀ b, g.hasSymmetricEdges = Except.ok b → b = true) := by
  have hres := foldlM_unit_result (fun (_ : Unit) node =>
      if (g.node node).parents_.any (fun parent =>
          decide ((g.node parent).children_.count node ≠ 1)) then
        Except.error (Err.logic_error "parent/child mismatch")
      else if (g.node node).children_.any (fun child =>
          decide ((g.node child).parents_.count node ≠ 1)) then
        Except.error (Err.logic_error "parent/child mismatch")
      else if (g.node node).clocks_.any (fun clock =>
          decide ((g.node clock).callbacks_.count node ≠ 1)) then
        Except.error (Err.logic_error "clock/callback mismatch")
      else if (g.node node).callbacks_.any (fun callback =>
          decide ((g.node callback).clocks_.count node ≠ 1)) then
        Except.error (Err.logic_error "clock/callback mismatch")
      else Except.ok ()) g.nodes
  refine ⟨fun hs => ?_, fun hn => ?_, fun b hb => ?_⟩
  · unfold Graph.hasSymmetricEdges
    rw [foldlM_unit_ok]
    intro n hn
    obtain ⟨h1, h2, h3, h4⟩ := hs n hn
    have e1 : (g.node n).parents_.any (fun parent =>
        decide ((g.node parent).children_.count n ≠ 1)) = false := by
      rw [List.any_eq_false]
      intro x hx
      simp [h1 x hx]
    have e2 : (g.node n).children_.any (fun child =>
        decide ((g.node child).parents_.count n ≠ 1)) = false := by
      rw [List.any_eq_false]
      intro x hx
      simp [h2 x hx]
    have e3 : (g.node n).clocks_.any (fun clock =>
        decide ((g.node clock).callbacks_.count n ≠ 1)) = false := by
      rw [List.any_eq_false]
      intro x hx
      simp [h3 x hx]
    have e4 : (g.node n).callbacks_.any (fun callback =>
        decide ((g.node callback).clocks_.count n ≠ 1)) = false := by
      rw [List.any_eq_false]
      intro x hx
      simp [h4 x hx]
    simp only [e1, e2, e3, e4, Bool.false_eq_true, if_false]
  · rcases hres with ⟨_, h2⟩ | ⟨a, ha, e, h1, h2⟩
    · exfalso
      apply hn
      intro n hnn
      have := h2 n hnn
      simp only at this
      split at this
      · cases this
      · split at this
        · cases this
        · split at this
          · cases this
          · split at this
            · cases this
            · rename_i c1 c2 c3 c4
              simp only [Bool.not_eq_true, List.any_eq_false, decide_eq_true_eq,
                not_not] at c1 c2 c3 c4
              exact ⟨c1, c2, c3, c4⟩
    · unfold Graph.hasSymmetricEdges
      rw [h2]
      split at h1
      · cases h1; exact Or.inl rfl
      · split at h1
        · cases h1; exact Or.inl rfl
        · split at h1
          · cases h1; exact Or.inr rfl
          · split at h1
            · cases h1; exact Or.inr rfl
            · cases h1
  · unfold Graph.hasSymmetricEdges at hb
    split at hb
    · cases hb
    · cases hb; rfl

/-- C26: on a finite graph `Graph::valid` returns false if and only if a registered node
lies on a cycle of dependency edges, whatever the state of the mirror entries is; on a
graph without such a cycle it returns true when every parent, child, clock and callback
entry has its inverse entry exactly once, and otherwise throws a logic error "parent/child
mismatch" or "clock/callback mismatch"; `hasSymmetricEdges` never returns false. -/
theorem valid_gate_result (g : Graph) (fuel : Nat)
    (hclosed : ∀ n ∈ g.nodes, ∀ c ∈ (g.node n).children_, c ∈ g.nodes)
    (hfuel : g.nodes.length < fuel) :
    (g.valid fuel = Except.ok false ↔ ∃ n ∈ g.nodes, Relation.TransGen g.Child n n) ∧
    ((¬ ∃ n ∈ g.nodes, Relation.TransGen g.Child n n) →
      (g.SymmetricCounts → g.valid fuel = Except.ok true) ∧
      (¬ g.SymmetricCounts →
        g.valid fuel = Except.error (Err.logic_error "parent/child mismatch") ∨
        g.valid fuel = Except.error (Err.logic_error "clock/callback mismatch"))) ∧
    (∀ b, g.hasSymmetricEdges = Except.ok b → b = true) := by
  obtain ⟨b, hb, hiff⟩ : ∃ b, g.isCyclic fuel = Except.ok b ∧
      (b = true ↔ ∃ n ∈ g.nodes, Relation.TransGen g.Child n n) :=
    isCyclicLoop_decides g fuel hclosed hfuel g.nodes (fun _ => Iff.rfl)
  obtain ⟨s1, s2, s3⟩ := hasSymmetricEdges_result g
  have hv : g.valid fuel = if b = true then Except.ok false else g.hasSymmetricEdges := by
    unfold Graph.valid
    rw [hb]
    cases b <;> rfl
  refine ⟨?_, fun hno => ?_, s3⟩
  · rw [hv]
    cases b with
    | true => simpa using hiff.1 rfl
    | false =>
      simp only [Bool.false_eq_true, if_false]
      constructor
      · intro h
        have := s3 false h
        cases this
      · intro h
        have := hiff.2 h
        cases this
  · have hbf : b = false := by
      cases b with
      | false => rfl
      | true => exact absurd (hiff.1 rfl) hno
    rw [hv, hbf]
    simp only [Bool.false_eq_true, if_false]
    exact ⟨s1, s2⟩

/-- A graph with a dependency cycle and a broken mirror is reported invalid without an
error; a graph without a cycle and with a broken mirror makes `valid` throw; the graph of
`test_topological_sort` is valid. -/
theorem valid_gate_result_witness :
    cyclicAsymGraph.valid 3 = Except.ok false ∧
    cyclicAsymGraph.hasSymmetricEdges =
      Except.error (Err.logic_error "parent/child mismatch") ∧
    asymGraph.valid 3 = Except.error (Err.logic_error "parent/child mismatch") ∧
    topoTestGraph.valid 8 = Except.ok true ∧
    (cyclicAsymGraph.valid 3 = Except.ok false ↔
      ∃ n ∈ cyclicAsymGraph.nodes, Relation.TransGen cyclicAsymGraph.Child n n) :=
  ⟨rfl, rfl, rfl, rfl, (valid_gate_result cyclicAsymGraph 3 (by decide) (by decide)).1⟩

/-! ## The clock-versus-parent policy of `setClock` -/

theorem setParent_cases {env : Env} {fuel : Nat} {g g1 : Graph} {this parent : NodePtr}
    (h : Node.setParent env fuel g this parent = Except.ok g1) :
    (parent ∈ (g.node this).parents_ ∧ g1 = g) ∨
    (parent ∉ (g.node this).parents_ ∧ SameEdges (linkParent g this parent) g1) := by
  unfold Node.setParent at h
  split at h
  · rename_i hp
    dsimp only at h
    split at h
    · cases h
    · right
      exact ⟨by simpa [Node.hasParent] using hp, nodeTreeUpdated_sameEdges env _ _ _ _ h⟩
  · rename_i hp
    cases h
    left
    exact ⟨by simpa [Node.hasParent] using hp, rfl⟩

theorem setParent_noop (env : Env) (fuel : Nat) (g : Graph) (this parent : NodePtr)
    (h : parent ∈ (g.node this).parents_) :
    Node.setParent env fuel g this parent = Except.ok g := by
  unfold Node.setParent
  have : Node.hasParent g this parent = true := by simpa [Node.hasParent] using h
  simp [this]

theorem addClockEdge_cases {env : Env} {g g1 : Graph} {this clock : NodePtr}
    (h : addClockEdge env g this clock = Except.ok g1) :
    (clock ∈ (g.node this).clocks_ ∧ g1 = g) ∨
    (clock ∉ (g.node this).clocks_ ∧ g1 = linkClock g this clock) := by
  unfold addClockEdge at h
  split at h
  · rename_i hp
    dsimp only at h
    split at h
    · cases h
    · cases h
      right
      exact ⟨by simpa [Node.hasClock] using hp, rfl⟩
  · rename_i hp
    cases h
    left
    exact ⟨by simpa [Node.hasClock] using hp, rfl⟩

theorem addClockEdge_noop (env : Env) (g : Graph) (this clock : NodePtr)
    (h : clock ∈ (g.node this).clocks_) : addClockEdge env g this clock = Except.ok g := by
  unfold addClockEdge
  have : Node.hasClock g this clock = true := by simpa [Node.hasClock] using h
  simp [this]

/-- What `setParent` does to the edge lists: the parent is in `parents_` afterwards, no
entry of `parents_` is lost, and the clock lists are untouched. -/
theorem setParent_lists {env : Env} {fuel : Nat} {g g1 : Graph} {this parent : NodePtr}
    (h : Node.setParent env fuel g this parent = Except.ok g1) :
    parent ∈ (g1.node this).parents_ ∧
    (∀ m x, x ∈ (g.node m).parents_ → x ∈ (g1.node m).parents_) ∧
    (∀ m, (g1.node m).clocks_ = (g.node m).clocks_) ∧
    (∀ m, (g1.node m).callbacks_ = (g.node m).callbacks_) := by
  rcases setParent_cases h with ⟨hp, e⟩ | ⟨_, hs⟩
  · subst e
    exact ⟨hp, fun _ _ hx => hx, fun _ => rfl, fun _ => rfl⟩
  · refine ⟨?_, fun m x hx => ?_, fun m => ?_, fun m => ?_⟩
    · rw [(hs.2 this).2.2.2.1, linkParent_parents]
      simp
    · rw [(hs.2 m).2.2.2.1, linkParent_parents]
      split
      · exact List.mem_append_left _ hx
      · exact hx
    · rw [(hs.2 m).2.1, linkParent_clocks]
    · rw [(hs.2 m).2.2.1, linkParent_callbacks]

/-- What the guarded block of `setClockImpl` does to the edge lists: the clock is in
`clocks_` afterwards, no entry of `clocks_` is lost, only the `clocks_` of `this` can
change, and the parent lists are untouched. -/
theorem addClockEdge_lists {env : Env} {g g1 : Graph} {this clock : NodePtr}
    (h : addClockEdge env g this clock = Except.ok g1) :
    clock ∈ (g1.node this).clocks_ ∧
    (∀ m x, x ∈ (g.node m).clocks_ → x ∈ (g1.node m).clocks_) ∧
    (∀ x, x ∈ (g1.node this).clocks_ → x ∈ (g.node this).clocks_ ∨ x = clock) ∧
    (∀ m, m ≠ this → (g1.node m).clocks_ = (g.node m).clocks_) ∧
    (∀ m, (g1.node m).parents_ = (g.node m).parents_) := by
  rcases addClockEdge_cases h with ⟨hp, e⟩ | ⟨_, e⟩
  · subst e
    exact ⟨hp, fun _ _ hx => hx, fun _ hx => Or.inl hx, fun _ _ => rfl, fun _ => rfl⟩
  · subst e
    refine ⟨?_, fun m x hx => ?_, fun x hx => ?_, fun m hm => ?_, fun m => ?_⟩
    · rw [linkClock_clocks]
      simp
    · rw [linkClock_clocks]
      split
      · exact List.mem_append_left _ hx
      · exact hx
    · rw [linkClock_clocks] at hx
      simpa using hx
    · rw [linkClock_clocks, if_neg hm]
    · rw [linkClock_parents]

theorem getClock_clockKind {g : Graph} {x : NodePtr}
    (h : (g.node x).kind ≠ NodeKind.ValueNode) : Node.getClock g x = Except.ok x := by
  unfold Node.getClock
  cases hk : (g.node x).kind with
  | ValueNode => exact absurd hk h
  | ClockNode => rfl
  | SourceNode => rfl

theorem isClockNode_iff (g : Graph) (x : NodePtr) :
    Node.isClockNode g x = false ↔ (g.node x).kind = NodeKind.ValueNode := by
  unfold Node.isClockNode
  cases (g.node x).kind <;> simp

/-- One round of the loop of `ClockNode::setClockImpl`. -/
theorem clockSetClock_step {env : Env} {fuel : Nat} {st st1 : Graph} {this x : NodePtr}
    (h : (match Node.getClock st x with
      | Except.error e => Except.error e
      | Except.ok clock =>
        match addClockEdge env st this clock with
        | Except.error e => Except.error e
        | Except.ok g2 =>
          if Node.isClockNode g2 x = false then Node.setParent env fuel g2 this x
          else Except.ok g2) = Except.ok st1) :
    (∀ m, (st1.node m).kind = (st.node m).kind) ∧
    (∀ y, y ∈ (st.node this).clocks_ → y ∈ (st1.node this).clocks_) ∧
    (∀ y, y ∈ (st.node this).parents_ → y ∈ (st1.node this).parents_) ∧
    (∀ m, m ≠ this → (st1.node m).clocks_ = (st.node m).clocks_) ∧
    (∃ clock, Node.getClock st x = Except.ok clock ∧ clock ∈ (st1.node this).clocks_) ∧
    ((st.node x).kind ≠ NodeKind.ValueNode →
      (st1.node this).parents_ = (st.node this).parents_) ∧
    ((st.node x).kind = NodeKind.ValueNode → x ∈ (st1.node this).parents_) := by
  split at h
  · cases h
  · rename_i clock hget
    split at h
    · cases h
    · rename_i g2 hadd
      obtain ⟨a1, a2, _, a4, a5⟩ := addClockEdge_lists hadd
      have hk2 := addClockEdge_kind hadd
      split at h
      · rename_i hcn
        obtain ⟨p1, p2, p3, _⟩ := setParent_lists h
        have hk1 := setParent_kind h
        have hxv : (st.node x).kind = NodeKind.ValueNode := by
          rw [← hk2 x]; exact (isClockNode_iff g2 x).1 hcn
        refine ⟨fun m => (hk1 m).trans (hk2 m), fun y hy => ?_, fun y hy => ?_, fun m hm => ?_,
          ⟨clock, hget, ?_⟩, fun hne => absurd hxv hne, fun _ => p1⟩
        · rw [p3]; exact a2 this y hy
        · exact p2 this y (by rw [a5]; exact hy)
        · rw [p3, a4 m hm]
        · rw [p3]; exact a1
      · rename_i hcn
        cases h
        have hxc : (st.node x).kind ≠ NodeKind.ValueNode := by
          intro hv
          exact hcn ((isClockNode_iff st1 x).2 (by rw [hk2 x]; exact hv))
        refine ⟨hk2, fun y hy => a2 this y hy, fun y hy => (by rw [a5]; exact hy), a4,
          ⟨clock, hget, a1⟩, fun _ => a5 this, fun hv => absurd hv hxc⟩

/-- C21: let `n` be a clock node and let `n.setClock(x)` return. If `x` is a clock node,
`x` is a clock of `n` afterwards and the parents of `n` are what they were (none for a
fresh `n`). If `x` is a value node with the single clock `k`, then `k` is a clock of `n`
and `x` is a parent of `n` afterwards. -/
theorem clockNode_setClock_policy (env : Env) (fuel : Nat) (g g1 : Graph) (n x : NodePtr)
    (hn : (g.node n).kind ≠ NodeKind.ValueNode)
    (h : Node.setClock env fuel g n [x] = Except.ok g1) :
    ((g.node x).kind ≠ NodeKind.ValueNode →
      Node.hasClock g1 n x = true ∧ (g1.node n).parents_ = (g.node n).parents_ ∧
      ((g.node n).parents_ = [] → Node.hasParent g1 n x = false)) ∧
    ((g.node x).kind = NodeKind.ValueNode → ∀ k, (g.node x).clocks_ = [k] →
      Node.hasClock g1 n k = true ∧ Node.hasParent g1 n x = true) := by
  have hset : Node.setClock env fuel g n [x] = ClockNode.setClockImpl env fuel g n [x] := by
    unfold Node.setClock
    cases hk : (g.node n).kind with
    | ValueNode => exact absurd hk hn
    | ClockNode => rfl
    | SourceNode => rfl
  rw [hset] at h
  unfold ClockNode.setClockImpl at h
  split at h
  · cases h
  · rename_i g3 hloop
    have hs := nodeTreeUpdated_sameEdges env _ _ _ _ h
    simp only [List.foldlM_cons, List.foldlM_nil, bind_pure] at hloop
    have hstep := hloop
    obtain ⟨_, _, _, _, ⟨clock, hget, hclock⟩, hpar, hval⟩ := clockSetClock_step hstep
    constructor
    · intro hxc
      rw [getClock_clockKind hxc] at hget
      cases hget
      have e1 : (g1.node n).parents_ = (g.node n).parents_ := by
        rw [(hs.2 n).2.2.2.1]; exact hpar hxc
      refine ⟨?_, e1, fun hnil => ?_⟩
      · simp only [Node.hasClock, decide_eq_true_eq]
        rw [(hs.2 n).2.1]; exact hclock
      · simp [Node.hasParent, e1, hnil]
    · intro hxv k hk
      have hgk : Node.getClock g x = Except.ok k := by
        simp [Node.getClock, hxv, hk]
      rw [hgk] at hget
      cases hget
      constructor
      · simp only [Node.hasClock, decide_eq_true_eq]
        rw [(hs.2 n).2.1]; exact hclock
      · simp only [Node.hasParent, decide_eq_true_eq]
        rw [(hs.2 n).2.2.2.1]; exact hval hxv

/-- The clock-node policy on the tests `Clock_ClockArg` and `Clock_ValueNodeArg`, and
three clocks deep. -/
theorem clockNode_setClock_policy_witness :
    (∃ g, runOps envOK 10 (Graph.init [0, 1, 2, 3] kindClk0)
        [Op.setClock 1 [0], Op.setClock 2 [1], Op.setClock 3 [2]] = Except.ok g ∧
      Node.hasClock g 2 1 = true ∧ Node.hasParent g 2 1 = false ∧
      Node.hasClock g 3 2 = true ∧ Node.hasParent g 3 2 = false) ∧
    (∃ g, runOps envOK 10 (Graph.init [0, 1, 2] kindSrcValClk)
        [Op.setClock 1 [0], Op.setClock 2 [1]] = Except.ok g ∧
      Node.hasClock g 1 0 = true ∧ Node.hasClock g 2 0 = true ∧
      Node.hasParent g 2 1 = true) ∧
    ∃ g1, Node.setClock envOK 10 (Graph.init [0, 1] kindClk0) 1 [0] = Except.ok g1 ∧
      (Node.hasClock g1 1 0 = true ∧
        (g1.node 1).parents_ = ((Graph.init [0, 1] kindClk0).node 1).parents_ ∧
        (((Graph.init [0, 1] kindClk0).node 1).parents_ = [] →
          Node.hasParent g1 1 0 = false)) :=
  ⟨⟨_, rfl, rfl, rfl, rfl, rfl⟩, ⟨_, rfl, rfl, rfl, rfl⟩, _, rfl,
    (clockNode_setClock_policy envOK 10 (Graph.init [0, 1] kindClk0) _ 1 0 (by decide) rfl).1
      (by decide)⟩

/-- One round of the loop of `Node::setClockImpl`. -/
theorem nodeSetClock_step {env : Env} {fuel : Nat} {st st1 : Graph} {this x : NodePtr}
    (h : (if Node.hasClock st this x = false then Node.setParent env fuel st this x
      else Except.ok st) = Except.ok st1) :
    (∀ m, (st1.node m).clocks_ = (st.node m).clocks_) ∧
    (∀ y, y ∈ (st.node this).parents_ → y ∈ (st1.node this).parents_) ∧
    (x ∈ (st1.node this).clocks_ ∨ x ∈ (st1.node this).parents_) ∧
    (x ∉ (st.node this).clocks_ → x ∈ (st1.node this).parents_) := by
  split at h
  · rename_i hc
    obtain ⟨p1, p2, p3, _⟩ := setParent_lists h
    exact ⟨p3, fun y hy => p2 this y hy, Or.inr p1, fun _ => p1⟩
  · rename_i hc
    have hx : x ∈ (st.node this).clocks_ := by
      simpa [Node.hasClock] using hc
    cases h
    exact ⟨fun _ => rfl, fun _ hy => hy, Or.inl hx, fun hn => absurd hx hn⟩

/-- C22: when `n.setClock(x1, ..., xk)` returns, every argument is a clock or a parent of
`n`. An argument that is a value node is a parent of `n`: always when `n` is a clock
node, and for a value node `n` because its clocks, and the clock that `joinClocks`
returns, are clock nodes. A value node `n` clocked on a single clock node `c` that
`joinClocks` resolves to itself has `c` among its clocks, as its only clock when it had
none before. -/
theorem setClock_orders_arguments (env : Env) (fuel : Nat) (g g1 : Graph) (n : NodePtr)
    (nodes : List NodePtr) (h : Node.setClock env fuel g n nodes = Except.ok g1) :
    (∀ x ∈ nodes, Node.hasClock g1 n x = true ∨ Node.hasParent g1 n x = true) ∧
    ((g.node n).kind ≠ NodeKind.ValueNode → ∀ x ∈ nodes,
      (g.node x).kind = NodeKind.ValueNode → Node.hasParent g1 n x = true) ∧
    ((g.node n).kind = NodeKind.ValueNode →
      (∀ c ∈ (g.node n).clocks_, (g.node c).kind ≠ NodeKind.ValueNode) →
      (g.node (env.joinClocks g (toSet nodes))).kind ≠ NodeKind.ValueNode →
      ∀ x ∈ nodes, (g.node x).kind = NodeKind.ValueNode → Node.hasParent g1 n x = true) ∧
    ((g.node n).kind = NodeKind.ValueNode → ∀ c, nodes = [c] → env.joinClocks g [c] = c →
      Node.hasClock g1 n c = true ∧
      ((g.node n).clocks_ = [] → Node.getClock g1 n = Except.ok c)) := by
  have hmem : ∀ (a : NodePtr) (l : List NodePtr), Node.hasClock g1 n a = true ↔
      a ∈ (g1.node n).clocks_ := fun a _ => by simp [Node.hasClock]
  have hmemp : ∀ (a : NodePtr), Node.hasParent g1 n a = true ↔
      a ∈ (g1.node n).parents_ := fun a => by simp [Node.hasParent]
  cases hk : (g.node n).kind with
  | ValueNode =>
    have hset : Node.setClock env fuel g n nodes =
        Node.setClockImpl env fuel g n (toSet nodes) := by
      unfold Node.setClock
      rw [hk]
    rw [hset] at h
    unfold Node.setClockImpl at h
    dsimp only at h
    split at h
    · cases h
    · rename_i g2 hadd
      obtain ⟨a1, _, a3, _, _⟩ := addClockEdge_lists hadd
      split at h
      · cases h
      · split at h
        · cases h
        · rename_i g3 hloop
          have hs := nodeTreeUpdated_sameEdges env _ _ _ _ h
          have hP := foldlM_ok_prefix
            (fun d st => (∀ m, (st.node m).clocks_ = (g2.node m).clocks_) ∧
              (∀ x ∈ d, x ∈ (st.node n).clocks_ ∨ x ∈ (st.node n).parents_) ∧
              (∀ x ∈ d, x ∉ (g2.node n).clocks_ → x ∈ (st.node n).parents_))
            _ (toSet nodes) [] g2 g3
            (by
              intro x _ d st st2 hd hf
              obtain ⟨s1, s2, s3, s4⟩ := nodeSetClock_step hf
              obtain ⟨d1, d2, d3⟩ := hd
              refine ⟨fun m => (s1 m).trans (d1 m), fun y hy => ?_, fun y hy hyn => ?_⟩
              · rcases List.mem_append.1 hy with hy | hy
                · rcases d2 y hy with h1 | h1
                  · left; rw [s1]; exact h1
                  · right; exact s2 y h1
                · rw [List.mem_singleton] at hy
                  rw [hy]; exact s3
              · rcases List.mem_append.1 hy with hy | hy
                · exact s2 y (d3 y hy hyn)
                · rw [List.mem_singleton] at hy
                  rw [hy] at hyn ⊢
                  exact s4 (by rw [d1]; exact hyn))
            ⟨fun _ => rfl, fun x hx => (by simp at hx), fun x hx => (by simp at hx)⟩ hloop
          rw [List.nil_append] at hP
          obtain ⟨q1, q2, q3⟩ := hP
          have ec : (g1.node n).clocks_ = (g2.node n).clocks_ := by
            rw [(hs.2 n).2.1, q1]
          have ep : (g1.node n).parents_ = (g3.node n).parents_ := (hs.2 n).2.2.2.1
          refine ⟨fun x hx => ?_, fun hne => absurd rfl hne, fun _ hty hjoin x hx hxv => ?_,
            fun _ c hc hjoin => ?_⟩
          · rw [hmem x [], hmemp, ec, ep, ← q1 n]
            exact q2 x ((mem_toSet x nodes).2 hx)
          · rw [hmemp, ep]
            refine q3 x ((mem_toSet x nodes).2 hx) (fun hin => ?_)
            rcases a3 x hin with h1 | h1
            · exact hty x h1 hxv
            · rw [h1] at hxv
              exact hjoin hxv
          · subst hc
            have ej : env.joinClocks g (toSet [c]) = c := hjoin
            rw [ej] at a1 a3
            refine ⟨by rw [hmem c [], ec]; exact a1, fun hnil => ?_⟩
            have e2 : (g2.node n).clocks_ = [c] := by
              rcases addClockEdge_cases hadd with ⟨hin, _⟩ | ⟨_, e⟩
              · rw [ej, hnil] at hin
                simp at hin
              · rw [e, linkClock_clocks, ej, hnil]
                simp
            have ek : (g1.node n).kind = NodeKind.ValueNode := by
              have k1 := addClockEdge_kind hadd n
              have k2 := foldlM_ok_inv (fun st => (st.node n).kind = (g2.node n).kind) _ _ g2 g3
                (by
                  intro x _ st st2 hst hf
                  split at hf
                  · rw [setParent_kind hf n]; exact hst
                  · cases hf; exact hst)
                rfl hloop
              rw [(hs.2 n).1, k2, k1, hk]
            simp [Node.getClock, ek, ec, e2]
  | ClockNode =>
    have hne : (g.node n).kind ≠ NodeKind.ValueNode := by rw [hk]; decide
    have hset : Node.setClock env fuel g n nodes =
        ClockNode.setClockImpl env fuel g n (toSet nodes) := by
      unfold Node.setClock
      rw [hk]
    rw [hset] at h
    unfold ClockNode.setClockImpl at h
    split at h
    · cases h
    · rename_i g3 hloop
      have hs := nodeTreeUpdated_sameEdges env _ _ _ _ h
      have hP := foldlM_ok_prefix
        (fun d st => (∀ m, (st.node m).kind = (g.node m).kind) ∧
          (∀ x ∈ d, ((g.node x).kind ≠ NodeKind.ValueNode → x ∈ (st.node n).clocks_) ∧
            ((g.node x).kind = NodeKind.ValueNode → x ∈ (st.node n).parents_)))
        _ (toSet nodes) [] g g3
        (by
          intro x _ d st st2 hd hf
          obtain ⟨s1, s2, s3, _, ⟨clock, hget, hclock⟩, _, s7⟩ := clockSetClock_step hf
          obtain ⟨d1, d2⟩ := hd
          refine ⟨fun m => (s1 m).trans (d1 m), fun y hy => ?_⟩
          rcases List.mem_append.1 hy with hy | hy
          · exact ⟨fun hc => s2 y ((d2 y hy).1 hc), fun hv => s3 y ((d2 y hy).2 hv)⟩
          · rw [List.mem_singleton] at hy
            subst hy
            refine ⟨fun hc => ?_, fun hv => s7 (by rw [d1]; exact hv)⟩
            rw [getClock_clockKind (by rw [d1]; exact hc)] at hget
            cases hget
            exact hclock)
        ⟨fun _ => rfl, fun x hx => (by simp at hx)⟩ hloop
      rw [List.nil_append] at hP
      obtain ⟨_, q2⟩ := hP
      refine ⟨fun x hx => ?_, fun _ x hx hxv => ?_, fun he => (by cases he),
        fun he => (by cases he)⟩
      · rw [hmem x [], hmemp, (hs.2 n).2.1, (hs.2 n).2.2.2.1]
        by_cases hxv : (g.node x).kind = NodeKind.ValueNode
        · exact Or.inr ((q2 x ((mem_toSet x nodes).2 hx)).2 hxv)
        · exact Or.inl ((q2 x ((mem_toSet x nodes).2 hx)).1 hxv)
      · rw [hmemp, (hs.2 n).2.2.2.1]
        exact (q2 x ((mem_toSet x nodes).2 hx)).2 hxv
  | SourceNode =>
    have hne : (g.node n).kind ≠ NodeKind.ValueNode := by rw [hk]; decide
    have hset : Node.setClock env fuel g n nodes =
        ClockNode.setClockImpl env fuel g n (toSet nodes) := by
      unfold Node.setClock
      rw [hk]
    rw [hset] at h
    unfold ClockNode.setClockImpl at h
    split at h
    · cases h
    · rename_i g3 hloop
      have hs := nodeTreeUpdated_sameEdges env _ _ _ _ h
      have hP := foldlM_ok_prefix
        (fun d st => (∀ m, (st.node m).kind = (g.node m).kind) ∧
          (∀ x ∈ d, ((g.node x).kind ≠ NodeKind.ValueNode → x ∈ (st.node n).clocks_) ∧
            ((g.node x).kind = NodeKind.ValueNode → x ∈ (st.node n).parents_)))
        _ (toSet nodes) [] g g3
        (by
          intro x _ d st st2 hd hf
          obtain ⟨s1, s2, s3, _, ⟨clock, hget, hclock⟩, _, s7⟩ := clockSetClock_step hf
          obtain ⟨d1, d2⟩ := hd
          refine ⟨fun m => (s1 m).trans (d1 m), fun y hy => ?_⟩
          rcases List.mem_append.1 hy with hy | hy
          · exact ⟨fun hc => s2 y ((d2 y hy).1 hc), fun hv => s3 y ((d2 y hy).2 hv)⟩
          · rw [List.mem_singleton] at hy
            subst hy
            refine ⟨fun hc => ?_, fun hv => s7 (by rw [d1]; exact hv)⟩
            rw [getClock_clockKind (by rw [d1]; exact hc)] at hget
            cases hget
            exact hclock)
        ⟨fun _ => rfl, fun x hx => (by simp at hx)⟩ hloop
      rw [List.nil_append] at hP
      obtain ⟨_, q2⟩ := hP
      refine ⟨fun x hx => ?_, fun _ x hx hxv => ?_, fun he => (by cases he),
        fun he => (by cases he)⟩
      · rw [hmem x [], hmemp, (hs.2 n).2.1, (hs.2 n).2.2.2.1]
        by_cases hxv : (g.node x).kind = NodeKind.ValueNode
        · exact Or.inr ((q2 x ((mem_toSet x nodes).2 hx)).2 hxv)
        · exact Or.inl ((q2 x ((mem_toSet x nodes).2 hx)).1 hxv)
      · rw [hmemp, (hs.2 n).2.2.2.1]
        exact (q2 x ((mem_toSet x nodes).2 hx)).2 hxv

/-- The test `three_deep__all_combinations`: for each of the eight choices of clock node
or value node for the three levels, the construction returns and the grandchild is a
clock or a parent of the great-grandchild. -/
theorem setClock_three_deep (a b c : NodeKind) (ha : a ≠ NodeKind.SourceNode)
    (hb : b ≠ NodeKind.SourceNode) (hc : c ≠ NodeKind.SourceNode) :
    ∃ g, runOps envOK 10 (Graph.init [0, 1, 2, 3] (kindChain a b c)) chainOps = Except.ok g ∧
      (Node.hasClock g 3 2 = true ∨ Node.hasParent g 3 2 = true) := by
  cases a <;> cases b <;> cases c <;>
    first
    | exact absurd rfl ha
    | exact absurd rfl hb
    | exact absurd rfl hc
    | exact ⟨_, rfl, by decide⟩

/-- The tests `ValueNode_ValueNodeArg` and `ValueNode_ClockArg`, and the ordering of the
argument on the first of them. -/
theorem setClock_orders_arguments_witness :
    (∃ g, runOps envOK 10 (Graph.init [0, 1, 2] kindSrc0)
        [Op.setClock 1 [0], Op.setClock 2 [1]] = Except.ok g ∧
      Node.hasParent g 2 1 = true) ∧
    (∃ g, runOps envOK 10 (Graph.init [0, 1, 2] (kindChain NodeKind.ClockNode
        NodeKind.ValueNode NodeKind.ValueNode)) [Op.setClock 1 [0], Op.setClock 2 [1]] =
          Except.ok g ∧
      Node.hasClock g 2 1 = true ∧ Node.getClock g 2 = Except.ok 1) ∧
    ∃ g1, Node.setClock envOK 10 (Graph.init [0, 1] kindSrc0) 1 [0] = Except.ok g1 ∧
      ∀ x ∈ [0], Node.hasClock g1 1 x = true ∨ Node.hasParent g1 1 x = true :=
  ⟨⟨_, rfl, rfl⟩, ⟨_, rfl, rfl, rfl⟩, _, rfl,
    (setClock_orders_arguments envOK 10 (Graph.init [0, 1] kindSrc0) _ 1 [0] rfl).1⟩

/-! ## Duplicate edges are rejected -/

theorem sameEdges_symm {g g1 : Graph} (h : SameEdges g g1) : SameEdges g1 g := by
  refine ⟨h.1.symm, fun m => ?_⟩
  obtain ⟨a1, a2, a3, a4, a5⟩ := h.2 m
  exact ⟨a1.symm, a2.symm, a3.symm, a4.symm, a5.symm⟩

theorem dfsChildren_congr {g g1 : Graph} (h : SameEdges g g1) (b : Bool) (m : NodePtr) :
    dfsChildren g1 b m = dfsChildren g b m := by
  unfold dfsChildren
  rw [(h.2 m).2.2.1, (h.2 m).2.2.2.2]

/-- The traversal reads only the edge lists. -/
theorem applyDepthFirstImpl_congr {σ : Type} {g g1 : Graph} (h : SameEdges g g1) (b : Bool)
    (func : NodePtr → σ → σ) :
    ∀ (fuel : Nat) (node : NodePtr) (st : List NodePtr × σ),
      applyDepthFirstImpl g1 b func fuel node st = applyDepthFirstImpl g b func fuel node st := by
  intro fuel
  induction fuel with
  | zero => intro node st; rfl
  | succ fuel ih =>
    intro node st
    obtain ⟨visited, args⟩ := st
    unfold applyDepthFirstImpl
    rw [dfsChildren_congr h]
    have hf : (fun st otherNode => applyDepthFirstImpl g1 b func fuel otherNode st) =
        (fun st otherNode => applyDepthFirstImpl g b func fuel otherNode st) := by
      funext st otherNode
      exact ih otherNode st
    rw [hf]

/-- The firing order that `SourceNode::treeUpdated` computes depends only on the edge
lists. -/
theorem sourceTreeUpdated_congr {env : Env} {fuel : Nat} {g g1 ga : Graph} {this : NodePtr}
    (h : SameEdges g g1) (hr : SourceNode.treeUpdated env fuel g this = Except.ok ga) :
    ∃ gb, SourceNode.treeUpdated env fuel g1 this = Except.ok gb ∧ SameEdges ga gb := by
  have e1 : addAllCallbacks g1 fuel [] this = addAllCallbacks g fuel [] this := by
    unfold addAllCallbacks traverseCallbacks
    rw [applyDepthFirstImpl_congr h]
  have e2 : ∀ s, topological_sort g1 fuel this s = topological_sort g fuel this s := by
    intro s
    unfold topological_sort traverseChildren
    rw [applyDepthFirstImpl_congr h]
  have hs := sourceTreeUpdated_sameEdges hr
  unfold SourceNode.treeUpdated at hr ⊢
  rw [e1]
  split at hr
  · cases hr
  · rename_i callbacks hcb
    simp only [e2]
    split at hr
    · cases hr
    · split at hr
      · cases hr
      · rename_i hdbg
        rw [if_neg hdbg]
        exact ⟨_, rfl, sameEdges_trans (sameEdges_symm hs)
          (sameEdges_trans h (sameEdges_modify_computeOrder _ _ _))⟩

/-- The notification succeeds on every graph with the same edge lists. -/
theorem nodeTreeUpdated_congr (env : Env) :
    ∀ (fuel : Nat) (g g1 ga : Graph) (this : NodePtr), SameEdges g g1 →
      Node.treeUpdated env fuel g this = Except.ok ga →
      ∃ gb, Node.treeUpdated env fuel g1 this = Except.ok gb ∧ SameEdges ga gb := by
  intro fuel
  induction fuel with
  | zero => intro g g1 ga this _ h; simp [Node.treeUpdated] at h
  | succ fuel ih =>
    intro g g1 ga this hs h
    have hk : (g1.node this).kind = (g.node this).kind := (hs.2 this).1
    have hc : (g1.node this).clocks_ = (g.node this).clocks_ := (hs.2 this).2.1
    have hfold : ∀ (l : List NodePtr) (s s1 sa : Graph), SameEdges s s1 →
        l.foldlM (fun g1 clock => Node.treeUpdated env fuel g1 clock) s = Except.ok sa →
        ∃ sb, l.foldlM (fun g1 clock => Node.treeUpdated env fuel g1 clock) s1 = Except.ok sb ∧
          SameEdges sa sb := by
      intro l
      induction l with
      | nil =>
        intro s s1 sa hss hl
        simp only [List.foldlM_nil] at hl
        cases hl
        exact ⟨s1, rfl, hss⟩
      | cons a l ihl =>
        intro s s1 sa hss hl
        simp only [List.foldlM_cons] at hl ⊢
        cases hstep : Node.treeUpdated env fuel s a with
        | error e => rw [hstep] at hl; cases hl
        | ok s2 =>
          rw [hstep] at hl
          obtain ⟨s3, h3, hs3⟩ := ih s s1 s2 a hss hstep
          rw [h3]
          exact ihl s2 s3 sa hs3 hl
    unfold Node.treeUpdated at h ⊢
    rw [hk, hc]
    split at h
    · exact sourceTreeUpdated_congr hs h
    · exact hfold _ g g1 ga hs h

theorem getClock_congr {g g1 : Graph} {x : NodePtr}
    (hk : (g1.node x).kind = (g.node x).kind) (hc : (g1.node x).clocks_ = (g.node x).clocks_) :
    Node.getClock g1 x = Node.getClock g x := by
  unfold Node.getClock
  rw [hk, hc]

/-- A repeated `setClock` of a clock node on the same argument finds every edge in place,
so it only sends the notification again. -/
theorem clockSetClock_repeat {env : Env} {fuel : Nat} {g g1 : Graph} {n p : NodePtr}
    (hn : (g.node n).kind ≠ NodeKind.ValueNode)
    (h : Node.setClock env fuel g n [p] = Except.ok g1) (env2 : Env) (fuel2 : Nat) :
    Node.setClock env2 fuel2 g1 n [p] = Node.treeUpdated env2 fuel2 g1 n ∧
    ∃ st, SameEdges st g1 ∧ Node.treeUpdated env fuel st n = Except.ok g1 := by
  have hset : Node.setClock env fuel g n [p] = ClockNode.setClockImpl env fuel g n [p] := by
    unfold Node.setClock
    cases hk : (g.node n).kind with
    | ValueNode => exact absurd hk hn
    | ClockNode => rfl
    | SourceNode => rfl
  rw [hset] at h
  unfold ClockNode.setClockImpl at h
  split at h
  · cases h
  · rename_i st hloop
    simp only [List.foldlM_cons, List.foldlM_nil, bind_pure] at hloop
    have hs := nodeTreeUpdated_sameEdges env _ _ _ _ h
    obtain ⟨s1, _, _, s4, ⟨clock, hget, hclock⟩, _, s7⟩ := clockSetClock_step hloop
    have hk1 : ∀ m, (g1.node m).kind = (g.node m).kind :=
      fun m => ((hs.2 m).1).trans (s1 m)
    have hn1 : (g1.node n).kind ≠ NodeKind.ValueNode := by rw [hk1]; exact hn
    have hget1 : Node.getClock g1 p = Except.ok clock := by
      by_cases hp : (g.node p).kind = NodeKind.ValueNode
      · have hpn : p ≠ n := fun e => hn (e ▸ hp)
        rw [getClock_congr (hk1 p) (((hs.2 p).2.1).trans (s4 p hpn))]
        exact hget
      · rw [getClock_clockKind hp] at hget
        rw [getClock_clockKind (by rw [hk1]; exact hp)]
        exact hget
    have hclock1 : clock ∈ (g1.node n).clocks_ := by
      rw [(hs.2 n).2.1]; exact hclock
    refine ⟨?_, st, hs, h⟩
    have hset1 : Node.setClock env2 fuel2 g1 n [p] =
        ClockNode.setClockImpl env2 fuel2 g1 n [p] := by
      unfold Node.setClock
      cases hk : (g1.node n).kind with
      | ValueNode => exact absurd hk hn1
      | ClockNode => rfl
      | SourceNode => rfl
    rw [hset1]
    unfold ClockNode.setClockImpl
    simp only [List.foldlM_cons, List.foldlM_nil, bind_pure, hget1,
      addClockEdge_noop env2 g1 n clock hclock1]
    by_cases hv : Node.isClockNode g1 p = false
    · have hv1 : (g.node p).kind = NodeKind.ValueNode := by
        rw [← hk1]; exact (isClockNode_iff g1 p).1 hv
      rw [if_pos hv, setParent_noop env2 fuel2 g1 n p
        (by rw [(hs.2 n).2.2.2.1]; exact s7 hv1)]
    · rw [if_neg hv]

/-- C30: a second `n.setParent(p)` returns the graph unchanged, for every build and even
without any budget for a notification, so it changes no edge list and notifies nobody. A
second `c.setClock(k)` on a clock node `c` returns, and leaves the four edge lists of
every node as the first call left them: no second entry is added. -/
theorem edge_insertion_rejects_duplicates (env : Env) (fuel : Nat) (g g1 : Graph)
    (n p : NodePtr) :
    (Node.setParent env fuel g n p = Except.ok g1 →
      ∀ (env2 : Env) (fuel2 : Nat), Node.setParent env2 fuel2 g1 n p = Except.ok g1) ∧
    ((g.node n).kind ≠ NodeKind.ValueNode → Node.setClock env fuel g n [p] = Except.ok g1 →
      (∃ g2, Node.setClock env fuel g1 n [p] = Except.ok g2) ∧
      ∀ (env2 : Env) (fuel2 : Nat) (g2 : Graph),
        Node.setClock env2 fuel2 g1 n [p] = Except.ok g2 → SameEdges g1 g2) := by
  refine ⟨fun h env2 fuel2 => setParent_noop env2 fuel2 g1 n p (setParent_lists h).1,
    fun hn h => ?_⟩
  obtain ⟨hrep, st, hst, htree⟩ := clockSetClock_repeat hn h env fuel
  refine ⟨?_, fun env2 fuel2 g2 h2 => ?_⟩
  · obtain ⟨gb, hgb, _⟩ := nodeTreeUpdated_congr env fuel st g1 g1 n hst htree
    exact ⟨gb, by rw [hrep]; exact hgb⟩
  · rw [(clockSetClock_repeat hn h env2 fuel2).1] at h2
    exact nodeTreeUpdated_sameEdges env2 _ _ _ _ h2

/-- Duplicate rejection on a source 0 with the clock nodes 1 and 2: the repeated calls
leave one entry per edge. -/
theorem edge_insertion_rejects_duplicates_witness :
    (∃ g1, Node.setParent envOK 10 (Graph.init [0, 1, 2] kindClk0) 2 1 = Except.ok g1 ∧
      Node.setParent envOK 0 g1 2 1 = Except.ok g1) ∧
    (∃ g, runOps envOK 10 (Graph.init [0, 1, 2] kindClk0)
        [Op.setParent 2 1, Op.setParent 2 1, Op.setClock 1 [0], Op.setClock 1 [0]] =
          Except.ok g ∧
      (g.node 2).parents_ = [1] ∧ (g.node 1).children_ = [2] ∧
      (g.node 1).clocks_ = [0] ∧ (g.node 0).callbacks_ = [1]) ∧
    Node.treeUpdated envOK 0 (Graph.init [0, 1, 2] kindClk0) 2 = Except.error Err.fuel :=
  ⟨⟨_, rfl, (edge_insertion_rejects_duplicates envOK 10 (Graph.init [0, 1, 2] kindClk0) _
      2 1).1 rfl envOK 0⟩,
    ⟨_, rfl, rfl, rfl, rfl, rfl⟩, rfl⟩

/-! ## The scope of the memoization cache -/

theorem find_filter_of_imp {α : Type} (p q : α → Bool) (l : List α)
    (h : ∀ a ∈ l, q a = true → p a = true) : (l.filter p).find? q = l.find? q := by
  induction l with
  | nil => rfl
  | cons a l ih =>
    have ih1 := ih (fun b hb => h b (List.mem_cons_of_mem _ hb))
    by_cases hp : p a = true
    · rw [List.filter_cons_of_pos hp, List.find?_cons, List.find?_cons, ih1]
    · have hq : q a = false := by
        cases hqa : q a with
        | false => rfl
        | true => exact absurd (h a (List.mem_cons_self _ _) hqa) hp
      rw [List.filter_cons_of_neg hp, List.find?_cons, hq, ih1]

theorem foldl_memoize_clear_cache (l : List Nat) (w : World) :
    (l.foldl memoize_clear w).cache =
      w.cache.filter (fun e => decide (e.1.type ∉ l)) := by
  induction l generalizing w with
  | nil => simp
  | cons t l ih =>
    rw [List.foldl_cons, ih]
    simp only [memoize_clear, List.filter_filter]
    congr 1
    funext e
    simp only [List.mem_cons, not_or, Bool.decide_and, Bool.and_comm]

/-- The destructor keeps the cached instance of every key whose type the graph never
added, and drops the cached instances of every type that it added, whatever graph they
belong to. -/
theorem destroy_lookup (w : World) (this : GraphPtr) (G : Graph)
    (hG : w.graphs this = some G) (key : MemoKey) :
    (key.type ∉ G.cleanup_funs → (w.destroy this).lookup key = w.lookup key) ∧
    (key.type ∈ G.cleanup_funs → (w.destroy this).lookup key = none) := by
  have hc : (w.destroy this).cache =
      w.cache.filter (fun e => decide (e.1.type ∉ G.cleanup_funs)) := by
    unfold World.destroy
    rw [hG]
    exact foldl_memoize_clear_cache G.cleanup_funs w
  constructor
  · intro ht
    unfold World.lookup
    rw [hc, find_filter_of_imp]
    intro a _ ha
    simp only [decide_eq_true_eq] at ha ⊢
    rw [ha]
    exact ht
  · intro ht
    refine lookup_eq_none (fun e he hek => ?_)
    rw [hc, List.mem_filter] at he
    have := he.2
    simp only [decide_eq_true_eq] at this
    rw [hek] at this
    exact this ht

/-- C29, as the code has it: the destructor of `g1` clears, for all graphs, the cache of
every node type that was added through `g1`, and nothing else. For a live graph `g2`
whose instance `n` for `add<T>(x)` is cached when `g1` is destroyed: if `T` was never
added through `g1`, a later `g2.add<T>(x)` returns `n` and constructs nothing; if `T`
was added through `g1`, it constructs a second node, different from `n`. -/
theorem destroy_clears_added_types (w : World) (g1 g2 : GraphPtr) (G1 : Graph) (type : Nat)
    (args : List Nat) (n : NodePtr) (hreach : w.Reachable) (hG1 : w.graphs g1 = some G1)
    (hn : w.lookup ⟨type, g2, args⟩ = some n) :
    (type ∉ G1.cleanup_funs →
      ((w.destroy g1).add g2 type args).2 = n ∧
      ((w.destroy g1).add g2 type args).1.created = w.created) ∧
    (type ∈ G1.cleanup_funs →
      ((w.destroy g1).add g2 type args).2 = w.next ∧ w.next ≠ n ∧
      ((w.destroy g1).add g2 type args).1.created = w.created ++ [⟨type, g2, args⟩]) := by
  have hw := wf_of_reachable hreach
  obtain ⟨_, d2, d3, _⟩ := destroy_spec w g1 G1 hG1
  obtain ⟨k1, k2⟩ := destroy_lookup w g1 G1 hG1 ⟨type, g2, args⟩
  constructor
  · intro ht
    have hl : (w.destroy g1).lookup ⟨type, g2, args⟩ = some n := by rw [k1 ht, hn]
    refine ⟨by rw [add_cached _ g2 type args n hl], ?_⟩
    rw [add_created, hl]
    simpa using d3
  · intro ht
    have hl : (w.destroy g1).lookup ⟨type, g2, args⟩ = none := k2 ht
    refine ⟨by rw [add_fresh _ g2 type args hl]; exact d2, ?_, ?_⟩
    · obtain ⟨G, hG, hnG, _⟩ := hw.1 _ (lookup_mem hn)
      have := (hw.2.1 _ G hG).2 n hnG
      exact fun e => absurd (e ▸ this) (lt_irrefl _)
    · rw [add_created, hl]
      simpa using d3

/-- Two graphs at the addresses 1 and 2 that both add nodes of type 5; graph 2 also adds
a node of type 6. After the destruction of graph 1, graph 2 gets its node of type 6 back
and a second node of type 5. -/
theorem destroy_clears_added_types_witness :
    ∃ w, World.run World.empty [MemoOp.newGraph 1, MemoOp.newGraph 2, MemoOp.add 1 5 [9],
        MemoOp.add 2 5 [7], MemoOp.add 2 6 [7]] = some w ∧
      w.lookup ⟨5, 2, [7]⟩ = some 1 ∧ w.lookup ⟨6, 2, [7]⟩ = some 2 ∧ w.next = 3 ∧
      (((w.destroy 1).add 2 6 [7]).2 = 2 ∧
        ((w.destroy 1).add 2 6 [7]).1.created = w.created) ∧
      ((w.destroy 1).add 2 5 [7]).2 = 3 :=
  ⟨_, rfl, rfl, rfl, rfl,
    (destroy_clears_added_types _ 1 2 _ 6 [7] 2
      ⟨[MemoOp.newGraph 1, MemoOp.newGraph 2, MemoOp.add 1 5 [9], MemoOp.add 2 5 [7],
        MemoOp.add 2 6 [7]], rfl⟩ rfl rfl).1 (by decide), rfl⟩

/-- Graph 2 obtains the node 1 from `add<5>(7)`; graph 1, which added a node of the same
type, is destroyed; graph 2 is still alive, and its next `add<5>(7)` returns the new
node 2, the create function having run a second time for the same key. -/
theorem cache_scope_counterexample :
    ∃ w, World.run World.empty [MemoOp.newGraph 1, MemoOp.newGraph 2, MemoOp.add 1 5 [9]] =
        some w ∧
      (w.add 2 5 [7]).2 = 1 ∧
      (((w.add 2 5 [7]).1.destroy 1).graphs 2).isSome = true ∧
      (((w.add 2 5 [7]).1.destroy 1).add 2 5 [7]).2 = 2 ∧
      (((w.add 2 5 [7]).1.destroy 1).add 2 5 [7]).1.created.count ⟨5, 2, [7]⟩ = 2 :=
  ⟨_, rfl, rfl, rfl, rfl, by decide⟩

/-! ## The currently-firing pointers -/

theorem sourceFire_fireLoop (env : Env) (fireNode : Graph → NodePtr → Except Err Graph)
    (g : Graph) (this : NodePtr) :
    SourceNode.fire env fireNode g this =
      match SourceNode.fireLoop fireNode this (g.node this).computeOrder_
          (SourceNode.preFire env g this) with
      | Except.error e => Except.error e
      | Except.ok g6 => Except.ok (SourceNode.postFire env g6 this) := by
  rw [sourceFire_eq, shape_computeOrder ((preFire_round env g this).2.1 this)]
  rfl

theorem preFire_currentSource (env : Env) (g : Graph) (this : NodePtr) :
    (SourceNode.preFire env g this).currentSource_ = some this := by
  simp [SourceNode.preFire, Graph.notifyPreFire]

theorem foldl_reset_pointers (l : List NodePtr) (g : Graph) :
    (l.foldl Node.reset g).currentSource_ = g.currentSource_ ∧
    ∀ m, ((l.foldl Node.reset g).node m).currentNode_ = (g.node m).currentNode_ := by
  induction l generalizing g with
  | nil => exact ⟨rfl, fun _ => rfl⟩
  | cons a l ih =>
    obtain ⟨h1, h2⟩ := ih (Node.reset g a)
    refine ⟨h1, fun m => ?_⟩
    rw [List.foldl_cons, h2]
    unfold Node.reset
    rw [modify_node]
    split
    · rename_i h; subst h; rfl
    · rfl

/-- After the statements that follow the loop, both pointers are null. -/
theorem postFire_pointers (env : Env) (g6 : Graph) (this : NodePtr) :
    (SourceNode.postFire env g6 this).currentSource_ = none ∧
    ((SourceNode.postFire env g6 this).node this).currentNode_ = none := by
  unfold SourceNode.postFire
  simp only
  have h1 : (Graph.notifyPostFire
      (g6.modify this (fun x => { x with currentNode_ := none }))).currentSource_ = none := rfl
  have h2 : ((Graph.notifyPostFire
      (g6.modify this (fun x => { x with currentNode_ := none }))).node this).currentNode_ =
        none := by
    simp [Graph.notifyPostFire]
  generalize Graph.notifyPostFire
    (g6.modify this (fun x => { x with currentNode_ := none })) = g8 at h1 h2 ⊢
  split
  · exact ⟨h1, h2⟩
  · have a := foldl_reset_pointers (g8.node this).computeOrder_ g8
    have b := foldl_reset_pointers [this] ((g8.node this).computeOrder_.foldl Node.reset g8)
    simp only [List.foldl_cons, List.foldl_nil] at b
    exact ⟨b.1.trans (a.1.trans h1), (b.2 this).trans ((a.2 this).trans h2)⟩

/-- The loop of `SourceNode::fire` over nodes that are no sources keeps the current
source and the shapes. -/
theorem fireLoop_currentSource (env : Env) (fuel : Nat) (g : Graph) (this : NodePtr)
    (l : List NodePtr) (st0 st : Graph)
    (hk : ∀ n ∈ l, (g.node n).kind ≠ NodeKind.SourceNode)
    (hshape : ∀ m, (st0.node m).shape = (g.node m).shape)
    (h : SourceNode.fireLoop (Node.fire env (fuel + 1)) this l st0 = Except.ok st) :
    st.currentSource_ = st0.currentSource_ ∧ ∀ m, (st.node m).shape = (g.node m).shape := by
  refine foldlM_ok_inv (fun s => s.currentSource_ = st0.currentSource_ ∧
      ∀ m, (s.node m).shape = (g.node m).shape) _ l st0 st ?_ ⟨rfl, hshape⟩ h
  intro a ha s s1 hs hf
  have hr0 := round_modify s this (fun x => { x with currentNode_ := some a })
    (fun _ => rfl) (fun _ => rfl)
  have hshape0 : ∀ m, ((s.modify this
      (fun x => { x with currentNode_ := some a })).node m).shape = (g.node m).shape :=
    fun m => (hr0.2.1 m).trans (hs.2 m)
  have hk0 : ((s.modify this (fun x => { x with currentNode_ := some a })).node a).kind ≠
      NodeKind.SourceNode := by
    rw [shape_kind (hshape0 a)]; exact hk a ha
  have hleaf := nodeFire_leaf hk0 hf
  obtain ⟨sub, _, hr1⟩ := round_of_firedLeaf hleaf
  exact ⟨hleaf.2.1.trans hs.1, fun m => (hr1.2.1 m).trans (hshape0 m)⟩

/-- C25, for a source whose firing order holds no source: the current source is null in
a fresh graph and, together with the firing node and the current node of the source,
after every `fire()` of a source that returns. During the round of a source `S` whose
firing order holds no source and whose value nodes have one clock each, the loop reaches
every node `n` of the order, and both when `n.fire()` is called and when it returns the
current source is `S` and the firing node is `n`. -/
theorem firing_pointers (env : Env) (fuel : Nat) (g : Graph) (S : NodePtr) :
    (∀ nodes kind, (Graph.init nodes kind).currentSource = none ∧
      (Graph.init nodes kind).firingNode = none) ∧
    (∀ fireNode g1, SourceNode.fire env fireNode g S = Except.ok g1 →
      g1.currentSource = none ∧ g1.firingNode = none ∧ (g1.node S).currentNode_ = none) ∧
    ((g.node S).kind = NodeKind.SourceNode →
      (∀ n ∈ (g.node S).computeOrder_, (g.node n).kind ≠ NodeKind.SourceNode) →
      (∀ n ∈ (g.node S).computeOrder_, (g.node n).kind = NodeKind.ValueNode →
        ∃ c, (g.node n).clocks_ = [c]) →
      ∀ l1 n l2, (g.node S).computeOrder_ = l1 ++ n :: l2 →
        ∃ st st1, SourceNode.fireLoop (Node.fire env (fuel + 1)) S l1
            (SourceNode.preFire env g S) = Except.ok st ∧
          Node.fire env (fuel + 1)
            (st.modify S (fun x => { x with currentNode_ := some n })) n = Except.ok st1 ∧
          (st.modify S (fun x => { x with currentNode_ := some n })).currentSource = some S ∧
          (st.modify S (fun x => { x with currentNode_ := some n })).firingNode = some n ∧
          st1.currentSource = some S ∧ st1.firingNode = some n) := by
  refine ⟨fun _ _ => ⟨rfl, rfl⟩, fun fireNode g1 h => ?_, fun hS hk hc l1 n l2 hsplit => ?_⟩
  · rw [sourceFire_fireLoop] at h
    split at h
    · cases h
    · cases h
      obtain ⟨p1, p2⟩ := postFire_pointers env _ S
      refine ⟨p1, ?_, p2⟩
      unfold Graph.firingNode
      rw [p1]
  · have hpre := (preFire_round env g S).2.1
    have hmem1 : ∀ m ∈ l1, m ∈ (g.node S).computeOrder_ := fun m hm => by
      rw [hsplit]; exact List.mem_append_left _ hm
    have hmemn : n ∈ (g.node S).computeOrder_ := by
      rw [hsplit]; simp
    obtain ⟨st, _, hloop, _, hround⟩ := sourceFire_loop env fuel g S l1
      (SourceNode.preFire env g S) (fun m hm => hk m (hmem1 m hm))
      (fun m hm => hc m (hmem1 m hm)) hpre
    have hloop1 : SourceNode.fireLoop (Node.fire env (fuel + 1)) S l1
        (SourceNode.preFire env g S) = Except.ok st := hloop
    obtain ⟨hcs, hshape⟩ := fireLoop_currentSource env fuel g S l1 _ st
      (fun m hm => hk m (hmem1 m hm)) hpre hloop1
    rw [preFire_currentSource] at hcs
    have hr0 := round_modify st S (fun x => { x with currentNode_ := some n })
      (fun _ => rfl) (fun _ => rfl)
    have hshape0 : ∀ m, ((st.modify S
        (fun x => { x with currentNode_ := some n })).node m).shape = (g.node m).shape :=
      fun m => (hr0.2.1 m).trans (hshape m)
    have hk0 : ((st.modify S (fun x => { x with currentNode_ := some n })).node n).kind ≠
        NodeKind.SourceNode := by
      rw [shape_kind (hshape0 n)]; exact hk n hmemn
    obtain ⟨st1, h1⟩ := nodeFire_leaf_total env fuel _ n hk0 (by
      rw [shape_kind (hshape0 n), shape_clocks (hshape0 n)]
      exact hc n hmemn)
    have hleaf := nodeFire_leaf hk0 h1
    have hSn : S ≠ n := fun e => hk n hmemn (e ▸ hS)
    have hcs0 : (st.modify S (fun x => { x with currentNode_ := some n })).currentSource_ =
        some S := by rw [modify_currentSource]; exact hcs
    have hfn0 : (st.modify S (fun x => { x with currentNode_ := some n })).firingNode =
        some n := by
      unfold Graph.firingNode
      rw [hcs0]
      simp only
      rw [modify_node_same]
    refine ⟨st, st1, hloop1, h1, hcs0, hfn0, hleaf.2.1.trans hcs0, ?_⟩
    unfold Graph.firingNode
    rw [hleaf.2.1.trans hcs0]
    simp only
    rw [hleaf.2.2.1 S hSn, modify_node_same]

/-- A source 0 with the firing order `[1, 2]` of two value nodes: the round returns with
null pointers, every compute body saw its own node as the firing node, and the second
node of the order is fired with the pointers set. -/
theorem firing_pointers_witness :
    ∃ g1, Node.fire envProbe 5
        (fireGraph NodeKind.ValueNode false StatusCode.OK StatusCode.OK) 0 = Except.ok g1 ∧
      (g1.node 1).value_ = 2 ∧ (g1.node 2).value_ = 3 ∧
      (g1.currentSource = none ∧ g1.firingNode = none ∧ (g1.node 0).currentNode_ = none) ∧
      ∃ st st1, SourceNode.fireLoop (Node.fire envProbe 4) 0 [1]
          (SourceNode.preFire envProbe
            (fireGraph NodeKind.ValueNode false StatusCode.OK StatusCode.OK) 0) =
            Except.ok st ∧
        Node.fire envProbe 4
          (st.modify 0 (fun x => { x with currentNode_ := some 2 })) 2 = Except.ok st1 ∧
        (st.modify 0 (fun x => { x with currentNode_ := some 2 })).currentSource = some 0 ∧
        (st.modify 0 (fun x => { x with currentNode_ := some 2 })).firingNode = some 2 ∧
        st1.currentSource = some 0 ∧ st1.firingNode = some 2 :=
  ⟨_, rfl, by decide, by decide,
    (firing_pointers envProbe 3
      (fireGraph NodeKind.ValueNode false StatusCode.OK StatusCode.OK) 0).2.1
      (Node.fire envProbe 4) _ rfl,
    (firing_pointers envProbe 3
      (fireGraph NodeKind.ValueNode false StatusCode.OK StatusCode.OK) 0).2.2
      rfl (by decide)
      (fun n hn _ => by
        have h : n = 1 ∨ n = 2 := by
          change n ∈ [1, 2] at hn
          simpa using hn
        rcases h with h | h <;> subst h <;> exact ⟨0, rfl⟩)
      [1] 2 [] rfl⟩

/-- A source 1 that is clocked on the source 0 sits in the firing order `[3, 1, 2]` of
the source 0. When the loop of the round of the source 0 has fired the nodes 3 and 1, the
`fire()` of the source 1 has reset the current source, so the node 2 is fired with a null
current source and a null firing node, which its compute body records as the value 0. -/
theorem firing_pointers_counterexample :
    ∃ g st g1, runOps envProbe 10 (Graph.init [0, 1, 2, 3] kindSrc01) nestedSourceOps =
        Except.ok g ∧
      (g.node 0).computeOrder_ = [3, 1, 2] ∧
      SourceNode.fireLoop (Node.fire envProbe 4) 0 [3, 1]
        (SourceNode.preFire envProbe g 0) = Except.ok st ∧
      (st.modify 0 (fun x => { x with currentNode_ := some 2 })).currentSource = none ∧
      (st.modify 0 (fun x => { x with currentNode_ := some 2 })).firingNode = none ∧
      Node.fire envProbe 5 g 0 = Except.ok g1 ∧ (g1.node 2).value_ = 0 ∧
      (g1.node 3).value_ = 4 :=
  ⟨_, _, _, rfl, rfl, rfl, rfl, rfl, rfl, by decide, by decide⟩

/-! ## The two reset policies -/

theorem graph_ext {g g1 : Graph} (h1 : g.cleanup_funs = g1.cleanup_funs)
    (h2 : g.nodes = g1.nodes) (h3 : ∀ m, g.node m = g1.node m)
    (h4 : g.constructOrder_ = g1.constructOrder_) (h5 : g.currentSource_ = g1.currentSource_)
    (h6 : g.eventId_ = g1.eventId_) (h7 : g.computeCalls = g1.computeCalls) : g = g1 := by
  cases g
  cases g1
  simp only at h1 h2 h3 h4 h5 h6 h7
  simp only [Graph.mk.injEq]
  exact ⟨h1, h2, funext h3, h4, h5, h6, h7⟩

theorem node_clear_of_false (x : Node) (h : x.ticked_ = false) :
    { x with ticked_ := false } = x := by
  cases x
  simp only at h
  simp only [h]

theorem reset_node (g : Graph) (a m : NodePtr) :
    (Node.reset g a).node m =
      if m = a then { g.node m with ticked_ := false } else g.node m := by
  unfold Node.reset
  rw [modify_node]
  split
  · rename_i h; subst h; rfl
  · rfl

/-- The loop `for (auto node : l) node->reset()`. -/
theorem foldl_reset_eq (l : List NodePtr) (g : Graph) :
    l.foldl Node.reset g =
      { g with node := fun m =>
          if m ∈ l then { g.node m with ticked_ := false } else g.node m } := by
  induction l generalizing g with
  | nil =>
    refine graph_ext rfl rfl (fun m => ?_) rfl rfl rfl rfl
    simp
  | cons a l ih =>
    rw [List.foldl_cons, ih]
    refine graph_ext rfl rfl (fun m => ?_) rfl rfl rfl rfl
    simp only [reset_node, List.mem_cons]
    by_cases hl : m ∈ l <;> by_cases ha : m = a <;> simp [hl, ha]

/-- Before the loop the two policies have produced the same graph, when the narrow
policy starts from the graph of the eager policy with the flags reset and every node
whose flag is set is registered. -/
theorem preFire_policies (env : Env) (g : Graph) (S : NodePtr)
    (hout : ∀ m, m ∉ g.nodes → (g.node m).ticked_ = false) :
    SourceNode.preFire env.narrow g.clearTicked S = SourceNode.preFire env.eager g S := by
  unfold SourceNode.preFire
  simp only [Env.narrow, Env.eager, if_true, Bool.false_eq_true, if_false]
  rw [foldl_reset_eq]
  refine graph_ext rfl rfl (fun m => ?_) rfl rfl rfl rfl
  simp only [Graph.notifyPreFire, modify_node, Graph.clearTicked, modify_nodes]
  by_cases hS : m = S
  · subst hS
    by_cases hm : m ∈ g.nodes <;> simp [hm]
  · simp only [hS, if_false]
    by_cases hm : m ∈ g.nodes
    · simp [hm]
    · simp only [hm, if_false]
      exact node_clear_of_false _ (hout m hm)

/-- After the loop the narrow policy produces the graph of the eager policy with the
flags reset, when only the source and the nodes of its firing order have their flag
set. -/
theorem postFire_policies (env : Env) (g6 : Graph) (S : NodePtr)
    (hin : ∀ m, m ≠ S → m ∉ (g6.node S).computeOrder_ → (g6.node m).ticked_ = false) :
    SourceNode.postFire env.narrow g6 S = (SourceNode.postFire env.eager g6 S).clearTicked := by
  unfold SourceNode.postFire
  simp only [Env.narrow, Env.eager, if_true, Bool.false_eq_true, if_false]
  have horder : ((Graph.notifyPostFire
      (g6.modify S (fun x => { x with currentNode_ := none }))).node S).computeOrder_ =
        (g6.node S).computeOrder_ := by
    simp [Graph.notifyPostFire]
  have hnode : ∀ m, m ≠ S → (Graph.notifyPostFire
      (g6.modify S (fun x => { x with currentNode_ := none }))).node m = g6.node m := by
    intro m hm
    simp only [Graph.notifyPostFire]
    exact modify_node_ne _ _ hm
  rw [horder]
  generalize Graph.notifyPostFire
    (g6.modify S (fun x => { x with currentNode_ := none })) = g8 at hnode ⊢
  rw [foldl_reset_eq]
  refine graph_ext rfl rfl (fun m => ?_) rfl rfl rfl rfl
  rw [reset_node]
  by_cases hS : m = S
  · rw [if_pos hS]
    dsimp only [Graph.clearTicked]
    by_cases hm : m ∈ (g6.node S).computeOrder_
    · rw [if_pos hm]
    · rw [if_neg hm]
  · rw [if_neg hS]
    dsimp only [Graph.clearTicked]
    by_cases hm : m ∈ (g6.node S).computeOrder_
    · rw [if_pos hm]
    · rw [if_neg hm, hnode m hS]
      exact (node_clear_of_false _ (hin m hS hm)).symm

/-- A node that is no source fires in the same way under both policies. -/
theorem nodeFire_policies (env : Env) (fuel : Nat) (g : Graph) (n : NodePtr)
    (h : (g.node n).kind ≠ NodeKind.SourceNode) :
    Node.fire env.narrow fuel g n = Node.fire env.eager fuel g n := by
  cases fuel with
  | zero => rfl
  | succ f =>
    unfold Node.fire
    cases hk : (g.node n).kind with
    | ValueNode => rfl
    | ClockNode => rfl
    | SourceNode => exact absurd hk h

/-- What the loop of `SourceNode::fire` over nodes that are no sources leaves alone: the
registered nodes, the shapes, and the flag of every node other than the source and the
nodes of the loop. -/
theorem fireLoop_frame (env : Env) (fuel : Nat) (g : Graph) (S : NodePtr)
    (l : List NodePtr) (st0 st : Graph)
    (hk : ∀ n ∈ l, (g.node n).kind ≠ NodeKind.SourceNode)
    (hshape : ∀ m, (st0.node m).shape = (g.node m).shape)
    (h : SourceNode.fireLoop (Node.fire env fuel) S l st0 = Except.ok st) :
    st.nodes = st0.nodes ∧ (∀ m, (st.node m).shape = (g.node m).shape) ∧
    ∀ m, m ≠ S → m ∉ l → (st.node m).ticked_ = (st0.node m).ticked_ := by
  have hP := foldlM_ok_prefix
    (fun d s => s.nodes = st0.nodes ∧ (∀ m, (s.node m).shape = (g.node m).shape) ∧
      ∀ m, m ≠ S → m ∉ d → (s.node m).ticked_ = (st0.node m).ticked_)
    _ l [] st0 st
    (by
      intro a ha d s s1 hs hf
      cases fuel with
      | zero => cases hf
      | succ f =>
        obtain ⟨p1, p2, p3⟩ := hs
        have hr0 := round_modify s S (fun x => { x with currentNode_ := some a })
          (fun _ => rfl) (fun _ => rfl)
        have hshape0 : ∀ m, ((s.modify S
            (fun x => { x with currentNode_ := some a })).node m).shape = (g.node m).shape :=
          fun m => (hr0.2.1 m).trans (p2 m)
        have hk0 : ((s.modify S (fun x => { x with currentNode_ := some a })).node a).kind ≠
            NodeKind.SourceNode := by
          rw [shape_kind (hshape0 a)]; exact hk a ha
        have hleaf := nodeFire_leaf hk0 hf
        obtain ⟨sub, _, hr1⟩ := round_of_firedLeaf hleaf
        refine ⟨hleaf.1.trans p1, fun m => (hr1.2.1 m).trans (hshape0 m), fun m hmS hmd => ?_⟩
        have hma : m ≠ a := fun e => hmd (by rw [e]; simp)
        have hmd1 : m ∉ d := fun e => hmd (List.mem_append_left _ e)
        rw [hleaf.2.2.1 m hma, modify_node_ne _ _ hmS]
        exact p3 m hmS hmd1)
    ⟨rfl, hshape, fun _ _ _ => rfl⟩ h
  rw [List.nil_append] at hP
  exact hP

/-- The loop of `SourceNode::fire` over nodes that are no sources runs in the same way
under both policies. -/
theorem fireLoop_policies (env : Env) (fuel : Nat) (g : Graph) (S : NodePtr) :
    ∀ (l : List NodePtr) (st0 : Graph),
      (∀ n ∈ l, (g.node n).kind ≠ NodeKind.SourceNode) →
      (∀ m, (st0.node m).shape = (g.node m).shape) →
      SourceNode.fireLoop (Node.fire env.narrow fuel) S l st0 =
        SourceNode.fireLoop (Node.fire env.eager fuel) S l st0 := by
  intro l
  induction l with
  | nil => intro st0 _ _; rfl
  | cons a l ih =>
    intro st0 hk hshape
    have hr0 := round_modify st0 S (fun x => { x with currentNode_ := some a })
      (fun _ => rfl) (fun _ => rfl)
    have hshape0 : ∀ m, ((st0.modify S
        (fun x => { x with currentNode_ := some a })).node m).shape = (g.node m).shape :=
      fun m => (hr0.2.1 m).trans (hshape m)
    have hk0 : ((st0.modify S (fun x => { x with currentNode_ := some a })).node a).kind ≠
        NodeKind.SourceNode := by
      rw [shape_kind (hshape0 a)]; exact hk a (List.mem_cons_self _ _)
    unfold SourceNode.fireLoop
    simp only [List.foldlM_cons]
    rw [nodeFire_policies env fuel _ a hk0]
    cases hf : Node.fire env.eager fuel
        (st0.modify S (fun x => { x with currentNode_ := some a })) a with
    | error e => rfl
    | ok s1 =>
      have hfr := fireLoop_frame env.eager fuel g S [a] st0 s1
        (fun n hn => by
          rw [List.mem_singleton] at hn
          rw [hn]; exact hk a (List.mem_cons_self _ _))
        hshape (by
          unfold SourceNode.fireLoop
          simp only [List.foldlM_cons, List.foldlM_nil, hf]
          rfl)
      exact ih s1 (fun n hn => hk n (List.mem_cons_of_mem _ hn)) hfr.2.1

theorem preFire_cleared (env : Env) (g : Graph) (S m : NodePtr) (hm : m ≠ S) :
    ((SourceNode.preFire env.narrow g.clearTicked S).node m).ticked_ = false := by
  unfold SourceNode.preFire
  simp only [Env.narrow, Bool.false_eq_true, if_false, Graph.notifyPreFire]
  rw [modify_node_ne _ _ hm, modify_node_ne _ _ hm]
  rfl

theorem postFire_eager (env : Env) (g6 : Graph) (S : NodePtr) :
    (SourceNode.postFire env.eager g6 S).nodes = g6.nodes ∧
    ∀ m, ((SourceNode.postFire env.eager g6 S).node m).shape = (g6.node m).shape ∧
      (m ≠ S → ((SourceNode.postFire env.eager g6 S).node m).ticked_ = (g6.node m).ticked_) := by
  unfold SourceNode.postFire
  simp only [Env.eager, if_true, Graph.notifyPostFire]
  refine ⟨rfl, fun m => ⟨?_, fun hm => ?_⟩⟩
  · exact (round_modify g6 S (fun x => { x with currentNode_ := none })
      (fun _ => rfl) (fun _ => rfl)).2.1 m
  · rw [modify_node_ne _ _ hm]

/-- One round under the two policies. -/
theorem sourceFire_policies (env : Env) (fuel : Nat) (g gE : Graph) (S : NodePtr)
    (hinv : BetweenRounds g gE) (hS : (g.node S).kind = NodeKind.SourceNode)
    (hreg : S ∈ g.nodes)
    (horder : ∀ n ∈ (g.node S).computeOrder_,
      n ∈ g.nodes ∧ (g.node n).kind ≠ NodeKind.SourceNode) :
    Node.fire env.narrow fuel gE.clearTicked S =
      Except.map Graph.clearTicked (Node.fire env.eager fuel gE S) ∧
    ∀ gE1, Node.fire env.eager fuel gE S = Except.ok gE1 → BetweenRounds g gE1 := by
  obtain ⟨i1, i2, i3⟩ := hinv
  cases fuel with
  | zero => exact ⟨rfl, fun _ h => by cases h⟩
  | succ f =>
    have hkE : (gE.node S).kind = NodeKind.SourceNode := by rw [shape_kind (i2 S)]; exact hS
    have hkN : (gE.clearTicked.node S).kind = NodeKind.SourceNode := hkE
    have eE : Node.fire env.eager (f + 1) gE S =
        SourceNode.fire env.eager (Node.fire env.eager f) gE S := by
      rw [Node.fire]; simp only [hkE]
    have eN : Node.fire env.narrow (f + 1) gE.clearTicked S =
        SourceNode.fire env.narrow (Node.fire env.narrow f) gE.clearTicked S := by
      rw [Node.fire]; simp only [hkN]
    have hordE : (gE.node S).computeOrder_ = (g.node S).computeOrder_ :=
      shape_computeOrder (i2 S)
    have hordN : (gE.clearTicked.node S).computeOrder_ = (g.node S).computeOrder_ := hordE
    have hpre := preFire_policies env gE S (fun m hm => i3 m (by rw [← i1]; exact hm))
    have hshapePre : ∀ m, ((SourceNode.preFire env.eager gE S).node m).shape =
        (g.node m).shape :=
      fun m => ((preFire_round env.eager gE S).2.1 m).trans (i2 m)
    rw [eE, eN, sourceFire_fireLoop, sourceFire_fireLoop, hordE, hordN, hpre,
      fireLoop_policies env f g S _ _ (fun n hn => (horder n hn).2) hshapePre]
    cases hloop : SourceNode.fireLoop (Node.fire env.eager f) S (g.node S).computeOrder_
        (SourceNode.preFire env.eager gE S) with
    | error e => exact ⟨rfl, fun _ h => by cases h⟩
    | ok g6 =>
      obtain ⟨f1, f2, f3⟩ := fireLoop_frame env.eager f g S _ _ g6
        (fun n hn => (horder n hn).2) hshapePre hloop
      have hord6 : (g6.node S).computeOrder_ = (g.node S).computeOrder_ :=
        shape_computeOrder (f2 S)
      have hfalse : ∀ m, m ≠ S → m ∉ (g.node S).computeOrder_ →
          (g6.node m).ticked_ = false := by
        intro m hmS hmo
        rw [f3 m hmS hmo, ← hpre]
        exact preFire_cleared env gE S m hmS
      have hpost := postFire_policies env g6 S (by rw [hord6]; exact hfalse)
      obtain ⟨q1, q2⟩ := postFire_eager env g6 S
      refine ⟨?_, fun gE1 h => ?_⟩
      · simp only [hpost]
        rfl
      · cases h
        refine ⟨?_, fun m => ((q2 m).1).trans (f2 m), fun m hm => ?_⟩
        · rw [q1, f1]
          exact ((preFire_round env.eager gE S).1).trans i1
        · have hmS : m ≠ S := fun e => hm (e ▸ hreg)
          have hmo : m ∉ (g.node S).computeOrder_ := fun e => hm (horder m e).1
          rw [(q2 m).2 hmS]
          exact hfalse m hmS hmo

/-- Any number of rounds under the two policies. -/
theorem fireAll_policies (env : Env) (fuel : Nat) (g : Graph) :
    ∀ (sources : List NodePtr) (gE : Graph), BetweenRounds g gE →
      (∀ S ∈ sources, (g.node S).kind = NodeKind.SourceNode ∧ S ∈ g.nodes ∧
        ∀ n ∈ (g.node S).computeOrder_,
          n ∈ g.nodes ∧ (g.node n).kind ≠ NodeKind.SourceNode) →
      fireAll env.narrow fuel gE.clearTicked sources =
        Except.map Graph.clearTicked (fireAll env.eager fuel gE sources) := by
  intro sources
  induction sources with
  | nil => intro gE _ _; rfl
  | cons S rest ih =>
    intro gE hinv hsrc
    obtain ⟨hS, hreg, horder⟩ := hsrc S (List.mem_cons_self _ _)
    obtain ⟨h1, h2⟩ := sourceFire_policies env fuel g gE S hinv hS hreg horder
    unfold fireAll
    simp only [List.foldlM_cons]
    rw [h1]
    cases hf : Node.fire env.eager fuel gE S with
    | error e => rfl
    | ok gE1 =>
      exact ih gE1 (h2 gE1 hf) (fun T hT => hsrc T (List.mem_cons_of_mem _ hT))

theorem clearTicked_of_false (g : Graph) (h : ∀ m, (g.node m).ticked_ = false) :
    g.clearTicked = g :=
  graph_ext rfl rfl (fun m => node_clear_of_false _ (h m)) rfl rfl rfl rfl

/-- The rounds return when every value node of the firing orders has one clock. -/
theorem fireAll_total (env : Env) (fuel : Nat) (g : Graph) :
    ∀ (sources : List NodePtr) (gE : Graph), (∀ m, (gE.node m).shape = (g.node m).shape) →
      (∀ S ∈ sources, (g.node S).kind = NodeKind.SourceNode ∧
        ∀ n ∈ (g.node S).computeOrder_, (g.node n).kind ≠ NodeKind.SourceNode ∧
          ((g.node n).kind = NodeKind.ValueNode → ∃ c, (g.node n).clocks_ = [c])) →
      ∃ gE1, fireAll env (fuel + 2) gE sources = Except.ok gE1 := by
  intro sources
  induction sources with
  | nil => intro gE _ _; exact ⟨gE, rfl⟩
  | cons S rest ih =>
    intro gE hshape hsrc
    obtain ⟨hS, horder⟩ := hsrc S (List.mem_cons_self _ _)
    have hsh : ∀ n, (gE.node n).kind = (g.node n).kind := fun n => shape_kind (hshape n)
    obtain ⟨gE1, _, hfire, _, hr⟩ := sourceFire_round env gE S fuel
      (by rw [hsh]; exact hS)
      (fun n hn => by
        rw [hsh]
        exact (horder n (by rw [← shape_computeOrder (hshape S)]; exact hn)).1)
      (fun n hn => by
        rw [hsh, shape_clocks (hshape n)]
        exact (horder n (by rw [← shape_computeOrder (hshape S)]; exact hn)).2)
    obtain ⟨gE2, h2⟩ := ih gE1 (fun m => (hr.2.1 m).trans (hshape m))
      (fun T hT => hsrc T (List.mem_cons_of_mem _ hT))
    refine ⟨gE2, ?_⟩
    unfold fireAll at h2 ⊢
    simp only [List.foldlM_cons, hfire]
    exact h2

/-- C24: on a graph with every flag reset, for every sequence of `fire()` calls on
registered sources whose firing orders hold registered nodes and no source, the narrow
policy produces what the eager policy produces with every ticked flag reset: both fail
with the same error, or both return, with the same sequence of `compute()` invocations
and the same status and value of every node, and under the narrow policy no flag is set.
The rounds return when every value node of the firing orders has one clock. -/
theorem reset_policies_equivalent (env : Env) (fuel : Nat) (g : Graph)
    (sources : List NodePtr) (hinit : ∀ m, (g.node m).ticked_ = false)
    (hsrc : ∀ S ∈ sources, (g.node S).kind = NodeKind.SourceNode ∧ S ∈ g.nodes ∧
      ∀ n ∈ (g.node S).computeOrder_,
        n ∈ g.nodes ∧ (g.node n).kind ≠ NodeKind.SourceNode) :
    fireAll env.narrow fuel g sources =
      Except.map Graph.clearTicked (fireAll env.eager fuel g sources) ∧
    (∀ gE, fireAll env.eager fuel g sources = Except.ok gE →
      ∃ gN, fireAll env.narrow fuel g sources = Except.ok gN ∧
        gN.computeCalls = gE.computeCalls ∧
        ∀ m, (gN.node m).status_ = (gE.node m).status_ ∧
          (gN.node m).value_ = (gE.node m).value_ ∧ (gN.node m).ticked_ = false) ∧
    (∀ e, fireAll env.eager fuel g sources = Except.error e →
      fireAll env.narrow fuel g sources = Except.error e) ∧
    ((∀ S ∈ sources, ∀ n ∈ (g.node S).computeOrder_,
        (g.node n).kind = NodeKind.ValueNode → ∃ c, (g.node n).clocks_ = [c]) →
      ∃ gE, fireAll env.eager (fuel + 2) g sources = Except.ok gE) := by
  have key := fireAll_policies env fuel g sources g
    ⟨rfl, fun _ => rfl, fun m _ => hinit m⟩ hsrc
  rw [clearTicked_of_false g hinit] at key
  refine ⟨key, fun gE h => ?_, fun e h => ?_, fun hclk => ?_⟩
  · rw [h] at key
    exact ⟨gE.clearTicked, key, rfl, fun m => ⟨rfl, rfl, rfl⟩⟩
  · rw [h] at key
    exact key
  · exact fireAll_total env.eager fuel g sources g (fun _ => rfl)
      (fun S hS => ⟨(hsrc S hS).1, fun n hn =>
        ⟨((hsrc S hS).2.2 n hn).2, hclk S hS n hn⟩⟩)

/-- A current firing order holds no source when no source has a clock. -/
theorem freshOrder_no_source {g : Graph} (hsym : EdgeSymmetry g) (hcl : g.SourcesClockless)
    {S : NodePtr} (hf : FreshOrder g S) :
    ∀ n ∈ (g.node S).computeOrder_, (g.node n).kind ≠ NodeKind.SourceNode := by
  intro n hn hk
  obtain ⟨hreach, hne⟩ := (hf.2 n).1 hn
  rcases Relation.ReflTransGen.cases_tail hreach with h | ⟨u, _, hu⟩
  · exact hne h
  · have hc : u ∈ (g.node n).clocks_ := (hsym.2.1 n u).2 hu
    rw [hcl n hk] at hc
    simp at hc

/-- The firing orders of a constructed graph hold no source when no source has a
clock. -/
theorem constructed_no_source {env : Env} {fuel : Nat} {nodes : List NodePtr}
    {kind : NodePtr → NodeKind} {ops : List Op} {g : Graph}
    (hg : runOps env fuel (Graph.init nodes kind) ops = Except.ok g)
    (hcl : g.SourcesClockless) (S : NodePtr) (hS : (g.node S).kind = NodeKind.SourceNode) :
    ∀ n ∈ (g.node S).computeOrder_, (g.node n).kind ≠ NodeKind.SourceNode := by
  have hno : (Graph.init nodes kind).NoEdges := fun _ => ⟨rfl, rfl, rfl, rfl⟩
  obtain ⟨hsym, hinv⟩ := orderInv_runOps (edgeSymmetry_of_noEdges hno)
    (orderInv_of_noEdges hno (fun _ => rfl)) hg
  rcases hinv hcl S hS with hf | ⟨_, ht, _⟩
  · exact freshOrder_no_source hsym hcl hf
  · cases ht

/-- Two rounds on a source 0 with the firing order `[1, 2]`: both policies call
`compute()` on the nodes 1, 2, 1, 2; the eager policy leaves the flags of the round set,
the narrow policy leaves none. -/
theorem reset_policies_equivalent_witness :
    ∃ gE gN,
      fireAll envOK.eager 5 (fireGraph NodeKind.ValueNode false StatusCode.INIT
        StatusCode.INIT) [0, 0] = Except.ok gE ∧
      fireAll envOK.narrow 5 (fireGraph NodeKind.ValueNode false StatusCode.INIT
        StatusCode.INIT) [0, 0] = Except.ok gN ∧
      gE.computeCalls = [1, 2, 1, 2] ∧ gN.computeCalls = [1, 2, 1, 2] ∧
      (gE.node 1).ticked_ = true ∧ (gN.node 1).ticked_ = false ∧
      (gE.node 2).status_ = StatusCode.OK ∧ (gN.node 2).status_ = StatusCode.OK ∧
      fireAll envOK.narrow 5 (fireGraph NodeKind.ValueNode false StatusCode.INIT
          StatusCode.INIT) [0, 0] =
        Except.map Graph.clearTicked (fireAll envOK.eager 5
          (fireGraph NodeKind.ValueNode false StatusCode.INIT StatusCode.INIT) [0, 0]) :=
  ⟨_, _, rfl, rfl, rfl, rfl, rfl, rfl, rfl, rfl,
    (reset_policies_equivalent envOK 5
      (fireGraph NodeKind.ValueNode false StatusCode.INIT StatusCode.INIT) [0, 0]
      (fun m => by rcases m with _ | _ | m <;> rfl)
      (fun S hS => by
        have h0 : S = 0 := by simpa using hS
        subst h0
        refine ⟨rfl, by decide, fun n hn => ?_⟩
        have h : n = 1 ∨ n = 2 := by
          change n ∈ [1, 2] at hn
          simpa using hn
        rcases h with h | h <;> subst h <;> exact ⟨by decide, by decide⟩)).1⟩

/-! ## `shrinkToZero` -/

/-- C38: `shrinkToZero a b` is the median of `a`, `b` and 0 (their sum without the
largest and the smallest): it is 0 when `a` and `b` have opposite signs or one of them
is 0, and the argument of smaller absolute value when they have the same sign; it is
symmetric, and its absolute value is at most that of either argument. The three cases of
the test hold. -/
theorem shrinkToZero_median (a b : ℚ) :
    shrinkToZero a b = a + b + 0 - max a (max b 0) - min a (min b 0) ∧
    ((a ≤ 0 ∧ 0 ≤ b) ∨ (b ≤ 0 ∧ 0 ≤ a) → shrinkToZero a b = 0) ∧
    ((0 < a ∧ 0 < b) ∨ (a < 0 ∧ b < 0) →
      (|a| ≤ |b| → shrinkToZero a b = a) ∧ (|b| ≤ |a| → shrinkToZero a b = b)) ∧
    shrinkToZero a b = shrinkToZero b a ∧
    |shrinkToZero a b| ≤ min |a| |b| ∧
    shrinkToZero 1 2 = 1 ∧ shrinkToZero (-1) 2 = 0 ∧ shrinkToZero (-2) (-3) = -2 := by
  refine ⟨?_, ?_, ?_, ?_, ?_, ?_, ?_, ?_⟩
  · simp only [shrinkToZero, max_def, min_def]
    split_ifs <;> linarith
  · intro h
    simp only [shrinkToZero, max_def, min_def]
    rcases h with ⟨h1, h2⟩ | ⟨h1, h2⟩ <;> split_ifs <;> linarith
  · intro h
    simp only [shrinkToZero, max_def, min_def, abs_eq_max_neg]
    rcases h with ⟨h1, h2⟩ | ⟨h1, h2⟩ <;> constructor <;> intro h3 <;> split_ifs at h3 ⊢ <;>
      linarith
  · simp only [shrinkToZero, max_def, min_def]
    split_ifs <;> linarith
  · simp only [shrinkToZero, max_def, min_def, abs_eq_max_neg]
    split_ifs <;> linarith
  · simp only [shrinkToZero, max_def, min_def]
    norm_num
  · simp only [shrinkToZero, max_def, min_def]
    norm_num
  · simp only [shrinkToZero, max_def, min_def]
    norm_num

/-- The opposite signs of the test case, and the same sign with the smaller absolute
value first. -/
theorem shrinkToZero_median_witness :
    ((-1 : ℚ) ≤ 0 ∧ (0 : ℚ) ≤ 2) ∧ shrinkToZero (-1) 2 = 0 ∧
    (|(-2 : ℚ)| ≤ |(-3 : ℚ)| → shrinkToZero (-2) (-3) = -2) :=
  ⟨⟨by norm_num, by norm_num⟩,
    (shrinkToZero_median (-1) 2).2.1 (Or.inl ⟨by norm_num, by norm_num⟩),
    ((shrinkToZero_median (-2) (-3)).2.2.1 (Or.inr ⟨by norm_num, by norm_num⟩)).1⟩

/-! ## The sampler `OneInN` -/

/-- The counter of `OneInN` after a call of `compute()`, while it stays below
`INT_MAX`. -/
theorem oneInN_compute (s : OneInN) (isTrade : Bool) (h0 : 0 ≤ s.n)
    (h1 : s.n + 1 < 2147483648) (hN : 1 ≤ s.oneInN_) :
    (s.compute isTrade).n = s.n + 1 ∧ (s.compute isTrade).oneInN_ = s.oneInN_ ∧
    (s.compute isTrade).ticked_ = (isTrade || decide ((s.n + 1) % s.oneInN_ = 0)) := by
  have hw : wrapInt32 (s.n + 1) = s.n + 1 := by
    unfold wrapInt32
    omega
  refine ⟨hw, rfl, ?_⟩
  simp only [OneInN.compute, hw]
  rw [Int.tmod_eq_emod (by omega) (by omega)]

/-- The flags that `compute()` sets, for a counter that stays below `INT_MAX`. -/
theorem oneInN_ticks (updates : List Bool) :
    ∀ (s : OneInN) (k : Nat), 0 ≤ s.n → s.n + updates.length < 2147483648 →
      1 ≤ s.oneInN_ →
      (s.ticks updates).get? k =
        (updates.get? k).map
          (fun isTrade => isTrade || decide ((s.n + (k + 1 : Nat)) % s.oneInN_ = 0)) := by
  induction updates with
  | nil => intro s k _ _ _; rfl
  | cons t rest ih =>
    intro s k h0 h1 hN
    simp only [List.length_cons, Nat.cast_add, Nat.cast_one] at h1
    obtain ⟨c1, c2, c3⟩ := oneInN_compute s t h0 (by omega) hN
    cases k with
    | zero =>
      simp only [OneInN.ticks, List.get?_cons_zero, Option.map_some', c3]
      simp
    | succ k =>
      simp only [OneInN.ticks, List.get?_cons_succ]
      rw [ih (s.compute t) k (by omega) (by omega) (by omega), c1, c2]
      have e : s.n + 1 + ((k + 1 : Nat) : Int) = s.n + ((k + 1 + 1 : Nat) : Int) := by
        push_cast
        ring
      rw [e]

/-- What `compute()` computes: the counter of `OneInN` counts every update on which
`compute()` runs, trades included. For `N ≥ 1` and fewer than `2^31` updates, the flag is
set on the update number `k + 1` exactly when that update is a trade or `k + 1` is a
multiple of `N`; when all updates are quotes, exactly every `N`-th quote sets it. -/
theorem oneInN_samples (N : Int) (updates : List Bool) (k : Nat) (hN : 1 ≤ N)
    (hlen : updates.length < 2147483648) :
    (OneInN.ticks (OneInN.new N) updates).get? k =
      (updates.get? k).map (fun isTrade => isTrade || decide (((k + 1 : Nat) : Int) % N = 0)) ∧
    ((∀ isTrade ∈ updates, isTrade = false) → k < updates.length →
      (OneInN.ticks (OneInN.new N) updates).get? k =
        some (decide (N ∣ ((k + 1 : Nat) : Int)))) := by
  have h := oneInN_ticks updates (OneInN.new N) k (le_refl _)
    (by simp only [OneInN.new]; omega) hN
  simp only [OneInN.new, zero_add] at h
  refine ⟨h, fun hq hk => ?_⟩
  refine Eq.trans h ?_
  have hget : updates.get? k = some false := by
    rw [List.get?_eq_get hk]
    exact congrArg some (hq _ (List.get_mem _ _ _))
  rw [hget]
  simp only [Option.map_some', Bool.false_or, Option.some.injEq, decide_eq_decide]
  exact Int.dvd_iff_emod_eq_zero.symm

/-- With `N = 3`: a trade sets the flag, and so does the third update of any kind. -/
theorem oneInN_samples_witness :
    OneInN.ticks (OneInN.new 3) [false, true, false, false, false, false] =
      [false, true, true, false, false, true] ∧
    (OneInN.ticks (OneInN.new 3) [false, true, false, false, false, false]).get? 2 =
      ([false, true, false, false, false, false].get? 2).map
        (fun isTrade => isTrade || decide (((2 + 1 : Nat) : Int) % 3 = 0)) :=
  ⟨by decide,
    (oneInN_samples 3 [false, true, false, false, false, false] 2 (by decide)
      (by decide)).1⟩

/-- C39: `OneInN` carries the comment "Sample on trades and 1 in N quotes", and its one
counter counts the trades too. With `N = 2` and the updates quote, trade, quote, the
third update is the second quote and does not set the flag, because it is the third
update; after a trade, the first quote sets the flag, because it is the second
update. -/
theorem oneInN_counterexample :
    OneInN.ticks (OneInN.new 2) [false, true, false] = [false, true, false] ∧
    ([false, true, false].take 3).count false = 2 ∧
    OneInN.ticks (OneInN.new 2) [true, false] = [true, true] ∧
    ([true, false].take 2).count false = 1 :=
  ⟨by decide, by decide, by decide, by decide⟩

/-! ## The assertion of `SourceNode::treeUpdated` -/

/-- The traversal emits its root last. -/
theorem traversal_root_last {g : Graph} {all : Bool} {fuel : Nat} {root : NodePtr}
    {v po : List NodePtr}
    (h : applyDepthFirstImpl g all (appendNode none) fuel root ([], []) = Except.ok (v, po)) :
    ∃ po1, po = po1 ++ [root] := by
  cases fuel with
  | zero => cases h
  | succ fuel =>
    rw [applyDepthFirstImpl_succ] at h
    simp only [List.not_mem_nil, if_false] at h
    split at h
    · cases h
    · rename_i visited1 args1 _
      cases h
      exact ⟨args1, rfl⟩

/-- The vector `fullSort` of `SourceNode::treeUpdated` starts with the source, which
occurs in it only once. -/
theorem fullSort_head {g : Graph} {fuel : Nat} {this : NodePtr}
    {callbacks fullSort : List NodePtr}
    (hcb : addAllCallbacks g fuel [] this = Except.ok callbacks)
    (hsort : topological_sort g fuel this (some callbacks) = Except.ok fullSort) :
    ∃ rest, fullSort = this :: rest ∧ this ∉ rest := by
  have hroot : this ∈ callbacks := by
    unfold addAllCallbacks traverseCallbacks at hcb
    split at hcb
    · cases hcb
    · rename_i v1 a1 hdfs1
      cases hcb
      obtain ⟨po1, hpo1, ha1⟩ := traversal_func g false insertSet [] fuel this v1 _ hdfs1
      obtain ⟨_, hmem1⟩ := traversal_ok hpo1
      rw [ha1, foldl_insertSet_mem]
      exact Or.inr ((hmem1 this).2 Relation.ReflTransGen.refl)
  rw [topological_sort_filter, topological_sort_none] at hsort
  cases hdfs : applyDepthFirstImpl g true (appendNode none) fuel this ([], []) with
  | error e => rw [hdfs] at hsort; cases hsort
  | ok p =>
    obtain ⟨v2, po2⟩ := p
    rw [hdfs] at hsort
    simp only [Except.map] at hsort
    cases hsort
    obtain ⟨hnd, _⟩ := traversal_ok hdfs
    obtain ⟨po1, hpo1⟩ := traversal_root_last hdfs
    subst hpo1
    refine ⟨po1.reverse.filter (fun n => decide (n ∈ callbacks)), ?_, ?_⟩
    · simp [List.filter_cons, hroot]
    · intro hin
      have h1 : this ∈ po1 := by
        have := (List.mem_filter.1 hin).1
        simpa using this
      have := List.nodup_append.1 hnd
      exact this.2.2 h1 (List.mem_singleton_self _)

/-- A loop fails only with an error of its body. -/
theorem foldlM_error {α β : Type} (P : Err → Prop) (f : β → α → Except Err β) :
    ∀ (l : List α) (b : β) (e : Err),
      (∀ a ∈ l, ∀ s e1, f s a = Except.error e1 → P e1) →
      l.foldlM f b = Except.error e → P e := by
  intro l
  induction l with
  | nil => intro b e _ h; cases h
  | cons a l ih =>
    intro b e hstep h
    simp only [List.foldlM_cons] at h
    cases hf : f b a with
    | error e1 =>
      rw [hf] at h
      cases h
      exact hstep a (List.mem_cons_self _ _) b _ hf
    | ok b1 =>
      rw [hf] at h
      exact ih b1 e (fun x hx => hstep x (List.mem_cons_of_mem _ hx)) h

/-- The traversal fails only when its budget runs out. -/
theorem applyDepthFirstImpl_error {σ : Type} (g : Graph) (all : Bool)
    (func : NodePtr → σ → σ) :
    ∀ (fuel : Nat) (node : NodePtr) (s : List NodePtr × σ) (e : Err),
      applyDepthFirstImpl g all func fuel node s = Except.error e → e = Err.fuel := by
  intro fuel
  induction fuel with
  | zero => intro node s e h; cases h; rfl
  | succ fuel ih =>
    intro node s e h
    obtain ⟨visited, args⟩ := s
    rw [applyDepthFirstImpl_succ] at h
    split at h
    · cases h
    · split at h
      · rename_i e1 he1
        cases h
        exact foldlM_error (fun e => e = Err.fuel) _ _ _ _
          (fun a _ s e1 hf => ih a s e1 hf) he1
      · cases h

/-- C36: when the two traversals of `SourceNode::treeUpdated` return, on any graph,
`fullSort` is not empty, its first element is the source, and the filter that fills
`computeOrder_` drops that element and no other; so the assertion never fails. On a
finite graph, with or without cycles, `treeUpdated` returns in both builds. -/
theorem treeUpdated_assertion (env : Env) (g : Graph) (fuel : Nat) (this : NodePtr) :
    (∀ callbacks fullSort, addAllCallbacks g fuel [] this = Except.ok callbacks →
      topological_sort g fuel this (some callbacks) = Except.ok fullSort →
      fullSort ≠ [] ∧ fullSort.head? = some this ∧
      fullSort.filter (fun node => decide (node ≠ this)) = fullSort.tail ∧
      (fullSort.filter (fun node => decide (node ≠ this))).length + 1 = fullSort.length) ∧
    SourceNode.treeUpdated env fuel g this ≠ Except.error Err.assertion ∧
    (this ∈ g.nodes → g.Closed → g.nodes.length < fuel →
      ∃ g1, SourceNode.treeUpdated env fuel g this = Except.ok g1 ∧
        ∀ m, m ≠ this → g1.node m = g.node m) := by
  have part1 : ∀ callbacks fullSort, addAllCallbacks g fuel [] this = Except.ok callbacks →
      topological_sort g fuel this (some callbacks) = Except.ok fullSort →
      fullSort ≠ [] ∧ fullSort.head? = some this ∧
      fullSort.filter (fun node => decide (node ≠ this)) = fullSort.tail ∧
      (fullSort.filter (fun node => decide (node ≠ this))).length + 1 = fullSort.length := by
    intro callbacks fullSort hcb hsort
    obtain ⟨rest, hfs, hnot⟩ := fullSort_head hcb hsort
    subst hfs
    have hf : (this :: rest).filter (fun node => decide (node ≠ this)) = rest := by
      rw [List.filter_cons_of_neg (by simp)]
      exact List.filter_eq_self.2 (fun a ha => by
        simp only [ne_eq, decide_eq_true_eq]
        exact fun e => hnot (e ▸ ha))
    refine ⟨by simp, rfl, hf, ?_⟩
    rw [hf]
    rfl
  refine ⟨part1, ?_, fun hroot hclosed hfuel => ?_⟩
  · intro h
    unfold SourceNode.treeUpdated at h
    split at h
    · rename_i e he
      cases h
      unfold addAllCallbacks traverseCallbacks at he
      split at he
      · rename_i e1 he1
        cases he
        cases applyDepthFirstImpl_error g false insertSet fuel this _ _ he1
      · cases he
    · rename_i callbacks hcb
      split at h
      · rename_i e he
        cases h
        unfold topological_sort traverseChildren at he
        split at he
        · rename_i e1 he1
          cases he
          split at he1
          · rename_i e2 he2
            cases he1
            cases applyDepthFirstImpl_error g true _ fuel this _ _ he2
          · cases he1
        · cases he
      · rename_i fullSort hsort
        split at h
        · rename_i hassert
          have := (part1 callbacks fullSort hcb hsort).2.1
          simp [this] at hassert
        · cases h
  · obtain ⟨v1, po1, h1, _⟩ := traversal_from_root g false fuel this hroot hclosed hfuel
    obtain ⟨v2, po2, h2, _⟩ := traversal_from_root g true fuel this hroot hclosed hfuel
    have hcb : addAllCallbacks g fuel [] this =
        Except.ok (po1.foldl (fun a n => insertSet n a) []) := by
      unfold addAllCallbacks traverseCallbacks
      rw [traversal_visitor, h1]
      rfl
    have hsort : ∃ fullSort, topological_sort g fuel this
        (some (po1.foldl (fun a n => insertSet n a) [])) = Except.ok fullSort := by
      rw [topological_sort_filter, topological_sort_none, h2]
      exact ⟨_, rfl⟩
    obtain ⟨fullSort, hsort⟩ := hsort
    have hhead := (part1 _ fullSort hcb hsort).2.1
    unfold SourceNode.treeUpdated
    rw [hcb]
    simp only [hsort]
    have hno : (env.debug && decide (fullSort.head? ≠ some this)) = false := by
      simp [hhead]
    rw [if_neg (by simp [hhead])]
    exact ⟨_, rfl, fun m hm => modify_node_ne _ _ hm⟩

/-- A graph with a trigger cycle and a dependency cycle: the order of node 0 is computed,
and node 0 is the head of `fullSort`. -/
theorem treeUpdated_assertion_witness :
    cyclicGraph.Closed ∧
    (∃ g1, SourceNode.treeUpdated envOK 4 cyclicGraph 0 = Except.ok g1 ∧
      (g1.node 0).computeOrder_ = [1]) ∧
    (∃ callbacks fullSort, addAllCallbacks cyclicGraph 4 [] 0 = Except.ok callbacks ∧
      topological_sort cyclicGraph 4 0 (some callbacks) = Except.ok fullSort ∧
      callbacks = [0, 1] ∧ fullSort = [0, 1]) ∧
    ∃ g1, SourceNode.treeUpdated envOK 4 cyclicGraph 0 = Except.ok g1 ∧
      ∀ m, m ≠ 0 → g1.node m = cyclicGraph.node m :=
  ⟨by decide, ⟨_, rfl, rfl⟩, ⟨_, _, rfl, rfl, rfl, rfl⟩,
    (treeUpdated_assertion envOK cyclicGraph 4 0).2.2 (by decide) (by decide) (by decide)⟩

/-! ## The counters -/

/-- One `fire()` of a node that is no source keeps the counter invariant: `nFired` grows
by one, `nTicked` by `t`, `nComputed` by `c ≤ t` and `nTickedTrue` by at most `c`. -/
theorem counterInv_step {x y : Node} (t c : Nat) (hk : y.kind = x.kind)
    (hns : x.kind ≠ NodeKind.SourceNode) (hF : y.nFired = x.nFired + 1)
    (hT : y.nTicked = x.nTicked + t) (hC : y.nComputed = x.nComputed + c)
    (hTT : y.nTickedTrue ≤ x.nTickedTrue + c)
    (hct : c ≤ t) (ht : t ≤ 1)
    (hx : CounterInv x) : CounterInv y := by
  obtain ⟨h1, h2, h3, _⟩ := hx
  refine ⟨by omega, by omega, fun hv => ?_, fun hs => ?_⟩
  · have := h3 (by rw [← hk]; exact hv)
    omega
  · exact absurd (hk ▸ hs) hns

theorem compute_counters {env : Env} {g g1 : Graph} {n : NodePtr}
    (h : Node.compute env g n = Except.ok g1) :
    (g1.node n).kind = (g.node n).kind ∧ (g1.node n).nFired = (g.node n).nFired ∧
    (g1.node n).nTicked = (g.node n).nTicked ∧
    (g1.node n).nComputed = (g.node n).nComputed ∧
    (g1.node n).nTickedTrue = (g.node n).nTickedTrue := by
  unfold Node.compute at h
  split at h
  · cases h
  · cases h
    simp [Graph.modify]

theorem valueFire_counterInv {env : Env} {g g1 : Graph} {n : NodePtr}
    (h : ValueNode.fire env g n = Except.ok g1)
    (hns : (g.node n).kind ≠ NodeKind.SourceNode) (hx : CounterInv (g.node n)) :
    CounterInv (g1.node n) := by
  unfold ValueNode.fire at h
  simp only at h
  split at h
  · cases h
  · split at h
    · split at h
      · obtain ⟨c1, c2, c3, c4, c5⟩ := compute_counters h
        simp only [modify_node_same] at c1 c2 c3 c4 c5
        exact counterInv_step 1 1 c1 hns c2 c3 c4 (by rw [c5]; omega)
          (le_refl _) (le_refl _) hx
      · split at h
        · cases h
          exact counterInv_step 1 0 (by simp) hns (by simp) (by simp) (by simp) (by simp)
            (by omega) (le_refl _) hx
        · cases h
          exact counterInv_step 1 0 (by simp) hns (by simp) (by simp) (by simp) (by simp)
            (by omega) (le_refl _) hx
    · cases h
      exact counterInv_step 0 0 (by simp) hns (by simp) (by simp) (by simp) (by simp)
        (le_refl _) (by omega) hx

theorem clockFire_counterInv {env : Env} {g g1 : Graph} {n : NodePtr}
    (h : ClockNode.fire env g n = Except.ok g1)
    (hns : (g.node n).kind ≠ NodeKind.SourceNode) (hx : CounterInv (g.node n)) :
    CounterInv (g1.node n) := by
  unfold ClockNode.fire at h
  simp only at h
  split at h
  · cases h
    exact counterInv_step 0 0 (by simp) hns (by simp) (by simp) (by simp) (by simp)
      (le_refl _) (by omega) hx
  · split at h
    · split at h
      · cases h
      · rename_i g3 hc
        cases h
        obtain ⟨c1, c2, c3, c4, c5⟩ := compute_counters hc
        simp only [modify_node_same] at c1 c2 c3 c4 c5
        refine counterInv_step 1 1 (by simp [c1]) hns (by simp [c2]) (by simp [c3])
          (by simp [c4]) ?_ (le_refl _) (le_refl _) hx
        simp only [modify_node_same, c5]
        split <;> omega
    · split at h
      · cases h
        exact counterInv_step 1 0 (by simp) hns (by simp) (by simp) (by simp) (by simp)
          (by omega) (le_refl _) hx
      · cases h
        exact counterInv_step 1 0 (by simp) hns (by simp) (by simp) (by simp) (by simp)
          (by omega) (le_refl _) hx

theorem counterInv_modify (g : Graph) (n : NodePtr) (f : Node → Node)
    (hf : CounterInv (g.node n) → CounterInv (f (g.node n)))
    (hg : ∀ m, CounterInv (g.node m)) : ∀ m, CounterInv ((g.modify n f).node m) := by
  intro m
  rw [modify_node]
  split
  · rename_i h; subst h; exact hf (hg _)
  · exact hg m

theorem counterInv_foldl_reset (l : List NodePtr) (g : Graph)
    (hg : ∀ m, CounterInv (g.node m)) : ∀ m, CounterInv ((l.foldl Node.reset g).node m) := by
  induction l generalizing g with
  | nil => exact hg
  | cons a l ih =>
    rw [List.foldl_cons]
    exact ih _ (counterInv_modify g a (fun x => { x with ticked_ := false }) (fun h => h) hg)

theorem preFire_counterInv (env : Env) (g : Graph) (S : NodePtr)
    (hS : (g.node S).kind = NodeKind.SourceNode) (hg : ∀ m, CounterInv (g.node m)) :
    ∀ m, CounterInv ((SourceNode.preFire env g S).node m) := by
  unfold SourceNode.preFire
  simp only
  have h1 := counterInv_modify g S (fun x =>
    { x with nFired := x.nFired + 1, nComputed := x.nComputed + 1,
             nTicked := x.nTicked + 1, nTickedTrue := x.nTickedTrue + 1 })
    (fun hx => by
      obtain ⟨a1, a2, a3, a4⟩ := hx
      obtain ⟨b1, b2, b3⟩ := a4 hS
      refine ⟨?_, ?_, fun _ => ?_, fun _ => ⟨?_, ?_, ?_⟩⟩ <;> simp only <;> omega) hg
  generalize g.modify S (fun x =>
    { x with nFired := x.nFired + 1, nComputed := x.nComputed + 1,
             nTicked := x.nTicked + 1, nTickedTrue := x.nTickedTrue + 1 }) = g1 at h1 ⊢
  have h2 : ∀ m, CounterInv ((if env.debug = true then g1.nodes.foldl Node.reset g1
      else g1).node m) := by
    split
    · exact counterInv_foldl_reset _ _ h1
    · exact h1
  generalize (if env.debug = true then g1.nodes.foldl Node.reset g1 else g1) = g2 at h2 ⊢
  exact counterInv_modify g2 S (fun x => { x with status_ := StatusCode.OK, ticked_ := true })
    (fun h => h) h2

theorem postFire_counterInv (env : Env) (g6 : Graph) (S : NodePtr)
    (hg : ∀ m, CounterInv (g6.node m)) :
    ∀ m, CounterInv ((SourceNode.postFire env g6 S).node m) := by
  unfold SourceNode.postFire
  simp only
  have h1 : ∀ m, CounterInv ((Graph.notifyPostFire
      (g6.modify S (fun x => { x with currentNode_ := none }))).node m) :=
    counterInv_modify g6 S (fun x => { x with currentNode_ := none }) (fun h => h) hg
  generalize Graph.notifyPostFire
    (g6.modify S (fun x => { x with currentNode_ := none })) = g8 at h1 ⊢
  split
  · exact h1
  · exact counterInv_modify _ S (fun x => { x with ticked_ := false }) (fun h => h)
      (counterInv_foldl_reset _ _ h1)

/-- Every `fire()` that returns keeps the counter invariant of every node, also when a
source sits in the firing order of another source. -/
theorem nodeFire_counterInv (env : Env) :
    ∀ (fuel : Nat) (g g1 : Graph) (n : NodePtr), Node.fire env fuel g n = Except.ok g1 →
      (∀ m, CounterInv (g.node m)) → ∀ m, CounterInv (g1.node m) := by
  intro fuel
  induction fuel with
  | zero => intro g g1 n h; cases h
  | succ fuel ih =>
    intro g g1 n h hg
    unfold Node.fire at h
    split at h
    · rename_i hk
      have hleaf := valueFire_leaf h
      intro m
      by_cases hm : m = n
      · subst hm
        exact valueFire_counterInv h (by rw [hk]; decide) (hg m)
      · rw [hleaf.2.2.1 m hm]; exact hg m
    · rename_i hk
      have hleaf := clockFire_leaf h
      intro m
      by_cases hm : m = n
      · subst hm
        exact clockFire_counterInv h (by rw [hk]; decide) (hg m)
      · rw [hleaf.2.2.1 m hm]; exact hg m
    · rename_i hk
      rw [sourceFire_fireLoop] at h
      split at h
      · cases h
      · rename_i g6 hloop
        cases h
        refine postFire_counterInv env g6 n ?_
        refine foldlM_ok_inv (fun s => ∀ m, CounterInv (s.node m)) _ _ _ g6 ?_
          (preFire_counterInv env g n hk hg) hloop
        intro a _ s s1 hs hf
        exact ih _ s1 a hf (counterInv_modify s n (fun x => { x with currentNode_ := some a })
          (fun h => h) hs)

/-- The loop of `SourceNode::fire` over nodes that are no sources, when it returns. -/
theorem fireLoop_round (env : Env) (fuel : Nat) (g : Graph) (S : NodePtr)
    (l : List NodePtr) (st0 st : Graph)
    (hk : ∀ n ∈ l, (g.node n).kind ≠ NodeKind.SourceNode)
    (hshape : ∀ m, (st0.node m).shape = (g.node m).shape)
    (h : SourceNode.fireLoop (Node.fire env fuel) S l st0 = Except.ok st) :
    ∃ sub, Round l sub st0 st := by
  have hP := foldlM_ok_prefix (fun d s => ∃ sub, Round d sub st0 s) _ l [] st0 st
    (by
      intro a ha d s s1 hs hf
      cases fuel with
      | zero => cases hf
      | succ f =>
        obtain ⟨sub, hr⟩ := hs
        have hr0 := round_modify s S (fun x => { x with currentNode_ := some a })
          (fun _ => rfl) (fun _ => rfl)
        have hk0 : ((s.modify S (fun x => { x with currentNode_ := some a })).node a).kind ≠
            NodeKind.SourceNode := by
          rw [shape_kind (hr0.2.1 a), shape_kind (hr.2.1 a), shape_kind (hshape a)]
          exact hk a ha
        obtain ⟨sub1, _, hr1⟩ := round_of_firedLeaf (nodeFire_leaf hk0 hf)
        have := round_trans (round_trans hr hr0) hr1
        rw [List.append_nil, List.append_nil] at this
        exact ⟨_, this⟩)
    ⟨[], round_refl st0⟩ h
  rw [List.nil_append] at hP
  exact hP

theorem postFire_round (env : Env) (g6 : Graph) (S : NodePtr) :
    Round [] [] g6 (SourceNode.postFire env g6 S) := by
  unfold SourceNode.postFire
  simp only
  have r1 := round_trans (round_modify g6 S (fun x => { x with currentNode_ := none })
    (fun _ => rfl) (fun _ => rfl)) (round_notifyPostFire _)
  generalize Graph.notifyPostFire
    (g6.modify S (fun x => { x with currentNode_ := none })) = g8 at r1 ⊢
  split
  · simpa using r1
  · have := round_trans (round_trans r1 (round_foldl_reset (g8.node S).computeOrder_ g8))
      (round_reset _ S)
    simpa using this

/-- One `fire()` of a source whose firing order holds no source, when it returns. -/
theorem sourceFire_round_ok (env : Env) (fuel : Nat) (g g1 : Graph) (S : NodePtr)
    (hS : (g.node S).kind = NodeKind.SourceNode)
    (hnosrc : ∀ n ∈ (g.node S).computeOrder_, (g.node n).kind ≠ NodeKind.SourceNode)
    (h : Node.fire env fuel g S = Except.ok g1) :
    ∃ sub, Round (S :: (g.node S).computeOrder_) sub g g1 := by
  cases fuel with
  | zero => cases h
  | succ f =>
    rw [Node.fire] at h
    simp only [hS] at h
    rw [sourceFire_fireLoop] at h
    split at h
    · cases h
    · rename_i g6 hloop
      cases h
      have r1 := preFire_round env g S
      obtain ⟨sub, r2⟩ := fireLoop_round env f g S _ _ g6 hnosrc r1.2.1 hloop
      have := round_trans (round_trans r1 r2) (postFire_round env g6 S)
      exact ⟨_, by simpa using this⟩

/-- Any number of rounds on sources whose firing orders hold no source: the shapes stay,
and `nFired` of a source grows by the number of its rounds. -/
theorem fireAll_count (env : Env) (fuel : Nat) (g : Graph) :
    ∀ (sources : List NodePtr) (st g1 : Graph),
      (∀ m, (st.node m).shape = (g.node m).shape) →
      (∀ S ∈ sources, (g.node S).kind = NodeKind.SourceNode ∧
        ∀ n ∈ (g.node S).computeOrder_, (g.node n).kind ≠ NodeKind.SourceNode) →
      fireAll env fuel st sources = Except.ok g1 →
      (∀ m, (g1.node m).shape = (g.node m).shape) ∧
      ∀ T, (g.node T).kind = NodeKind.SourceNode →
        (g1.node T).nFired = (st.node T).nFired + sources.count T := by
  intro sources
  induction sources with
  | nil =>
    intro st g1 hshape _ h
    cases h
    exact ⟨hshape, fun T _ => by simp⟩
  | cons S rest ih =>
    intro st g1 hshape hsrc h
    unfold fireAll at h
    simp only [List.foldlM_cons] at h
    cases hf : Node.fire env fuel st S with
    | error e => rw [hf] at h; cases h
    | ok st1 =>
      rw [hf] at h
      obtain ⟨hS, hno⟩ := hsrc S (List.mem_cons_self _ _)
      have hord : (st.node S).computeOrder_ = (g.node S).computeOrder_ :=
        shape_computeOrder (hshape S)
      obtain ⟨sub, hr⟩ := sourceFire_round_ok env fuel st st1 S
        (by rw [shape_kind (hshape S)]; exact hS)
        (fun n hn => by
          rw [shape_kind (hshape n)]
          exact hno n (by rw [← hord]; exact hn)) hf
      obtain ⟨i1, i2⟩ := ih st1 g1 (fun m => (hr.2.1 m).trans (hshape m))
        (fun T hT => hsrc T (List.mem_cons_of_mem _ hT)) h
      refine ⟨i1, fun T hT => ?_⟩
      rw [i2 T hT, hr.2.2.1 T, hord]
      have hnot : T ∉ (g.node S).computeOrder_ := fun hin => hno T hin hT
      rw [List.count_cons, List.count_cons, List.count_eq_zero_of_not_mem hnot]
      omega

theorem samplerRounds_built :
    runOps envSilent 10 (Graph.init [0, 1, 2, 3] kindSampler) samplerOps =
      Except.ok (samplerRounds 0 false []) := by
  obtain ⟨g1, h1, h2⟩ : ∃ g1, runOps envSilent 10 (Graph.init [0, 1, 2, 3] kindSampler)
      samplerOps = Except.ok g1 ∧ g1 = samplerRounds 0 false [] :=
    ⟨_, rfl, graph_ext rfl rfl (fun m => by rcases m with _ | _ | _ | _ | m <;> rfl)
      rfl rfl rfl rfl⟩
  rw [h1, h2]

theorem samplerRounds_step (k : Nat) (started : Bool) (calls : List NodePtr) :
    Node.fire envSilent 2 (samplerRounds k started calls) 0 =
      Except.ok (samplerRounds (k + 1) true (calls ++ [1])) := by
  obtain ⟨g1, h1, h2⟩ : ∃ g1, Node.fire envSilent 2 (samplerRounds k started calls) 0 =
      Except.ok g1 ∧ g1 = samplerRounds (k + 1) true (calls ++ [1]) :=
    ⟨_, rfl, graph_ext rfl rfl (fun m => by rcases m with _ | _ | _ | _ | m <;> rfl)
      rfl rfl rfl rfl⟩
  rw [h1, h2]

theorem samplerRounds_iterate (k : Nat) :
    ∀ (j : Nat) (started : Bool) (calls : List NodePtr),
      ∃ calls1, fireAll envSilent 2 (samplerRounds j started calls)
        (List.replicate (k + 1) 0) = Except.ok (samplerRounds (j + (k + 1)) true calls1) := by
  induction k with
  | zero =>
    intro j started calls
    refine ⟨calls ++ [1], ?_⟩
    unfold fireAll
    simp only [List.replicate, List.foldlM_cons, List.foldlM_nil, samplerRounds_step]
    rfl
  | succ k ih =>
    intro j started calls
    obtain ⟨calls1, h1⟩ := ih (j + 1) true (calls ++ [1])
    refine ⟨calls1, ?_⟩
    have hj : j + 1 + (k + 1) = j + (k + 1 + 1) := by omega
    rw [hj] at h1
    unfold fireAll at h1 ⊢
    rw [List.replicate_succ, List.foldlM_cons, samplerRounds_step]
    exact h1

theorem counterValue_of_lt {k : Nat} (h : k < 2147483648) : counterValue k = (k : Int) := by
  unfold counterValue wrapInt32
  omega

/-- C35: after any sequence of `fire()` calls that returns, started from counters that
satisfy the invariant (a fresh graph has them all 0), every node on which `fire()` has
run fewer than 2^31 times has `nComputed ≤ nTicked ≤ nFired` in its `int` counters, the
figure `nTicked - nComputed` is not negative, a clock node has
`nTickedTrue ≤ nComputed`, and the four counters of a source are equal. When the fired
nodes are sources whose firing orders hold no source, `nFired` of a source has been
incremented once per `fire()` call of the source, and below 2^31 calls the `int` counter
holds that number. -/
theorem counter_invariant (env : Env) (fuel : Nat) (g g1 : Graph) (sources : List NodePtr)
    (hinv : ∀ m, CounterInv (g.node m))
    (h : fireAll env fuel g sources = Except.ok g1) :
    (∀ m, (g1.node m).nFired < 2147483648 →
      counterValue (g1.node m).nComputed ≤ counterValue (g1.node m).nTicked ∧
      counterValue (g1.node m).nTicked ≤ counterValue (g1.node m).nFired ∧
      0 ≤ counterValue (g1.node m).nTicked - counterValue (g1.node m).nComputed ∧
      ((g1.node m).kind ≠ NodeKind.ValueNode →
        counterValue (g1.node m).nTickedTrue ≤ counterValue (g1.node m).nComputed) ∧
      ((g1.node m).kind = NodeKind.SourceNode →
        counterValue (g1.node m).nTicked = counterValue (g1.node m).nFired ∧
        counterValue (g1.node m).nComputed = counterValue (g1.node m).nFired ∧
        counterValue (g1.node m).nTickedTrue = counterValue (g1.node m).nFired)) ∧
    ((∀ S ∈ sources, (g.node S).kind = NodeKind.SourceNode ∧
        ∀ n ∈ (g.node S).computeOrder_, (g.node n).kind ≠ NodeKind.SourceNode) →
      ∀ S, (g.node S).kind = NodeKind.SourceNode →
        (g1.node S).nFired = (g.node S).nFired + sources.count S ∧
        ((g.node S).nFired + sources.count S < 2147483648 →
          counterValue (g1.node S).nFired =
            (((g.node S).nFired + sources.count S : Nat) : Int))) := by
  have hcount := fun hsrc => (fireAll_count env fuel g sources g g1 (fun _ => rfl) hsrc h).2
  refine ⟨fun m hb => ?_, fun hsrc S hS => ⟨hcount hsrc S hS, fun hb => ?_⟩⟩
  · obtain ⟨a1, a2, a3, a4⟩ := foldlM_ok_inv (fun s => ∀ m, CounterInv (s.node m)) _
      sources g g1 (fun a _ s s1 hs hf => nodeFire_counterInv env fuel s s1 a hf hs) hinv h m
    have hF := counterValue_of_lt hb
    have hT := counterValue_of_lt (lt_of_le_of_lt a2 hb)
    have hC := counterValue_of_lt (lt_of_le_of_lt (le_trans a1 a2) hb)
    rw [hF, hT, hC]
    refine ⟨by omega, by omega, by omega, fun hk => ?_, fun hk => ?_⟩
    · have := a3 hk
      rw [counterValue_of_lt (lt_of_le_of_lt (le_trans this (le_trans a1 a2)) hb)]
      omega
    · obtain ⟨b1, b2, b3⟩ := a4 hk
      rw [b3, hF]
      omega
  · rw [hcount hsrc S hS]
    exact counterValue_of_lt hb

/-- Three rounds on a source 0 with the firing order `[1, 2]`, node 1 setting `INVALID`:
the source has the four counters at 3, node 1 computes in every round and node 2, whose
parent is invalid, in none. -/
theorem counter_invariant_witness :
    ∃ g1, fireAll envPrune 5 (fireGraph NodeKind.ValueNode false StatusCode.INIT
        StatusCode.INIT) [0, 0, 0] = Except.ok g1 ∧
      (g1.node 0).nFired = 3 ∧ (g1.node 0).nTicked = 3 ∧ (g1.node 0).nComputed = 3 ∧
      (g1.node 0).nTickedTrue = 3 ∧
      (g1.node 1).nFired = 3 ∧ (g1.node 1).nTicked = 3 ∧ (g1.node 1).nComputed = 3 ∧
      (g1.node 2).nFired = 3 ∧ (g1.node 2).nTicked = 3 ∧ (g1.node 2).nComputed = 0 ∧
      counterValue (g1.node 2).nTicked = 3 ∧ counterValue (g1.node 2).nComputed = 0 ∧
      ∀ m, (g1.node m).nFired < 2147483648 →
        counterValue (g1.node m).nComputed ≤ counterValue (g1.node m).nTicked ∧
        counterValue (g1.node m).nTicked ≤ counterValue (g1.node m).nFired ∧
        0 ≤ counterValue (g1.node m).nTicked - counterValue (g1.node m).nComputed ∧
        ((g1.node m).kind ≠ NodeKind.ValueNode →
          counterValue (g1.node m).nTickedTrue ≤ counterValue (g1.node m).nComputed) ∧
        ((g1.node m).kind = NodeKind.SourceNode →
          counterValue (g1.node m).nTicked = counterValue (g1.node m).nFired ∧
          counterValue (g1.node m).nComputed = counterValue (g1.node m).nFired ∧
          counterValue (g1.node m).nTickedTrue = counterValue (g1.node m).nFired) :=
  ⟨_, rfl, rfl, rfl, rfl, rfl, rfl, rfl, rfl, rfl, rfl, rfl, by decide, by decide,
    (counter_invariant envPrune 5
      (fireGraph NodeKind.ValueNode false StatusCode.INIT StatusCode.INIT) _ [0, 0, 0]
      (fun m => by
        rcases m with _ | _ | m <;>
          exact ⟨le_refl _, le_refl _, fun _ => le_refl _, fun _ => ⟨rfl, rfl, rfl⟩⟩)
      rfl).1⟩

/-- The graph of `samplerOps` under `envSilent`, after 2^31 rounds of the source: the
`int` counters of the source hold -2^31, the sampler 1 has `nComputed` at -2^31 below its
`nTickedTrue` 0, the value node 2, whose clock never ticked, has `nFired` at -2^31 below
its `nTicked` 0, and the value node 3, whose parent never was `OK`, has
`nTicked - nComputed` at -2^31. -/
theorem counter_invariant_counterexample :
    ∃ g g1, runOps envSilent 10 (Graph.init [0, 1, 2, 3] kindSampler) samplerOps =
        Except.ok g ∧
      (∀ m, CounterInv (g.node m)) ∧
      fireAll envSilent 2 g (List.replicate 2147483648 0) = Except.ok g1 ∧
      (g1.node 0).kind = NodeKind.SourceNode ∧ (g1.node 1).kind = NodeKind.ClockNode ∧
      (List.replicate 2147483648 0).count 0 = 2147483648 ∧
      counterValue (g1.node 0).nFired = -2147483648 ∧
      ¬ counterValue (g1.node 1).nTickedTrue ≤ counterValue (g1.node 1).nComputed ∧
      ¬ counterValue (g1.node 2).nTicked ≤ counterValue (g1.node 2).nFired ∧
      counterValue (g1.node 3).nTicked - counterValue (g1.node 3).nComputed < 0 := by
  obtain ⟨calls1, h⟩ := samplerRounds_iterate 2147483647 0 false []
  have h1 : fireAll envSilent 2 (samplerRounds 0 false []) (List.replicate 2147483648 0) =
      Except.ok (samplerRounds 2147483648 true calls1) := h
  refine ⟨_, _, samplerRounds_built, ?_, h1, rfl, rfl, ?_, ?_, ?_, ?_, ?_⟩
  · intro m
    rcases m with _ | _ | _ | _ | m <;>
      exact ⟨le_refl _, le_refl _, fun _ => le_refl _, fun _ => ⟨rfl, rfl, rfl⟩⟩
  · exact List.count_replicate_self _ _
  · show counterValue 2147483648 = -2147483648
    decide
  · show ¬ counterValue 0 ≤ counterValue 2147483648
    decide
  · show ¬ counterValue 0 ≤ counterValue 2147483648
    decide
  · show counterValue 2147483648 - counterValue 0 < 0
    decide

/-! ## A round does not fail on its own -/

/-- In a debug build a construction call that returns leaves every value node with at
most one clock: the assertion of `Node::setClockImpl` has checked it. -/
theorem opRun_valueClocks {env : Env} {fuel : Nat} {g g1 : Graph} {op : Op}
    (hd : env.debug = true) (hg : g.ValueClocks) (hr : Op.run env fuel g op = Except.ok g1) :
    g1.ValueClocks := by
  intro n hn
  have hkn : (g.node n).kind = NodeKind.ValueNode := by rw [← opRun_kind hr n]; exact hn
  cases op with
  | setParent this parent =>
    rw [(setParent_lists hr).2.2.1 n]
    exact hg n hkn
  | setClock this nodes =>
    simp only [Op.run, Node.setClock] at hr
    split at hr
    · unfold Node.setClockImpl at hr
      dsimp only at hr
      split at hr
      · cases hr
      · rename_i g2 hadd
        split at hr
        · cases hr
        · rename_i hassert
          split at hr
          · cases hr
          · rename_i g3 hloop
            have hP := foldlM_ok_inv
              (fun st => ∀ m, (st.node m).clocks_ = (g2.node m).clocks_) _ _ g2 g3
              (by
                intro node _ st st1 hs hf m
                split at hf
                · rw [(setParent_lists hf).2.2.1 m]; exact hs m
                · cases hf; exact hs m)
              (fun _ => rfl) hloop
            rw [((nodeTreeUpdated_sameEdges env _ _ _ _ hr).2 n).2.1, hP n]
            by_cases hnt : n = this
            · subst hnt
              simp only [hd, Bool.true_and, decide_eq_true_eq, ne_eq, not_not] at hassert
              rw [hassert]
            · rw [(addClockEdge_lists hadd).2.2.2.1 n hnt]
              exact hg n hkn
    · rename_i hthis
      unfold ClockNode.setClockImpl at hr
      split at hr
      · cases hr
      · rename_i g3 hloop
        have hnt : n ≠ this := by
          intro e
          subst e
          exact hthis hkn
        have hP := foldlM_ok_inv
          (fun st => (st.node n).clocks_ = (g.node n).clocks_) _ _ g g3
          (by
            intro node _ st st1 hs hf
            rw [(clockSetClock_step hf).2.2.2.1 n hnt]
            exact hs)
          rfl hloop
        rw [((nodeTreeUpdated_sameEdges env _ _ _ _ hr).2 n).2.1, hP]
        exact hg n hkn

theorem runOps_valueClocks {env : Env} {fuel : Nat} {g g1 : Graph} {ops : List Op}
    (hd : env.debug = true) (hg : g.ValueClocks) (hr : runOps env fuel g ops = Except.ok g1) :
    g1.ValueClocks :=
  foldlM_ok_inv Graph.ValueClocks _ ops g g1 (fun _ _ _ _ hs hf => opRun_valueClocks hd hs hf)
    hg hr

/-- A node of a current firing order has a clock. -/
theorem freshOrder_has_clock {g : Graph} (hsym : EdgeSymmetry g) {S n : NodePtr}
    (hf : FreshOrder g S) (hn : n ∈ (g.node S).computeOrder_) :
    ∃ u, u ∈ (g.node n).clocks_ := by
  obtain ⟨hreach, hne⟩ := (hf.2 n).1 hn
  rcases Relation.ReflTransGen.cases_tail hreach with h | ⟨u, _, hu⟩
  · exact absurd h hne
  · exact ⟨u, (hsym.2.1 n u).2 hu⟩

/-- C37: in a graph built by `setParent` and `setClock` in a build that checks the
assertions, in which no source is a callback of a node, every value node of a firing
order has exactly one clock, which `getClock()` returns, and no firing order holds a
source. So every sequence of `fire()` calls on sources returns, for all compute bodies
(which do not throw in the model): no `getClock()` throws, and `SourceNode::compute`,
which throws, is not called. -/
theorem round_does_not_fail (env : Env) (fuel : Nat) (nodes : List NodePtr)
    (kind : NodePtr → NodeKind) (ops : List Op) (g : Graph)
    (hd : env.debug = true)
    (hg : runOps env fuel (Graph.init nodes kind) ops = Except.ok g)
    (hcb : ∀ u S, (g.node S).kind = NodeKind.SourceNode → S ∉ (g.node u).callbacks_) :
    (∀ S n, (g.node S).kind = NodeKind.SourceNode → n ∈ (g.node S).computeOrder_ →
      (g.node n).kind ≠ NodeKind.SourceNode ∧
      ((g.node n).kind = NodeKind.ValueNode →
        ∃ c, (g.node n).clocks_ = [c] ∧ Node.getClock g n = Except.ok c)) ∧
    (∀ (env2 : Env) (fuel2 : Nat) (sources : List NodePtr),
      (∀ S ∈ sources, (g.node S).kind = NodeKind.SourceNode) →
      ∃ g1, fireAll env2 (fuel2 + 2) g sources = Except.ok g1) := by
  have hno : (Graph.init nodes kind).NoEdges := fun _ => ⟨rfl, rfl, rfl, rfl⟩
  obtain ⟨hsym, hinv⟩ := orderInv_runOps (edgeSymmetry_of_noEdges hno)
    (orderInv_of_noEdges hno (fun _ => rfl)) hg
  have hcl : g.SourcesClockless := by
    intro S hS
    cases hc : (g.node S).clocks_ with
    | nil => rfl
    | cons u rest =>
      have : u ∈ (g.node S).clocks_ := by rw [hc]; exact List.mem_cons_self _ _
      exact absurd ((hsym.2.1 S u).1 this) (hcb u S hS)
  have hvc : g.ValueClocks :=
    runOps_valueClocks hd (fun _ _ => Nat.zero_le _) hg
  have hfresh : ∀ S, (g.node S).kind = NodeKind.SourceNode → FreshOrder g S := by
    intro S hS
    rcases hinv hcl S hS with hf | ⟨_, ht, _⟩
    · exact hf
    · cases ht
  have part1 : ∀ S n, (g.node S).kind = NodeKind.SourceNode →
      n ∈ (g.node S).computeOrder_ →
      (g.node n).kind ≠ NodeKind.SourceNode ∧
      ((g.node n).kind = NodeKind.ValueNode →
        ∃ c, (g.node n).clocks_ = [c] ∧ Node.getClock g n = Except.ok c) := by
    intro S n hS hn
    refine ⟨freshOrder_no_source hsym hcl (hfresh S hS) n hn, fun hv => ?_⟩
    obtain ⟨u, hu⟩ := freshOrder_has_clock hsym (hfresh S hS) hn
    have hlen := hvc n hv
    cases hc : (g.node n).clocks_ with
    | nil => rw [hc] at hu; cases hu
    | cons c rest =>
      rw [hc] at hlen
      cases rest with
      | nil => exact ⟨c, rfl, by simp [Node.getClock, hv, hc]⟩
      | cons d rest =>
        simp only [List.length_cons] at hlen
        omega
  refine ⟨part1, fun env2 fuel2 sources hsrc => ?_⟩
  exact fireAll_total env2 fuel2 g sources g (fun _ => rfl)
    (fun S hS => ⟨hsrc S hS, fun n hn =>
      ⟨(part1 S n (hsrc S hS) hn).1, fun hv =>
        (fun ⟨c, hc, _⟩ => ⟨c, hc⟩) ((part1 S n (hsrc S hS) hn).2 hv)⟩⟩)

/-- The graph of the test `compute_pruning`, built in a debug build: the value nodes of
the firing order have the source as their one clock, and three rounds return. -/
theorem round_does_not_fail_witness :
    envOK.debug = true ∧
    ∃ g, runOps envOK 10 (Graph.init [0, 1, 2, 3, 4] kindSrc0) pruningOps = Except.ok g ∧
      (g.node 0).computeOrder_ = [4, 1, 2, 3] ∧ Node.getClock g 3 = Except.ok 0 ∧
      (∃ g1, fireAll envPrune 2 g [0, 0, 0] = Except.ok g1 ∧
        g1.computeCalls = [4, 1, 4, 1, 4, 1]) ∧
      ∀ (env2 : Env) (fuel2 : Nat) (sources : List NodePtr),
        (∀ S ∈ sources, (g.node S).kind = NodeKind.SourceNode) →
        ∃ g1, fireAll env2 (fuel2 + 2) g sources = Except.ok g1 :=
  ⟨rfl, _, rfl, rfl, rfl, ⟨_, rfl, rfl⟩,
    (round_does_not_fail envOK 10 [0, 1, 2, 3, 4] kindSrc0 pruningOps _ rfl rfl
      (fun u S hS hin => by
        rw [@runOps_kind envOK 10 (Graph.init [0, 1, 2, 3, 4] kindSrc0) _ pruningOps rfl S] at hS
        rw [kindSrc0_source S hS] at hin
        exact absurd (pruningGraph_edge_lt _ rfl u 0 (Or.inl hin)) (Nat.not_lt_zero u))).2⟩

/-- Without the assertions (a release build) a value node can be given a second clock;
the debug build stops at the assertion, and in the release build the next round of the
source throws in `getClock()`. -/
theorem two_clocks_without_assertions :
    runOps envOK 10 (Graph.init [0, 1, 2] kindSrc01) [Op.setClock 2 [0], Op.setClock 2 [1]] =
      Except.error Err.assertion ∧
    ∃ g, runOps envOK.narrow 10 (Graph.init [0, 1, 2] kindSrc01)
        [Op.setClock 2 [0], Op.setClock 2 [1]] = Except.ok g ∧
      (g.node 2).clocks_ = [0, 1] ∧ (g.node 0).computeOrder_ = [2] ∧
      Node.fire envOK.narrow 5 g 0 =
        Except.error (Err.logic_error "::getClock : ValueNodes should only have one clock.") :=
  ⟨rfl, _, rfl, rfl, rfl, rfl⟩

/-! ## The validity gate and the schedule -/

theorem child_le_edge {g : Graph} {u v : NodePtr} (h : g.Child u v) : g.Edge u v :=
  Or.inr h

/-- C33, as the code has it: on a graph built by `setParent` and `setClock` in which no
source has a clock, `Graph::valid` returns true exactly when the dependency edges have no
cycle. When the trigger and dependency edges together have no cycle, it returns true and
every firing order puts a parent or clock of a node before the node. -/
theorem valid_gate_schedule (env : Env) (fuel fuel2 : Nat) (nodes : List NodePtr)
    (kind : NodePtr → NodeKind) (ops : List Op) (g : Graph)
    (hg : runOps env fuel (Graph.init nodes kind) ops = Except.ok g)
    (hcl : g.SourcesClockless)
    (hclosed : ∀ n ∈ g.nodes, ∀ c ∈ (g.node n).children_, c ∈ g.nodes)
    (hfuel : g.nodes.length < fuel2) :
    (g.valid fuel2 = Except.ok true ↔ ¬ ∃ n ∈ g.nodes, Relation.TransGen g.Child n n) ∧
    (g.Acyclic → g.valid fuel2 = Except.ok true ∧
      ∀ S, (g.node S).kind = NodeKind.SourceNode →
        ∀ u v, u ∈ (g.node S).computeOrder_ → v ∈ (g.node S).computeOrder_ →
          (u ∈ (g.node v).parents_ ∨ u ∈ (g.node v).clocks_) →
          Before (g.node S).computeOrder_ u v) := by
  have hno : (Graph.init nodes kind).NoEdges := fun _ => ⟨rfl, rfl, rfl, rfl⟩
  obtain ⟨hsym, hinv⟩ := sortInv_runOps (edgeSymmetry_of_noEdges hno)
    (sortInv_of_noEdges hno (fun _ => rfl)) hg
  obtain ⟨_, v2⟩ := valid_of_symmetric g fuel2 hclosed hfuel hsym
  refine ⟨v2, fun hacyc => ⟨v2.2 ?_, fun S hS u v hu hv huv => ?_⟩⟩
  · rintro ⟨n, _, hn⟩
    exact hacyc n (Relation.TransGen.mono (fun _ _ h => child_le_edge h) hn)
  · rcases hinv hcl hacyc S hS with h1 | ⟨t, h1, _⟩
    · refine h1.2 u v hu hv ?_
      rcases huv with huv | huv
      · exact Or.inr ((hsym.1 v u).1 huv)
      · exact Or.inl ((hsym.2.1 v u).1 huv)
    · cases h1

/-- The graph of the test `compute_pruning`: the edges have no cycle, `valid` returns
true and the firing order is sound. -/
theorem valid_gate_schedule_witness :
    ∃ g, runOps envOK 10 (Graph.init [0, 1, 2, 3, 4] kindSrc0) pruningOps = Except.ok g ∧
      g.Acyclic ∧ (g.node 0).computeOrder_ = [4, 1, 2, 3] ∧
      (g.valid 6 = Except.ok true ∧
        ∀ S, (g.node S).kind = NodeKind.SourceNode →
          ∀ u v, u ∈ (g.node S).computeOrder_ → v ∈ (g.node S).computeOrder_ →
            (u ∈ (g.node v).parents_ ∨ u ∈ (g.node v).clocks_) →
            Before (g.node S).computeOrder_ u v) :=
  ⟨_, rfl, acyclic_of_rank id (pruningGraph_edge_lt _ rfl), rfl,
    (valid_gate_schedule envOK 10 6 [0, 1, 2, 3, 4] kindSrc0 pruningOps _ rfl
      (fun S hS => by
        rw [@runOps_kind envOK 10 (Graph.init [0, 1, 2, 3, 4] kindSrc0) _ pruningOps rfl S] at hS
        rw [kindSrc0_source S hS]
        rfl)
      (by decide) (by decide)).2 (acyclic_of_rank id (pruningGraph_edge_lt _ rfl))⟩

/-- A value node 2 clocked on the clock node 1 that has node 2 as parent: `valid` returns
true, no source has a clock, both nodes are in the firing order of the source 0, and the
parent 2 of node 1 is fired after node 1. -/
theorem valid_gate_counterexample :
    ∃ g, runOps envOK 10 (Graph.init [0, 1, 2]
        (kindChain NodeKind.ClockNode NodeKind.ValueNode NodeKind.ValueNode)) mixedLoopOps =
          Except.ok g ∧
      g.valid 10 = Except.ok true ∧ (g.node 0).clocks_ = [] ∧
      (g.node 0).computeOrder_ = [1, 2] ∧ (g.node 1).parents_ = [2] ∧
      (g.node 2).clocks_ = [1] ∧ ¬ Before (g.node 0).computeOrder_ 2 1 := by
  refine ⟨_, rfl, rfl, rfl, rfl, rfl, rfl, ?_⟩
  rintro ⟨l1, l2, l3, h⟩
  change [1, 2] = l1 ++ 2 :: l2 ++ 1 :: l3 at h
  have hlen := congrArg List.length h
  simp only [List.length_cons, List.length_nil, List.length_append] at hlen
  have h1 : l1 = [] := by
    cases l1 with
    | nil => rfl
    | cons a l1 => simp only [List.length_cons] at hlen; omega
  subst h1
  simp at h

/-! ## Validity and the parents -/

theorem foldlM_ok_congr {α β : Type} (f f1 : β → α → Except Err β) :
    ∀ (l : List α) (b r : β),
      (∀ a ∈ l, ∀ s s1, f s a = Except.ok s1 → f1 s a = Except.ok s1) →
      l.foldlM f b = Except.ok r → l.foldlM f1 b = Except.ok r := by
  intro l
  induction l with
  | nil => intro b r _ h; exact h
  | cons a l ih =>
    intro b r hstep h
    simp only [List.foldlM_cons] at h ⊢
    cases hf : f b a with
    | error e => rw [hf] at h; cases h
    | ok s1 =>
      rw [hf] at h
      rw [hstep a (List.mem_cons_self _ _) b s1 hf]
      exact ih s1 r (fun x hx => hstep x (List.mem_cons_of_mem _ hx)) h

/-- A traversal that returns with a budget returns the same with a larger budget. -/
theorem applyDepthFirstImpl_mono {σ : Type} (g : Graph) (all : Bool)
    (func : NodePtr → σ → σ) :
    ∀ (fuel : Nat) (node : NodePtr) (s r : List NodePtr × σ),
      applyDepthFirstImpl g all func fuel node s = Except.ok r →
      applyDepthFirstImpl g all func (fuel + 1) node s = Except.ok r := by
  intro fuel
  induction fuel with
  | zero => intro node s r h; cases h
  | succ fuel ih =>
    intro node s r h
    obtain ⟨visited, args⟩ := s
    rw [applyDepthFirstImpl_succ] at h ⊢
    split
    · rename_i hv
      rw [if_pos hv] at h
      exact h
    · rename_i hv
      rw [if_neg hv] at h
      split at h
      · cases h
      · rename_i visited1 args1 hfold
        rw [foldlM_ok_congr _ _ _ _ _ (fun a _ s s1 hf => ih a s s1 hf) hfold]
        exact h

theorem applyDepthFirstImpl_mono_le {σ : Type} (g : Graph) (all : Bool)
    (func : NodePtr → σ → σ) (fuel fuel1 : Nat) (hle : fuel ≤ fuel1) (node : NodePtr)
    (s r : List NodePtr × σ)
    (h : applyDepthFirstImpl g all func fuel node s = Except.ok r) :
    applyDepthFirstImpl g all func fuel1 node s = Except.ok r := by
  induction hle with
  | refl => exact h
  | step _ ih => exact applyDepthFirstImpl_mono g all func _ node s r ih

theorem fullSort_mono_le (g : Graph) (fuel fuel1 : Nat) (hle : fuel ≤ fuel1) (S : NodePtr)
    (fs : List NodePtr) (h : SourceNode.fullSort g fuel S = Except.ok fs) :
    SourceNode.fullSort g fuel1 S = Except.ok fs := by
  unfold SourceNode.fullSort at h ⊢
  split at h
  · cases h
  · rename_i callbacks hcb
    have hcb1 : addAllCallbacks g fuel1 [] S = Except.ok callbacks := by
      unfold addAllCallbacks traverseCallbacks at hcb ⊢
      split at hcb
      · cases hcb
      · rename_i v a hd
        cases hcb
        rw [applyDepthFirstImpl_mono_le g false insertSet fuel fuel1 hle S _ _ hd]
    rw [hcb1]
    simp only
    unfold topological_sort traverseChildren at h ⊢
    split at h
    · cases h
    · rename_i order hord
      cases h
      split at hord
      · cases hord
      · rename_i v a hd
        cases hord
        rw [applyDepthFirstImpl_mono_le g true _ fuel fuel1 hle S _ _ hd]

/-- The vector `fullSort` does not depend on the budget. -/
theorem fullSort_unique {g : Graph} {fuel fuel1 : Nat} {S : NodePtr} {fs fs1 : List NodePtr}
    (h : SourceNode.fullSort g fuel S = Except.ok fs)
    (h1 : SourceNode.fullSort g fuel1 S = Except.ok fs1) : fs = fs1 := by
  have a := fullSort_mono_le g fuel (max fuel fuel1) (le_max_left _ _) S fs h
  have b := fullSort_mono_le g fuel1 (max fuel fuel1) (le_max_right _ _) S fs1 h1
  rw [a] at b
  exact Except.ok.inj b

theorem fullSort_congr {g g1 : Graph} (h : SameEdges g g1) (fuel : Nat) (S : NodePtr) :
    SourceNode.fullSort g1 fuel S = SourceNode.fullSort g fuel S := by
  have e1 : addAllCallbacks g1 fuel [] S = addAllCallbacks g fuel [] S := by
    unfold addAllCallbacks traverseCallbacks
    rw [applyDepthFirstImpl_congr h]
  have e2 : ∀ s, topological_sort g1 fuel S s = topological_sort g fuel S s := by
    intro s
    unfold topological_sort traverseChildren
    rw [applyDepthFirstImpl_congr h]
  unfold SourceNode.fullSort
  rw [e1]
  simp only [e2]

/-- `SourceNode::treeUpdated` stores `fullSort` without its head; its assertion holds. -/
theorem sourceTreeUpdated_eq (env : Env) (fuel : Nat) (g : Graph) (this : NodePtr) :
    SourceNode.treeUpdated env fuel g this =
      Except.map (fun fullSort => g.modify this (fun x =>
        { x with computeOrder_ := fullSort.filter (fun node => decide (node ≠ this)) }))
        (SourceNode.fullSort g fuel this) := by
  unfold SourceNode.treeUpdated SourceNode.fullSort
  cases hcb : addAllCallbacks g fuel [] this with
  | error e => rfl
  | ok callbacks =>
    simp only
    cases hsort : topological_sort g fuel this (some callbacks) with
    | error e => rfl
    | ok fullSort =>
      obtain ⟨rest, hfs, _⟩ := fullSort_head hcb hsort
      simp only [Except.map]
      rw [if_neg]
      simp [hfs]

theorem orderCurrent_of_treeUpdated {env : Env} {fuel : Nat} {g g1 : Graph} {n : NodePtr}
    (h : SourceNode.treeUpdated env fuel g n = Except.ok g1) : OrderCurrent g1 n := by
  rw [sourceTreeUpdated_eq] at h
  cases hfs : SourceNode.fullSort g fuel n with
  | error e => rw [hfs] at h; cases h
  | ok fs =>
    rw [hfs] at h
    simp only [Except.map] at h
    cases h
    refine ⟨fuel, fs, ?_, by simp⟩
    rw [fullSort_congr (sameEdges_modify_computeOrder g n _)]
    exact hfs

theorem orderCurrent_of_sameEdges {g g1 : Graph} {S : NodePtr} (h : SameEdges g g1)
    (ho : (g1.node S).computeOrder_ = (g.node S).computeOrder_) (hc : OrderCurrent g S) :
    OrderCurrent g1 S := by
  obtain ⟨fuel, fs, hfs, hord⟩ := hc
  exact ⟨fuel, fs, by rw [fullSort_congr h]; exact hfs, by rw [ho]; exact hord⟩

/-- The notification of `Node::treeUpdated`, when it returns, leaves the firing order of
every source it travels to equal to what `SourceNode::treeUpdated` computes on the graph,
and every other firing order such or untouched. -/
theorem treeUpdated_current (env : Env) :
    ∀ (fuel : Nat) (g g1 : Graph) (n : NodePtr),
      Node.treeUpdated env fuel g n = Except.ok g1 →
      (∀ S, OrderCurrent g1 S ∨ (g1.node S).computeOrder_ = (g.node S).computeOrder_) ∧
      (∀ S, (g.node S).kind = NodeKind.SourceNode → Upstream g n S → OrderCurrent g1 S) := by
  intro fuel
  induction fuel with
  | zero => intro g g1 n h; simp [Node.treeUpdated] at h
  | succ fuel ih =>
    intro g g1 n h
    have hsame := nodeTreeUpdated_sameEdges env _ _ _ _ h
    rw [Node.treeUpdated] at h
    split at h
    · rename_i hk
      have hfn : OrderCurrent g1 n := orderCurrent_of_treeUpdated h
      obtain ⟨l, hg1, _, _⟩ := sourceTreeUpdated_fresh h
      refine ⟨fun S => ?_, fun S _ hup => ?_⟩
      · by_cases hS : S = n
        · subst hS; exact Or.inl hfn
        · right; rw [hg1, modify_node_ne _ _ hS]
      · rcases Relation.ReflTransGen.cases_head hup with h1 | ⟨c, hc, _⟩
        · subst h1; exact hfn
        · exact absurd hk hc.1
    · rename_i hk
      have hP := foldlM_ok_prefix
        (fun d st => SameEdges g st ∧
          (∀ S, OrderCurrent st S ∨ (st.node S).computeOrder_ = (g.node S).computeOrder_) ∧
          (∀ c ∈ d, ∀ S, (g.node S).kind = NodeKind.SourceNode → Upstream g c S →
            OrderCurrent st S))
        _ (g.node n).clocks_ [] g g1
        (by
          intro c _ d st st1 hd hf
          obtain ⟨hs, hall, hup⟩ := hd
          have hs1 := nodeTreeUpdated_sameEdges env _ _ _ _ hf
          obtain ⟨i1, i2⟩ := ih st st1 c hf
          refine ⟨sameEdges_trans hs hs1, fun S => ?_, fun c1 hc1 S hS hu => ?_⟩
          · rcases i1 S with h1 | h1
            · exact Or.inl h1
            · rcases hall S with h2 | h2
              · exact Or.inl (orderCurrent_of_sameEdges hs1 h1 h2)
              · exact Or.inr (h1.trans h2)
          · rcases List.mem_append.1 hc1 with hc1 | hc1
            · rcases i1 S with h1 | h1
              · exact h1
              · exact orderCurrent_of_sameEdges hs1 h1 (hup c1 hc1 S hS hu)
            · rw [List.mem_singleton] at hc1
              subst hc1
              exact i2 S (by rw [(hs.2 S).1]; exact hS) (upstream_of_sameEdges hs hu))
        ⟨sameEdges_refl g, fun S => Or.inr rfl, fun c hc => (by simp at hc)⟩ h
      rw [List.nil_append] at hP
      obtain ⟨_, hall, hup⟩ := hP
      refine ⟨hall, fun S hS hu => ?_⟩
      rcases Relation.ReflTransGen.cases_head hu with h1 | ⟨c, hc, hrest⟩
      · exact absurd (by rw [h1]; exact hS) hk
      · exact hup c hc.2 S hS hrest

/-- The sources that the last notification of a construction call reaches. -/
theorem treeUpdated_last {env : Env} {fuel : Nat} {g3 g1 : Graph} {this : NodePtr}
    (h : Node.treeUpdated env fuel g3 this = Except.ok g1) :
    ∀ S, (g1.node S).kind = NodeKind.SourceNode → Upstream g1 this S → OrderCurrent g1 S := by
  intro S hS hu
  have hs := nodeTreeUpdated_sameEdges env _ _ _ _ h
  exact (treeUpdated_current env fuel g3 g1 this h).2 S (by rw [← (hs.2 S).1]; exact hS)
    (upstream_of_sameEdges (sameEdges_symm hs) hu)

theorem opRun_current {env : Env} {fuel : Nat} {g g1 : Graph} {op : Op}
    (h : Op.run env fuel g op = Except.ok g1)
    (hnew : ∀ this parent, op = Op.setParent this parent → parent ∉ (g.node this).parents_) :
    ∀ S, (g1.node S).kind = NodeKind.SourceNode → Upstream g1 op.node S →
      OrderCurrent g1 S := by
  cases op with
  | setParent this parent =>
    simp only [Op.run, Node.setParent] at h
    split at h
    · split at h
      · cases h
      · exact treeUpdated_last h
    · rename_i hp
      exact absurd (by simpa [Node.hasParent] using hp) (hnew this parent rfl)
  | setClock this nodes =>
    simp only [Op.run, Node.setClock] at h
    split at h
    · unfold Node.setClockImpl at h
      dsimp only at h
      split at h
      · cases h
      · split at h
        · cases h
        · split at h
          · cases h
          · exact treeUpdated_last h
    · unfold ClockNode.setClockImpl at h
      split at h
      · cases h
      · exact treeUpdated_last h

/-- The sources that the notification reaches: after a `setClock` call, or a `setParent`
call that adds its edge, on a node `n`, for every source `S` with a chain of clocks from
`n` to `S` on which no node before `S` is a source, the stored firing order is the one a
fresh `S.treeUpdated()` computes on the graph: such a call returns with some budget, in
both builds, and every such call that returns stores the order that is stored already. -/
theorem order_kept_current (env : Env) (fuel : Nat) (g g1 : Graph) (op : Op)
    (h : Op.run env fuel g op = Except.ok g1)
    (hnew : ∀ this parent, op = Op.setParent this parent → parent ∉ (g.node this).parents_)
    (S : NodePtr) (hS : (g1.node S).kind = NodeKind.SourceNode)
    (hup : Upstream g1 op.node S) :
    (∃ fuel1, ∀ env1 : Env, ∃ g2, SourceNode.treeUpdated env1 fuel1 g1 S = Except.ok g2 ∧
      (g2.node S).computeOrder_ = (g1.node S).computeOrder_) ∧
    (∀ (env1 : Env) (fuel1 : Nat) (g2 : Graph),
      SourceNode.treeUpdated env1 fuel1 g1 S = Except.ok g2 →
      (g2.node S).computeOrder_ = (g1.node S).computeOrder_) := by
  obtain ⟨fuel0, fs, hfs, hord⟩ := opRun_current h hnew S hS hup
  refine ⟨⟨fuel0, fun env1 => ?_⟩, fun env1 fuel1 g2 h2 => ?_⟩
  · rw [sourceTreeUpdated_eq, hfs]
    exact ⟨_, rfl, by simp [hord]⟩
  · rw [sourceTreeUpdated_eq] at h2
    cases hfs1 : SourceNode.fullSort g1 fuel1 S with
    | error e => rw [hfs1] at h2; cases h2
    | ok fs1 =>
      rw [hfs1] at h2
      simp only [Except.map] at h2
      cases h2
      rw [fullSort_unique hfs1 hfs, hord]
      simp

/-- The calls of the test `tree_updated`: the order of the source grows to 1, 2 and 3
entries; and after the first call a fresh `treeUpdated()` of the source recomputes the
stored order. -/
theorem order_kept_current_witness :
    (∃ g, runOps envOK 10 (Graph.init [0, 1, 2, 3] kindSrc0)
        [Op.setClock 1 [0], Op.setClock 2 [1], Op.setClock 3 [1]] = Except.ok g ∧
      (g.node 0).computeOrder_ = [1, 3, 2]) ∧
    ∃ g1, Op.run envOK 10 (Graph.init [0, 1, 2, 3] kindSrc0) (Op.setClock 1 [0]) =
        Except.ok g1 ∧
      (g1.node 0).computeOrder_ = [1] ∧
      ∃ fuel1, ∀ env1 : Env, ∃ g2, SourceNode.treeUpdated env1 fuel1 g1 0 = Except.ok g2 ∧
        (g2.node 0).computeOrder_ = (g1.node 0).computeOrder_ :=
  ⟨⟨_, rfl, rfl⟩, _, rfl, rfl,
    (order_kept_current envOK 10 (Graph.init [0, 1, 2, 3] kindSrc0) _ (Op.setClock 1 [0]) rfl
      (fun _ _ e => by cases e) 0 rfl
      (Relation.ReflTransGen.single ⟨by decide, by decide⟩)).1⟩

/-- C31: `SourceNode::treeUpdated` carries the comment that it must be called whenever a
node changes its `children_` or `callbacks_`. Two value nodes 1 and 2 are clocked on the
source 0, and a value node 3 without a clock is a parent of node 2. The call
`3.setParent(1)` puts node 3 into the `children_` of node 1, and its notification
reaches no source: the stored order of the source stays `[2, 1]`, while a fresh
`treeUpdated()` computes `[1, 2]`, node 1 now being upstream of node 2 through node 3. -/
theorem order_kept_current_counterexample :
    ∃ g0 g g2, runOps envOK 10 (Graph.init [0, 1, 2, 3] kindSrc0) (bridgeOps.take 3) =
        Except.ok g0 ∧
      (g0.node 1).children_ = [] ∧ (g0.node 0).computeOrder_ = [2, 1] ∧
      Op.run envOK 10 g0 (Op.setParent 3 1) = Except.ok g ∧
      runOps envOK 10 (Graph.init [0, 1, 2, 3] kindSrc0) bridgeOps = Except.ok g ∧
      (g.node 1).children_ = [3] ∧
      (g.node 3).clocks_ = [] ∧ (g.node 3).parents_ = [1] ∧ (g.node 2).parents_ = [3] ∧
      (g.node 0).computeOrder_ = [2, 1] ∧
      SourceNode.treeUpdated envOK 10 g 0 = Except.ok g2 ∧
      (g2.node 0).computeOrder_ = [1, 2] :=
  ⟨_, _, _, rfl, rfl, rfl, rfl, rfl, rfl, rfl, rfl, rfl, rfl, rfl, rfl⟩

/-! ## `getSourceClockSet` -/

theorem getSourceClockSet_source {g : Graph} {S : NodePtr} (fuel : Nat)
    (hS : (g.node S).kind = NodeKind.SourceNode) :
    Node.getSourceClockSet (fuel + 1) g S = Except.ok [S] := by
  rw [Node.getSourceClockSet]
  simp only [hS]
  rfl

theorem getSourceClockSet_node {g : Graph} {n : NodePtr} (fuel : Nat)
    (hn : (g.node n).kind ≠ NodeKind.SourceNode) :
    Node.getSourceClockSet (fuel + 1) g n =
      if (g.node n).clocks_.length = 0 then
        Except.error (Err.logic_error "::getSourceClockSet : no clocks found\n")
      else
        (g.node n).clocks_.foldlM (fun sourceClock clock =>
          match Node.getSourceClockSet fuel g clock with
          | Except.error e => Except.error e
          | Except.ok source => Except.ok (insertRange sourceClock source)) [] := by
  rw [Node.getSourceClockSet]
  cases hk : (g.node n).kind with
  | SourceNode => exact absurd hk hn
  | ValueNode => rfl
  | ClockNode => rfl

theorem upstream_source {g : Graph} {S x : NodePtr}
    (hS : (g.node S).kind = NodeKind.SourceNode) (h : Upstream g S x) : x = S := by
  rcases Relation.ReflTransGen.cases_head h with h1 | ⟨c, hc, _⟩
  · exact h1.symm
  · exact absurd hS hc.1

/-- What `getSourceClockSet` returns: the sources at the end of the chains of clocks from
the node; and no chain from the node ends in a node without clocks that is no source. -/
theorem getSourceClockSet_ok (g : Graph) :
    ∀ (fuel : Nat) (n : NodePtr) (s : List NodePtr),
      Node.getSourceClockSet fuel g n = Except.ok s →
      (∀ S, S ∈ s ↔ ((g.node S).kind = NodeKind.SourceNode ∧ Upstream g n S)) ∧
      ¬ g.DeadEnd n := by
  intro fuel
  induction fuel with
  | zero => intro n s h; cases h
  | succ fuel ih =>
    intro n s h
    by_cases hn : (g.node n).kind = NodeKind.SourceNode
    · rw [getSourceClockSet_source fuel hn] at h
      cases h
      refine ⟨fun S => ?_, ?_⟩
      · rw [List.mem_singleton]
        constructor
        · intro e; subst e; exact ⟨hn, Relation.ReflTransGen.refl⟩
        · intro ⟨_, hu⟩; exact upstream_source hn hu
      · rintro ⟨x, hu, hx, _⟩
        rw [upstream_source hn hu] at hx
        exact hx hn
    · rw [getSourceClockSet_node fuel hn] at h
      split at h
      · cases h
      · rename_i hlen
        have hP := foldlM_ok_prefix
          (fun d acc => ∀ S, S ∈ acc ↔
            ∃ c ∈ d, (g.node S).kind = NodeKind.SourceNode ∧ Upstream g c S)
          _ (g.node n).clocks_ [] [] s
          (by
            intro c _ d acc acc1 hd hf
            split at hf
            · cases hf
            · rename_i source hsrc
              cases hf
              intro S
              rw [mem_insertRange, hd S, (ih c source hsrc).1 S]
              constructor
              · rintro (⟨c1, hc1, h1⟩ | h1)
                · exact ⟨c1, List.mem_append_left _ hc1, h1⟩
                · exact ⟨c, by simp, h1⟩
              · rintro ⟨c1, hc1, h1⟩
                rcases List.mem_append.1 hc1 with hc1 | hc1
                · exact Or.inl ⟨c1, hc1, h1⟩
                · rw [List.mem_singleton] at hc1
                  subst hc1
                  exact Or.inr h1)
          (fun S => by simp) h
        rw [List.nil_append] at hP
        have hall : ∀ c ∈ (g.node n).clocks_, ¬ g.DeadEnd c := by
          have hQ := foldlM_ok_prefix
            (fun d (_ : List NodePtr) => ∀ c ∈ d, ¬ g.DeadEnd c)
            _ (g.node n).clocks_ [] [] s
            (by
              intro c _ d acc acc1 hd hf
              split at hf
              · cases hf
              · rename_i source hsrc
                intro c1 hc1
                rcases List.mem_append.1 hc1 with hc1 | hc1
                · exact hd c1 hc1
                · rw [List.mem_singleton] at hc1
                  subst hc1
                  exact (ih c1 source hsrc).2)
            (fun c hc => by cases hc) h
          rw [List.nil_append] at hQ
          exact hQ
        refine ⟨fun S => ?_, ?_⟩
        · rw [hP S]
          constructor
          · rintro ⟨c, hc, hS, hu⟩
            exact ⟨hS, Relation.ReflTransGen.head ⟨hn, hc⟩ hu⟩
          · rintro ⟨hS, hu⟩
            rcases Relation.ReflTransGen.cases_head hu with h1 | ⟨c, hc, hrest⟩
            · exact absurd (h1 ▸ hS) hn
            · exact ⟨c, hc.2, hS, hrest⟩
        · rintro ⟨x, hu, hx, hxc⟩
          rcases Relation.ReflTransGen.cases_head hu with h1 | ⟨c, hc, hrest⟩
          · subst h1
            rw [hxc] at hlen
            exact hlen rfl
          · exact hall c hc.2 ⟨x, hrest, hx, hxc⟩

/-- How `getSourceClockSet` fails: the budget of the model runs out, or a chain of clocks
ends in a node without clocks that is no source. -/
theorem getSourceClockSet_error (g : Graph) :
    ∀ (fuel : Nat) (n : NodePtr) (e : Err),
      Node.getSourceClockSet fuel g n = Except.error e →
      e = Err.fuel ∨
      (e = Err.logic_error "::getSourceClockSet : no clocks found\n" ∧ g.DeadEnd n) := by
  intro fuel
  induction fuel with
  | zero => intro n e h; cases h; exact Or.inl rfl
  | succ fuel ih =>
    intro n e h
    by_cases hn : (g.node n).kind = NodeKind.SourceNode
    · rw [getSourceClockSet_source fuel hn] at h
      cases h
    · rw [getSourceClockSet_node fuel hn] at h
      split at h
      · rename_i hlen
        cases h
        exact Or.inr ⟨rfl, n, Relation.ReflTransGen.refl, hn, List.length_eq_zero.1 hlen⟩
      · exact foldlM_error
          (fun e => e = Err.fuel ∨
            (e = Err.logic_error "::getSourceClockSet : no clocks found\n" ∧ g.DeadEnd n))
          _ (g.node n).clocks_ [] e
          (by
            intro c hc acc e1 hf
            split at hf
            · rename_i e2 he2
              cases hf
              rcases ih c e1 he2 with h1 | ⟨h1, x, hu, hx⟩
              · exact Or.inl h1
              · exact Or.inr ⟨h1, x, Relation.ReflTransGen.head ⟨hn, hc⟩ hu, hx⟩
            · cases hf)
          h

/-- On a finite graph whose clock relation has no cycle, `getSourceClockSet` does not
run out of budget: `path` holds the callers of the recursion. -/
theorem getSourceClockSet_budget (g : Graph)
    (hclosed : ∀ m ∈ g.nodes, ∀ c ∈ (g.node m).clocks_, c ∈ g.nodes)
    (hacyc : ∀ x, ¬ Relation.TransGen (fun m c => c ∈ (g.node m).clocks_) x x) :
    ∀ (fuel : Nat) (n : NodePtr) (path : List NodePtr), n ∈ g.nodes → path.Nodup →
      (∀ p ∈ path, p ∈ g.nodes) →
      (∀ p ∈ path, Relation.TransGen (fun m c => c ∈ (g.node m).clocks_) p n) →
      g.nodes.length ≤ fuel + path.length →
      ∀ e, Node.getSourceClockSet fuel g n = Except.error e → e ≠ Err.fuel := by
  intro fuel
  induction fuel with
  | zero =>
    intro n path hn hnd hsub hreach hlen e _
    have hnp : n ∉ path := fun hin => hacyc n (hreach n hin)
    have hnd1 : (n :: path).Nodup := List.nodup_cons.2 ⟨hnp, hnd⟩
    have hsub1 : n :: path ⊆ g.nodes := by
      intro x hx
      rcases List.mem_cons.1 hx with hx | hx
      · rw [hx]; exact hn
      · exact hsub x hx
    have := (List.Nodup.subperm hnd1 hsub1).length_le
    simp only [List.length_cons] at this
    omega
  | succ fuel ih =>
    intro n path hn hnd hsub hreach hlen e h
    by_cases hk : (g.node n).kind = NodeKind.SourceNode
    · rw [getSourceClockSet_source fuel hk] at h
      cases h
    · rw [getSourceClockSet_node fuel hk] at h
      split at h
      · cases h
        intro e; cases e
      · have hnp : n ∉ path := fun hin => hacyc n (hreach n hin)
        exact foldlM_error (fun e => e ≠ Err.fuel) _ (g.node n).clocks_ [] e
          (by
            intro c hc acc e1 hf
            split at hf
            · rename_i e2 he2
              cases hf
              exact ih c (n :: path) (hclosed n hn c hc) (List.nodup_cons.2 ⟨hnp, hnd⟩)
                (by
                  intro p hp
                  rcases List.mem_cons.1 hp with hp | hp
                  · rw [hp]; exact hn
                  · exact hsub p hp)
                (by
                  intro p hp
                  rcases List.mem_cons.1 hp with hp | hp
                  · rw [hp]; exact Relation.TransGen.single hc
                  · exact Relation.TransGen.tail (hreach p hp) hc)
                (by simp only [List.length_cons]; omega) e1 he2
            · cases hf)
          h

theorem trigger_of_upstream {g : Graph} (hsym : EdgeSymmetry g) {n S : NodePtr}
    (h : Upstream g n S) : n = S ∨ Relation.TransGen g.Trigger S n := by
  induction h using Relation.ReflTransGen.head_induction_on with
  | refl => exact Or.inl rfl
  | @head a c hstep _ ih =>
    have ht : g.Trigger c a := (hsym.2.1 a c).1 hstep.2
    rcases ih with h1 | h1
    · subst h1; exact Or.inr (Relation.TransGen.single ht)
    · exact Or.inr (Relation.TransGen.tail h1 ht)

/-- C34: on a graph built by `setClock` and `setParent` in which no source has a clock,
`getSourceClockSet` of a source returns the set of the source itself; when
`n.getSourceClockSet()` returns, a source `S` other than `n` is in the set exactly when
`n` is in the firing order of `S`; the call fails with "no clocks found" only when a
chain of clocks from `n` ends in a node without clocks that is no source, and then it
returns for no budget; on a finite graph whose trigger relation has no cycle it fails
with that error when there is such a chain and returns otherwise. -/
theorem sourceClockSet_agrees (env : Env) (fuel : Nat) (nodes : List NodePtr)
    (kind : NodePtr → NodeKind) (ops : List Op) (g : Graph)
    (hg : runOps env fuel (Graph.init nodes kind) ops = Except.ok g)
    (hcl : g.SourcesClockless) :
    (∀ fuel1 S, (g.node S).kind = NodeKind.SourceNode →
      Node.getSourceClockSet (fuel1 + 1) g S = Except.ok [S]) ∧
    (∀ fuel1 n s, Node.getSourceClockSet fuel1 g n = Except.ok s →
      ∀ S, (g.node S).kind = NodeKind.SourceNode → S ≠ n →
        (S ∈ s ↔ n ∈ (g.node S).computeOrder_)) ∧
    (∀ fuel1 n e, Node.getSourceClockSet fuel1 g n = Except.error e →
      e = Err.fuel ∨
      (e = Err.logic_error "::getSourceClockSet : no clocks found\n" ∧ g.DeadEnd n)) ∧
    (∀ n, g.DeadEnd n → ∀ fuel1 s, Node.getSourceClockSet fuel1 g n ≠ Except.ok s) ∧
    ((∀ x, ¬ Relation.TransGen g.Trigger x x) →
      (∀ m ∈ g.nodes, ∀ c ∈ (g.node m).clocks_, c ∈ g.nodes) →
      ∀ n ∈ g.nodes, ∀ fuel1, g.nodes.length ≤ fuel1 →
        (g.DeadEnd n → Node.getSourceClockSet fuel1 g n =
          Except.error (Err.logic_error "::getSourceClockSet : no clocks found\n")) ∧
        (¬ g.DeadEnd n → ∃ s, Node.getSourceClockSet fuel1 g n = Except.ok s)) := by
  have hno : (Graph.init nodes kind).NoEdges := fun _ => ⟨rfl, rfl, rfl, rfl⟩
  obtain ⟨hsym, hinv⟩ := orderInv_runOps (edgeSymmetry_of_noEdges hno)
    (orderInv_of_noEdges hno (fun _ => rfl)) hg
  have hfresh : ∀ S, (g.node S).kind = NodeKind.SourceNode → FreshOrder g S := by
    intro S hS
    rcases hinv hcl S hS with hf | ⟨_, ht, _⟩
    · exact hf
    · cases ht
  refine ⟨fun fuel1 S hS => getSourceClockSet_source fuel1 hS, ?_,
    getSourceClockSet_error g, fun n hd fuel1 s h => (getSourceClockSet_ok g fuel1 n s h).2 hd,
    ?_⟩
  · intro fuel1 n s h S hS hne
    rw [(getSourceClockSet_ok g fuel1 n s h).1 S, ((hfresh S hS).2 n)]
    constructor
    · rintro ⟨_, hu⟩
      rcases trigger_of_upstream hsym hu with h1 | h1
      · exact absurd h1.symm hne
      · exact ⟨h1.to_reflTransGen, Ne.symm hne⟩
    · rintro ⟨hr, _⟩
      rcases Relation.reflTransGen_iff_eq_or_transGen.1 hr with h1 | h1
      · exact absurd h1.symm hne
      · exact ⟨hS, upstream_of_transGen hsym hcl h1⟩
  · intro hacyc hclosed n hn fuel1 hlen
    have hacyc1 : ∀ x, ¬ Relation.TransGen (fun m c => c ∈ (g.node m).clocks_) x x := by
      intro x hx
      refine hacyc x (Relation.transGen_swap.1 (Relation.TransGen.mono (fun a b hab => ?_) hx))
      exact (hsym.2.1 a b).1 hab
    have hbud := getSourceClockSet_budget g hclosed hacyc1 fuel1 n [] hn List.nodup_nil
      (fun p hp => by cases hp) (fun p hp => by cases hp) (by simpa using hlen)
    cases hres : Node.getSourceClockSet fuel1 g n with
    | error e =>
      rcases getSourceClockSet_error g fuel1 n e hres with h1 | ⟨h1, hd⟩
      · exact absurd h1 (hbud e hres)
      · exact ⟨fun _ => by rw [h1], fun hnd => absurd hd hnd⟩
    | ok s =>
      exact ⟨fun hd => absurd hd (getSourceClockSet_ok g fuel1 n s hres).2, fun _ => ⟨s, rfl⟩⟩

/-- The graph of the test `compute_pruning`: the set of the source 0 is the source, the
set of node 3 is the source, node 3 is in the firing order of the source, and the call
on node 3 with a budget of five levels returns unless a chain of clocks ends without a
source. -/
theorem sourceClockSet_agrees_witness :
    ∃ g, runOps envOK 10 (Graph.init [0, 1, 2, 3, 4] kindSrc0) pruningOps = Except.ok g ∧
      g.SourcesClockless ∧
      Node.getSourceClockSet 6 g 0 = Except.ok [0] ∧
      Node.getSourceClockSet 6 g 3 = Except.ok [0] ∧
      (0 ∈ [0] ↔ 3 ∈ (g.node 0).computeOrder_) ∧
      (g.DeadEnd 3 → Node.getSourceClockSet 5 g 3 =
        Except.error (Err.logic_error "::getSourceClockSet : no clocks found\n")) ∧
      (¬ g.DeadEnd 3 → ∃ s, Node.getSourceClockSet 5 g 3 = Except.ok s) :=
  ⟨_, rfl,
    (fun S hS => by
      rw [@runOps_kind envOK 10 (Graph.init [0, 1, 2, 3, 4] kindSrc0) _ pruningOps rfl S] at hS
      rw [kindSrc0_source S hS]
      rfl),
    (sourceClockSet_agrees envOK 10 [0, 1, 2, 3, 4] kindSrc0 pruningOps _ rfl
      (fun S hS => by
        rw [@runOps_kind envOK 10 (Graph.init [0, 1, 2, 3, 4] kindSrc0) _ pruningOps rfl S] at hS
        rw [kindSrc0_source S hS]
        rfl)).1 5 0 rfl,
    rfl,
    (sourceClockSet_agrees envOK 10 [0, 1, 2, 3, 4] kindSrc0 pruningOps _ rfl
      (fun S hS => by
        rw [@runOps_kind envOK 10 (Graph.init [0, 1, 2, 3, 4] kindSrc0) _ pruningOps rfl S] at hS
        rw [kindSrc0_source S hS]
        rfl)).2.1 6 3 [0] rfl 0 rfl (by decide),
    (sourceClockSet_agrees envOK 10 [0, 1, 2, 3, 4] kindSrc0 pruningOps _ rfl
      (fun S hS => by
        rw [@runOps_kind envOK 10 (Graph.init [0, 1, 2, 3, 4] kindSrc0) _ pruningOps rfl S] at hS
        rw [kindSrc0_source S hS]
        rfl)).2.2.2.2
      (acyclic_of_rank id (fun u v h => pruningGraph_edge_lt _ rfl u v (Or.inl h)))
      (by decide) 3 (by decide) 5 (by decide)⟩

end Greyhound
